import Mathlib

/-!
# SkipList and Treap: a shallow embedding and its verification

The C++ sources `SkipList.h` and `Treap.h` are translated function by function.
Heap objects of the skip list live in an explicit free store (`Mem`): an
address is an index into a list of cells, `new` appends a cell, `delete`
empties it, and every dereference of a null, dangling or out-of-range
location yields `none` (undefined behaviour in the source). A treap is a
tree of owned nodes. C++ `int` values are modelled by `Int`; signed
overflow, which is undefined behaviour in the source, is not modelled: the
model follows the source as long as the counters stay within the range of
`int`, and the statements about occurrence counts say so in a hypothesis.
Loops that follow pointers carry a bound on their number of steps; the
theorems show that the bound is never reached on the states the operations
produce.
-/

namespace SL

/-! ## Constants and the default comparator -/

/-- The constant `N_MAX`. -/
def N_MAX : Int := 200000

/-- The constant `H_MAX`. -/
def H_MAX : Nat := 20

/-- The constant `JUMP_TO_NULL`. -/
def JUMP_TO_NULL : Int := -1

/-- The call operator of `DefaulComparator<int>`: `lhs > rhs`. -/
def DefaulComparator (lhs rhs : Int) : Bool := decide (lhs > rhs)

/-! ## Nodes and the free store -/

/-- A `Node<T>`: the arrays `next_` and `jump_` have one entry per level of the
node; a null pointer is `none`. -/
structure Node (T : Type) where
  data_ : T
  count_ : Int
  next_ : List (Option Nat)
  jump_ : List Int
  deriving DecidableEq

/-- The constructor `Node(data, height, count)`: all links null, all jumps
`JUMP_TO_NULL`. -/
def Node.create {T : Type} (data : T) (height : Nat) (count : Int) : Node T :=
  { data_ := data, count_ := count,
    next_ := List.replicate height none,
    jump_ := List.replicate height JUMP_TO_NULL }

/-- The free store: cell `p` holds the node allocated at address `p`, or
`none` once it has been deleted. -/
abbrev Mem (T : Type) := List (Option (Node T))

/-- Dereference of a node pointer. -/
def load {T : Type} (m : Mem T) (p : Nat) : Option (Node T) := (m[p]?).join

/-- Read of `p->next_[i]`. -/
def getNext {T : Type} (m : Mem T) (p i : Nat) : Option (Option Nat) :=
  (load m p).bind fun n => n.next_[i]?

/-- Read of `p->jump_[i]`. -/
def getJump {T : Type} (m : Mem T) (p i : Nat) : Option Int :=
  (load m p).bind fun n => n.jump_[i]?

/-- Read of `p->data_`. -/
def getData {T : Type} (m : Mem T) (p : Nat) : Option T :=
  (load m p).map fun n => n.data_

/-- Read of `p->count_`. -/
def getCount {T : Type} (m : Mem T) (p : Nat) : Option Int :=
  (load m p).map fun n => n.count_

/-- Write `p->next_[i] = v`. -/
def setNext {T : Type} (m : Mem T) (p i : Nat) (v : Option Nat) : Option (Mem T) :=
  (load m p).bind fun n =>
    if i < n.next_.length then
      some (m.set p (some { n with next_ := n.next_.set i v }))
    else none

/-- Write `p->jump_[i] = v`. -/
def setJump {T : Type} (m : Mem T) (p i : Nat) (v : Int) : Option (Mem T) :=
  (load m p).bind fun n =>
    if i < n.jump_.length then
      some (m.set p (some { n with jump_ := n.jump_.set i v }))
    else none

/-- Write `p->count_ = c`. -/
def setCount {T : Type} (m : Mem T) (p : Nat) (c : Int) : Option (Mem T) :=
  (load m p).map fun n => m.set p (some { n with count_ := c })

/-- The expression `new Node<T>(...)`: the fresh address and the extended store. -/
def alloc {T : Type} (m : Mem T) (n : Node T) : Nat × Mem T :=
  (m.length, m ++ [some n])

/-- The statement `delete p`. -/
def free {T : Type} (m : Mem T) (p : Nat) : Option (Mem T) :=
  (load m p).map fun _ => m.set p none

/-- Write `a[i] = v` into one of the scratch arrays `path_`, `index_path_`. -/
def writeAt {α : Type} (a : List α) (i : Nat) (v : α) : Option (List α) :=
  if i < a.length then some (a.set i v) else none

/-! ## The random engine and `getNewHeight` -/

/-- One call of `std::minstd_rand::operator()`: the new state, which is also
the value returned. -/
def minstd_rand (s : Nat) : Nat := (48271 * s) % 2147483647

/-- The call `new_rand_.seed(seed)`. -/
def minstd_seed (seed : Nat) : Nat :=
  if seed % 2147483647 = 0 then 1 else seed % 2147483647

/-- The loop of `getNewHeight`; the first argument bounds the number of
iterations left (`height` grows by one per iteration and the loop stops at
`max_height_`). Returns the height and the state of the engine. -/
def getNewHeightLoop (max_height_ : Nat) : Nat → Nat → Nat → Nat → Nat × Nat
  | 0, height, _, rng => (height, rng)
  | d + 1, height, random, rng =>
    if random % 2 = 1 ∧ height < max_height_ then
      let random1 := random / 2
      if random1 ≠ 0 then getNewHeightLoop max_height_ d (height + 1) random1 rng
      else
        let rng1 := minstd_rand rng
        getNewHeightLoop max_height_ d (height + 1) rng1 rng1
    else (height, rng)

/-- The method `getNewHeight`, on the state of `new_rand_`. -/
def getNewHeight (max_height_ rng : Nat) : Nat × Nat :=
  let rng1 := minstd_rand rng
  getNewHeightLoop max_height_ max_height_ 1 rng1 rng1

/-! ## The list object -/

/-- The data members of `SkipList<T, Comparator>`; the comparator object
`comp_` is passed to the operations as the function `comp_`. -/
structure SkipList (T : Type) where
  max_capacity_ : Int
  max_height_ : Nat
  num_elem_ : Int
  num_nodes_ : Int
  index_path_ : List Int
  path_ : List Nat
  head_ : Nat
  new_rand_ : Nat
  mem : Mem T
  deriving DecidableEq

/-- The default constructor; `seed` is the value of `time(nullptr)`. The
entries of the uninitialised array `path_` are modelled as `0`. -/
def create (T : Type) [Inhabited T] (seed : Nat) : SkipList T :=
  { max_capacity_ := N_MAX, max_height_ := H_MAX, num_elem_ := 0, num_nodes_ := 0,
    index_path_ := List.replicate H_MAX 0,
    path_ := List.replicate H_MAX 0,
    head_ := 0,
    new_rand_ := minstd_seed seed,
    mem := [some (Node.create default H_MAX 1)] }

/-- The methods `size`, `length`, `capacity`, `isEmpty`. -/
def size {T : Type} (sl : SkipList T) : Int := sl.num_elem_

def length {T : Type} (sl : SkipList T) : Int := sl.num_nodes_

def capacity {T : Type} (sl : SkipList T) : Int := sl.max_capacity_

def isEmpty {T : Type} (sl : SkipList T) : Bool := decide (sl.num_nodes_ = 0)

/-! ## Search by key -/

/-- The inner loop `while (it->next_[i] && comp_(key, it->next_[i]->data_)) it = it->next_[i];`
of `findKey`, `countKey`, `insertKey` (present key) and `eraseKey`.
The first argument bounds the number of steps. -/
def advance {T : Type} (comp_ : T → T → Bool) (key : T) (m : Mem T) (i : Nat) :
    Nat → Nat → Option Nat
  | 0, _ => none
  | fuel + 1, it =>
    (getNext m it i).bind fun nx =>
      match nx with
      | none => some it
      | some p =>
        (getData m p).bind fun d =>
          if comp_ key d then advance comp_ key m i fuel p else some it

/-- The outer loop `for (int i = max_height_ - 1; i > -1; --i)` around `advance`;
the first argument is `i + 1`. -/
def descend {T : Type} (comp_ : T → T → Bool) (key : T) (m : Mem T) :
    Nat → Nat → Option Nat
  | 0, it => some it
  | i + 1, it =>
    (advance comp_ key m i m.length it).bind fun it1 => descend comp_ key m i it1

/-- The method `countKey`. -/
def countKey {T : Type} [DecidableEq T] (comp_ : T → T → Bool) (sl : SkipList T) (key : T) :
    Option Int :=
  (descend comp_ key sl.mem sl.max_height_ sl.head_).bind fun it =>
    (getNext sl.mem it 0).bind fun nx =>
      match nx with
      | none => some 0
      | some p =>
        (load sl.mem p).bind fun q =>
          if key ≠ q.data_ then some 0 else some q.count_

/-- The method `findKey`: the node the returned iterator points to (`none`
inside is the end iterator). -/
def findKey {T : Type} [DecidableEq T] (comp_ : T → T → Bool) (sl : SkipList T) (key : T) :
    Option (Option Nat) :=
  (descend comp_ key sl.mem sl.max_height_ sl.head_).bind fun it =>
    (getNext sl.mem it 0).bind fun nx =>
      match nx with
      | none => some none
      | some p =>
        (load sl.mem p).bind fun q =>
          if key ≠ q.data_ then some none else some (some p)

/-- The method `searchKey`: the conversion of `countKey(key)` to `bool`. -/
def searchKey {T : Type} [DecidableEq T] (comp_ : T → T → Bool) (sl : SkipList T) (key : T) :
    Option Bool :=
  (countKey comp_ sl key).map fun c => decide (c ≠ 0)

/-! ## Iteration -/

/-- The loop `for (it = begin(); it != end(); ++it)` collecting `*it`; the
first argument bounds the number of steps, the second is the iterator. -/
def iterate {T : Type} (m : Mem T) : Nat → Option Nat → Option (List T)
  | 0, _ => none
  | _ + 1, none => some []
  | fuel + 1, some p =>
    (load m p).bind fun n =>
      n.next_[0]?.bind fun nx =>
        (iterate m fuel nx).map fun rest => n.data_ :: rest

/-- The sequence visited from `begin()` to `end()`. -/
def traversal {T : Type} (sl : SkipList T) : Option (List T) :=
  (getNext sl.mem sl.head_ 0).bind fun b => iterate sl.mem sl.mem.length b

/-- The same loop collecting `(data_, count_)` of every node visited. -/
def iterateCounts {T : Type} (m : Mem T) : Nat → Option Nat → Option (List (T × Int))
  | 0, _ => none
  | _ + 1, none => some []
  | fuel + 1, some p =>
    (load m p).bind fun n =>
      n.next_[0]?.bind fun nx =>
        (iterateCounts m fuel nx).map fun rest => (n.data_, n.count_) :: rest

/-! ## insertKey -/

/-- The inner loop of the descent of `insertKey` (absent key), which also
accumulates `curr_index`. -/
def advanceIdx {T : Type} (comp_ : T → T → Bool) (key : T) (m : Mem T) (i : Nat) :
    Nat → Nat → Int → Option (Nat × Int)
  | 0, _, _ => none
  | fuel + 1, it, curr_index =>
    (getNext m it i).bind fun nx =>
      match nx with
      | none => some (it, curr_index)
      | some p =>
        (getData m p).bind fun d =>
          if comp_ key d then
            (getJump m it i).bind fun j =>
              advanceIdx comp_ key m i fuel p (curr_index + (j + 1))
          else some (it, curr_index)

/-- The descent of `insertKey` (absent key): for each level, from the top
one down, advance and record `index_path_[i]` and `path_[i]`. The first
argument is `i + 1`. Returns `(index_path_, path_)`. -/
def descendIdx {T : Type} (comp_ : T → T → Bool) (key : T) (m : Mem T) :
    Nat → Nat → Int → List Int → List Nat → Option (List Int × List Nat)
  | 0, _, _, index_path_, path_ => some (index_path_, path_)
  | i + 1, it, curr_index, index_path_, path_ =>
    (advanceIdx comp_ key m i m.length it curr_index).bind fun r =>
      (writeAt index_path_ i r.2).bind fun ip =>
        (writeAt path_ i r.1).bind fun pa =>
          descendIdx comp_ key m i r.1 r.2 ip pa

/-- The splice of the new node at level 0. -/
def linkBottom {T : Type} (m : Mem T) (path_ : List Nat) (node : Nat) : Option (Mem T) :=
  path_[0]?.bind fun p0 =>
    (getNext m p0 0).bind fun tmp =>
      (setNext m p0 0 (some node)).bind fun m1 =>
        (setNext m1 node 0 tmp).bind fun m2 =>
          (getJump m2 p0 0).bind fun old_jump =>
            (setJump m2 p0 0 0).bind fun m3 =>
              setJump m3 node 0 old_jump

/-- The loop `for (int i = 1; i < height; ++i)` of `insertKey`; the first
argument is the number of iterations left, the second is `i`. -/
def linkLevels {T : Type} (index_path_ : List Int) (path_ : List Nat) (node : Nat) :
    Nat → Nat → Mem T → Option (Mem T)
  | 0, _, m => some m
  | r + 1, i, m =>
    path_[i]?.bind fun pi =>
      (getNext m pi i).bind fun tmp =>
        (setNext m pi i (some node)).bind fun m1 =>
          (setNext m1 node i tmp).bind fun m2 =>
            (getJump m2 pi i).bind fun old_jump =>
              index_path_[i - 1]?.bind fun ip1 =>
                index_path_[i]?.bind fun ip =>
                  path_[i - 1]?.bind fun pl =>
                    (getJump m2 pl (i - 1)).bind fun jl =>
                      (setJump m2 pi i (ip1 - ip + jl)).bind fun m3 =>
                        (getJump m3 pi i).bind fun jn =>
                          (setJump m3 node i
                              (if old_jump = JUMP_TO_NULL then JUMP_TO_NULL
                               else old_jump - jn)).bind fun m4 =>
                            linkLevels index_path_ path_ node r (i + 1) m4

/-- The loop `for (int i = height; i < max_height_; ++i)` of `insertKey`; the
first argument is the number of iterations left, the second is `i`. -/
def bumpLevels {T : Type} (path_ : List Nat) : Nat → Nat → Mem T → Option (Mem T)
  | 0, _, m => some m
  | r + 1, i, m =>
    path_[i]?.bind fun pi =>
      (getJump m pi i).bind fun j =>
        if j ≠ JUMP_TO_NULL then
          (setJump m pi i (j + 1)).bind fun m1 => bumpLevels path_ r (i + 1) m1
        else bumpLevels path_ r (i + 1) m

/-- The method `insertKey`, with the result of the call `getNewHeight()`
(the height and the new state of the engine) supplied as `hr`; the call is
made only on the branch of an absent key. -/
def insertKeyWith {T : Type} [DecidableEq T] (comp_ : T → T → Bool) (hr : Nat × Nat)
    (sl : SkipList T) (key : T) (count : Int) : Option (SkipList T) :=
  if count < 1 then some sl
  else
    let sl1 := { sl with num_elem_ := sl.num_elem_ + count }
    (searchKey comp_ sl1 key).bind fun found =>
      if !found then
        let height := hr.1
        let a := alloc sl1.mem (Node.create key height count)
        let node := a.1
        (descendIdx comp_ key a.2 sl1.max_height_ sl1.head_ 0
            sl1.index_path_ sl1.path_).bind fun ipp =>
          (linkBottom a.2 ipp.2 node).bind fun m1 =>
            (linkLevels ipp.1 ipp.2 node (height - 1) 1 m1).bind fun m2 =>
              (bumpLevels ipp.2 (sl1.max_height_ - height) height m2).map fun m3 =>
                { sl1 with num_nodes_ := sl1.num_nodes_ + 1, new_rand_ := hr.2,
                           index_path_ := ipp.1, path_ := ipp.2, mem := m3 }
      else
        (descend comp_ key sl1.mem sl1.max_height_ sl1.head_).bind fun it =>
          (getNext sl1.mem it 0).bind fun nx =>
            nx.bind fun p =>
              (getCount sl1.mem p).bind fun c =>
                (setCount sl1.mem p (c + count)).map fun m1 => { sl1 with mem := m1 }

/-- The method `insertKey`. -/
def insertKey {T : Type} [DecidableEq T] (comp_ : T → T → Bool)
    (sl : SkipList T) (key : T) (count : Int) : Option (SkipList T) :=
  insertKeyWith comp_ (getNewHeight sl.max_height_ sl.new_rand_) sl key count

/-! ## eraseKey -/

/-- The descent of `eraseKey`, recording `path_[i]`; the first argument is
`i + 1`. `comp` is the function the source calls there. Returns the final
`it` and `path_`. -/
def descendPath {T : Type} (comp : T → T → Bool) (key : T) (m : Mem T) :
    Nat → Nat → List Nat → Option (Nat × List Nat)
  | 0, it, path_ => some (it, path_)
  | i + 1, it, path_ =>
    (advance comp key m i m.length it).bind fun it1 =>
      (writeAt path_ i it1).bind fun pa => descendPath comp key m i it1 pa

/-- The loop `for (int i = 0; i < max_height_; ++i)` of `eraseKey` that
unlinks `tmp`; the first argument is the number of iterations left, the
second is `i`. -/
def unlinkLevels {T : Type} (path_ : List Nat) (tmp : Nat) : Nat → Nat → Mem T → Option (Mem T)
  | 0, _, m => some m
  | r + 1, i, m =>
    path_[i]?.bind fun pi =>
      (getNext m pi i).bind fun nx =>
        if nx ≠ some tmp then
          match nx with
          | some _ =>
            (getJump m pi i).bind fun j =>
              (setJump m pi i (j - 1)).bind fun m1 => unlinkLevels path_ tmp r (i + 1) m1
          | none => unlinkLevels path_ tmp r (i + 1) m
        else
          (getNext m tmp i).bind fun tn =>
            (setNext m pi i tn).bind fun m1 =>
              match tn with
              | some _ =>
                (getJump m1 pi i).bind fun j =>
                  (getJump m1 tmp i).bind fun tj =>
                    (setJump m1 pi i (j + tj)).bind fun m2 =>
                      unlinkLevels path_ tmp r (i + 1) m2
              | none =>
                (setJump m1 pi i JUMP_TO_NULL).bind fun m2 =>
                  unlinkLevels path_ tmp r (i + 1) m2

/-- The method `eraseKey`. Its descent calls `comp`, a name the class does
not declare (every other traversal calls the member `comp_`); the function
it resolves to is the parameter `comp`. -/
def eraseKeyWith {T : Type} [DecidableEq T] (comp_ comp : T → T → Bool)
    (sl : SkipList T) (key : T) (count : Int) : Option (SkipList T) :=
  if count < 1 then some sl
  else
    (countKey comp_ sl key).bind fun get_count =>
      if get_count < 1 then some sl
      else
        (descendPath comp key sl.mem sl.max_height_ sl.head_ sl.path_).bind fun ip =>
          (getNext sl.mem ip.1 0).bind fun nx =>
            nx.bind fun tmp =>
              (getCount sl.mem tmp).bind fun c =>
                let num_elem1 := if c > count then sl.num_elem_ - count else sl.num_elem_ - c
                (setCount sl.mem tmp (c - count)).bind fun m1 =>
                  if c - count < 1 then
                    (unlinkLevels ip.2 tmp sl.max_height_ 0 m1).bind fun m2 =>
                      (free m2 tmp).map fun m3 =>
                        { sl with num_elem_ := num_elem1, num_nodes_ := sl.num_nodes_ - 1,
                                  path_ := ip.2, mem := m3 }
                  else
                    some { sl with num_elem_ := num_elem1, path_ := ip.2, mem := m1 }

/-- What `eraseKey` would be with the call `comp(...)` resolved to the member
`comp_`, as every other traversal of the class has it. The method of the source
is `eraseKeyWith`, in which the function that the undeclared name `comp`
resolves to is a parameter. -/
def eraseKey {T : Type} [DecidableEq T] (comp_ : T → T → Bool)
    (sl : SkipList T) (key : T) (count : Int) : Option (SkipList T) :=
  eraseKeyWith comp_ comp_ sl key count

/-! ## topKey and indexed access -/

/-- The method `topKey`: whether the diagnostic `empty list` was written, and
the value of `head_->next_[0]->data_`. -/
def topKey {T : Type} (sl : SkipList T) : Option (Bool × T) :=
  let diag := decide (sl.num_nodes_ < 1)
  (getNext sl.mem sl.head_ 0).bind fun nx =>
    nx.bind fun p => (getData sl.mem p).map fun d => (diag, d)

/-- The inner loop `while (it->next_[i] && index >= it->jump_[i] + 1)` of
`operator[]`. The first argument bounds the number of steps. -/
def advanceByIndex {T : Type} (m : Mem T) (i : Nat) : Nat → Nat → Int → Option (Nat × Int)
  | 0, _, _ => none
  | fuel + 1, it, index =>
    (getNext m it i).bind fun nx =>
      match nx with
      | none => some (it, index)
      | some p =>
        (getJump m it i).bind fun j =>
          if index ≥ j + 1 then advanceByIndex m i fuel p (index - (j + 1))
          else some (it, index)

/-- The outer loop of `operator[]`; the first argument is `i + 1`. -/
def descendByIndex {T : Type} (m : Mem T) : Nat → Nat → Int → Option (Nat × Int)
  | 0, it, index => some (it, index)
  | i + 1, it, index =>
    (advanceByIndex m i m.length it index).bind fun r => descendByIndex m i r.1 r.2

/-- The method `operator[]`: whether the diagnostic `index outside the bounds`
was written, and the value of `it->data_` returned after the descent. -/
def subscript {T : Type} (sl : SkipList T) (index : Int) : Option (Bool × T) :=
  let diag := decide (index < 0 ∨ sl.num_nodes_ ≤ index)
  (descendByIndex sl.mem sl.max_height_ sl.head_ (index + 1)).bind fun r =>
    (getData sl.mem r.1).map fun d => (diag, d)

end SL

/-! ## Sequences of calls, the copy constructor and the sort utility -/

namespace SL

/-- One call on a list. In `insertKey`, `hr` is the result of the call of
`getNewHeight` the method makes when the key is absent: the height of the new
node and the new state of the random engine. -/
inductive Op (T : Type) where
  | insertKey (key : T) (count : Int) (hr : Nat × Nat)
  | eraseKey (key : T) (count : Int)

/-- The effect of one call, an `eraseKey` being taken with its call `comp(...)`
resolved to the comparator (`eraseKey`). -/
def applyOp {T : Type} [DecidableEq T] (comp_ : T → T → Bool) (sl : SkipList T) :
    Op T → Option (SkipList T)
  | Op.insertKey key count hr => insertKeyWith comp_ hr sl key count
  | Op.eraseKey key count => eraseKey comp_ sl key count

/-- The effect of a sequence of calls, first call first. -/
def runOps {T : Type} [DecidableEq T] (comp_ : T → T → Bool) :
    SkipList T → List (Op T) → Option (SkipList T)
  | sl, [] => some sl
  | sl, op :: ops => (applyOp comp_ sl op).bind fun s => runOps comp_ s ops

/-- The calls considered: counts are at least 1 and the height of a new node
lies in `[1, H_MAX]`. -/
def validOp {T : Type} : Op T → Bool
  | Op.insertKey _ count hr => decide (1 ≤ count) && decide (1 ≤ hr.1) && decide (hr.1 ≤ H_MAX)
  | Op.eraseKey _ count => decide (1 ≤ count)

/-- The heights considered: the height of a new node lies in `[1, H_MAX]`. -/
def heightOk {T : Type} : Op T → Bool
  | Op.insertKey _ _ hr => decide (1 ≤ hr.1) && decide (hr.1 ≤ H_MAX)
  | Op.eraseKey _ _ => true

/-- The net count of the key `x`, as the specification words it: starting from
`n`, every `insertKey(x, c)` adds `c` and every `eraseKey(x, c)` subtracts `c`,
saturating at 0; calls on other keys change nothing. -/
def netCount {T : Type} [DecidableEq T] (x : T) : Int → List (Op T) → Int
  | n, [] => n
  | n, Op.insertKey k c _ :: ops => netCount x (if k = x then n + c else n) ops
  | n, Op.eraseKey k c :: ops => netCount x (if k = x then max 0 (n - c) else n) ops

/-- The sorted, duplicate-expanded sequence of the stored elements: every key
visited by the iteration, repeated as many times as its node counts. -/
def expanded {T : Type} (sl : SkipList T) : Option (List T) :=
  (getNext sl.mem sl.head_ 0).bind fun b =>
    (iterateCounts sl.mem sl.mem.length b).map fun l =>
      l.flatMap fun p => List.replicate p.2.toNat p.1

/-- Successive calls `insertKey(k)`, with the default count 1, for the keys of
a list: the loop `for (it = other.begin(); it != other.end(); ++it)
this->insertKey(*it);` of the copy constructor and of `operator=`, over the
keys `*it` visited. -/
def insertKeys {T : Type} [DecidableEq T] (comp_ : T → T → Bool) :
    List T → SkipList T → Option (SkipList T)
  | [], sl => some sl
  | k :: ks, sl => (insertKey comp_ sl k 1).bind fun s => insertKeys comp_ ks s

/-- The copy constructor `SkipList(const SkipList&)`: the counters are taken from
`other`, the head is fresh, the engine is default-constructed (state 1) while
the elements are inserted and seeded afterwards with `seed`, the value of
`time(nullptr)`. -/
def copy {T : Type} [Inhabited T] [DecidableEq T] (comp_ : T → T → Bool)
    (other : SkipList T) (seed : Nat) : Option (SkipList T) :=
  let this0 : SkipList T :=
    { max_capacity_ := other.max_capacity_, max_height_ := other.max_height_,
      num_elem_ := other.num_elem_, num_nodes_ := other.num_nodes_,
      index_path_ := List.replicate other.max_height_ 0,
      path_ := List.replicate other.max_height_ 0,
      head_ := 0,
      new_rand_ := 1,
      mem := [some (Node.create default other.max_height_ 1)] }
  (traversal other).bind fun keys =>
    (insertKeys comp_ keys this0).map fun s => { s with new_rand_ := minstd_seed seed }

/-- The loop `for (i = 0; i < size; ++i) sklist.insertKey(vect[i]);` of
`sortAlgorithm`; the first argument is the number of iterations left, the
second is `i`. -/
def sortFill {T : Type} [DecidableEq T] (comp_ : T → T → Bool) (vect : List T) :
    Nat → Nat → SkipList T → Option (SkipList T)
  | 0, _, sl => some sl
  | r + 1, i, sl =>
    vect[i]?.bind fun v =>
      (insertKey comp_ sl v 1).bind fun sl1 => sortFill comp_ vect r (i + 1) sl1

/-- The loop `for (i = 0; i < sklist.length(); ++i) vect[i] = sklist[i];`. -/
def sortReadDistinct {T : Type} (sl : SkipList T) : Nat → Nat → List T → Option (List T)
  | 0, _, vect => some vect
  | r + 1, i, vect =>
    (subscript sl (i : Int)).bind fun v =>
      (writeAt vect i v.2).bind fun vect1 => sortReadDistinct sl r (i + 1) vect1

/-- The loop `for (k = 0; k < count; ++k) vect[j++] = sklist[i];`; the third
argument is the number of iterations left. Returns `j` and the array. -/
def sortEmit {T : Type} (sl : SkipList T) (i : Nat) : Nat → Nat → List T → Option (Nat × List T)
  | 0, j, vect => some (j, vect)
  | r + 1, j, vect =>
    (subscript sl (i : Int)).bind fun v =>
      (writeAt vect j v.2).bind fun vect1 => sortEmit sl i r (j + 1) vect1

/-- The loop `for (i = j = 0; i < sklist.length(); ++i)` of the full sort; the
second argument is the number of iterations left, then `i` and `j`. -/
def sortReadAll {T : Type} [DecidableEq T] (comp_ : T → T → Bool) (sl : SkipList T) :
    Nat → Nat → Nat → List T → Option (List T)
  | 0, _, _, vect => some vect
  | r + 1, i, j, vect =>
    (subscript sl (i : Int)).bind fun v =>
      (countKey comp_ sl v.2).bind fun count =>
        (sortEmit sl i count.toNat j vect).bind fun jv =>
          sortReadAll comp_ sl r (i + 1) jv.1 jv.2

/-- The function `sortAlgorithm` with `Container = SkipList<T, Comparator>`:
the value returned and the array afterwards. `seed` is the value of
`time(nullptr)` read by the constructor of the local list. -/
def sortAlgorithm {T : Type} [Inhabited T] [DecidableEq T] (comp_ : T → T → Bool)
    (seed : Nat) (vect : List T) (size : Int) (distinct : Bool) : Option (Int × List T) :=
  (sortFill comp_ vect size.toNat 0 (create T seed)).bind fun sklist =>
    if distinct = true then
      (sortReadDistinct sklist (length sklist).toNat 0 vect).map fun v => (length sklist, v)
    else
      (sortReadAll comp_ sklist (length sklist).toNat 0 0 vect).map fun v => (SL.size sklist, v)

/-- The function `skipListSort`. -/
def skipListSort {T : Type} [Inhabited T] [DecidableEq T] (comp_ : T → T → Bool)
    (seed : Nat) (vect : List T) (size : Int) (distinct : Bool) : Option (Int × List T) :=
  sortAlgorithm comp_ seed vect size distinct

end SL

/-! # Treap -/

namespace TreapModel

/-- A `Treap<T>` object. A node with `nil == true` is `nilNode`: the
constructor and `delData` give it priority `-1` and `nr_nodes` 0, and its
child pointers are null or dangling. -/
inductive Treap (T : Type) where
  | nilNode : Treap T
  | node (key : T) (priority : Int) (left right : Treap T) (nr_nodes : Int) : Treap T
  deriving DecidableEq

/-- The member `priority`. -/
def Treap.priority {T : Type} : Treap T → Int
  | Treap.nilNode => -1
  | Treap.node _ p _ _ _ => p

/-- The member `nr_nodes`. -/
def Treap.nr_nodes {T : Type} : Treap T → Int
  | Treap.nilNode => 0
  | Treap.node _ _ _ _ n => n

/-- The method `isNil`. -/
def Treap.isNil {T : Type} : Treap T → Bool
  | Treap.nilNode => true
  | Treap.node _ _ _ _ _ => false

/-- The method `addData`, called on a nil node. -/
def addData {T : Type} (key : T) (priority : Int) : Treap T :=
  Treap.node key priority Treap.nilNode Treap.nilNode 1

/-- The method `find`. -/
def find {T : Type} [LinearOrder T] : Treap T → T → Bool
  | Treap.nilNode, _ => false
  | Treap.node k _ l r _, key =>
    if k = key then true
    else if k < key then find r key
    else find l key

/-- The method `rotateRight`; `none` when `f` or its left child is nil, whose
child pointers cannot be dereferenced. -/
def rotateRight {T : Type} : Treap T → Option (Treap T)
  | Treap.node fk fp (Treap.node lk lp ll lr _) fr _ =>
    let f1 := Treap.node fk fp lr fr (lr.nr_nodes + fr.nr_nodes + 1)
    some (Treap.node lk lp ll f1 (ll.nr_nodes + f1.nr_nodes + 1))
  | _ => none

/-- The method `rotateLeft`; `none` when `f` or its right child is nil. -/
def rotateLeft {T : Type} : Treap T → Option (Treap T)
  | Treap.node fk fp fl (Treap.node rk rp rl rr _) _ =>
    let f1 := Treap.node fk fp fl rl (fl.nr_nodes + rl.nr_nodes + 1)
    some (Treap.node rk rp f1 rr (f1.nr_nodes + rr.nr_nodes + 1))
  | _ => none

/-- The statement `f->nr_nodes = f->left->nr_nodes + f->right->nr_nodes + 1`. -/
def updateSize {T : Type} : Treap T → Option (Treap T)
  | Treap.nilNode => none
  | Treap.node k p l r _ => some (Treap.node k p l r (l.nr_nodes + r.nr_nodes + 1))

/-- The end of `insert` after the recursive call: the two rotation tests and the
update of `nr_nodes`. -/
def rebalance {T : Type} : Treap T → Option (Treap T)
  | Treap.nilNode => none
  | Treap.node k p l r n =>
    (if l.priority > p then rotateRight (Treap.node k p l r n)
     else if r.priority > p then rotateLeft (Treap.node k p l r n)
     else some (Treap.node k p l r n)).bind updateSize

/-- The method `insert(f, key, priority)`: the new value of `f`. -/
def insert {T : Type} [LinearOrder T] : Treap T → T → Int → Option (Treap T)
  | Treap.nilNode, key, priority => some (addData key priority)
  | Treap.node k p l r n, key, priority =>
    if key < k then
      (insert l key priority).bind fun l1 => rebalance (Treap.node k p l1 r n)
    else
      (insert r key priority).bind fun r1 => rebalance (Treap.node k p l r1 n)

/-- The method `erase(f, key)`: the new value of `f`. The first argument bounds
the depth of the recursion (after a rotation the method recurses into the
subtree it has just built). -/
def eraseAux {T : Type} [LinearOrder T] : Nat → Treap T → T → Option (Treap T)
  | 0, _, _ => none
  | _ + 1, Treap.nilNode, _ => some Treap.nilNode
  | fuel + 1, Treap.node k p l r n, key =>
    if key < k then
      (eraseAux fuel l key).bind fun l1 => updateSize (Treap.node k p l1 r n)
    else if key > k then
      (eraseAux fuel r key).bind fun r1 => updateSize (Treap.node k p l r1 n)
    else if l.isNil && r.isNil then some Treap.nilNode
    else if l.priority > r.priority then
      (rotateRight (Treap.node k p l r n)).bind fun f1 =>
        match f1 with
        | Treap.nilNode => none
        | Treap.node k1 p1 l1 r1 n1 =>
          (eraseAux fuel r1 key).bind fun r2 => updateSize (Treap.node k1 p1 l1 r2 n1)
    else
      (rotateLeft (Treap.node k p l r n)).bind fun f1 =>
        match f1 with
        | Treap.nilNode => none
        | Treap.node k1 p1 l1 r1 n1 =>
          (eraseAux fuel l1 key).bind fun l2 => updateSize (Treap.node k1 p1 l2 r1 n1)

/-- The number of nodes of a tree that are not nil. -/
def Treap.count {T : Type} : Treap T → Nat
  | Treap.nilNode => 0
  | Treap.node _ _ l r _ => l.count + r.count + 1

/-- The method `erase(f, key)`, with a recursion bound no call reaches. -/
def erase {T : Type} [LinearOrder T] (f : Treap T) (key : T) : Option (Treap T) :=
  eraseAux (f.count + 1) f key

/-- The keys `inOrder` prints, in order. -/
def inOrder {T : Type} : Treap T → List T
  | Treap.nilNode => []
  | Treap.node k _ l r _ => inOrder l ++ k :: inOrder r

/-- The method `findK`; `none` when the loop reaches a nil node, whose child
pointers cannot be dereferenced. -/
def findK {T : Type} : Treap T → Int → Option T
  | Treap.nilNode, _ => none
  | Treap.node key _ l r _, k =>
    if k = l.nr_nodes + 1 then some key
    else if k > l.nr_nodes + 1 then findK r (k - (l.nr_nodes + 1))
    else findK l k

/-- One call on a treap. -/
inductive Op (T : Type) where
  | insert (key : T) (priority : Int)
  | erase (key : T)

/-- The effect of one call on the root. -/
def applyOp {T : Type} [LinearOrder T] (f : Treap T) : Op T → Option (Treap T)
  | Op.insert key priority => insert f key priority
  | Op.erase key => erase f key

/-- The effect of a sequence of calls, first call first. -/
def runOps {T : Type} [LinearOrder T] : Treap T → List (Op T) → Option (Treap T)
  | f, [] => some f
  | f, op :: ops => (applyOp f op).bind fun g => runOps g ops

/-- The priorities considered: non-negative, as `rand()` returns them. -/
def validOp {T : Type} : Op T → Bool
  | Op.insert _ priority => decide (0 ≤ priority)
  | Op.erase _ => true

/-- Every node of the tree has the size of its subtree in `nr_nodes`. -/
def SizeOk {T : Type} : Treap T → Prop
  | Treap.nilNode => True
  | Treap.node _ _ l r n => SizeOk l ∧ SizeOk r ∧ n = l.nr_nodes + r.nr_nodes + 1

/-- Every node of the tree has a non-negative priority. -/
def PrioOk {T : Type} : Treap T → Prop
  | Treap.nilNode => True
  | Treap.node _ p l r _ => 0 ≤ p ∧ PrioOk l ∧ PrioOk r

/-- The two children of the root, when it is not nil, have priority at most `b`. -/
def ChildPrioLe {T : Type} (b : Int) : Treap T → Prop
  | Treap.nilNode => True
  | Treap.node _ _ l r _ => l.priority ≤ b ∧ r.priority ≤ b

/-- The heap property: the priority of every node that is not nil is at least
the priority of each of its children (a nil child has priority `-1`). -/
def HeapOk {T : Type} : Treap T → Prop
  | Treap.nilNode => True
  | Treap.node _ p l r _ => l.priority ≤ p ∧ r.priority ≤ p ∧ HeapOk l ∧ HeapOk r

/-- The number of occurrences of the key `x` a sequence of calls leaves, starting
from `n`: every `insert` of `x` adds one, every `erase` of `x` takes one away
when there is one. -/
def treapNet {T : Type} [DecidableEq T] (x : T) : Nat → List (Op T) → Nat
  | n, [] => n
  | n, Op.insert k _ :: ops => treapNet x (if k = x then n + 1 else n) ops
  | n, Op.erase k :: ops => treapNet x (if k = x then n - 1 else n) ops

/-- A call of a rotation: which one, and the node `f` it is invoked on. -/
inductive RotCall (T : Type) where
  | right (f : Treap T)
  | left (f : Treap T)

/-- The child a rotation lifts is not nil: the left child of `f` for
`rotateRight`, the right child for `rotateLeft`. -/
def RotCall.liftsNode {T : Type} : RotCall T → Bool
  | RotCall.right (Treap.node _ _ (Treap.node _ _ _ _ _) _ _) => true
  | RotCall.left (Treap.node _ _ _ (Treap.node _ _ _ _ _) _) => true
  | _ => false

/-- The end of `insert` as in `rebalance`, with the rotation call it makes, if
any, recorded whether or not the rotation has a result. -/
def rebalanceLog {T : Type} : Treap T → List (RotCall T) × Option (Treap T)
  | Treap.nilNode => ([], none)
  | Treap.node k p l r n =>
    if l.priority > p then
      ([RotCall.right (Treap.node k p l r n)],
        (rotateRight (Treap.node k p l r n)).bind updateSize)
    else if r.priority > p then
      ([RotCall.left (Treap.node k p l r n)],
        (rotateLeft (Treap.node k p l r n)).bind updateSize)
    else ([], updateSize (Treap.node k p l r n))

/-- The method `insert` with every rotation call recorded, in order. -/
def insertLog {T : Type} [LinearOrder T] :
    Treap T → T → Int → List (RotCall T) × Option (Treap T)
  | Treap.nilNode, key, priority => ([], some (addData key priority))
  | Treap.node k p l r n, key, priority =>
    if key < k then
      match insertLog l key priority with
      | (log, none) => (log, none)
      | (log, some l1) =>
        (log ++ (rebalanceLog (Treap.node k p l1 r n)).1,
          (rebalanceLog (Treap.node k p l1 r n)).2)
    else
      match insertLog r key priority with
      | (log, none) => (log, none)
      | (log, some r1) =>
        (log ++ (rebalanceLog (Treap.node k p l r1 n)).1,
          (rebalanceLog (Treap.node k p l r1 n)).2)

/-- The method `erase` with every rotation call recorded, in order. -/
def eraseAuxLog {T : Type} [LinearOrder T] :
    Nat → Treap T → T → List (RotCall T) × Option (Treap T)
  | 0, _, _ => ([], none)
  | _ + 1, Treap.nilNode, _ => ([], some Treap.nilNode)
  | fuel + 1, Treap.node k p l r n, key =>
    if key < k then
      match eraseAuxLog fuel l key with
      | (log, none) => (log, none)
      | (log, some l1) => (log, updateSize (Treap.node k p l1 r n))
    else if key > k then
      match eraseAuxLog fuel r key with
      | (log, none) => (log, none)
      | (log, some r1) => (log, updateSize (Treap.node k p l r1 n))
    else if l.isNil && r.isNil then ([], some Treap.nilNode)
    else if l.priority > r.priority then
      match rotateRight (Treap.node k p l r n) with
      | some (Treap.node k1 p1 l1 r1 n1) =>
        match eraseAuxLog fuel r1 key with
        | (log, none) => (RotCall.right (Treap.node k p l r n) :: log, none)
        | (log, some r2) =>
          (RotCall.right (Treap.node k p l r n) :: log,
            updateSize (Treap.node k1 p1 l1 r2 n1))
      | _ => ([RotCall.right (Treap.node k p l r n)], none)
    else
      match rotateLeft (Treap.node k p l r n) with
      | some (Treap.node k1 p1 l1 r1 n1) =>
        match eraseAuxLog fuel l1 key with
        | (log, none) => (RotCall.left (Treap.node k p l r n) :: log, none)
        | (log, some l2) =>
          (RotCall.left (Treap.node k p l r n) :: log,
            updateSize (Treap.node k1 p1 l2 r1 n1))
      | _ => ([RotCall.left (Treap.node k p l r n)], none)

/-- One call on a treap with its rotation calls recorded. -/
def applyOpLog {T : Type} [LinearOrder T] (f : Treap T) :
    Op T → List (RotCall T) × Option (Treap T)
  | Op.insert key priority => insertLog f key priority
  | Op.erase key => eraseAuxLog (f.count + 1) f key

/-- A sequence of calls with all rotation calls recorded, in order. -/
def runOpsLog {T : Type} [LinearOrder T] :
    Treap T → List (Op T) → List (RotCall T) × Option (Treap T)
  | f, [] => ([], some f)
  | f, op :: ops =>
    match applyOpLog f op with
    | (log, none) => (log, none)
    | (log, some g) => (log ++ (runOpsLog g ops).1, (runOpsLog g ops).2)

end TreapModel

/-! # SkipList: the chain of nodes and distances along it -/

namespace SL

/-- The addresses of the nodes reached from `p` by following `next_[0]` until
the null pointer, `p` first. -/
def chainFrom {T : Type} (m : Mem T) : Nat → Option Nat → Option (List Nat)
  | 0, _ => none
  | _ + 1, none => some []
  | fuel + 1, some p =>
    (getNext m p 0).bind fun nx => (chainFrom m fuel nx).map fun rest => p :: rest

/-- The addresses of all nodes of the list, the head first. -/
def nodeAddrs {T : Type} (sl : SkipList T) : Option (List Nat) :=
  chainFrom sl.mem (sl.mem.length + 1) (some sl.head_)

/-- The number of `next_[0]` steps that lead from the node `a` to the node `b`;
`none` when the null pointer comes first. -/
def stepsTo {T : Type} (m : Mem T) (b : Nat) : Nat → Nat → Option Nat
  | 0, _ => none
  | fuel + 1, a =>
    if a = b then some 0
    else (getNext m a 0).bind fun nx =>
      match nx with
      | none => none
      | some c => (stepsTo m b fuel c).map fun d => d + 1

end SL

/-! ## Abstract view of a skip list: the sequence of its towers -/

namespace SL

/-- One node of the list as seen from outside: its address, key, number of
occurrences and number of levels. -/
structure Tower (T : Type) where
  addr : Nat
  data : T
  count : Int
  height : Nat

/-- The address of the first tower of `Y` that has a level `i`. -/
def nextAt {T : Type} (i : Nat) : List (Tower T) → Option Nat
  | [] => none
  | t :: r => if i < t.height then some t.addr else nextAt i r

/-- The number of towers of `Y` before the first one that has a level `i`,
or `JUMP_TO_NULL` when there is none. -/
def jumpAt {T : Type} (i : Nat) : List (Tower T) → Int
  | [] => JUMP_TO_NULL
  | t :: r =>
    if i < t.height then 0
    else if nextAt i r = none then JUMP_TO_NULL else jumpAt i r + 1

/-- The cell at the address of `t` holds a node with the key, count and
number of levels of `t`. -/
def Shape {T : Type} (m : Mem T) (t : Tower T) : Prop :=
  ∃ n, load m t.addr = some n ∧ n.data_ = t.data ∧ n.count_ = t.count ∧
    n.next_.length = t.height ∧ n.jump_.length = t.height

/-- The store `m` represents the chain `c` of towers: every tower has its
cell, and at every level its link is the next tower having that level and
its jump the number of towers skipped. -/
def Linked {T : Type} (m : Mem T) (c : List (Tower T)) : Prop :=
  ∀ X t Y, c = X ++ t :: Y →
    Shape m t ∧ ∀ i, i < t.height →
      getNext m t.addr i = some (nextAt i Y) ∧ getJump m t.addr i = some (jumpAt i Y)

/-- An intermediate state of a splice: for the towers of `c`, levels below `k`
already see the suffix `Pn`, the other levels still see the suffix `Po`. -/
def Staged {T : Type} (m : Mem T) (k : Nat) (Po Pn c : List (Tower T)) : Prop :=
  ∀ X t A, c = X ++ t :: A →
    Shape m t ∧ ∀ i, i < t.height →
      getNext m t.addr i
          = some (if i < k then nextAt i (A ++ Pn) else nextAt i (A ++ Po)) ∧
      getJump m t.addr i
          = some (if i < k then jumpAt i (A ++ Pn) else jumpAt i (A ++ Po))

/-- The sentinel head seen as a tower. -/
def headTower {T : Type} [Inhabited T] (sl : SkipList T) : Tower T :=
  { addr := sl.head_, data := default, count := 1, height := sl.max_height_ }

/-- A strict total order given as a boolean comparator. -/
structure StrictTotal {T : Type} (comp_ : T → T → Bool) : Prop where
  irrefl : ∀ a, comp_ a a = false
  trans : ∀ a b c, comp_ a b = true → comp_ b c = true → comp_ a c = true
  total : ∀ a b, a ≠ b → comp_ a b = true ∨ comp_ b a = true

/-- The representation invariant: the store represents the towers `L` behind
the head, keys are ordered by the comparator, counts are positive, heights lie
in `[1, max_height_]`, and the counters agree with `L`. -/
structure Inv {T : Type} [Inhabited T] (comp_ : T → T → Bool) (sl : SkipList T)
    (L : List (Tower T)) : Prop where
  linked : Linked sl.mem (headTower sl :: L)
  nodup : ((headTower sl :: L).map Tower.addr).Nodup
  sorted : L.Pairwise (fun a b => comp_ b.data a.data = true)
  counts : ∀ t ∈ L, 1 ≤ t.count
  heights : ∀ t ∈ L, 1 ≤ t.height ∧ t.height ≤ sl.max_height_
  hpos : 1 ≤ sl.max_height_
  nodes : sl.num_nodes_ = L.length
  elems : sl.num_elem_ = (L.map Tower.count).sum
  scratch : sl.path_.length = sl.max_height_ ∧ sl.index_path_.length = sl.max_height_

/-- What the descent of `insertKey` leaves in the scratch arrays: for every level
`i` below `H`, `path_[i]` is the last tower of `c` with that level and
`index_path_[i]` its position. -/
def PathOk {T : Type} (c : List (Tower T)) (I : List Int) (P : List Nat) (H : Nat) : Prop :=
  ∀ i, i < H → ∃ X1 p A1, c = X1 ++ p :: A1 ∧ i < p.height ∧ (∀ t ∈ A1, t.height ≤ i) ∧
    P[i]? = some p.addr ∧ I[i]? = some (X1.length : Int)

/-- The number of occurrences of the key `x` recorded in the towers `L`. -/
def occ {T : Type} [DecidableEq T] (L : List (Tower T)) (x : T) : Int :=
  ((L.filter fun t => decide (t.data = x)).map Tower.count).sum

/-- The keys of the towers, each repeated as many times as its tower counts. -/
def expandTowers {T : Type} (L : List (Tower T)) : List T :=
  L.flatMap fun t => List.replicate t.count.toNat t.data

end SL

/-! # Trie

A `std::string` key is modelled by its list of characters. An operation has no
result (`none`) when it indexes `children` outside the vector. -/

namespace TrieModel

/-- The global `ALPHABET_SIZE`. -/
def ALPHABET_SIZE : Nat := 26

/-- A `Trie<T>` object; a child slot holds `none` for the null pointer. `value`
is `none` as long as the member holds what default initialisation left, and
`isEndOfWord` is `none` as long as it is uninitialised. -/
inductive Trie (T : Type) where
  | mk (count : Int) (children : List (Option (Trie T))) (value : Option T)
      (isEndOfWord : Option Bool) : Trie T

/-- The member `count`. -/
def Trie.count {T : Type} : Trie T → Int
  | Trie.mk c _ _ _ => c

/-- The member `children`. -/
def Trie.children {T : Type} : Trie T → List (Option (Trie T))
  | Trie.mk _ ch _ _ => ch

/-- The member `value`. -/
def Trie.value {T : Type} : Trie T → Option T
  | Trie.mk _ _ v _ => v

/-- The member `isEndOfWord`. -/
def Trie.isEndOfWord {T : Type} : Trie T → Option Bool
  | Trie.mk _ _ _ e => e

/-- The constructor `Trie(int capacity)`. -/
def Trie.create (T : Type) (capacity : Nat) : Trie T :=
  Trie.mk 0 (List.replicate capacity none) none none

/-- The index `key[i] - 'a'`. -/
def slot (c : Char) : Int := (c.toNat : Int) - ('a'.toNat : Int)

/-- Read of `it->children[i]`. -/
def child {T : Type} (it : Trie T) (i : Int) : Option (Option (Trie T)) :=
  if 0 ≤ i then it.children[i.toNat]? else none

/-- The assignment `it->children[i] = p`, made where the slot has been read. -/
def setChild {T : Type} (it : Trie T) (i : Int) (p : Option (Trie T)) : Trie T :=
  Trie.mk it.count (it.children.set i.toNat p) it.value it.isEndOfWord

/-- The node `insert` steps into: the child found with `count++`, or else
`new Trie(ALPHABET_SIZE)` with `count = 1` and `isEndOfWord = false`. -/
def stepInto {T : Type} : Option (Trie T) → Trie T
  | some ch => Trie.mk (ch.count + 1) ch.children ch.value ch.isEndOfWord
  | none =>
    Trie.mk 1 (Trie.create T ALPHABET_SIZE).children (Trie.create T ALPHABET_SIZE).value
      (some false)

/-- The method `insert` from the node `it` on: the new state of `it`. -/
def insertLoop {T : Type} : Trie T → List Char → T → Option (Trie T)
  | it, [], value => some (Trie.mk it.count it.children (some value) (some true))
  | it, c :: key, value =>
    (child it (slot c)).bind fun p =>
      (insertLoop (stepInto p) key value).map fun ch1 => setChild it (slot c) (some ch1)

/-- The method `insert(key, value)`: the new state of the root. -/
def insert {T : Type} (t : Trie T) (key : List Char) (value : T) : Option (Trie T) :=
  insertLoop t key value

/-- The method `search(key, val)` from the node `it` on: the boolean returned and
the new content of `val`. Reading an uninitialised `isEndOfWord` has no
result. -/
def searchLoop {T : Type} : Trie T → List Char → Option T → Option (Bool × Option T)
  | it, [], _ => it.isEndOfWord.map fun b => (b, it.value)
  | it, c :: key, val =>
    (child it (slot c)).bind fun p =>
      match p with
      | none => some (false, val)
      | some ch => searchLoop ch key val

/-- The method `search(key, val)`. -/
def search {T : Type} (t : Trie T) (key : List Char) (val : Option T) :
    Option (Bool × Option T) :=
  searchLoop t key val

/-- The loop of `remove` and the assignment after it, from the node `it` on: the
new state of `it`. A child whose count reaches zero is taken out of its slot;
the loop goes on inside it all the same. `delete ant_it` frees a node that the
previous iteration took out of its slot, which the tree no longer holds. -/
def removeLoop {T : Type} : Trie T → List Char → Option (Trie T)
  | it, [] => some (Trie.mk it.count it.children it.value (some false))
  | it, c :: key =>
    (child it (slot c)).bind fun p =>
      match p with
      | none => removeLoop it key
      | some ch =>
        (removeLoop (Trie.mk (ch.count - 1) ch.children ch.value ch.isEndOfWord) key).map
          fun ch1 =>
            if ch.count - 1 = 0 then setChild it (slot c) none
            else setChild it (slot c) (some ch1)

/-- The method `remove(key)`: the boolean returned and the new state of the root. -/
def remove {T : Type} (t : Trie T) (key : List Char) : Option (Bool × Trie T) :=
  (search t key none).bind fun r =>
    if r.1 = false then some (false, t)
    else (removeLoop t key).map fun t1 => (true, t1)

/-- The first loop of `numWordsWithPrefix`, over the indices `is` with the sum
`s` so far. -/
def sumCounts {T : Type} (it : Trie T) : List Nat → Int → Option Int
  | [], s => some s
  | i :: is, s =>
    (it.children[i]?).bind fun p =>
      match p with
      | some ch => sumCounts it is (s + ch.count)
      | none => sumCounts it is s

/-- The second loop of `numWordsWithPrefix` and the return after it. -/
def walkCount {T : Type} : Trie T → List Char → Option Int
  | it, [] => some it.count
  | it, c :: pre =>
    (child it (slot c)).bind fun p =>
      match p with
      | none => some 0
      | some ch => walkCount ch pre

/-- The method `numWordsWithPrefix`. -/
def numWordsWithPrefix {T : Type} (t : Trie T) (pre : List Char) : Option Int :=
  if pre = [] then sumCounts t (List.range ALPHABET_SIZE) 0 else walkCount t pre

/-- The node a path of characters leads to from `it`, when there is one. -/
def nodeAt {T : Type} : Trie T → List Char → Option (Trie T)
  | it, [] => some it
  | it, c :: p =>
    match child it (slot c) with
    | some (some ch) => nodeAt ch p
    | _ => none

/-- A sequence of `insert` calls, first call first. -/
def insertAll {T : Type} : Trie T → List (List Char × T) → Option (Trie T)
  | t, [] => some t
  | t, kv :: ws => (insert t kv.1 kv.2).bind fun t1 => insertAll t1 ws

/-- A word made of the letters `a` to `z`. -/
def lowercase (w : List Char) : Bool :=
  w.all fun c => decide ('a'.toNat ≤ c.toNat) && decide (c.toNat ≤ 'z'.toNat)

/-- The number of words of `ws` that have `p` as a prefix, repetitions counted. -/
def withPrefix (p : List Char) (ws : List (List Char)) : Nat :=
  (ws.filter fun w => p.isPrefixOf w).length

/-- The value given by the most recent `insert` of `k` among `ws`. -/
def lastValue {T : Type} : List (List Char × T) → List Char → Option T
  | [], _ => none
  | kv :: ws, k =>
    match lastValue ws k with
    | some v => some v
    | none => if kv.1 = k then some kv.2 else none

/-- One call that changes a trie. -/
inductive Op (T : Type) where
  | insert (key : List Char) (value : T)
  | remove (key : List Char)

/-- The key of a call. -/
def Op.key {T : Type} : Op T → List Char
  | Op.insert key _ => key
  | Op.remove key => key

/-- The effect of one call on the root. -/
def applyOp {T : Type} (t : Trie T) : Op T → Option (Trie T)
  | Op.insert key value => insert t key value
  | Op.remove key => (remove t key).map fun r => r.2

/-- The effect of a sequence of calls, first call first. -/
def runOps {T : Type} : Trie T → List (Op T) → Option (Trie T)
  | t, [] => some t
  | t, op :: ops => (applyOp t op).bind fun t1 => runOps t1 ops

/-- The calls considered: the key is lowercase and not empty. -/
def validOp {T : Type} (op : Op T) : Bool :=
  lowercase op.key && decide (op.key ≠ [])

end TrieModel

/-! # Trie: what a tree stands for -/

namespace TrieModel

/-- The keys of a sequence of `insert` calls. -/
def keys {T : Type} (ws : List (List Char × T)) : List (List Char) := ws.map Prod.fst

/-- Every key is made of the letters `a` to `z`. -/
def allLower {T : Type} (ws : List (List Char × T)) : Prop :=
  ∀ kv ∈ ws, lowercase kv.1 = true

/-- The calls of `ws` whose key starts with `c`, that character taken away. -/
def tails {T : Type} (c : Char) : List (List Char × T) → List (List Char × T)
  | [] => []
  | ([], _) :: ws => tails c ws
  | (d :: r, v) :: ws => if d = c then (r, v) :: tails c ws else tails c ws

/-- The calls of `ws` with another key than `k`. -/
def without {T : Type} (k : List Char) (ws : List (List Char × T)) : List (List Char × T) :=
  ws.filter fun kv => decide (kv.1 ≠ k)

/-- The node `n` is right for the calls `ws` that go through it (each key cut
down to what is left below `n`): `count` is their number, `isEndOfWord` tells
whether one of them ends here, and `value` is the last value given here. -/
def Good {T : Type} (n : Trie T) (ws : List (List Char × T)) : Prop :=
  n.count = (ws.length : Int) ∧ n.isEndOfWord = some (decide ([] ∈ keys ws)) ∧
    ∀ v, lastValue ws [] = some v → n.value = some v

/-- Down to depth `d`, the subtree below `t` holds exactly the calls `ws`: a slot
is null when no key goes through it and otherwise holds a node right for the
keys that do. -/
def RepD {T : Type} : Nat → Trie T → List (List Char × T) → Prop
  | 0, _, _ => True
  | d + 1, t, ws =>
    t.children.length = ALPHABET_SIZE ∧
    ∀ c, (tails c ws = [] → nodeAt t [c] = none) ∧
      (tails c ws ≠ [] →
        ∃ ch, nodeAt t [c] = some ch ∧ Good ch (tails c ws) ∧ RepD d ch (tails c ws))

/-- The subtree below `t` holds exactly the calls `ws`. -/
def Rep {T : Type} (t : Trie T) (ws : List (List Char × T)) : Prop :=
  ∀ d, RepD d t ws

/-- The letter whose slot is `i`. -/
def letter (i : Nat) : Char := Char.ofNat ('a'.toNat + i)

/-- No key is the empty word. -/
def allNonempty {T : Type} (ws : List (List Char × T)) : Prop :=
  ∀ kv ∈ ws, kv.1 ≠ []

/-- The calls `ws` without the first one whose key is `k`. -/
def dropOne {T : Type} (k : List Char) : List (List Char × T) → List (List Char × T)
  | [] => []
  | kv :: ws => if kv.1 = k then ws else kv :: dropOne k ws

/-- The flag of the node `n` is initialised, and it is set only if one of the
calls `ws` ends at `n`. -/
def FlagOk {T : Type} (n : Trie T) (ws : List (List Char × T)) : Prop :=
  ∃ b, n.isEndOfWord = some b ∧ (b = true → [] ∈ keys ws)

/-- The node `n` counts the calls `ws` that go through it and its flag is as in
`FlagOk`. -/
def Fair {T : Type} (n : Trie T) (ws : List (List Char × T)) : Prop :=
  n.count = (ws.length : Int) ∧ FlagOk n ws

/-- Down to depth `d`, the subtree below `t` counts exactly the calls `ws`, which
stand for the `insert` calls not yet taken back by a `remove`: a slot is null
when no key goes through it and otherwise holds a node that is `Fair` for the
keys that do. -/
def HeldD {T : Type} : Nat → Trie T → List (List Char × T) → Prop
  | 0, _, _ => True
  | d + 1, t, ws =>
    t.children.length = ALPHABET_SIZE ∧
    ∀ c, (tails c ws = [] → nodeAt t [c] = none) ∧
      (tails c ws ≠ [] →
        ∃ ch, nodeAt t [c] = some ch ∧ Fair ch (tails c ws) ∧ HeldD d ch (tails c ws))

/-- The subtree below `t` counts exactly the calls `ws`. -/
def Held {T : Type} (t : Trie T) (ws : List (List Char × T)) : Prop :=
  ∀ d, HeldD d t ws

end TrieModel

/-! ## The free store: reads after writes -/

namespace SL

variable {T : Type}

theorem load_lt {m : Mem T} {p : Nat} {n : Node T} (h : load m p = some n) : p < m.length := by
  unfold load at h
  by_contra hc
  rw [List.getElem?_eq_none (by omega)] at h
  simp at h

theorem load_set_ne (m : Mem T) (p q : Nat) (x : Option (Node T)) (h : q ≠ p) :
    load (m.set p x) q = load m q := by
  unfold load
  rw [List.getElem?_set_ne (Ne.symm h)]

theorem load_set_eq (m : Mem T) (p : Nat) (x : Option (Node T)) (h : p < m.length) :
    load (m.set p x) p = x := by
  unfold load
  rw [List.getElem?_set_self h]
  rfl

theorem load_append_left (m l : Mem T) (p : Nat) (h : p < m.length) :
    load (m ++ l) p = load m p := by
  unfold load
  rw [List.getElem?_append_left h]

theorem load_append_new (m : Mem T) (n : Node T) :
    load (m ++ [some n]) m.length = some n := by
  unfold load
  simp

theorem setNext_some {m m1 : Mem T} {p i : Nat} {v : Option Nat}
    (h : setNext m p i v = some m1) :
    ∃ n, load m p = some n ∧ i < n.next_.length ∧
      m1 = m.set p (some { n with next_ := n.next_.set i v }) := by
  unfold setNext at h
  cases hl : load m p with
  | none => simp [hl] at h
  | some n =>
    simp only [hl, Option.some_bind] at h
    by_cases hi : i < n.next_.length
    · simp only [hi, if_true, Option.some.injEq] at h
      exact ⟨n, rfl, hi, h.symm⟩
    · simp [hi] at h

theorem setJump_some {m m1 : Mem T} {p i : Nat} {v : Int}
    (h : setJump m p i v = some m1) :
    ∃ n, load m p = some n ∧ i < n.jump_.length ∧
      m1 = m.set p (some { n with jump_ := n.jump_.set i v }) := by
  unfold setJump at h
  cases hl : load m p with
  | none => simp [hl] at h
  | some n =>
    simp only [hl, Option.some_bind] at h
    by_cases hi : i < n.jump_.length
    · simp only [hi, if_true, Option.some.injEq] at h
      exact ⟨n, rfl, hi, h.symm⟩
    · simp [hi] at h

theorem setCount_some {m m1 : Mem T} {p : Nat} {c : Int}
    (h : setCount m p c = some m1) :
    ∃ n, load m p = some n ∧ m1 = m.set p (some { n with count_ := c }) := by
  unfold setCount at h
  cases hl : load m p with
  | none => simp [hl] at h
  | some n =>
    simp only [hl, Option.map_some', Option.some.injEq] at h
    exact ⟨n, rfl, h.symm⟩

theorem setNext_ok {m : Mem T} {p i : Nat} {w : Option Nat} (v : Option Nat)
    (h : getNext m p i = some w) : ∃ m1, setNext m p i v = some m1 := by
  unfold getNext at h
  unfold setNext
  cases hl : load m p with
  | none => simp [hl] at h
  | some n =>
    simp only [hl, Option.some_bind] at h ⊢
    have hi : i < n.next_.length := by
      by_contra hc
      rw [List.getElem?_eq_none (by omega)] at h
      simp at h
    simp [hi]

theorem setJump_ok {m : Mem T} {p i : Nat} {w : Int} (v : Int)
    (h : getJump m p i = some w) : ∃ m1, setJump m p i v = some m1 := by
  unfold getJump at h
  unfold setJump
  cases hl : load m p with
  | none => simp [hl] at h
  | some n =>
    simp only [hl, Option.some_bind] at h ⊢
    have hi : i < n.jump_.length := by
      by_contra hc
      rw [List.getElem?_eq_none (by omega)] at h
      simp at h
    simp [hi]

theorem getNext_setNext {m m1 : Mem T} {p i : Nat} {v : Option Nat}
    (h : setNext m p i v = some m1) (q j : Nat) :
    getNext m1 q j = if q = p ∧ j = i then some v else getNext m q j := by
  obtain ⟨n, hl, hi, rfl⟩ := setNext_some h
  unfold getNext
  by_cases hq : q = p
  · subst hq
    rw [load_set_eq _ _ _ (load_lt hl), hl]
    simp only [Option.some_bind, true_and]
    by_cases hj : j = i
    · subst hj
      simp [hi]
    · simp [hj, List.getElem?_set_ne (Ne.symm hj)]
  · rw [load_set_ne _ _ _ _ hq]
    simp [hq]

theorem getJump_setNext {m m1 : Mem T} {p i : Nat} {v : Option Nat}
    (h : setNext m p i v = some m1) (q j : Nat) :
    getJump m1 q j = getJump m q j := by
  obtain ⟨n, hl, hi, rfl⟩ := setNext_some h
  unfold getJump
  by_cases hq : q = p
  · subst hq
    rw [load_set_eq _ _ _ (load_lt hl), hl]
    rfl
  · rw [load_set_ne _ _ _ _ hq]

theorem getData_setNext {m m1 : Mem T} {p i : Nat} {v : Option Nat}
    (h : setNext m p i v = some m1) (q : Nat) :
    getData m1 q = getData m q := by
  obtain ⟨n, hl, hi, rfl⟩ := setNext_some h
  unfold getData
  by_cases hq : q = p
  · subst hq
    rw [load_set_eq _ _ _ (load_lt hl), hl]
    rfl
  · rw [load_set_ne _ _ _ _ hq]

theorem shape_setNext {m m1 : Mem T} {p i : Nat} {v : Option Nat}
    (h : setNext m p i v = some m1) (t : Tower T) (hs : Shape m t) : Shape m1 t := by
  obtain ⟨n, hl, hi, rfl⟩ := setNext_some h
  obtain ⟨n0, h0, h1, h2, h3, h4⟩ := hs
  unfold Shape
  by_cases hq : t.addr = p
  · rw [hq, load_set_eq _ _ _ (load_lt hl)]
    rw [hq, hl] at h0
    cases h0
    exact ⟨_, rfl, h1, h2, by simpa using h3, h4⟩
  · rw [load_set_ne _ _ _ _ hq]
    exact ⟨n0, h0, h1, h2, h3, h4⟩

theorem length_setNext {m m1 : Mem T} {p i : Nat} {v : Option Nat}
    (h : setNext m p i v = some m1) : m1.length = m.length := by
  obtain ⟨n, hl, hi, rfl⟩ := setNext_some h
  simp

theorem getJump_setJump {m m1 : Mem T} {p i : Nat} {v : Int}
    (h : setJump m p i v = some m1) (q j : Nat) :
    getJump m1 q j = if q = p ∧ j = i then some v else getJump m q j := by
  obtain ⟨n, hl, hi, rfl⟩ := setJump_some h
  unfold getJump
  by_cases hq : q = p
  · subst hq
    rw [load_set_eq _ _ _ (load_lt hl), hl]
    simp only [Option.some_bind, true_and]
    by_cases hj : j = i
    · subst hj
      simp [hi]
    · simp [hj, List.getElem?_set_ne (Ne.symm hj)]
  · rw [load_set_ne _ _ _ _ hq]
    simp [hq]

theorem getNext_setJump {m m1 : Mem T} {p i : Nat} {v : Int}
    (h : setJump m p i v = some m1) (q j : Nat) :
    getNext m1 q j = getNext m q j := by
  obtain ⟨n, hl, hi, rfl⟩ := setJump_some h
  unfold getNext
  by_cases hq : q = p
  · subst hq
    rw [load_set_eq _ _ _ (load_lt hl), hl]
    rfl
  · rw [load_set_ne _ _ _ _ hq]

theorem getData_setJump {m m1 : Mem T} {p i : Nat} {v : Int}
    (h : setJump m p i v = some m1) (q : Nat) :
    getData m1 q = getData m q := by
  obtain ⟨n, hl, hi, rfl⟩ := setJump_some h
  unfold getData
  by_cases hq : q = p
  · subst hq
    rw [load_set_eq _ _ _ (load_lt hl), hl]
    rfl
  · rw [load_set_ne _ _ _ _ hq]

theorem shape_setJump {m m1 : Mem T} {p i : Nat} {v : Int}
    (h : setJump m p i v = some m1) (t : Tower T) (hs : Shape m t) : Shape m1 t := by
  obtain ⟨n, hl, hi, rfl⟩ := setJump_some h
  obtain ⟨n0, h0, h1, h2, h3, h4⟩ := hs
  unfold Shape
  by_cases hq : t.addr = p
  · rw [hq, load_set_eq _ _ _ (load_lt hl)]
    rw [hq, hl] at h0
    cases h0
    exact ⟨_, rfl, h1, h2, h3, by simpa using h4⟩
  · rw [load_set_ne _ _ _ _ hq]
    exact ⟨n0, h0, h1, h2, h3, h4⟩

theorem length_setJump {m m1 : Mem T} {p i : Nat} {v : Int}
    (h : setJump m p i v = some m1) : m1.length = m.length := by
  obtain ⟨n, hl, hi, rfl⟩ := setJump_some h
  simp

theorem getNext_setCount {m m1 : Mem T} {p : Nat} {c : Int}
    (h : setCount m p c = some m1) (q j : Nat) :
    getNext m1 q j = getNext m q j := by
  obtain ⟨n, hl, rfl⟩ := setCount_some h
  unfold getNext
  by_cases hq : q = p
  · subst hq
    rw [load_set_eq _ _ _ (load_lt hl), hl]
    rfl
  · rw [load_set_ne _ _ _ _ hq]

theorem getJump_setCount {m m1 : Mem T} {p : Nat} {c : Int}
    (h : setCount m p c = some m1) (q j : Nat) :
    getJump m1 q j = getJump m q j := by
  obtain ⟨n, hl, rfl⟩ := setCount_some h
  unfold getJump
  by_cases hq : q = p
  · subst hq
    rw [load_set_eq _ _ _ (load_lt hl), hl]
    rfl
  · rw [load_set_ne _ _ _ _ hq]

theorem length_setCount {m m1 : Mem T} {p : Nat} {c : Int}
    (h : setCount m p c = some m1) : m1.length = m.length := by
  obtain ⟨n, hl, rfl⟩ := setCount_some h
  simp

theorem shape_setCount_ne {m m1 : Mem T} {p : Nat} {c : Int}
    (h : setCount m p c = some m1) (t : Tower T) (hq : t.addr ≠ p) (hs : Shape m t) :
    Shape m1 t := by
  obtain ⟨n, hl, rfl⟩ := setCount_some h
  obtain ⟨n0, h0, h1, h2, h3, h4⟩ := hs
  unfold Shape
  rw [load_set_ne _ _ _ _ hq]
  exact ⟨n0, h0, h1, h2, h3, h4⟩

theorem shape_setCount_eq {m m1 : Mem T} {c : Int} (t : Tower T)
    (h : setCount m t.addr c = some m1) (hs : Shape m t) :
    Shape m1 { t with count := c } := by
  obtain ⟨n, hl, rfl⟩ := setCount_some h
  obtain ⟨n0, h0, h1, h2, h3, h4⟩ := hs
  unfold Shape
  rw [h0] at hl
  cases hl
  simp only
  rw [load_set_eq _ _ _ (load_lt h0)]
  exact ⟨_, rfl, h1, rfl, h3, h4⟩

theorem shape_getData {m : Mem T} {t : Tower T} (hs : Shape m t) :
    getData m t.addr = some t.data := by
  obtain ⟨n0, h0, h1, h2, h3, h4⟩ := hs
  simp [getData, h0, h1]

theorem shape_getCount {m : Mem T} {t : Tower T} (hs : Shape m t) :
    getCount m t.addr = some t.count := by
  obtain ⟨n0, h0, h1, h2, h3, h4⟩ := hs
  simp [getCount, h0, h2]

theorem shape_lt {m : Mem T} {t : Tower T} (hs : Shape m t) : t.addr < m.length := by
  obtain ⟨n0, h0, _⟩ := hs
  exact load_lt h0

theorem getNext_append (m l : Mem T) (q j : Nat) (h : q < m.length) :
    getNext (m ++ l) q j = getNext m q j := by
  unfold getNext
  rw [load_append_left m l q h]

theorem getJump_append (m l : Mem T) (q j : Nat) (h : q < m.length) :
    getJump (m ++ l) q j = getJump m q j := by
  unfold getJump
  rw [load_append_left m l q h]

theorem shape_append (m l : Mem T) (t : Tower T) (h : Shape m t) : Shape (m ++ l) t := by
  have hlt := shape_lt h
  unfold Shape at h ⊢
  rw [load_append_left m l _ hlt]
  exact h

theorem load_free {m m1 : Mem T} {p : Nat} (h : free m p = some m1) (q : Nat) (hq : q ≠ p) :
    load m1 q = load m q := by
  unfold free at h
  cases hl : load m p with
  | none => simp [hl] at h
  | some n =>
    simp only [hl, Option.map_some', Option.some.injEq] at h
    rw [← h, load_set_ne _ _ _ _ hq]

theorem free_ok {m : Mem T} {t : Tower T} (h : Shape m t) : ∃ m1, free m t.addr = some m1 := by
  obtain ⟨n, h0, _⟩ := h
  exact ⟨m.set t.addr none, by simp [free, h0]⟩

theorem getNext_free {m m1 : Mem T} {p : Nat} (h : free m p = some m1) (q j : Nat)
    (hq : q ≠ p) : getNext m1 q j = getNext m q j := by
  unfold getNext
  rw [load_free h q hq]

theorem getJump_free {m m1 : Mem T} {p : Nat} (h : free m p = some m1) (q j : Nat)
    (hq : q ≠ p) : getJump m1 q j = getJump m q j := by
  unfold getJump
  rw [load_free h q hq]

theorem shape_free {m m1 : Mem T} {p : Nat} (h : free m p = some m1) (t : Tower T)
    (hq : t.addr ≠ p) (hs : Shape m t) : Shape m1 t := by
  unfold Shape at hs ⊢
  rw [load_free h _ hq]
  exact hs

end SL

/-! ## Facts about chains of towers -/

namespace SL

variable {T : Type}

theorem nextAt_low_append (i : Nat) (S R : List (Tower T))
    (h : ∀ t ∈ S, t.height ≤ i) : nextAt i (S ++ R) = nextAt i R := by
  induction S with
  | nil => rfl
  | cons s S ih =>
    have hs : ¬ i < s.height := by
      have := h s (List.mem_cons_self _ _)
      omega
    simp only [List.cons_append, nextAt, hs, if_false]
    exact ih (fun t ht => h t (List.mem_cons_of_mem _ ht))

theorem nextAt_none_iff (i : Nat) (Y : List (Tower T)) :
    nextAt i Y = none ↔ ∀ t ∈ Y, t.height ≤ i := by
  induction Y with
  | nil => simp [nextAt]
  | cons s S ih =>
    by_cases hs : i < s.height
    · simp only [nextAt, hs, if_true, List.mem_cons, forall_eq_or_imp]
      constructor
      · intro h
        cases h
      · intro h
        omega
    · simp only [nextAt, hs, if_false, List.mem_cons, forall_eq_or_imp, ih]
      constructor
      · intro h
        exact ⟨by omega, h⟩
      · intro h
        exact h.2

theorem jumpAt_nonneg (i : Nat) (Y : List (Tower T)) (h : nextAt i Y ≠ none) :
    0 ≤ jumpAt i Y := by
  induction Y with
  | nil => simp [nextAt] at h
  | cons s S ih =>
    by_cases hs : i < s.height
    · simp [jumpAt, hs]
    · simp only [nextAt, hs, if_false] at h
      simp only [jumpAt, hs, if_false, h]
      have := ih h
      omega

theorem jumpAt_of_none (i : Nat) (Y : List (Tower T)) (h : nextAt i Y = none) :
    jumpAt i Y = JUMP_TO_NULL := by
  cases Y with
  | nil => rfl
  | cons s S =>
    by_cases hs : i < s.height
    · simp [nextAt, hs] at h
    · simp only [nextAt, hs, if_false] at h
      simp [jumpAt, hs, h]

theorem jumpAt_eq_null_iff (i : Nat) (Y : List (Tower T)) :
    jumpAt i Y = JUMP_TO_NULL ↔ nextAt i Y = none := by
  constructor
  · intro h
    by_contra hc
    have := jumpAt_nonneg i Y hc
    rw [h] at this
    simp [JUMP_TO_NULL] at this
  · exact jumpAt_of_none i Y

theorem nextAt_cons (i : Nat) (t : Tower T) (r : List (Tower T)) :
    nextAt i (t :: r) = if i < t.height then some t.addr else nextAt i r := rfl

theorem jumpAt_cons (i : Nat) (t : Tower T) (r : List (Tower T)) :
    jumpAt i (t :: r) =
      if i < t.height then 0
      else if nextAt i r = none then JUMP_TO_NULL else jumpAt i r + 1 := rfl

theorem jumpAt_low_append (i : Nat) (S R : List (Tower T))
    (h : ∀ t ∈ S, t.height ≤ i) :
    jumpAt i (S ++ R) =
      if nextAt i R = none then JUMP_TO_NULL else jumpAt i R + S.length := by
  induction S with
  | nil =>
    by_cases hn : nextAt i R = none
    · simp [hn, jumpAt_of_none]
    · simp [hn]
  | cons s S ih =>
    have hs : ¬ i < s.height := by
      have := h s (List.mem_cons_self _ _)
      omega
    have ih1 := ih (fun t ht => h t (List.mem_cons_of_mem _ ht))
    have hS := nextAt_low_append i S R (fun t ht => h t (List.mem_cons_of_mem _ ht))
    rw [List.cons_append, jumpAt_cons, if_neg hs, hS, ih1]
    by_cases hn : nextAt i R = none
    · simp [hn]
    · simp only [hn, if_false, List.length_cons]
      push_cast
      ring

theorem nextAt_high (i : Nat) (S R : List (Tower T)) (t : Tower T)
    (h : ∀ s ∈ S, s.height ≤ i) (ht : i < t.height) :
    nextAt i (S ++ t :: R) = some t.addr := by
  rw [nextAt_low_append i S _ h]
  simp [nextAt, ht]

theorem jumpAt_high (i : Nat) (S R : List (Tower T)) (t : Tower T)
    (h : ∀ s ∈ S, s.height ≤ i) (ht : i < t.height) :
    jumpAt i (S ++ t :: R) = S.length := by
  rw [jumpAt_low_append i S _ h]
  simp [nextAt, jumpAt, ht]

/-- Either no tower of `Y` has level `i`, or `Y` splits at the first one that does. -/
theorem low_or_split (i : Nat) (Y : List (Tower T)) :
    (∀ t ∈ Y, t.height ≤ i) ∨
      ∃ S t R, Y = S ++ t :: R ∧ (∀ s ∈ S, s.height ≤ i) ∧ i < t.height := by
  induction Y with
  | nil => left; simp
  | cons s Y ih =>
    by_cases hs : i < s.height
    · right
      exact ⟨[], s, Y, rfl, by simp, hs⟩
    · rcases ih with h | ⟨S, t, R, rfl, hS, ht⟩
      · left
        intro t ht
        rcases List.mem_cons.mp ht with rfl | h1
        · omega
        · exact h t h1
      · right
        refine ⟨s :: S, t, R, rfl, ?_, ht⟩
        intro u hu
        rcases List.mem_cons.mp hu with rfl | h1
        · omega
        · exact hS u h1

/-- A split of `C ++ P` at a tower lies in `C` or in `P`. -/
theorem split_append {α : Type} (C P X Y : List α) (t : α) (h : C ++ P = X ++ t :: Y) :
    (∃ A, C = X ++ t :: A ∧ Y = A ++ P) ∨ (∃ X1, X = C ++ X1 ∧ P = X1 ++ t :: Y) := by
  induction C generalizing X with
  | nil =>
    right
    exact ⟨X, by simp, by simpa using h⟩
  | cons c C ih =>
    cases X with
    | nil =>
      left
      simp only [List.cons_append, List.nil_append, List.cons.injEq] at h
      obtain ⟨rfl, rfl⟩ := h
      exact ⟨C, rfl, rfl⟩
    | cons x X =>
      simp only [List.cons_append, List.cons.injEq] at h
      obtain ⟨rfl, h2⟩ := h
      rcases ih X h2 with ⟨A, rfl, rfl⟩ | ⟨X1, rfl, rfl⟩
      · left
        exact ⟨A, rfl, rfl⟩
      · right
        exact ⟨X1, rfl, rfl⟩

/-- Two splits of one list: the first split point is before, at, or after the second. -/
theorem split_cmp {α : Type} (X Y X1 Y1 : List α) (t p : α)
    (h : X ++ t :: Y = X1 ++ p :: Y1) :
    (∃ M, Y = M ++ p :: Y1 ∧ X1 = X ++ t :: M) ∨ (X = X1 ∧ t = p ∧ Y = Y1) ∨
      (∃ M, Y1 = M ++ t :: Y ∧ X = X1 ++ p :: M) := by
  rcases split_append X (t :: Y) X1 Y1 p h with ⟨A, rfl, h2⟩ | ⟨X2, rfl, h2⟩
  · right; right
    exact ⟨A, h2, rfl⟩
  · cases X2 with
    | nil =>
      simp only [List.nil_append, List.cons.injEq] at h2
      obtain ⟨rfl, rfl⟩ := h2
      right; left
      exact ⟨by simp, rfl, rfl⟩
    | cons x X2 =>
      simp only [List.cons_append, List.cons.injEq] at h2
      obtain ⟨rfl, rfl⟩ := h2
      left
      exact ⟨X2, rfl, rfl⟩

theorem addr_ne_of_before (X M Y : List (Tower T)) (t p : Tower T)
    (h : ((X ++ t :: M ++ p :: Y).map Tower.addr).Nodup) : t.addr ≠ p.addr := by
  intro hc
  simp only [List.map_append, List.map_cons, List.append_assoc, List.cons_append] at h
  have h1 := (List.nodup_append.mp h).2.1
  have h2 := (List.nodup_cons.mp h1).1
  apply h2
  simp [hc]

theorem nextAt_mem (i : Nat) (Y : List (Tower T)) (a : Nat) (h : nextAt i Y = some a) :
    ∃ S t R, Y = S ++ t :: R ∧ (∀ s ∈ S, s.height ≤ i) ∧ i < t.height ∧ t.addr = a := by
  rcases low_or_split i Y with hl | ⟨S, t, R, rfl, hS, ht⟩
  · rw [(nextAt_none_iff i Y).mpr hl] at h
    cases h
  · rw [nextAt_high i S R t hS ht] at h
    cases h
    exact ⟨S, t, R, rfl, hS, ht, rfl⟩

/-- A list of distinct numbers below `n` has at most `n` entries. -/
theorem length_le_of_nodup_lt (l : List Nat) (n : Nat) (hd : l.Nodup) (hl : ∀ x ∈ l, x < n) :
    l.length ≤ n := by
  have h1 : l ⊆ List.range n := fun x hx => List.mem_range.mpr (hl x hx)
  have h2 := (List.subperm_of_subset hd h1).length_le
  simpa using h2

theorem nextAt_append_of_some (i : Nat) (A R : List (Tower T)) (h : nextAt i A ≠ none) :
    nextAt i (A ++ R) = nextAt i A ∧ jumpAt i (A ++ R) = jumpAt i A := by
  rcases low_or_split i A with hl | ⟨S, t, Q, rfl, hS, ht⟩
  · exact absurd ((nextAt_none_iff i A).mpr hl) h
  · rw [List.append_assoc, List.cons_append, nextAt_high i S _ t hS ht,
      nextAt_high i S _ t hS ht, jumpAt_high i S _ t hS ht, jumpAt_high i S _ t hS ht]
    exact ⟨rfl, rfl⟩

theorem nextAt_split_ne_none (i : Nat) (M A : List (Tower T)) (p : Tower T)
    (hp : i < p.height) : nextAt i (M ++ p :: A) ≠ none := by
  intro h
  have := (nextAt_none_iff i _).mp h p (by simp)
  omega

theorem split_singleton {α : Type} {a t : α} {X A : List α} (h : [a] = X ++ t :: A) :
    X = [] ∧ t = a ∧ A = [] := by
  cases X with
  | nil =>
    simp only [List.nil_append, List.cons.injEq] at h
    exact ⟨rfl, h.1.symm, h.2.symm⟩
  | cons x X =>
    simp only [List.cons_append, List.cons.injEq] at h
    have := h.2
    cases X <;> simp at this

theorem nodup_left {c : List (Tower T)} {nw : Tower T} {post : List (Tower T)}
    (h : ((c ++ nw :: post).map Tower.addr).Nodup) : (c.map Tower.addr).Nodup := by
  rw [List.map_append] at h
  exact (List.nodup_append.mp h).1

theorem nodup_mid_ne_left {c : List (Tower T)} {nw : Tower T} {post : List (Tower T)}
    (h : ((c ++ nw :: post).map Tower.addr).Nodup) (t : Tower T) (ht : t ∈ c) :
    t.addr ≠ nw.addr := by
  rw [List.map_append] at h
  intro hc
  exact (List.nodup_append.mp h).2.2 (List.mem_map_of_mem _ ht) (by simp [hc])

theorem nodup_mid_ne_right {c : List (Tower T)} {nw : Tower T} {post : List (Tower T)}
    (h : ((c ++ nw :: post).map Tower.addr).Nodup) (t : Tower T) (ht : t ∈ post) :
    t.addr ≠ nw.addr := by
  rw [List.map_append] at h
  have h1 := (List.nodup_append.mp h).2.1
  rw [List.map_cons] at h1
  intro hc
  exact (List.nodup_cons.mp h1).1 (by rw [← hc]; exact List.mem_map_of_mem _ ht)

theorem nodup_left_ne_right {c : List (Tower T)} {nw : Tower T} {post : List (Tower T)}
    (h : ((c ++ nw :: post).map Tower.addr).Nodup) (t p : Tower T) (ht : t ∈ post)
    (hp : p ∈ c) : t.addr ≠ p.addr := by
  rw [List.map_append] at h
  intro hc
  refine (List.nodup_append.mp h).2.2 (List.mem_map_of_mem _ hp) ?_
  rw [← hc, List.map_cons]
  exact List.mem_cons_of_mem _ (List.mem_map_of_mem _ ht)

theorem nextAt_skip_low (i : Nat) (A R : List (Tower T)) (t : Tower T)
    (ht : t.height ≤ i) : nextAt i (A ++ t :: R) = nextAt i (A ++ R) := by
  induction A with
  | nil =>
    have : ¬ i < t.height := by omega
    simp [nextAt_cons, this]
  | cons a A ih =>
    rw [List.cons_append, List.cons_append, nextAt_cons, nextAt_cons, ih]

theorem jumpAt_skip_low (i : Nat) (A R : List (Tower T)) (t : Tower T)
    (hA : ∀ s ∈ A, s.height ≤ i) (ht : t.height ≤ i) :
    jumpAt i (A ++ t :: R) =
      if jumpAt i (A ++ R) = JUMP_TO_NULL then JUMP_TO_NULL else jumpAt i (A ++ R) + 1 := by
  have h1 : A ++ t :: R = (A ++ [t]) ++ R := by simp
  have hA1 : ∀ s ∈ A ++ [t], s.height ≤ i := by
    intro s hs
    rcases List.mem_append.mp hs with h | h
    · exact hA s h
    · simp only [List.mem_singleton] at h
      rw [h]
      exact ht
  rw [h1, jumpAt_low_append i _ R hA1, jumpAt_low_append i A R hA]
  by_cases hn : nextAt i R = none
  · simp [hn]
  · have := jumpAt_nonneg i R hn
    simp only [hn, if_false, List.length_append, List.length_singleton]
    have h2 : ¬ (jumpAt i R + (A.length : Int) = JUMP_TO_NULL) := by
      simp only [JUMP_TO_NULL]
      omega
    rw [if_neg h2]
    push_cast
    ring

end SL

/-! ## The descents by key -/

namespace SL

variable {T : Type}

theorem mem_tail_of_split {α : Type} (c p : α) (A M A1 : List α) (h : c :: A = M ++ p :: A1) :
    ∀ t ∈ A1, t ∈ A := by
  intro t ht
  cases M with
  | nil =>
    simp only [List.nil_append, List.cons.injEq] at h
    rw [h.2]
    exact ht
  | cons x M =>
    simp only [List.cons_append, List.cons.injEq] at h
    rw [h.2]
    simp [ht]

/-- The walk of `insertKey` along level `i`: starting at tower `c`, it stops at the
last tower with level `i` among `c :: A`, where `A` are the towers the key sorts
after, and has added the number of towers passed to `curr_index`. -/
theorem advanceIdx_spec (comp_ : T → T → Bool) (key : T) (m : Mem T) (i : Nat)
    (C B : List (Tower T)) (hL : Linked m C)
    (hB : ∀ t ∈ B, comp_ key t.data = false) :
    ∀ (fuel : Nat) (X A : List (Tower T)) (c : Tower T) (idx : Int),
      C = X ++ c :: (A ++ B) → i < c.height →
      (∀ t ∈ A, comp_ key t.data = true) → A.length < fuel →
      ∃ M p A1, c :: A = M ++ p :: A1 ∧ i < p.height ∧ (∀ t ∈ A1, t.height ≤ i) ∧
        advanceIdx comp_ key m i fuel c.addr idx = some (p.addr, idx + M.length) := by
  intro fuel
  induction fuel with
  | zero => intro X A c idx _ _ _ hf; omega
  | succ f ih =>
    intro X A c idx hC hc hA hf
    have hcell := (hL X c (A ++ B) hC).2 i hc
    unfold advanceIdx
    rw [hcell.1, Option.some_bind]
    rcases low_or_split i A with hlow | ⟨S, t, R, rfl, hS, ht⟩
    · -- no tower of `A` has level `i`: the walk stops at `c`
      rw [nextAt_low_append i A B hlow]
      cases hn : nextAt i B with
      | none =>
        exact ⟨[], c, A, rfl, hc, hlow, by simp⟩
      | some a =>
        obtain ⟨S, t, R, rfl, _, _, rfl⟩ := nextAt_mem i B a hn
        have hsh := (hL (X ++ c :: (A ++ S)) t R (by rw [hC]; simp)).1
        simp only [shape_getData hsh, Option.some_bind]
        rw [hB t (by simp)]
        simp only [Bool.false_eq_true, if_false]
        exact ⟨[], c, A, rfl, hc, hlow, by simp⟩
    · -- the walk moves to the first tower of `A` with level `i`
      rw [List.append_assoc, List.cons_append, nextAt_high i S _ t hS ht]
      have hsh := (hL (X ++ c :: S) t (R ++ B) (by rw [hC]; simp)).1
      simp only [shape_getData hsh, Option.some_bind]
      rw [hA t (by simp)]
      simp only [if_true]
      rw [hcell.2, Option.some_bind, List.append_assoc, List.cons_append,
        jumpAt_high i S _ t hS ht]
      obtain ⟨M, p, A1, hsp, hp, hA1, hres⟩ :=
        ih (X ++ c :: S) R t (idx + ((S.length : Int) + 1)) (by rw [hC]; simp) ht
          (fun u hu => hA u (by simp [hu]))
          (by simp only [List.length_append, List.length_cons] at hf; omega)
      refine ⟨c :: S ++ M, p, A1, ?_, hp, hA1, ?_⟩
      · rw [List.append_assoc, ← hsp]
        simp
      · rw [hres]
        simp only [List.length_append, List.length_cons]
        push_cast
        congr 2
        ring

theorem advance_of_advanceIdx (comp_ : T → T → Bool) (key : T) (m : Mem T) (i : Nat) :
    ∀ (fuel it : Nat) (idx : Int) (r : Nat × Int),
      advanceIdx comp_ key m i fuel it idx = some r →
      advance comp_ key m i fuel it = some r.1 := by
  intro fuel
  induction fuel with
  | zero => intro it idx r h; simp [advanceIdx] at h
  | succ f ih =>
    intro it idx r h
    unfold advanceIdx at h
    unfold advance
    cases hn : getNext m it i with
    | none => simp [hn] at h
    | some nx =>
      rw [hn, Option.some_bind] at h
      rw [Option.some_bind]
      cases nx with
      | none =>
        simp only [Option.some.injEq] at h
        simp [← h]
      | some p =>
        simp only at h ⊢
        cases hd : getData m p with
        | none => simp [hd] at h
        | some d =>
          rw [hd, Option.some_bind] at h
          rw [Option.some_bind]
          by_cases hc : comp_ key d = true
          · simp only [hc, if_true] at h ⊢
            cases hj : getJump m it i with
            | none => simp [hj] at h
            | some j =>
              rw [hj, Option.some_bind] at h
              exact ih _ _ _ h
          · simp only [hc, if_false, Bool.false_eq_true] at h ⊢
            simp only [Option.some.injEq] at h
            simp [← h]

/-- The walk of `countKey`, `findKey` and `eraseKey` along level `i`. -/
theorem advance_spec (comp_ : T → T → Bool) (key : T) (m : Mem T) (i : Nat)
    (C B : List (Tower T)) (hL : Linked m C)
    (hB : ∀ t ∈ B, comp_ key t.data = false)
    (fuel : Nat) (X A : List (Tower T)) (c : Tower T)
    (hC : C = X ++ c :: (A ++ B)) (hc : i < c.height)
    (hA : ∀ t ∈ A, comp_ key t.data = true) (hf : A.length < fuel) :
    ∃ M p A1, c :: A = M ++ p :: A1 ∧ i < p.height ∧ (∀ t ∈ A1, t.height ≤ i) ∧
      advance comp_ key m i fuel c.addr = some p.addr := by
  obtain ⟨M, p, A1, h1, h2, h3, h4⟩ :=
    advanceIdx_spec comp_ key m i C B hL hB fuel X A c 0 hC hc hA hf
  exact ⟨M, p, A1, h1, h2, h3, advance_of_advanceIdx comp_ key m i _ _ _ _ h4⟩

theorem writeAt_eq {α : Type} (a : List α) (i : Nat) (v : α) (h : i < a.length) :
    writeAt a i v = some (a.set i v) := by
  simp [writeAt, h]

theorem split_tail_length {α : Type} (c p : α) (A M A1 : List α) (h : c :: A = M ++ p :: A1) :
    A1.length ≤ A.length := by
  have := congrArg List.length h
  simp only [List.length_cons, List.length_append] at this
  omega

/-- The descent of `insertKey` through the levels below `n`: for each such level
`path_` holds the last tower with that level among those the key sorts after,
and `index_path_` its position. -/
theorem descendIdx_spec (comp_ : T → T → Bool) (key : T) (m : Mem T)
    (C B : List (Tower T)) (hL : Linked m C)
    (hB : ∀ t ∈ B, comp_ key t.data = false) :
    ∀ (n : Nat) (X A : List (Tower T)) (c : Tower T) (idx : Int) (I : List Int) (P : List Nat),
      C = X ++ c :: (A ++ B) → n ≤ c.height →
      (∀ t ∈ A, comp_ key t.data = true) → A.length < m.length →
      n ≤ I.length → n ≤ P.length → idx = (X.length : Int) →
      ∃ I1 P1, descendIdx comp_ key m n c.addr idx I P = some (I1, P1) ∧
        I1.length = I.length ∧ P1.length = P.length ∧
        (∀ j, n ≤ j → I1[j]? = I[j]? ∧ P1[j]? = P[j]?) ∧
        ∀ i, i < n → ∃ X1 p A1, X ++ c :: A = X1 ++ p :: A1 ∧ i < p.height ∧
          (∀ t ∈ A1, t.height ≤ i) ∧ P1[i]? = some p.addr ∧ I1[i]? = some (X1.length : Int) := by
  intro n
  induction n with
  | zero =>
    intro X A c idx I P _ _ _ _ _ _ _
    exact ⟨I, P, rfl, rfl, rfl, fun j _ => ⟨rfl, rfl⟩, fun i hi => absurd hi (by omega)⟩
  | succ n ih =>
    intro X A c idx I P hC hc hA hf hI hP hidx
    obtain ⟨M, p, A1, hsp, hp, hA1, hres⟩ :=
      advanceIdx_spec comp_ key m n C B hL hB m.length X A c idx hC (by omega) hA hf
    have hC1 : C = (X ++ M) ++ p :: (A1 ++ B) := by
      rw [hC]
      have : c :: (A ++ B) = M ++ p :: (A1 ++ B) := by
        rw [← List.cons_append, hsp]
        simp
      rw [this]
      simp
    have hlen := split_tail_length c p A M A1 hsp
    obtain ⟨I1, P1, hd, hI1, hP1, hkeep, hall⟩ :=
      ih (X ++ M) A1 p (idx + M.length) (I.set n (idx + M.length)) (P.set n p.addr) hC1
        (by omega) (fun t ht => hA t (mem_tail_of_split c p A M A1 hsp t ht)) (by omega)
        (by simp; omega) (by simp; omega) (by simp [hidx])
    have hXsp : X ++ c :: A = (X ++ M) ++ p :: A1 := by
      rw [hsp]
      simp
    refine ⟨I1, P1, ?_, by simpa using hI1, by simpa using hP1, ?_, ?_⟩
    · unfold descendIdx
      rw [hres, Option.some_bind]
      simp only
      rw [writeAt_eq _ _ _ (by omega), Option.some_bind, writeAt_eq _ _ _ (by omega),
        Option.some_bind]
      exact hd
    · intro j hj
      have h1 := hkeep j (by omega)
      rw [List.getElem?_set_ne (by omega), List.getElem?_set_ne (by omega)] at h1
      exact h1
    · intro i hi
      rw [hXsp]
      by_cases hin : i < n
      · exact hall i hin
      · have hin1 : i = n := by omega
        subst hin1
        have h1 := hkeep i (le_refl _)
        rw [List.getElem?_set_self (by omega), List.getElem?_set_self (by omega)] at h1
        refine ⟨X ++ M, p, A1, rfl, hp, hA1, h1.2, ?_⟩
        rw [h1.1, hidx]
        simp

/-- The descent of `countKey` and `findKey` through the levels below `n`. -/
theorem descend_spec (comp_ : T → T → Bool) (key : T) (m : Mem T)
    (C B : List (Tower T)) (hL : Linked m C)
    (hB : ∀ t ∈ B, comp_ key t.data = false) :
    ∀ (n : Nat) (X A : List (Tower T)) (c : Tower T),
      C = X ++ c :: (A ++ B) → n ≤ c.height →
      (∀ t ∈ A, comp_ key t.data = true) → A.length < m.length →
      ∃ M p A1, c :: A = M ++ p :: A1 ∧ (0 < n → ∀ t ∈ A1, t.height ≤ 0) ∧
        descend comp_ key m n c.addr = some p.addr := by
  intro n
  induction n with
  | zero =>
    intro X A c _ _ _ _
    exact ⟨[], c, A, rfl, fun h => absurd h (by omega), rfl⟩
  | succ n ih =>
    intro X A c hC hc hA hf
    obtain ⟨M, p, A1, hsp, hp, hA1, hres⟩ :=
      advance_spec comp_ key m n C B hL hB m.length X A c hC (by omega) hA hf
    have hC1 : C = (X ++ M) ++ p :: (A1 ++ B) := by
      rw [hC]
      have : c :: (A ++ B) = M ++ p :: (A1 ++ B) := by
        rw [← List.cons_append, hsp]
        simp
      rw [this]
      simp
    have hlen := split_tail_length c p A M A1 hsp
    unfold descend
    rw [hres, Option.some_bind]
    cases n with
    | zero =>
      refine ⟨M, p, A1, hsp, fun _ => hA1, rfl⟩
    | succ k =>
      obtain ⟨M1, p1, A2, hsp1, hlow, hd⟩ :=
        ih (X ++ M) A1 p hC1 (by omega)
          (fun t ht => hA t (mem_tail_of_split c p A M A1 hsp t ht)) (by omega)
      refine ⟨M ++ M1, p1, A2, ?_, fun _ => hlow (by omega), hd⟩
      rw [hsp, hsp1]
      simp

/-- The descent of `eraseKey` through the levels below `n`. -/
theorem descendPath_spec (comp_ : T → T → Bool) (key : T) (m : Mem T)
    (C B : List (Tower T)) (hL : Linked m C)
    (hB : ∀ t ∈ B, comp_ key t.data = false) :
    ∀ (n : Nat) (X A : List (Tower T)) (c : Tower T) (P : List Nat),
      C = X ++ c :: (A ++ B) → n ≤ c.height →
      (∀ t ∈ A, comp_ key t.data = true) → A.length < m.length → n ≤ P.length →
      ∃ it P1, descendPath comp_ key m n c.addr P = some (it, P1) ∧
        P1.length = P.length ∧ (n = 0 → it = c.addr) ∧
        (∀ j, n ≤ j → P1[j]? = P[j]?) ∧
        ∀ i, i < n → ∃ X1 p A1, X ++ c :: A = X1 ++ p :: A1 ∧ i < p.height ∧
          (∀ t ∈ A1, t.height ≤ i) ∧ P1[i]? = some p.addr ∧ (i = 0 → it = p.addr) := by
  intro n
  induction n with
  | zero =>
    intro X A c P _ _ _ _ _
    exact ⟨c.addr, P, rfl, rfl, fun _ => rfl, fun j _ => rfl, fun i hi => absurd hi (by omega)⟩
  | succ n ih =>
    intro X A c P hC hc hA hf hP
    obtain ⟨M, p, A1, hsp, hp, hA1, hres⟩ :=
      advance_spec comp_ key m n C B hL hB m.length X A c hC (by omega) hA hf
    have hC1 : C = (X ++ M) ++ p :: (A1 ++ B) := by
      rw [hC]
      have : c :: (A ++ B) = M ++ p :: (A1 ++ B) := by
        rw [← List.cons_append, hsp]
        simp
      rw [this]
      simp
    have hlen := split_tail_length c p A M A1 hsp
    obtain ⟨it, P1, hd, hP1, hit0, hkeep, hall⟩ :=
      ih (X ++ M) A1 p (P.set n p.addr) hC1
        (by omega) (fun t ht => hA t (mem_tail_of_split c p A M A1 hsp t ht)) (by omega)
        (by simp; omega)
    have hXsp : X ++ c :: A = (X ++ M) ++ p :: A1 := by
      rw [hsp]
      simp
    refine ⟨it, P1, ?_, by simpa using hP1, fun h => absurd h (by omega), ?_, ?_⟩
    · unfold descendPath
      rw [hres, Option.some_bind, writeAt_eq _ _ _ (by omega), Option.some_bind]
      exact hd
    · intro j hj
      have h1 := hkeep j (by omega)
      rw [List.getElem?_set_ne (by omega)] at h1
      exact h1
    · intro i hi
      rw [hXsp]
      by_cases hin : i < n
      · exact hall i hin
      · have hin1 : i = n := by omega
        subst hin1
        have h1 := hkeep i (le_refl _)
        rw [List.getElem?_set_self (by omega)] at h1
        exact ⟨X ++ M, p, A1, rfl, hp, hA1, h1, hit0⟩

end SL

/-! ## Frame rules for chains -/

namespace SL

variable {T : Type}

theorem linked_frame {m m1 : Mem T} {c : List (Tower T)} (hL : Linked m c)
    (hS : ∀ t ∈ c, Shape m t → Shape m1 t)
    (hN : ∀ t ∈ c, ∀ j, getNext m1 t.addr j = getNext m t.addr j)
    (hJ : ∀ t ∈ c, ∀ j, getJump m1 t.addr j = getJump m t.addr j) : Linked m1 c := by
  intro X t Y hc
  have ht : t ∈ c := by rw [hc]; simp
  obtain ⟨h1, h2⟩ := hL X t Y hc
  refine ⟨hS t ht h1, fun i hi => ?_⟩
  rw [hN t ht, hJ t ht]
  exact h2 i hi

theorem linked_tail {m : Mem T} {c P : List (Tower T)} (hL : Linked m (c ++ P)) :
    Linked m P := by
  intro X t Y hc
  exact hL (c ++ X) t Y (by rw [hc]; simp)

theorem staged_zero {m : Mem T} {c P : List (Tower T)} (Pn : List (Tower T))
    (hL : Linked m (c ++ P)) : Staged m 0 P Pn c := by
  intro X t A hc
  obtain ⟨h1, h2⟩ := hL X t (A ++ P) (by rw [hc]; simp)
  refine ⟨h1, fun i hi => ?_⟩
  simpa using h2 i hi

theorem staged_full {m : Mem T} {k : Nat} {c Po Pn : List (Tower T)}
    (hS : Staged m k Po Pn c) (hk : ∀ t ∈ c, t.height ≤ k) (hL : Linked m Pn) :
    Linked m (c ++ Pn) := by
  intro X t Y hc
  rcases split_append c Pn X Y t hc with ⟨A, rfl, rfl⟩ | ⟨X1, rfl, hP⟩
  · obtain ⟨h1, h2⟩ := hS X t A rfl
    refine ⟨h1, fun i hi => ?_⟩
    have hik : i < k := by
      have := hk t (by simp)
      omega
    simpa [hik] using h2 i hi
  · exact hL X1 t Y hP

/-- One level of a splice: if the writes touch level `k` only and leave there the
values seen through the new suffix, the stage moves from `k` to `k + 1`. -/
theorem staged_step {m m1 : Mem T} {k : Nat} {c Po Pn : List (Tower T)}
    (hS : Staged m k Po Pn c)
    (hshape : ∀ t, Shape m t → Shape m1 t)
    (hnext : ∀ X t A, c = X ++ t :: A → k < t.height →
      getNext m1 t.addr k = some (nextAt k (A ++ Pn)))
    (hjump : ∀ X t A, c = X ++ t :: A → k < t.height →
      getJump m1 t.addr k = some (jumpAt k (A ++ Pn)))
    (hframeN : ∀ q j, j ≠ k → getNext m1 q j = getNext m q j)
    (hframeJ : ∀ q j, j ≠ k → getJump m1 q j = getJump m q j) :
    Staged m1 (k + 1) Po Pn c := by
  intro X t A hc
  obtain ⟨h1, h2⟩ := hS X t A hc
  refine ⟨hshape t h1, fun i hi => ?_⟩
  by_cases hik : i = k
  · subst hik
    rw [hnext X t A hc hi, hjump X t A hc hi]
    simp
  · rw [hframeN _ _ hik, hframeJ _ _ hik]
    have : (i < k + 1) ↔ (i < k) := by omega
    simp only [this]
    exact h2 i hi

/-- Two splits of a chain with distinct addresses at towers of the same address
coincide. -/
theorem split_unique {c X A X1 A1 : List (Tower T)} {t p : Tower T}
    (hnd : (c.map Tower.addr).Nodup) (h1 : c = X ++ t :: A) (h2 : c = X1 ++ p :: A1)
    (ha : t.addr = p.addr) : X = X1 ∧ t = p ∧ A = A1 := by
  rcases split_cmp X A X1 A1 t p (h1 ▸ h2) with ⟨M, rfl, rfl⟩ | h | ⟨M, rfl, rfl⟩
  · exfalso
    refine addr_ne_of_before X M A1 t p ?_ ha
    rw [h1] at hnd
    simpa using hnd
  · exact h
  · exfalso
    refine addr_ne_of_before X1 M A p t ?_ ha.symm
    rw [h2] at hnd
    simpa using hnd

theorem addr_mem_of_split {c X A : List (Tower T)} {t : Tower T} (h : c = X ++ t :: A) :
    t.addr ∈ c.map Tower.addr := by
  rw [h]
  simp

end SL

/-! ## insertKey: the splice of a new tower -/

namespace SL

variable {T : Type}

/-- Linking level `k` of the new tower `nw` behind `p`, the last tower with level
`k` before it, moves the splice from stage `k` to stage `k + 1`. -/
theorem ins_stage_link {m : Mem T} (m4 : Mem T) {k : Nat} {c post X1 A1 : List (Tower T)}
    {nw p : Tower T}
    (hnd : ((c ++ nw :: post).map Tower.addr).Nodup)
    (hS : Staged m k post (nw :: post) c) (hN : Staged m k [] post [nw])
    (hL : Linked m post)
    (hc : c = X1 ++ p :: A1) (hp : k < p.height) (hA1 : ∀ t ∈ A1, t.height ≤ k)
    (hk : k < nw.height)
    (hshape : ∀ t, Shape m t → Shape m4 t)
    (effN : ∀ q j, getNext m4 q j =
      if q = nw.addr ∧ j = k then some (nextAt k post)
      else if q = p.addr ∧ j = k then some (some nw.addr) else getNext m q j)
    (effJ : ∀ q j, getJump m4 q j =
      if q = nw.addr ∧ j = k then some (jumpAt k post)
      else if q = p.addr ∧ j = k then some (A1.length : Int) else getJump m q j) :
    Staged m4 (k + 1) post (nw :: post) c ∧ Staged m4 (k + 1) [] post [nw] ∧
      Linked m4 post := by
  have hndc := nodup_left hnd
  have hpc : p ∈ c := by rw [hc]; simp
  refine ⟨?_, ?_, ?_⟩
  · refine staged_step hS hshape ?_ ?_ ?_ ?_
    · intro X t A hsp ht
      have htc : t ∈ c := by rw [hsp]; simp
      have hne := nodup_mid_ne_left hnd t htc
      rw [effN, if_neg (fun h => hne h.1)]
      by_cases hta : t.addr = p.addr
      · obtain ⟨_, _, rfl⟩ := split_unique hndc hsp hc hta
        rw [if_pos ⟨hta, rfl⟩, nextAt_high k A _ nw hA1 hk]
      · rw [if_neg (fun h => hta h.1)]
        have h0 := ((hS X t A hsp).2 k ht).1
        simp only [lt_irrefl, if_false] at h0
        rw [h0]
        rcases split_cmp X A X1 A1 t p (hsp ▸ hc) with ⟨M, rfl, _⟩ | h | ⟨M, rfl, _⟩
        · have hne := nextAt_split_ne_none k M A1 p hp
          rw [(nextAt_append_of_some k _ post hne).1,
            (nextAt_append_of_some k _ (nw :: post) hne).1]
        · exact absurd (by rw [h.2.1]) hta
        · have := hA1 t (by simp)
          omega
    · intro X t A hsp ht
      have htc : t ∈ c := by rw [hsp]; simp
      have hne := nodup_mid_ne_left hnd t htc
      rw [effJ, if_neg (fun h => hne h.1)]
      by_cases hta : t.addr = p.addr
      · obtain ⟨_, _, rfl⟩ := split_unique hndc hsp hc hta
        rw [if_pos ⟨hta, rfl⟩, jumpAt_high k A _ nw hA1 hk]
      · rw [if_neg (fun h => hta h.1)]
        have h0 := ((hS X t A hsp).2 k ht).2
        simp only [lt_irrefl, if_false] at h0
        rw [h0]
        rcases split_cmp X A X1 A1 t p (hsp ▸ hc) with ⟨M, rfl, _⟩ | h | ⟨M, rfl, _⟩
        · have hne := nextAt_split_ne_none k M A1 p hp
          rw [(nextAt_append_of_some k _ post hne).2,
            (nextAt_append_of_some k _ (nw :: post) hne).2]
        · exact absurd (by rw [h.2.1]) hta
        · have := hA1 t (by simp)
          omega
    · intro q j hj
      rw [effN, if_neg (fun h => hj h.2), if_neg (fun h => hj h.2)]
    · intro q j hj
      rw [effJ, if_neg (fun h => hj h.2), if_neg (fun h => hj h.2)]
  · refine staged_step hN hshape ?_ ?_ ?_ ?_
    · intro X t A hsp ht
      obtain ⟨_, rfl, rfl⟩ := split_singleton hsp
      rw [effN, if_pos ⟨rfl, rfl⟩]
      rfl
    · intro X t A hsp ht
      obtain ⟨_, rfl, rfl⟩ := split_singleton hsp
      rw [effJ, if_pos ⟨rfl, rfl⟩]
      rfl
    · intro q j hj
      rw [effN, if_neg (fun h => hj h.2), if_neg (fun h => hj h.2)]
    · intro q j hj
      rw [effJ, if_neg (fun h => hj h.2), if_neg (fun h => hj h.2)]
  · refine linked_frame hL (fun t _ h => hshape t h) ?_ ?_
    · intro t ht j
      rw [effN, if_neg (fun h => nodup_mid_ne_right hnd t ht h.1),
        if_neg (fun h => nodup_left_ne_right hnd t p ht hpc h.1)]
    · intro t ht j
      rw [effJ, if_neg (fun h => nodup_mid_ne_right hnd t ht h.1),
        if_neg (fun h => nodup_left_ne_right hnd t p ht hpc h.1)]

/-- Passing level `k`, which the new tower `nw` does not have: only the jump of
`p`, the last tower with level `k` before it, changes. -/
theorem ins_stage_bump {m : Mem T} (m4 : Mem T) {k : Nat} {c post X1 A1 : List (Tower T)}
    {nw p : Tower T}
    (hnd : ((c ++ nw :: post).map Tower.addr).Nodup)
    (hS : Staged m k post (nw :: post) c) (hN : Staged m k [] post [nw])
    (hL : Linked m post)
    (hc : c = X1 ++ p :: A1) (hp : k < p.height) (hA1 : ∀ t ∈ A1, t.height ≤ k)
    (hk : nw.height ≤ k)
    (hshape : ∀ t, Shape m t → Shape m4 t)
    (effN : ∀ q j, getNext m4 q j = getNext m q j)
    (effJ : ∀ q j, getJump m4 q j =
      if q = p.addr ∧ j = k then some (jumpAt k (A1 ++ nw :: post)) else getJump m q j) :
    Staged m4 (k + 1) post (nw :: post) c ∧ Staged m4 (k + 1) [] post [nw] ∧
      Linked m4 post := by
  have hndc := nodup_left hnd
  have hpc : p ∈ c := by rw [hc]; simp
  refine ⟨?_, ?_, ?_⟩
  · refine staged_step hS hshape ?_ ?_ ?_ ?_
    · intro X t A hsp ht
      rw [effN]
      have h0 := ((hS X t A hsp).2 k ht).1
      simp only [lt_irrefl, if_false] at h0
      rw [h0, nextAt_skip_low k A post nw hk]
    · intro X t A hsp ht
      rw [effJ]
      by_cases hta : t.addr = p.addr
      · obtain ⟨_, _, rfl⟩ := split_unique hndc hsp hc hta
        rw [if_pos ⟨hta, rfl⟩]
      · rw [if_neg (fun h => hta h.1)]
        have h0 := ((hS X t A hsp).2 k ht).2
        simp only [lt_irrefl, if_false] at h0
        rw [h0]
        rcases split_cmp X A X1 A1 t p (hsp ▸ hc) with ⟨M, rfl, _⟩ | h | ⟨M, rfl, _⟩
        · have hne := nextAt_split_ne_none k M A1 p hp
          rw [(nextAt_append_of_some k _ post hne).2,
            (nextAt_append_of_some k _ (nw :: post) hne).2]
        · exact absurd (by rw [h.2.1]) hta
        · have := hA1 t (by simp)
          omega
    · intro q j _
      rw [effN]
    · intro q j hj
      rw [effJ, if_neg (fun h => hj h.2)]
  · refine staged_step hN hshape ?_ ?_ ?_ ?_
    · intro X t A hsp ht
      obtain ⟨_, rfl, rfl⟩ := split_singleton hsp
      omega
    · intro X t A hsp ht
      obtain ⟨_, rfl, rfl⟩ := split_singleton hsp
      omega
    · intro q j _
      rw [effN]
    · intro q j hj
      rw [effJ, if_neg (fun h => hj h.2)]
  · refine linked_frame hL (fun t _ h => hshape t h) ?_ ?_
    · intro t ht j
      rw [effN]
    · intro t ht j
      rw [effJ, if_neg (fun h => nodup_left_ne_right hnd t p ht hpc h.1)]

theorem linkBottom_spec {m : Mem T} {c post : List (Tower T)} (nw : Tower T)
    {I : List Int} {P : List Nat} {H : Nat}
    (hnd : ((c ++ nw :: post).map Tower.addr).Nodup)
    (hS : Staged m 0 post (nw :: post) c) (hN : Staged m 0 [] post [nw])
    (hL : Linked m post)
    (hpath : PathOk c I P H) (hH : 0 < H) (hk : 0 < nw.height)
    (hpos : ∀ t ∈ c, 1 ≤ t.height) :
    ∃ m4, linkBottom m P nw.addr = some m4 ∧ Staged m4 1 post (nw :: post) c ∧
      Staged m4 1 [] post [nw] ∧ Linked m4 post := by
  obtain ⟨X1, p, A1, hc, hp, hA1, hP, hI⟩ := hpath 0 hH
  have hA1nil : A1 = [] := by
    apply List.eq_nil_iff_forall_not_mem.mpr
    intro t ht
    have h1 := hA1 t ht
    have h2 := hpos t (by rw [hc]; simp [ht])
    omega
  subst hA1nil
  have hpc : p ∈ c := by rw [hc]; simp
  have hpn : p.addr ≠ nw.addr := nodup_mid_ne_left hnd p hpc
  have hg : getNext m p.addr 0 = some (nextAt 0 post) := by
    simpa using ((hS X1 p [] hc).2 0 hp).1
  obtain ⟨m1, h1⟩ := setNext_ok (some nw.addr) hg
  have hgn : getNext m1 nw.addr 0 = some none := by
    rw [getNext_setNext h1, if_neg (fun h => hpn h.1.symm)]
    simpa [nextAt] using ((hN [] nw [] rfl).2 0 hk).1
  obtain ⟨m2, h2⟩ := setNext_ok (nextAt 0 post) hgn
  have hj : getJump m2 p.addr 0 = some (jumpAt 0 post) := by
    rw [getJump_setNext h2, getJump_setNext h1]
    simpa using ((hS X1 p [] hc).2 0 hp).2
  obtain ⟨m3, h3⟩ := setJump_ok 0 hj
  have hjn : getJump m3 nw.addr 0 = some JUMP_TO_NULL := by
    rw [getJump_setJump h3, if_neg (fun h => hpn h.1.symm), getJump_setNext h2,
      getJump_setNext h1]
    simpa [jumpAt] using ((hN [] nw [] rfl).2 0 hk).2
  obtain ⟨m4, h4⟩ := setJump_ok (jumpAt 0 post) hjn
  refine ⟨m4, ?_, ?_⟩
  · unfold linkBottom
    rw [hP, Option.some_bind, hg, Option.some_bind, h1, Option.some_bind, h2,
      Option.some_bind, hj, Option.some_bind, h3, Option.some_bind, h4]
  · refine ins_stage_link m4 hnd hS hN hL hc hp hA1 hk ?_ ?_ ?_
    · intro t ht
      exact shape_setJump h4 t (shape_setJump h3 t (shape_setNext h2 t (shape_setNext h1 t ht)))
    · intro q j
      rw [getNext_setJump h4, getNext_setJump h3, getNext_setNext h2, getNext_setNext h1]
    · intro q j
      rw [getJump_setJump h4, getJump_setJump h3, getJump_setNext h2, getJump_setNext h1]
      simp

theorem linkLevels_spec {c post : List (Tower T)} (nw : Tower T)
    {I : List Int} {P : List Nat} {H : Nat}
    (hnd : ((c ++ nw :: post).map Tower.addr).Nodup)
    (hpath : PathOk c I P H) (hH : nw.height ≤ H) :
    ∀ (r k : Nat) (m : Mem T), k + r = nw.height → 1 ≤ k →
      Staged m k post (nw :: post) c → Staged m k [] post [nw] → Linked m post →
      ∃ m4, linkLevels I P nw.addr r k m = some m4 ∧
        Staged m4 nw.height post (nw :: post) c ∧
        Staged m4 nw.height [] post [nw] ∧ Linked m4 post := by
  intro r
  induction r with
  | zero =>
    intro k m hkr _ hS hN hL
    have : k = nw.height := by omega
    subst this
    exact ⟨m, rfl, hS, hN, hL⟩
  | succ r ih =>
    intro k m hkr hk1 hS hN hL
    have hk : k < nw.height := by omega
    obtain ⟨X1, p, A1, hc, hp, hA1, hP, hI⟩ := hpath k (by omega)
    obtain ⟨Xl, pl, Al, hcl, hpl, hAl, hPl, hIl⟩ := hpath (k - 1) (by omega)
    have hpc : p ∈ c := by rw [hc]; simp
    have hpn : p.addr ≠ nw.addr := nodup_mid_ne_left hnd p hpc
    have hg : getNext m p.addr k = some (nextAt k post) := by
      have := ((hS X1 p A1 hc).2 k hp).1
      simpa [nextAt_low_append k A1 post hA1] using this
    obtain ⟨m1, h1⟩ := setNext_ok (some nw.addr) hg
    have hgn : getNext m1 nw.addr k = some none := by
      rw [getNext_setNext h1, if_neg (fun h => hpn h.1.symm)]
      simpa [nextAt] using ((hN [] nw [] rfl).2 k hk).1
    obtain ⟨m2, h2⟩ := setNext_ok (nextAt k post) hgn
    have hj : getJump m2 p.addr k = some (jumpAt k (A1 ++ post)) := by
      rw [getJump_setNext h2, getJump_setNext h1]
      simpa using ((hS X1 p A1 hc).2 k hp).2
    have hjl : getJump m2 pl.addr (k - 1) = some (Al.length : Int) := by
      rw [getJump_setNext h2, getJump_setNext h1]
      have := ((hS Xl pl Al hcl).2 (k - 1) hpl).2
      have hlt : k - 1 < k := by omega
      simp only [hlt, if_true] at this
      rw [this, jumpAt_high (k - 1) Al post nw hAl (by omega)]
    have hlen : (Xl.length : Int) - X1.length + Al.length = A1.length := by
      have := congrArg List.length (hc ▸ hcl)
      simp only [List.length_append, List.length_cons] at this
      omega
    obtain ⟨m3, h3⟩ := setJump_ok ((Xl.length : Int) - X1.length + Al.length) hj
    have hjn3 : getJump m3 p.addr k = some ((Xl.length : Int) - X1.length + Al.length) := by
      rw [getJump_setJump h3, if_pos ⟨rfl, rfl⟩]
    have hjn : getJump m3 nw.addr k = some JUMP_TO_NULL := by
      rw [getJump_setJump h3, if_neg (fun h => hpn h.1.symm), getJump_setNext h2,
        getJump_setNext h1]
      simpa [jumpAt] using ((hN [] nw [] rfl).2 k hk).2
    have hval : (if jumpAt k (A1 ++ post) = JUMP_TO_NULL then JUMP_TO_NULL
        else jumpAt k (A1 ++ post) - ((Xl.length : Int) - X1.length + Al.length))
        = jumpAt k post := by
      rw [hlen, jumpAt_low_append k A1 post hA1]
      by_cases hn : nextAt k post = none
      · simp [hn, jumpAt_of_none]
      · have := jumpAt_nonneg k post hn
        simp only [hn, if_false]
        have h2 : ¬ (jumpAt k post + (A1.length : Int) = JUMP_TO_NULL) := by
          simp only [JUMP_TO_NULL]
          omega
        rw [if_neg h2]
        ring
    obtain ⟨m4, h4⟩ := setJump_ok (jumpAt k post) hjn
    have hstage := ins_stage_link m4 hnd hS hN hL hc hp hA1 hk
      (fun t ht =>
        shape_setJump h4 t (shape_setJump h3 t (shape_setNext h2 t (shape_setNext h1 t ht))))
      (fun q j => by
        rw [getNext_setJump h4, getNext_setJump h3, getNext_setNext h2, getNext_setNext h1])
      (fun q j => by
        rw [getJump_setJump h4, getJump_setJump h3, getJump_setNext h2, getJump_setNext h1,
          hlen])
    obtain ⟨m5, h5, hres⟩ := ih (k + 1) m4 (by omega) (by omega) hstage.1 hstage.2.1 hstage.2.2
    refine ⟨m5, ?_, hres⟩
    unfold linkLevels
    rw [hP, Option.some_bind, hg, Option.some_bind, h1, Option.some_bind, h2,
      Option.some_bind, hj, Option.some_bind, hIl, Option.some_bind, hI, Option.some_bind,
      hPl, Option.some_bind, hjl, Option.some_bind, h3, Option.some_bind, hjn3,
      Option.some_bind, hval, h4, Option.some_bind]
    exact h5

theorem bumpLevels_spec {c post : List (Tower T)} (nw : Tower T)
    {I : List Int} {P : List Nat} {H : Nat}
    (hnd : ((c ++ nw :: post).map Tower.addr).Nodup)
    (hpath : PathOk c I P H) :
    ∀ (r k : Nat) (m : Mem T), k + r = H → nw.height ≤ k →
      Staged m k post (nw :: post) c → Staged m k [] post [nw] → Linked m post →
      ∃ m4, bumpLevels P r k m = some m4 ∧
        Staged m4 H post (nw :: post) c ∧ Staged m4 H [] post [nw] ∧ Linked m4 post := by
  intro r
  induction r with
  | zero =>
    intro k m hkr _ hS hN hL
    have : k = H := by omega
    subst this
    exact ⟨m, rfl, hS, hN, hL⟩
  | succ r ih =>
    intro k m hkr hk hS hN hL
    obtain ⟨X1, p, A1, hc, hp, hA1, hP, hI⟩ := hpath k (by omega)
    have hj : getJump m p.addr k = some (jumpAt k (A1 ++ post)) := by
      simpa using ((hS X1 p A1 hc).2 k hp).2
    have hskip := jumpAt_skip_low k A1 post nw hA1 hk
    unfold bumpLevels
    rw [hP, Option.some_bind, hj, Option.some_bind]
    by_cases hnull : jumpAt k (A1 ++ post) = JUMP_TO_NULL
    · rw [if_pos hnull] at hskip
      have hstage := ins_stage_bump m hnd hS hN hL hc hp hA1 hk
        (fun t ht => ht) (fun q j => rfl)
        (fun q j => by
          by_cases hq : q = p.addr ∧ j = k
          · rw [if_pos hq, hq.1, hq.2, hj, hskip, hnull]
          · rw [if_neg hq])
      obtain ⟨m5, h5, hres⟩ :=
        ih (k + 1) m (by omega) (by omega) hstage.1 hstage.2.1 hstage.2.2
      refine ⟨m5, ?_, hres⟩
      simp only [hnull, ne_eq, not_true_eq_false, if_false]
      exact h5
    · rw [if_neg hnull] at hskip
      obtain ⟨m1, h1⟩ := setJump_ok (jumpAt k (A1 ++ post) + 1) hj
      have hstage := ins_stage_bump m1 hnd hS hN hL hc hp hA1 hk
        (fun t ht => shape_setJump h1 t ht) (fun q j => getNext_setJump h1 q j)
        (fun q j => by rw [getJump_setJump h1, hskip])
      obtain ⟨m5, h5, hres⟩ :=
        ih (k + 1) m1 (by omega) (by omega) hstage.1 hstage.2.1 hstage.2.2
      refine ⟨m5, ?_, hres⟩
      simp only [ne_eq, hnull, not_false_eq_true, if_true]
      rw [h1, Option.some_bind]
      exact h5

end SL

/-! ## The representation invariant and the search by key -/

namespace SL

variable {T : Type}

/-- The towers split into those the key sorts after and the rest. -/
theorem key_split {comp_ : T → T → Bool} (hst : StrictTotal comp_) (key : T)
    (L : List (Tower T)) (hs : L.Pairwise (fun a b => comp_ b.data a.data = true)) :
    ∃ pre post, L = pre ++ post ∧ (∀ t ∈ pre, comp_ key t.data = true) ∧
      (∀ t ∈ post, comp_ key t.data = false) := by
  induction L with
  | nil => exact ⟨[], [], rfl, by simp, by simp⟩
  | cons t L ih =>
    rw [List.pairwise_cons] at hs
    by_cases hk : comp_ key t.data = true
    · obtain ⟨pre, post, rfl, h1, h2⟩ := ih hs.2
      refine ⟨t :: pre, post, rfl, ?_, h2⟩
      intro u hu
      rcases List.mem_cons.mp hu with rfl | h
      · exact hk
      · exact h1 u h
    · refine ⟨[], t :: L, rfl, by simp, ?_⟩
      intro u hu
      rcases List.mem_cons.mp hu with rfl | h
      · simpa using hk
      · by_contra hc
        have hc1 : comp_ key u.data = true := by simpa using hc
        exact hk (hst.trans _ _ _ hc1 (hs.1 u h))

/-- Among the towers the key does not sort after, either all sort after the key,
or the first one carries the key and the others sort after it. -/
theorem post_cases {comp_ : T → T → Bool} (hst : StrictTotal comp_) (key : T)
    (post : List (Tower T)) (hs : post.Pairwise (fun a b => comp_ b.data a.data = true))
    (hpost : ∀ t ∈ post, comp_ key t.data = false) :
    (∀ t ∈ post, comp_ t.data key = true) ∨
      ∃ t rest, post = t :: rest ∧ t.data = key ∧ ∀ b ∈ rest, comp_ b.data key = true := by
  cases post with
  | nil => left; simp
  | cons t rest =>
    rw [List.pairwise_cons] at hs
    by_cases hk : t.data = key
    · right
      refine ⟨t, rest, rfl, hk, ?_⟩
      intro b hb
      rw [← hk]
      exact hs.1 b hb
    · left
      have ht : comp_ t.data key = true := by
        rcases hst.total t.data key hk with h | h
        · exact h
        · rw [hpost t (by simp)] at h
          cases h
      intro u hu
      rcases List.mem_cons.mp hu with rfl | h
      · exact ht
      · exact hst.trans _ _ _ (hs.1 u h) ht

theorem ne_of_comp {comp_ : T → T → Bool} (hst : StrictTotal comp_) {a b : T}
    (h : comp_ a b = true) : a ≠ b := by
  intro hc
  rw [hc, hst.irrefl] at h
  cases h

variable [Inhabited T]

theorem inv_shape {comp_ : T → T → Bool} {sl : SkipList T} {L : List (Tower T)}
    (hinv : Inv comp_ sl L) (t : Tower T) (ht : t ∈ headTower sl :: L) : Shape sl.mem t := by
  obtain ⟨X, Y, h⟩ := List.append_of_mem ht
  exact (hinv.linked X t Y h).1

theorem inv_addr_lt {comp_ : T → T → Bool} {sl : SkipList T} {L : List (Tower T)}
    (hinv : Inv comp_ sl L) (t : Tower T) (ht : t ∈ headTower sl :: L) :
    t.addr < sl.mem.length := shape_lt (inv_shape hinv t ht)

theorem inv_length {comp_ : T → T → Bool} {sl : SkipList T} {L : List (Tower T)}
    (hinv : Inv comp_ sl L) : L.length + 1 ≤ sl.mem.length := by
  have h := length_le_of_nodup_lt _ sl.mem.length hinv.nodup (by
    intro x hx
    obtain ⟨t, ht, rfl⟩ := List.mem_map.mp hx
    exact inv_addr_lt hinv t ht)
  simpa using h

theorem inv_height_pos {comp_ : T → T → Bool} {sl : SkipList T} {L : List (Tower T)}
    (hinv : Inv comp_ sl L) (t : Tower T) (ht : t ∈ headTower sl :: L) : 1 ≤ t.height := by
  rcases List.mem_cons.mp ht with rfl | h
  · exact hinv.hpos
  · exact (hinv.heights t h).1

/-- The descent by key ends at the last tower the key sorts after (the head when
there is none). -/
theorem descend_last {comp_ : T → T → Bool} {sl : SkipList T} {L pre post : List (Tower T)}
    (hinv : Inv comp_ sl L) (key : T) (hL : L = pre ++ post)
    (hpre : ∀ t ∈ pre, comp_ key t.data = true)
    (hpost : ∀ t ∈ post, comp_ key t.data = false) :
    ∃ M p, headTower sl :: pre = M ++ [p] ∧
      descend comp_ key sl.mem sl.max_height_ sl.head_ = some p.addr := by
  have hlen := inv_length hinv
  obtain ⟨M, p, A1, hsp, hlow, hd⟩ :=
    descend_spec comp_ key sl.mem (headTower sl :: L) post hinv.linked hpost sl.max_height_
      [] pre (headTower sl) (by rw [hL]; rfl) (le_refl _) hpre
      (by rw [hL, List.length_append] at hlen; omega)
  have hA1 : A1 = [] := by
    apply List.eq_nil_iff_forall_not_mem.mpr
    intro t ht
    have h1 := hlow hinv.hpos t ht
    have h2 := inv_height_pos hinv t (by
      have : t ∈ headTower sl :: pre := by rw [hsp]; simp [ht]
      rw [hL]
      rcases List.mem_cons.mp this with h | h
      · simp [h]
      · simp [h])
    omega
  subst hA1
  exact ⟨M, p, hsp, hd⟩

/-- After the descent, `it->next_[0]` is the first tower the key does not sort after. -/
theorem next_after_descent {comp_ : T → T → Bool} {sl : SkipList T}
    {L pre post M : List (Tower T)} {p : Tower T}
    (hinv : Inv comp_ sl L) (hL : L = pre ++ post) (hsp : headTower sl :: pre = M ++ [p]) :
    getNext sl.mem p.addr 0 = some (nextAt 0 post) := by
  have hc : headTower sl :: L = M ++ p :: post := by
    rw [hL, ← List.cons_append, hsp]
    simp
  have hp : 1 ≤ p.height := inv_height_pos hinv p (by rw [hc]; simp)
  exact ((hinv.linked M p post hc).2 0 (by omega)).1

theorem countKey_absent {comp_ : T → T → Bool} [DecidableEq T] (hst : StrictTotal comp_)
    {sl : SkipList T} {L pre post : List (Tower T)}
    (hinv : Inv comp_ sl L) (key : T) (hL : L = pre ++ post)
    (hpre : ∀ t ∈ pre, comp_ key t.data = true)
    (hpost : ∀ t ∈ post, comp_ key t.data = false)
    (habs : ∀ t ∈ post, comp_ t.data key = true) :
    countKey comp_ sl key = some 0 := by
  obtain ⟨M, p, hsp, hd⟩ := descend_last hinv key hL hpre hpost
  have hn := next_after_descent hinv hL hsp
  unfold countKey
  rw [hd, Option.some_bind, hn, Option.some_bind]
  cases post with
  | nil => rfl
  | cons t rest =>
    have ht : t ∈ headTower sl :: L := by rw [hL]; simp
    have hh := inv_height_pos hinv t ht
    obtain ⟨n, h0, h1, h2, _, _⟩ := inv_shape hinv t ht
    have hne : key ≠ t.data := (ne_of_comp hst (habs t (by simp))).symm
    simp [nextAt_cons, show 0 < t.height by omega, h0, h1, hne]

theorem countKey_present {comp_ : T → T → Bool} [DecidableEq T]
    {sl : SkipList T} {L pre rest : List (Tower T)} {t : Tower T}
    (hinv : Inv comp_ sl L) (hL : L = pre ++ t :: rest)
    (hpre : ∀ u ∈ pre, comp_ t.data u.data = true)
    (hpost : ∀ u ∈ t :: rest, comp_ t.data u.data = false) :
    countKey comp_ sl t.data = some t.count := by
  obtain ⟨M, p, hsp, hd⟩ := descend_last hinv t.data hL hpre hpost
  have hn := next_after_descent hinv hL hsp
  unfold countKey
  rw [hd, Option.some_bind, hn, Option.some_bind]
  have ht : t ∈ headTower sl :: L := by rw [hL]; simp
  have hh := inv_height_pos hinv t ht
  obtain ⟨n, h0, h1, h2, _, _⟩ := inv_shape hinv t ht
  simp [nextAt_cons, show 0 < t.height by omega, h0, h1, h2]

end SL

/-! ## insertKey preserves the invariant -/

namespace SL

variable {T : Type} [Inhabited T] [DecidableEq T]

omit [Inhabited T] [DecidableEq T] in
theorem linked_fresh (m : Mem T) (key : T) (count : Int) (height : Nat) :
    Linked (m ++ [some (Node.create key height count)])
      [({ addr := m.length, data := key, count := count, height := height } : Tower T)] := by
  intro X t Y hsp
  obtain ⟨_, rfl, rfl⟩ := split_singleton hsp
  have hl : load (m ++ [some (Node.create key height count)]) m.length
      = some (Node.create key height count) := load_append_new m _
  refine ⟨⟨_, hl, rfl, rfl, by simp [Node.create], by simp [Node.create]⟩, ?_⟩
  intro i hi
  simp only at hi
  unfold getNext getJump
  rw [hl]
  simp [Node.create, nextAt, jumpAt, hi]

omit [Inhabited T] in
theorem searchKey_eq (comp_ : T → T → Bool) (sl : SkipList T) (key : T) (e : Int) :
    searchKey comp_ { sl with num_elem_ := e } key = searchKey comp_ sl key := rfl

/-- The branch of `insertKey` for a key that is not in the list: a tower for it
appears between the towers the key sorts after and the others. -/
theorem insert_absent {comp_ : T → T → Bool} (hst : StrictTotal comp_)
    {sl : SkipList T} {L pre post : List (Tower T)}
    (hinv : Inv comp_ sl L) (key : T) (count : Int) (hr : Nat × Nat)
    (hcount : 1 ≤ count) (hh : 1 ≤ hr.1 ∧ hr.1 ≤ sl.max_height_)
    (hL : L = pre ++ post)
    (hpre : ∀ t ∈ pre, comp_ key t.data = true)
    (hpost : ∀ t ∈ post, comp_ key t.data = false)
    (habs : ∀ t ∈ post, comp_ t.data key = true) :
    ∃ sl1, insertKeyWith comp_ hr sl key count = some sl1 ∧
      Inv comp_ sl1
        (pre ++ { addr := sl.mem.length, data := key, count := count, height := hr.1 } :: post) ∧
      sl1.max_height_ = sl.max_height_ ∧ sl1.head_ = sl.head_ := by
  obtain ⟨h, r⟩ := hr
  simp only at hh
  let nw : Tower T := { addr := sl.mem.length, data := key, count := count, height := h }
  let ma : Mem T := sl.mem ++ [some (Node.create key h count)]
  have hlen := inv_length hinv
  have hLa : Linked ma ((headTower sl :: pre) ++ post) := by
    have h0 := hinv.linked
    rw [hL] at h0
    refine linked_frame h0 (fun t _ hs => shape_append _ _ t hs) ?_ ?_
    · intro t ht j
      exact getNext_append _ _ _ _ (inv_addr_lt hinv t (by rw [hL]; exact ht))
    · intro t ht j
      exact getJump_append _ _ _ _ (inv_addr_lt hinv t (by rw [hL]; exact ht))
  have hNa : Linked ma ([nw] ++ []) := linked_fresh sl.mem key count h
  have hnd : (((headTower sl :: pre) ++ nw :: post).map Tower.addr).Nodup := by
    have h0 := hinv.nodup
    rw [hL] at h0
    rw [List.map_append, List.map_cons]
    apply List.nodup_middle.mpr
    rw [List.nodup_cons]
    refine ⟨?_, by simpa using h0⟩
    intro hc
    have hc1 : nw.addr ∈ (headTower sl :: (pre ++ post)).map Tower.addr := by
      simpa using hc
    obtain ⟨t, ht, hta⟩ := List.mem_map.mp hc1
    have := inv_addr_lt hinv t (by rw [hL]; exact ht)
    simp only [nw] at hta
    omega
  obtain ⟨I1, P1, hdesc, hI1, hP1, _, hpath⟩ :=
    descendIdx_spec comp_ key ma ((headTower sl :: pre) ++ post) post hLa hpost
      sl.max_height_ [] pre (headTower sl) 0 sl.index_path_ sl.path_ rfl (le_refl _) hpre
      (by
        rw [hL, List.length_append] at hlen
        simp only [ma, List.length_append, List.length_singleton]
        omega)
      (by rw [hinv.scratch.2]) (by rw [hinv.scratch.1]) rfl
  have hdesc1 : descendIdx comp_ key ma sl.max_height_ sl.head_ 0 sl.index_path_ sl.path_
      = some (I1, P1) := hdesc
  have hpathOk : PathOk (headTower sl :: pre) I1 P1 sl.max_height_ := by
    intro i hi
    simpa using hpath i hi
  have hposc : ∀ t ∈ headTower sl :: pre, 1 ≤ t.height := by
    intro t ht
    refine inv_height_pos hinv t ?_
    rw [hL]
    rcases List.mem_cons.mp ht with h1 | h1
    · simp [h1]
    · simp [h1]
  obtain ⟨m1, hb, hS1, hN1, hL1⟩ :=
    linkBottom_spec nw hnd (staged_zero (nw :: post) hLa) (staged_zero post hNa)
      (linked_tail hLa) hpathOk (by have := hinv.hpos; omega) (by simp only [nw]; omega) hposc
  obtain ⟨m2, hl2, hS2, hN2, hL2⟩ :=
    linkLevels_spec nw hnd hpathOk (by simp only [nw]; omega) (h - 1) 1 m1
      (by simp only [nw]; omega) (le_refl _) hS1 hN1 hL1
  obtain ⟨m3, hl3, hS3, hN3, hL3⟩ :=
    bumpLevels_spec nw hnd hpathOk (sl.max_height_ - h) h m2
      (by omega) (le_refl _) hS2 hN2 hL2
  have hfin1 : Linked m3 ([nw] ++ post) :=
    staged_full hN3 (by
      intro t ht
      simp only [List.mem_singleton] at ht
      rw [ht]
      exact hh.2) hL3
  have hfin : Linked m3 ((headTower sl :: pre) ++ nw :: post) :=
    staged_full hS3 (by
      intro t ht
      rcases List.mem_cons.mp ht with h1 | h1
      · rw [h1]
        exact le_refl _
      · exact (hinv.heights t (by rw [hL]; simp [h1])).2) hfin1
  have hsearch : searchKey comp_ sl key = some false := by
    unfold searchKey
    rw [countKey_absent hst hinv key hL hpre hpost habs]
    rfl
  refine ⟨{ sl with num_elem_ := sl.num_elem_ + count, num_nodes_ := sl.num_nodes_ + 1,
                    new_rand_ := r, index_path_ := I1, path_ := P1, mem := m3 }, ?_, ?_, rfl, rfl⟩
  · unfold insertKeyWith
    rw [if_neg (by omega)]
    simp only [searchKey_eq, hsearch, Option.some_bind, Bool.not_false, if_true, alloc]
    rw [hdesc1, Option.some_bind]
    simp only
    rw [hb, Option.some_bind, hl2, Option.some_bind, hl3]
    rfl
  · refine ⟨hfin, hnd, ?_, ?_, ?_, hinv.hpos, ?_, ?_, ?_⟩
    · have h0 := hinv.sorted
      rw [hL, List.pairwise_append] at h0
      rw [List.pairwise_append, List.pairwise_cons]
      refine ⟨h0.1, ⟨habs, h0.2.1⟩, ?_⟩
      intro a ha b hb
      rcases List.mem_cons.mp hb with rfl | h1
      · exact hpre a ha
      · exact h0.2.2 a ha b h1
    · intro t ht
      rcases List.mem_append.mp ht with h1 | h1
      · exact hinv.counts t (by rw [hL]; simp [h1])
      · rcases List.mem_cons.mp h1 with rfl | h2
        · exact hcount
        · exact hinv.counts t (by rw [hL]; simp [h2])
    · intro t ht
      rcases List.mem_append.mp ht with h1 | h1
      · exact hinv.heights t (by rw [hL]; simp [h1])
      · rcases List.mem_cons.mp h1 with rfl | h2
        · exact hh
        · exact hinv.heights t (by rw [hL]; simp [h2])
    · simp only [List.length_append, List.length_cons]
      rw [hinv.nodes, hL, List.length_append]
      push_cast
      ring
    · simp only [List.map_append, List.map_cons, List.sum_append, List.sum_cons]
      rw [hinv.elems, hL, List.map_append, List.sum_append]
      ring
    · exact ⟨by rw [hP1, hinv.scratch.1], by rw [hI1, hinv.scratch.2]⟩

omit [Inhabited T] [DecidableEq T] in
theorem nextAt_replace (i : Nat) (A R : List (Tower T)) (t u : Tower T)
    (ha : u.addr = t.addr) (hh : u.height = t.height) :
    nextAt i (A ++ u :: R) = nextAt i (A ++ t :: R) ∧
      jumpAt i (A ++ u :: R) = jumpAt i (A ++ t :: R) := by
  induction A with
  | nil => simp [nextAt_cons, jumpAt_cons, ha, hh]
  | cons a A ih =>
    simp only [List.cons_append, nextAt_cons, jumpAt_cons, ih.1, ih.2]
    trivial

omit [Inhabited T] [DecidableEq T] in
theorem setCount_ok {m : Mem T} {t : Tower T} (c : Int) (h : Shape m t) :
    ∃ m1, setCount m t.addr c = some m1 := by
  obtain ⟨n, h0, _⟩ := h
  exact ⟨m.set t.addr (some { n with count_ := c }), by simp [setCount, h0]⟩

omit [Inhabited T] [DecidableEq T] in
/-- Changing the count of one tower keeps the chain. -/
theorem linked_recount {m m1 : Mem T} {c rest : List (Tower T)} {t : Tower T} {cnt : Int}
    (hnd : ((c ++ t :: rest).map Tower.addr).Nodup) (hL : Linked m (c ++ t :: rest))
    (h : setCount m t.addr cnt = some m1) :
    Linked m1 (c ++ { t with count := cnt } :: rest) := by
  intro X u Y hsp
  rcases split_append c _ X Y u hsp with ⟨A, hc, rfl⟩ | ⟨X1, rfl, hP⟩
  · have hold := hL X u (A ++ t :: rest) (by rw [hc]; simp)
    have hne : u.addr ≠ t.addr := nodup_mid_ne_left hnd u (by rw [hc]; simp)
    refine ⟨shape_setCount_ne h u hne hold.1, fun i hi => ?_⟩
    rw [getNext_setCount h, getJump_setCount h,
      (nextAt_replace i A rest t { t with count := cnt } rfl rfl).1,
      (nextAt_replace i A rest t { t with count := cnt } rfl rfl).2]
    exact hold.2 i hi
  · cases X1 with
    | nil =>
      simp only [List.nil_append, List.cons.injEq] at hP
      obtain ⟨rfl, rfl⟩ := hP
      have hold := hL c t rest rfl
      refine ⟨shape_setCount_eq t h hold.1, fun i hi => ?_⟩
      rw [getNext_setCount h, getJump_setCount h]
      exact hold.2 i hi
    | cons x X1 =>
      simp only [List.cons_append, List.cons.injEq] at hP
      obtain ⟨rfl, rfl⟩ := hP
      have hold := hL (c ++ t :: X1) u Y (by simp)
      have hne : u.addr ≠ t.addr := nodup_mid_ne_right hnd u (by simp)
      refine ⟨shape_setCount_ne h u hne hold.1, fun i hi => ?_⟩
      rw [getNext_setCount h, getJump_setCount h]
      exact hold.2 i hi

omit [DecidableEq T] in
/-- Changing the count of one tower to a positive value keeps the invariant. -/
theorem inv_recount {comp_ : T → T → Bool} {sl : SkipList T} {pre rest : List (Tower T)}
    {t : Tower T} {cnt e : Int} {m1 : Mem T} {P : List Nat}
    (hinv : Inv comp_ sl (pre ++ t :: rest)) (hcnt : 1 ≤ cnt)
    (h : setCount sl.mem t.addr cnt = some m1) (hP : P.length = sl.path_.length)
    (he : e = sl.num_elem_ + (cnt - t.count)) :
    Inv comp_ { sl with num_elem_ := e, path_ := P, mem := m1 }
      (pre ++ { t with count := cnt } :: rest) := by
  have hnd : (((headTower sl :: pre) ++ t :: rest).map Tower.addr).Nodup := hinv.nodup
  refine ⟨linked_recount (c := headTower sl :: pre) hnd hinv.linked h, ?_, ?_, ?_, ?_,
    hinv.hpos, ?_, ?_, ?_⟩
  · have h0 := hinv.nodup
    simpa using h0
  · have h0 := hinv.sorted
    simp only [List.pairwise_append, List.pairwise_cons, List.mem_cons] at h0 ⊢
    refine ⟨h0.1, h0.2.1, ?_⟩
    intro a ha b hb
    rcases hb with rfl | hb
    · exact h0.2.2 a ha t (Or.inl rfl)
    · exact h0.2.2 a ha b (Or.inr hb)
  · intro u hu
    rcases List.mem_append.mp hu with h1 | h1
    · exact hinv.counts u (by simp [h1])
    · rcases List.mem_cons.mp h1 with rfl | h2
      · exact hcnt
      · exact hinv.counts u (by simp [h2])
  · intro u hu
    rcases List.mem_append.mp hu with h1 | h1
    · exact hinv.heights u (by simp [h1])
    · rcases List.mem_cons.mp h1 with rfl | h2
      · exact hinv.heights t (by simp)
      · exact hinv.heights u (by simp [h2])
  · have := hinv.nodes
    simpa using this
  · have := hinv.elems
    simp only [List.map_append, List.map_cons, List.sum_append, List.sum_cons] at this ⊢
    rw [he, this]
    ring
  · exact ⟨by rw [← hinv.scratch.1]; exact hP, hinv.scratch.2⟩

/-- The branch of `insertKey` for a key that is in the list: its count grows. -/
theorem insert_present {comp_ : T → T → Bool}
    {sl : SkipList T} {pre rest : List (Tower T)} {t : Tower T}
    (hinv : Inv comp_ sl (pre ++ t :: rest)) (count : Int) (hr : Nat × Nat)
    (hcount : 1 ≤ count)
    (hpre : ∀ u ∈ pre, comp_ t.data u.data = true)
    (hpost : ∀ u ∈ t :: rest, comp_ t.data u.data = false) :
    ∃ sl1, insertKeyWith comp_ hr sl t.data count = some sl1 ∧
      Inv comp_ sl1 (pre ++ { t with count := t.count + count } :: rest) ∧
      sl1.max_height_ = sl.max_height_ ∧ sl1.head_ = sl.head_ := by
  have htc : 1 ≤ t.count := hinv.counts t (by simp)
  have hsearch : searchKey comp_ sl t.data = some true := by
    unfold searchKey
    rw [countKey_present hinv rfl hpre hpost]
    simp only [Option.map_some', Option.some.injEq, decide_eq_true_eq]
    omega
  obtain ⟨M, p, hsp, hd⟩ := descend_last hinv t.data rfl hpre hpost
  have hn := next_after_descent hinv rfl hsp
  have ht : t ∈ headTower sl :: (pre ++ t :: rest) := by simp
  have hh := inv_height_pos hinv t ht
  have hsh := inv_shape hinv t ht
  rw [nextAt_cons, if_pos (by omega)] at hn
  obtain ⟨m1, h1⟩ := setCount_ok (t.count + count) hsh
  refine ⟨{ sl with num_elem_ := sl.num_elem_ + count, path_ := sl.path_, mem := m1 },
    ?_, ?_, rfl, rfl⟩
  · unfold insertKeyWith
    rw [if_neg (by omega)]
    simp only [searchKey_eq, hsearch, Option.some_bind, Bool.not_true, Bool.false_eq_true,
      if_false]
    rw [hd, Option.some_bind, hn, Option.some_bind]
    simp only [Option.some_bind]
    rw [shape_getCount hsh, Option.some_bind, h1]
    rfl
  · exact inv_recount hinv (by omega) h1 rfl (by ring)

end SL

/-! ## eraseKey: unlinking a tower -/

namespace SL

variable {T : Type}

/-- Unlinking level `k` of the tower `tm` from `p`, the last tower with level `k`
before it, moves the splice from stage `k` to stage `k + 1`. -/
theorem era_stage {m : Mem T} (m4 : Mem T) {k : Nat} {c post X1 A1 : List (Tower T)}
    {tm p : Tower T}
    (hnd : ((c ++ tm :: post).map Tower.addr).Nodup)
    (hS : Staged m k (tm :: post) post c) (hL : Linked m (tm :: post))
    (hc : c = X1 ++ p :: A1) (hp : k < p.height) (hA1 : ∀ t ∈ A1, t.height ≤ k)
    (hshape : ∀ t, Shape m t → Shape m4 t)
    (effN : ∀ q j, getNext m4 q j =
      if q = p.addr ∧ j = k then some (nextAt k (A1 ++ post)) else getNext m q j)
    (effJ : ∀ q j, getJump m4 q j =
      if q = p.addr ∧ j = k then some (jumpAt k (A1 ++ post)) else getJump m q j) :
    Staged m4 (k + 1) (tm :: post) post c ∧ Linked m4 (tm :: post) := by
  have hndc := nodup_left hnd
  have hpc : p ∈ c := by rw [hc]; simp
  refine ⟨?_, ?_⟩
  · refine staged_step hS hshape ?_ ?_ ?_ ?_
    · intro X t A hsp ht
      rw [effN]
      by_cases hta : t.addr = p.addr
      · obtain ⟨_, _, rfl⟩ := split_unique hndc hsp hc hta
        rw [if_pos ⟨hta, rfl⟩]
      · rw [if_neg (fun h => hta h.1)]
        have h0 := ((hS X t A hsp).2 k ht).1
        simp only [lt_irrefl, if_false] at h0
        rw [h0]
        rcases split_cmp X A X1 A1 t p (hsp ▸ hc) with ⟨M, rfl, _⟩ | h | ⟨M, rfl, _⟩
        · have hne := nextAt_split_ne_none k M A1 p hp
          rw [(nextAt_append_of_some k _ post hne).1,
            (nextAt_append_of_some k _ (tm :: post) hne).1]
        · exact absurd (by rw [h.2.1]) hta
        · have := hA1 t (by simp)
          omega
    · intro X t A hsp ht
      rw [effJ]
      by_cases hta : t.addr = p.addr
      · obtain ⟨_, _, rfl⟩ := split_unique hndc hsp hc hta
        rw [if_pos ⟨hta, rfl⟩]
      · rw [if_neg (fun h => hta h.1)]
        have h0 := ((hS X t A hsp).2 k ht).2
        simp only [lt_irrefl, if_false] at h0
        rw [h0]
        rcases split_cmp X A X1 A1 t p (hsp ▸ hc) with ⟨M, rfl, _⟩ | h | ⟨M, rfl, _⟩
        · have hne := nextAt_split_ne_none k M A1 p hp
          rw [(nextAt_append_of_some k _ post hne).2,
            (nextAt_append_of_some k _ (tm :: post) hne).2]
        · exact absurd (by rw [h.2.1]) hta
        · have := hA1 t (by simp)
          omega
    · intro q j hj
      rw [effN, if_neg (fun h => hj h.2)]
    · intro q j hj
      rw [effJ, if_neg (fun h => hj h.2)]
  · have hne : ∀ t ∈ tm :: post, t.addr ≠ p.addr := by
      intro t ht
      rcases List.mem_cons.mp ht with rfl | h
      · exact (nodup_mid_ne_left hnd p hpc).symm
      · exact nodup_left_ne_right hnd t p h hpc
    refine linked_frame hL (fun t _ h => hshape t h) ?_ ?_
    · intro t ht j
      rw [effN, if_neg (fun h => hne t ht h.1)]
    · intro t ht j
      rw [effJ, if_neg (fun h => hne t ht h.1)]

theorem unlinkLevels_spec {c post : List (Tower T)} (tm : Tower T) {P : List Nat} {H : Nat}
    (hnd : ((c ++ tm :: post).map Tower.addr).Nodup)
    (hpath : ∀ i, i < H → ∃ X1 p A1, c = X1 ++ p :: A1 ∧ i < p.height ∧
      (∀ t ∈ A1, t.height ≤ i) ∧ P[i]? = some p.addr) :
    ∀ (r k : Nat) (m : Mem T), k + r = H →
      Staged m k (tm :: post) post c → Linked m (tm :: post) →
      ∃ m4, unlinkLevels P tm.addr r k m = some m4 ∧
        Staged m4 H (tm :: post) post c ∧ Linked m4 (tm :: post) := by
  intro r
  induction r with
  | zero =>
    intro k m hkr hS hL
    have : k = H := by omega
    subst this
    exact ⟨m, rfl, hS, hL⟩
  | succ r ih =>
    intro k m hkr hS hL
    obtain ⟨X1, p, A1, hc, hp, hA1, hP⟩ := hpath k (by omega)
    have hpc : p ∈ c := by rw [hc]; simp
    have hg : getNext m p.addr k = some (nextAt k (tm :: post)) := by
      have := ((hS X1 p A1 hc).2 k hp).1
      simpa [nextAt_low_append k A1 (tm :: post) hA1] using this
    have hj : getJump m p.addr k = some (jumpAt k (A1 ++ tm :: post)) := by
      simpa using ((hS X1 p A1 hc).2 k hp).2
    unfold unlinkLevels
    rw [hP, Option.some_bind, hg, Option.some_bind]
    by_cases hk : k < tm.height
    · -- the tower has level `k`: `p` points to it
      have hnx : nextAt k (tm :: post) = some tm.addr := by simp [nextAt_cons, hk]
      have htn : getNext m tm.addr k = some (nextAt k post) := ((hL [] tm post rfl).2 k hk).1
      have htj : getJump m tm.addr k = some (jumpAt k post) := ((hL [] tm post rfl).2 k hk).2
      have hpt : tm.addr ≠ p.addr := (nodup_mid_ne_left hnd p hpc).symm
      obtain ⟨m1, h1⟩ := setNext_ok (nextAt k post) hg
      have hj1 : getJump m1 p.addr k = some (A1.length : Int) := by
        rw [getJump_setNext h1, hj, jumpAt_high k A1 post tm hA1 hk]
      have htj1 : getJump m1 tm.addr k = some (jumpAt k post) := by
        rw [getJump_setNext h1, htj]
      rw [hnx]
      simp only [ne_eq, not_true_eq_false, if_false]
      rw [htn, Option.some_bind, h1, Option.some_bind]
      have hfinal : ∀ (v : Int) (m2 : Mem T), setJump m1 p.addr k v = some m2 →
          v = jumpAt k (A1 ++ post) →
          ∃ m4, unlinkLevels P tm.addr r (k + 1) m2 = some m4 ∧
            Staged m4 H (tm :: post) post c ∧ Linked m4 (tm :: post) := by
        intro v m2 h2 hv
        have hstage := era_stage m2 hnd hS hL hc hp hA1
          (fun t ht => shape_setJump h2 t (shape_setNext h1 t ht))
          (fun q j => by
            rw [getNext_setJump h2, getNext_setNext h1, nextAt_low_append k A1 post hA1])
          (fun q j => by rw [getJump_setJump h2, getJump_setNext h1, hv])
        exact ih (k + 1) m2 (by omega) hstage.1 hstage.2
      cases hn : nextAt k post with
      | none =>
        obtain ⟨m2, h2⟩ := setJump_ok JUMP_TO_NULL hj1
        simp only
        rw [h2, Option.some_bind]
        refine hfinal _ m2 h2 ?_
        rw [jumpAt_low_append k A1 post hA1, if_pos hn]
      | some a =>
        obtain ⟨m2, h2⟩ := setJump_ok ((A1.length : Int) + jumpAt k post) hj1
        simp only
        rw [hj1, Option.some_bind, htj1, Option.some_bind, h2, Option.some_bind]
        refine hfinal _ m2 h2 ?_
        rw [jumpAt_low_append k A1 post hA1, if_neg (by rw [hn]; simp)]
        ring
    · -- the tower has no level `k`: `p` jumps over it
      have hk1 : tm.height ≤ k := by omega
      have hnx : nextAt k (tm :: post) = nextAt k post := by simp [nextAt_cons, hk]
      have hne : nextAt k post ≠ some tm.addr := by
        intro hc1
        obtain ⟨S, t, R, hsp, _, _, hta⟩ := nextAt_mem k post tm.addr hc1
        exact nodup_mid_ne_right hnd t (by rw [hsp]; simp) hta
      have hskip := jumpAt_skip_low k A1 post tm hA1 hk1
      have hnA : nextAt k (A1 ++ post) = nextAt k post := nextAt_low_append k A1 post hA1
      rw [hnx, if_pos hne]
      cases hn : nextAt k post with
      | none =>
        simp only
        have hnull : jumpAt k (A1 ++ post) = JUMP_TO_NULL :=
          jumpAt_of_none k _ (by rw [hnA, hn])
        rw [if_pos hnull] at hskip
        have hstage := era_stage m hnd hS hL hc hp hA1 (fun t ht => ht)
          (fun q j => by
            by_cases hq : q = p.addr ∧ j = k
            · rw [if_pos hq, hq.1, hq.2, hg, hnx, hnA]
            · rw [if_neg hq])
          (fun q j => by
            by_cases hq : q = p.addr ∧ j = k
            · rw [if_pos hq, hq.1, hq.2, hj, hskip, hnull]
            · rw [if_neg hq])
        exact ih (k + 1) m (by omega) hstage.1 hstage.2
      | some a =>
        simp only
        have hnn : ¬ (jumpAt k (A1 ++ post) = JUMP_TO_NULL) := by
          rw [jumpAt_eq_null_iff, hnA, hn]
          simp
        rw [if_neg hnn] at hskip
        obtain ⟨m1, h1⟩ := setJump_ok (jumpAt k (A1 ++ tm :: post) - 1) hj
        rw [hj, Option.some_bind, h1, Option.some_bind]
        have hstage := era_stage m1 hnd hS hL hc hp hA1
          (fun t ht => shape_setJump h1 t ht)
          (fun q j => by
            rw [getNext_setJump h1]
            by_cases hq : q = p.addr ∧ j = k
            · rw [if_pos hq, hq.1, hq.2, hg, hnx, hnA]
            · rw [if_neg hq])
          (fun q j => by
            rw [getJump_setJump h1, hskip]
            congr 2
            ring)
        exact ih (k + 1) m1 (by omega) hstage.1 hstage.2

section

variable [Inhabited T] [DecidableEq T]

/-- `eraseKey` of a key that is not in the list returns the list as it is. -/
theorem erase_absent {comp_ : T → T → Bool} (hst : StrictTotal comp_)
    {sl : SkipList T} {L pre post : List (Tower T)}
    (hinv : Inv comp_ sl L) (key : T) (count : Int)
    (hL : L = pre ++ post)
    (hpre : ∀ t ∈ pre, comp_ key t.data = true)
    (hpost : ∀ t ∈ post, comp_ key t.data = false)
    (habs : ∀ t ∈ post, comp_ t.data key = true) :
    eraseKey comp_ sl key count = some sl := by
  unfold eraseKey eraseKeyWith
  by_cases hc : count < 1
  · rw [if_pos hc]
  · rw [if_neg hc, countKey_absent hst hinv key hL hpre hpost habs]
    rfl

omit [DecidableEq T] in
/-- The descent of `eraseKey` on a key that is in the list. -/
theorem erase_descent {comp_ : T → T → Bool}
    {sl : SkipList T} {pre rest : List (Tower T)} {t : Tower T}
    (hinv : Inv comp_ sl (pre ++ t :: rest))
    (hpre : ∀ u ∈ pre, comp_ t.data u.data = true)
    (hpost : ∀ u ∈ t :: rest, comp_ t.data u.data = false) :
    ∃ it P1, descendPath comp_ t.data sl.mem sl.max_height_ sl.head_ sl.path_ = some (it, P1) ∧
      P1.length = sl.path_.length ∧ getNext sl.mem it 0 = some (some t.addr) ∧
      ∀ i, i < sl.max_height_ → ∃ X1 p A1, headTower sl :: pre = X1 ++ p :: A1 ∧
        i < p.height ∧ (∀ u ∈ A1, u.height ≤ i) ∧ P1[i]? = some p.addr := by
  have hlen := inv_length hinv
  obtain ⟨it, P1, hd, hP1, _, _, hall⟩ :=
    descendPath_spec comp_ t.data sl.mem (headTower sl :: (pre ++ t :: rest)) (t :: rest)
      hinv.linked hpost sl.max_height_ [] pre (headTower sl) sl.path_ rfl (le_refl _) hpre
      (by rw [List.length_append] at hlen; omega) (by rw [hinv.scratch.1])
  refine ⟨it, P1, hd, hP1, ?_, ?_⟩
  · obtain ⟨X1, p, A1, hsp, hp, hA1, _, hit⟩ := hall 0 (by have := hinv.hpos; omega)
    have hA1nil : A1 = [] := by
      apply List.eq_nil_iff_forall_not_mem.mpr
      intro u hu
      have h1 := hA1 u hu
      have h2 := inv_height_pos hinv u (by
        have : u ∈ [] ++ headTower sl :: pre := by rw [hsp]; simp [hu]
        rcases List.mem_cons.mp this with h | h
        · simp [h]
        · simp [h])
      omega
    subst hA1nil
    rw [hit rfl]
    have := next_after_descent (M := X1) (p := p) hinv rfl (by simpa using hsp)
    rw [this, nextAt_cons, if_pos]
    have := inv_height_pos hinv t (by simp)
    omega
  · intro i hi
    obtain ⟨X1, p, A1, hsp, hp, hA1, hP, _⟩ := hall i hi
    exact ⟨X1, p, A1, by simpa using hsp, hp, hA1, hP⟩

/-- `eraseKey` with fewer occurrences than the key has: its count shrinks. -/
theorem erase_partial {comp_ : T → T → Bool}
    {sl : SkipList T} {pre rest : List (Tower T)} {t : Tower T}
    (hinv : Inv comp_ sl (pre ++ t :: rest)) (count : Int)
    (hcount : 1 ≤ count) (hlt : count < t.count)
    (hpre : ∀ u ∈ pre, comp_ t.data u.data = true)
    (hpost : ∀ u ∈ t :: rest, comp_ t.data u.data = false) :
    ∃ sl1, eraseKey comp_ sl t.data count = some sl1 ∧
      Inv comp_ sl1 (pre ++ { t with count := t.count - count } :: rest) ∧
      sl1.max_height_ = sl.max_height_ ∧ sl1.head_ = sl.head_ := by
  obtain ⟨it, P1, hd, hP1, hn, _⟩ := erase_descent hinv hpre hpost
  have hsh := inv_shape hinv t (by simp)
  obtain ⟨m1, h1⟩ := setCount_ok (t.count - count) hsh
  refine ⟨{ sl with num_elem_ := sl.num_elem_ - count, path_ := P1, mem := m1 },
    ?_, ?_, rfl, rfl⟩
  · unfold eraseKey eraseKeyWith
    rw [if_neg (by omega), countKey_present hinv rfl hpre hpost, Option.some_bind,
      if_neg (by omega), hd, Option.some_bind]
    simp only
    rw [hn, Option.some_bind]
    simp only [Option.some_bind]
    rw [shape_getCount hsh, Option.some_bind, h1, Option.some_bind, if_neg (by omega),
      if_pos (by omega)]
  · exact inv_recount hinv (by omega) h1 hP1 (by ring)

/-- `eraseKey` with at least as many occurrences as the key has: its tower goes. -/
theorem erase_full {comp_ : T → T → Bool}
    {sl : SkipList T} {pre rest : List (Tower T)} {t : Tower T}
    (hinv : Inv comp_ sl (pre ++ t :: rest)) (count : Int)
    (hcount : 1 ≤ count) (hge : t.count ≤ count)
    (hpre : ∀ u ∈ pre, comp_ t.data u.data = true)
    (hpost : ∀ u ∈ t :: rest, comp_ t.data u.data = false) :
    ∃ sl1, eraseKey comp_ sl t.data count = some sl1 ∧
      Inv comp_ sl1 (pre ++ rest) ∧
      sl1.max_height_ = sl.max_height_ ∧ sl1.head_ = sl.head_ := by
  obtain ⟨it, P1, hd, hP1, hn, hpath⟩ := erase_descent hinv hpre hpost
  have hsh := inv_shape hinv t (by simp)
  have htc : 1 ≤ t.count := hinv.counts t (by simp)
  obtain ⟨m1, h1⟩ := setCount_ok (t.count - count) hsh
  let tm : Tower T := { t with count := t.count - count }
  have hnd : (((headTower sl :: pre) ++ t :: rest).map Tower.addr).Nodup := hinv.nodup
  have hnd1 : (((headTower sl :: pre) ++ tm :: rest).map Tower.addr).Nodup := by
    simpa [tm] using hnd
  have hL1 : Linked m1 ((headTower sl :: pre) ++ tm :: rest) :=
    linked_recount (c := headTower sl :: pre) hnd hinv.linked h1
  obtain ⟨m2, h2, hS2, hL2⟩ :=
    unlinkLevels_spec tm (P := P1) hnd1 hpath sl.max_height_ 0 m1 (by omega)
      (staged_zero rest hL1) (linked_tail hL1)
  have hfin2 : Linked m2 ((headTower sl :: pre) ++ rest) :=
    staged_full hS2 (by
      intro u hu
      rcases List.mem_cons.mp hu with h | h
      · rw [h]
        exact le_refl _
      · exact (hinv.heights u (by simp [h])).2)
      (linked_tail (c := [tm]) hL2)
  obtain ⟨m3, h3⟩ := free_ok (hL2 [] tm rest rfl).1
  have hne : ∀ u ∈ (headTower sl :: pre) ++ rest, u.addr ≠ t.addr := by
    intro u hu
    rcases List.mem_append.mp hu with h | h
    · exact nodup_mid_ne_left hnd u h
    · exact nodup_mid_ne_right hnd u h
  have hfin3 : Linked m3 ((headTower sl :: pre) ++ rest) :=
    linked_frame hfin2 (fun u hu hs => shape_free h3 u (hne u hu) hs)
      (fun u hu j => getNext_free h3 _ _ (hne u hu))
      (fun u hu j => getJump_free h3 _ _ (hne u hu))
  refine ⟨{ sl with num_elem_ := sl.num_elem_ - t.count, num_nodes_ := sl.num_nodes_ - 1,
                    path_ := P1, mem := m3 }, ?_, ?_, rfl, rfl⟩
  · unfold eraseKey eraseKeyWith
    rw [if_neg (by omega), countKey_present hinv rfl hpre hpost, Option.some_bind,
      if_neg (by omega), hd, Option.some_bind]
    simp only
    rw [hn, Option.some_bind]
    simp only [Option.some_bind]
    rw [shape_getCount hsh, Option.some_bind, h1, Option.some_bind, if_pos (by omega), h2,
      Option.some_bind, h3, if_neg (by omega)]
    rfl
  · refine ⟨hfin3, ?_, ?_, ?_, ?_, hinv.hpos, ?_, ?_, ?_⟩
    · have h0 := List.nodup_middle.mp (by simpa using hnd :
        ((headTower sl :: pre).map Tower.addr ++ t.addr :: rest.map Tower.addr).Nodup)
      simpa using (List.nodup_cons.mp h0).2
    · have h0 := hinv.sorted
      simp only [List.pairwise_append, List.pairwise_cons, List.mem_cons] at h0 ⊢
      exact ⟨h0.1, h0.2.1.2, fun a ha b hb => h0.2.2 a ha b (Or.inr hb)⟩
    · intro u hu
      rcases List.mem_append.mp hu with h | h
      · exact hinv.counts u (by simp [h])
      · exact hinv.counts u (by simp [h])
    · intro u hu
      rcases List.mem_append.mp hu with h | h
      · exact hinv.heights u (by simp [h])
      · exact hinv.heights u (by simp [h])
    · have := hinv.nodes
      simp only [List.length_append, List.length_cons] at this ⊢
      simp only [this]
      push_cast
      ring
    · have := hinv.elems
      simp only [List.map_append, List.map_cons, List.sum_append, List.sum_cons] at this ⊢
      simp only [this]
      ring
    · exact ⟨by rw [← hinv.scratch.1]; exact hP1, hinv.scratch.2⟩

end

end SL

/-! ## Iteration and indexed access -/

namespace SL

variable {T : Type}

/-- The iteration along level 0 visits the keys of the towers in order. -/
theorem iterate_spec (m : Mem T) :
    ∀ (Y : List (Tower T)) (fuel : Nat), Linked m Y → (∀ t ∈ Y, 1 ≤ t.height) →
      Y.length < fuel → iterate m fuel (nextAt 0 Y) = some (Y.map Tower.data) := by
  intro Y
  induction Y with
  | nil =>
    intro fuel _ _ hf
    cases fuel with
    | zero => omega
    | succ f => rfl
  | cons t R ih =>
    intro fuel hL hpos hf
    cases fuel with
    | zero => omega
    | succ f =>
      have ht := hpos t (by simp)
      obtain ⟨⟨n, h0, h1, _, _, _⟩, h2⟩ := hL [] t R rfl
      have hn := (h2 0 (by omega)).1
      unfold getNext at hn
      rw [h0, Option.some_bind] at hn
      rw [nextAt_cons, if_pos (by omega)]
      unfold iterate
      rw [h0, Option.some_bind, hn, Option.some_bind,
        ih f (linked_tail (c := [t]) hL) (fun u hu => hpos u (by simp [hu]))
          (by simp only [List.length_cons] at hf; omega)]
      simp [h1]

/-- The walk of `operator[]` along level `i`: it moves over `M`, at most `r` towers,
and stops before the next tower with level `i` that would be too far. -/
theorem advanceByIndex_spec (m : Mem T) (i : Nat) (C : List (Tower T)) (hL : Linked m C) :
    ∀ (fuel : Nat) (X Y : List (Tower T)) (c : Tower T) (r : Int),
      C = X ++ c :: Y → i < c.height → 0 ≤ r → Y.length < fuel →
      ∃ M p Y1, c :: Y = M ++ p :: Y1 ∧ i < p.height ∧ (M.length : Int) ≤ r ∧
        (∀ t ∈ Y1.take (r - M.length).toNat, t.height ≤ i) ∧
        advanceByIndex m i fuel c.addr r = some (p.addr, r - M.length) := by
  intro fuel
  induction fuel with
  | zero => intro X Y c r _ _ _ hf; omega
  | succ f ih =>
    intro X Y c r hC hc hr hf
    have hcell := (hL X c Y hC).2 i hc
    unfold advanceByIndex
    rw [hcell.1, Option.some_bind]
    rcases low_or_split i Y with hlow | ⟨S, t, R, rfl, hS, ht⟩
    · rw [(nextAt_none_iff i Y).mpr hlow]
      refine ⟨[], c, Y, rfl, hc, by simpa using hr, ?_, by simp⟩
      intro u hu
      exact hlow u (List.mem_of_mem_take hu)
    · rw [nextAt_high i S R t hS ht]
      simp only
      rw [hcell.2, Option.some_bind, jumpAt_high i S R t hS ht]
      by_cases hge : r ≥ (S.length : Int) + 1
      · rw [if_pos hge]
        obtain ⟨M, p, Y1, hsp, hp, hM, hlow, hres⟩ :=
          ih (X ++ c :: S) R t (r - ((S.length : Int) + 1)) (by rw [hC]; simp) ht (by omega)
            (by simp only [List.length_append, List.length_cons] at hf; omega)
        have hlen : (((c :: S ++ M).length : Nat) : Int) = (S.length : Int) + 1 + M.length := by
          simp only [List.length_append, List.length_cons]
          push_cast
          ring
        refine ⟨c :: S ++ M, p, Y1, ?_, hp, ?_, ?_, ?_⟩
        · rw [List.append_assoc, ← hsp]
          simp
        · rw [hlen]
          omega
        · rw [hlen]
          have : r - ((S.length : Int) + 1 + M.length) = r - ((S.length : Int) + 1) - M.length := by
            ring
          rw [this]
          exact hlow
        · rw [hres, hlen]
          congr 2
          ring
      · rw [if_neg hge]
        refine ⟨[], c, S ++ t :: R, rfl, hc, by simpa using hr, ?_, by simp⟩
        intro u hu
        simp only [List.length_nil, Nat.cast_zero, sub_zero] at hu
        have hle : r.toNat ≤ S.length := by omega
        rw [List.take_append_of_le_length hle] at hu
        exact hS u (List.mem_of_mem_take hu)

/-- The descent of `operator[]` through the levels below `n`. -/
theorem descendByIndex_spec (m : Mem T) (C : List (Tower T)) (hL : Linked m C) :
    ∀ (n : Nat) (X Y : List (Tower T)) (c : Tower T) (r : Int),
      C = X ++ c :: Y → n ≤ c.height → 0 ≤ r → Y.length < m.length →
      ∃ M p Y1, c :: Y = M ++ p :: Y1 ∧ (M.length : Int) ≤ r ∧
        (0 < n → ∀ t ∈ Y1.take (r - M.length).toNat, t.height ≤ 0) ∧
        descendByIndex m n c.addr r = some (p.addr, r - M.length) := by
  intro n
  induction n with
  | zero =>
    intro X Y c r _ _ hr _
    exact ⟨[], c, Y, rfl, by simpa using hr, fun h => absurd h (by omega), by simp [descendByIndex]⟩
  | succ n ih =>
    intro X Y c r hC hc hr hf
    obtain ⟨M, p, Y1, hsp, hp, hM, hlow, hres⟩ :=
      advanceByIndex_spec m n C hL m.length X Y c r hC (by omega) hr hf
    have hC1 : C = (X ++ M) ++ p :: Y1 := by
      rw [hC, hsp]
      simp
    have hlen := split_tail_length c p Y M Y1 hsp
    unfold descendByIndex
    rw [hres, Option.some_bind]
    cases n with
    | zero =>
      exact ⟨M, p, Y1, hsp, hM, fun _ => hlow, by simp [descendByIndex]⟩
    | succ k =>
      obtain ⟨M1, p1, Y2, hsp1, hM1, hlow1, hd⟩ :=
        ih (X ++ M) Y1 p (r - M.length) hC1 (by omega) (by omega) (by omega)
      have hlen1 : (((M ++ M1).length : Nat) : Int) = (M.length : Int) + M1.length := by
        simp
      refine ⟨M ++ M1, p1, Y2, ?_, ?_, ?_, ?_⟩
      · rw [hsp, hsp1]
        simp
      · rw [hlen1]
        omega
      · intro _
        rw [hlen1]
        have : r - ((M.length : Int) + M1.length) = r - M.length - M1.length := by ring
        rw [this]
        exact hlow1 (by omega)
      · simp only
        rw [hd, hlen1]
        congr 2
        ring

end SL

/-! ## What the invariant says about the observations -/

namespace SL

variable {T : Type} [Inhabited T]

theorem traversal_spec {comp_ : T → T → Bool} {sl : SkipList T} {L : List (Tower T)}
    (hinv : Inv comp_ sl L) : traversal sl = some (L.map Tower.data) := by
  have hh : getNext sl.mem sl.head_ 0 = some (nextAt 0 L) :=
    ((hinv.linked [] (headTower sl) L rfl).2 0 hinv.hpos).1
  unfold traversal
  rw [hh, Option.some_bind]
  exact iterate_spec sl.mem L sl.mem.length (linked_tail (c := [headTower sl]) hinv.linked)
    (fun t ht => (hinv.heights t ht).1) (by have := inv_length hinv; omega)

/-- Indexed access inside the bounds returns the key of the tower at that
position, and writes no diagnostic. -/
theorem subscript_spec {comp_ : T → T → Bool} {sl : SkipList T} {L : List (Tower T)}
    (hinv : Inv comp_ sl L) (idx : Nat) (t : Tower T) (ht : L[idx]? = some t) :
    subscript sl (idx : Int) = some (false, t.data) := by
  have hlt : idx < L.length := by
    by_contra hc
    rw [List.getElem?_eq_none (by omega)] at ht
    cases ht
  have hlen := inv_length hinv
  obtain ⟨M, p, Y1, hsp, hM, hlow, hd⟩ :=
    descendByIndex_spec sl.mem (headTower sl :: L) hinv.linked sl.max_height_ [] L
      (headTower sl) ((idx : Int) + 1) rfl (le_refl _) (by omega) (by omega)
  have hlow1 := hlow hinv.hpos
  have hlens := congrArg List.length hsp
  simp only [List.length_cons, List.length_append] at hlens
  have hY : ∀ u ∈ Y1, 1 ≤ u.height := by
    intro u hu
    exact inv_height_pos hinv u (by rw [hsp]; simp [hu])
  have hMlen : M.length = idx + 1 := by
    by_contra hne
    have hlt2 : M.length < idx + 1 := by omega
    have hpos : 0 < ((idx : Int) + 1 - M.length).toNat := by omega
    cases Y1 with
    | nil =>
      simp only [List.length_nil] at hlens
      omega
    | cons u Y2 =>
      have hmem : u ∈ (u :: Y2).take ((idx : Int) + 1 - M.length).toNat := by
        obtain ⟨k, hk⟩ := Nat.exists_eq_succ_of_ne_zero (by omega :
          ((idx : Int) + 1 - M.length).toNat ≠ 0)
        rw [hk]
        simp
      have h1 := hlow1 u hmem
      have h2 := hY u (by simp)
      omega
  have hp : p = t := by
    have h1 : (headTower sl :: L)[idx + 1]? = some p := by
      rw [hsp, List.getElem?_append_right (by omega)]
      simp [hMlen]
    rw [List.getElem?_cons_succ, ht] at h1
    exact (Option.some.inj h1).symm
  subst hp
  have hsh := inv_shape hinv p (by rw [hsp]; simp)
  unfold subscript
  have hd1 : descendByIndex sl.mem sl.max_height_ sl.head_ ((idx : Int) + 1)
      = some (p.addr, (idx : Int) + 1 - M.length) := hd
  rw [hd1, Option.some_bind]
  simp only
  rw [shape_getData hsh, hinv.nodes]
  simp only [Option.map_some', Option.some.injEq, Prod.mk.injEq, decide_eq_false_iff_not,
    and_true]
  omega

variable [DecidableEq T]

omit [Inhabited T] in
theorem occ_append (A B : List (Tower T)) (x : T) : occ (A ++ B) x = occ A x + occ B x := by
  simp [occ, List.filter_append]

omit [Inhabited T] in
theorem occ_cons (t : Tower T) (B : List (Tower T)) (x : T) :
    occ (t :: B) x = (if t.data = x then t.count else 0) + occ B x := by
  by_cases h : t.data = x
  · simp [occ, List.filter_cons, h]
  · simp [occ, List.filter_cons, h]

omit [Inhabited T] in
theorem occ_zero_of_ne (A : List (Tower T)) (x : T) (h : ∀ t ∈ A, t.data ≠ x) :
    occ A x = 0 := by
  induction A with
  | nil => rfl
  | cons a A ih =>
    rw [occ_cons, if_neg (h a (by simp)), ih (fun t ht => h t (by simp [ht]))]
    rfl

omit [Inhabited T] in
theorem occ_nonneg (A : List (Tower T)) (x : T) (h : ∀ t ∈ A, 1 ≤ t.count) :
    0 ≤ occ A x := by
  induction A with
  | nil => simp [occ]
  | cons a A ih =>
    rw [occ_cons]
    have h1 := ih (fun t ht => h t (by simp [ht]))
    have h2 := h a (by simp)
    split <;> omega

omit [Inhabited T] in
theorem mem_keys_iff_occ (A : List (Tower T)) (x : T) (h : ∀ t ∈ A, 1 ≤ t.count) :
    x ∈ A.map Tower.data ↔ 1 ≤ occ A x := by
  induction A with
  | nil => simp [occ]
  | cons a A ih =>
    have h1 := ih (fun t ht => h t (by simp [ht]))
    have h2 := h a (by simp)
    have h3 := occ_nonneg A x (fun t ht => h t (by simp [ht]))
    rw [occ_cons, List.map_cons, List.mem_cons]
    by_cases hx : a.data = x
    · rw [if_pos hx]
      constructor
      · intro _
        omega
      · intro _
        exact Or.inl hx.symm
    · rw [if_neg hx, zero_add, ← h1]
      constructor
      · rintro (h4 | h4)
        · exact absurd h4.symm hx
        · exact h4
      · intro h4
        exact Or.inr h4

/-- `countKey` returns the number of occurrences recorded for the key. -/
theorem countKey_occ {comp_ : T → T → Bool} (hst : StrictTotal comp_)
    {sl : SkipList T} {L : List (Tower T)} (hinv : Inv comp_ sl L) (key : T) :
    countKey comp_ sl key = some (occ L key) := by
  obtain ⟨pre, post, hL, hpre, hpost⟩ := key_split hst key L hinv.sorted
  have hs := hinv.sorted
  rw [hL, List.pairwise_append] at hs
  have hpre0 : occ pre key = 0 :=
    occ_zero_of_ne pre key (fun t ht => (ne_of_comp hst (hpre t ht)).symm)
  rcases post_cases hst key post hs.2.1 hpost with habs | ⟨t, rest, rfl, hk, hrest⟩
  · rw [countKey_absent hst hinv key hL hpre hpost habs, hL, occ_append, hpre0,
      occ_zero_of_ne post key (fun t ht => ne_of_comp hst (habs t ht))]
    rfl
  · subst hk
    subst hL
    rw [countKey_present hinv rfl hpre hpost, occ_append, hpre0, occ_cons, if_pos rfl,
      occ_zero_of_ne rest t.data (fun u hu => ne_of_comp hst (hrest u hu))]
    simp

omit [DecidableEq T] in
theorem keys_pairwise {comp_ : T → T → Bool} {sl : SkipList T} {L : List (Tower T)}
    (hinv : Inv comp_ sl L) :
    (L.map Tower.data).Pairwise (fun a b => comp_ b a = true) := by
  rw [List.pairwise_map]
  exact hinv.sorted

omit [DecidableEq T] in
theorem keys_nodup {comp_ : T → T → Bool} (hst : StrictTotal comp_) {sl : SkipList T}
    {L : List (Tower T)} (hinv : Inv comp_ sl L) : (L.map Tower.data).Nodup := by
  have h := keys_pairwise hinv
  exact h.imp (fun hab => (ne_of_comp hst hab).symm)

end SL

/-! ## Every sequence of calls keeps the invariant -/

namespace SL

variable {T : Type} [Inhabited T] [DecidableEq T]

omit [DecidableEq T] in
theorem create_inv (comp_ : T → T → Bool) (seed : Nat) : Inv comp_ (create T seed) [] := by
  refine ⟨?_, ?_, List.Pairwise.nil, ?_, ?_, ?_, rfl, rfl, ?_⟩
  · exact linked_fresh ([] : Mem T) default 1 H_MAX
  · simp
  · simp
  · simp
  · simp [create, H_MAX]
  · simp [create]

/-- One `insertKey` with a positive count: the invariant is kept and the key has
`count` more occurrences. -/
theorem insert_step {comp_ : T → T → Bool} (hst : StrictTotal comp_)
    {sl : SkipList T} {L : List (Tower T)} (hinv : Inv comp_ sl L)
    (key : T) (count : Int) (hr : Nat × Nat)
    (hcount : 1 ≤ count) (hh : 1 ≤ hr.1 ∧ hr.1 ≤ sl.max_height_) :
    ∃ sl1 L1, insertKeyWith comp_ hr sl key count = some sl1 ∧ Inv comp_ sl1 L1 ∧
      sl1.max_height_ = sl.max_height_ ∧
      ∀ x, occ L1 x = if key = x then occ L x + count else occ L x := by
  obtain ⟨pre, post, hL, hpre, hpost⟩ := key_split hst key L hinv.sorted
  have hs := hinv.sorted
  rw [hL, List.pairwise_append] at hs
  rcases post_cases hst key post hs.2.1 hpost with habs | ⟨t, rest, rfl, hk, hrest⟩
  · obtain ⟨sl1, h1, h2, h3, _⟩ :=
      insert_absent hst hinv key count hr hcount hh hL hpre hpost habs
    refine ⟨sl1, _, h1, h2, h3, ?_⟩
    intro x
    rw [hL, occ_append, occ_append, occ_cons]
    simp only
    split <;> ring
  · subst hk
    subst hL
    obtain ⟨sl1, h1, h2, h3, _⟩ := insert_present hinv count hr hcount hpre hpost
    refine ⟨sl1, _, h1, h2, h3, ?_⟩
    intro x
    rw [occ_append, occ_append, occ_cons, occ_cons]
    simp only
    split <;> ring

/-- One `eraseKey` with a positive count: the invariant is kept and the key loses
`count` occurrences, or all of them when it has fewer. -/
theorem erase_step {comp_ : T → T → Bool} (hst : StrictTotal comp_)
    {sl : SkipList T} {L : List (Tower T)} (hinv : Inv comp_ sl L)
    (key : T) (count : Int) (hcount : 1 ≤ count) :
    ∃ sl1 L1, eraseKey comp_ sl key count = some sl1 ∧ Inv comp_ sl1 L1 ∧
      sl1.max_height_ = sl.max_height_ ∧
      ∀ x, occ L1 x = if key = x then max 0 (occ L x - count) else occ L x := by
  obtain ⟨pre, post, hL, hpre, hpost⟩ := key_split hst key L hinv.sorted
  have hs := hinv.sorted
  rw [hL, List.pairwise_append] at hs
  have hpre0 : occ pre key = 0 :=
    occ_zero_of_ne pre key (fun t ht => (ne_of_comp hst (hpre t ht)).symm)
  rcases post_cases hst key post hs.2.1 hpost with habs | ⟨t, rest, rfl, hk, hrest⟩
  · refine ⟨sl, L, erase_absent hst hinv key count hL hpre hpost habs, hinv, rfl, ?_⟩
    intro x
    by_cases hx : key = x
    · subst hx
      rw [if_pos rfl, hL, occ_append, hpre0,
        occ_zero_of_ne post key (fun t ht => ne_of_comp hst (habs t ht))]
      omega
    · rw [if_neg hx]
  · subst hk
    subst hL
    have hrest0 : occ rest t.data = 0 :=
      occ_zero_of_ne rest t.data (fun u hu => ne_of_comp hst (hrest u hu))
    by_cases hlt : count < t.count
    · obtain ⟨sl1, h1, h2, h3, _⟩ := erase_partial hinv count hcount hlt hpre hpost
      refine ⟨sl1, _, h1, h2, h3, ?_⟩
      intro x
      by_cases hx : t.data = x
      · subst hx
        rw [if_pos rfl, occ_append, occ_append, occ_cons, occ_cons, hpre0, hrest0]
        simp only [if_true]
        omega
      · rw [if_neg hx, occ_append, occ_append, occ_cons, occ_cons]
        simp only [hx, if_false]
    · obtain ⟨sl1, h1, h2, h3, _⟩ := erase_full hinv count hcount (by omega) hpre hpost
      refine ⟨sl1, _, h1, h2, h3, ?_⟩
      intro x
      by_cases hx : t.data = x
      · subst hx
        rw [if_pos rfl, occ_append, occ_append, occ_cons, hpre0, hrest0]
        simp only [if_true]
        omega
      · rw [if_neg hx, occ_append, occ_append, occ_cons]
        simp only [hx, if_false]
        ring

omit [Inhabited T] [DecidableEq T] in
theorem validOp_insert {key : T} {count : Int} {hr : Nat × Nat}
    (h : validOp (Op.insertKey key count hr) = true) :
    1 ≤ count ∧ 1 ≤ hr.1 ∧ hr.1 ≤ H_MAX := by
  simpa [validOp, and_assoc] using h

omit [Inhabited T] [DecidableEq T] in
theorem validOp_erase {key : T} {count : Int}
    (h : validOp (Op.eraseKey key count) = true) : 1 ≤ count := by
  simpa [validOp] using h

omit [Inhabited T] [DecidableEq T] in
theorem heightOk_insert {key : T} {count : Int} {hr : Nat × Nat}
    (h : heightOk (Op.insertKey key count hr) = true) : 1 ≤ hr.1 ∧ hr.1 ≤ H_MAX := by
  simpa [heightOk] using h

omit [Inhabited T] [DecidableEq T] in
theorem heightOk_of_valid (op : Op T) (h : validOp op = true) : heightOk op = true := by
  cases op with
  | insertKey key count hr =>
    have := validOp_insert h
    simp [heightOk, this.2.1, this.2.2]
  | eraseKey key count => rfl

omit [Inhabited T] in
theorem insert_rejected (comp_ : T → T → Bool) (sl : SkipList T) (key : T) (count : Int)
    (hr : Nat × Nat) (h : count < 1) : insertKeyWith comp_ hr sl key count = some sl := by
  unfold insertKeyWith
  rw [if_pos h]

omit [Inhabited T] in
theorem erase_rejected (comp_ : T → T → Bool) (sl : SkipList T) (key : T) (count : Int)
    (h : count < 1) : eraseKey comp_ sl key count = some sl := by
  unfold eraseKey eraseKeyWith
  rw [if_pos h]

/-- Every sequence of calls with heights in `[1, H_MAX]` runs to completion and
keeps the invariant; when moreover all counts are positive, every key is left
with the net count the specification describes. -/
theorem run_inv {comp_ : T → T → Bool} (hst : StrictTotal comp_) :
    ∀ (ops : List (Op T)) (sl : SkipList T) (L : List (Tower T)),
      Inv comp_ sl L → sl.max_height_ = H_MAX → (∀ op ∈ ops, heightOk op = true) →
      ∃ sl1 L1, runOps comp_ sl ops = some sl1 ∧ Inv comp_ sl1 L1 ∧
        sl1.max_height_ = H_MAX ∧
        ((∀ op ∈ ops, validOp op = true) → ∀ x, occ L1 x = netCount x (occ L x) ops) := by
  intro ops
  induction ops with
  | nil =>
    intro sl L hinv hH _
    exact ⟨sl, L, rfl, hinv, hH, fun _ x => rfl⟩
  | cons op ops ih =>
    intro sl L hinv hH hv
    have hvo := hv op (by simp)
    cases op with
    | insertKey key count hr =>
      obtain ⟨hh1, hh2⟩ := heightOk_insert hvo
      by_cases hc : 1 ≤ count
      · obtain ⟨sl1, L1, h1, h2, h3, h4⟩ :=
          insert_step hst hinv key count hr hc ⟨hh1, by rw [hH]; exact hh2⟩
        obtain ⟨sl2, L2, h5, h6, h7, h8⟩ :=
          ih sl1 L1 h2 (by rw [h3, hH]) (fun o ho => hv o (by simp [ho]))
        refine ⟨sl2, L2, ?_, h6, h7, ?_⟩
        · simp only [runOps, applyOp, h1, Option.some_bind]
          exact h5
        · intro hval x
          rw [h8 (fun o ho => hval o (by simp [ho])) x, h4 x]
          rfl
      · obtain ⟨sl2, L2, h5, h6, h7, h8⟩ :=
          ih sl L hinv hH (fun o ho => hv o (by simp [ho]))
        refine ⟨sl2, L2, ?_, h6, h7, ?_⟩
        · simp only [runOps, applyOp, insert_rejected comp_ sl key count hr (by omega),
            Option.some_bind]
          exact h5
        · intro hval
          exact absurd (validOp_insert (hval (Op.insertKey key count hr) (by simp))).1 hc
    | eraseKey key count =>
      by_cases hc : 1 ≤ count
      · obtain ⟨sl1, L1, h1, h2, h3, h4⟩ := erase_step hst hinv key count hc
        obtain ⟨sl2, L2, h5, h6, h7, h8⟩ :=
          ih sl1 L1 h2 (by rw [h3, hH]) (fun o ho => hv o (by simp [ho]))
        refine ⟨sl2, L2, ?_, h6, h7, ?_⟩
        · simp only [runOps, applyOp, h1, Option.some_bind]
          exact h5
        · intro hval x
          rw [h8 (fun o ho => hval o (by simp [ho])) x, h4 x]
          rfl
      · obtain ⟨sl2, L2, h5, h6, h7, h8⟩ :=
          ih sl L hinv hH (fun o ho => hv o (by simp [ho]))
        refine ⟨sl2, L2, ?_, h6, h7, ?_⟩
        · simp only [runOps, applyOp, erase_rejected comp_ sl key count (by omega),
            Option.some_bind]
          exact h5
        · intro hval
          exact absurd (validOp_erase (hval (Op.eraseKey key count) (by simp))) hc

/-- From the empty list. -/
theorem run_create {comp_ : T → T → Bool} (hst : StrictTotal comp_) (seed : Nat)
    (ops : List (Op T)) (hv : ∀ op ∈ ops, heightOk op = true) :
    ∃ sl L, runOps comp_ (create T seed) ops = some sl ∧ Inv comp_ sl L ∧
      sl.max_height_ = H_MAX ∧
      ((∀ op ∈ ops, validOp op = true) → ∀ x, occ L x = netCount x 0 ops) := by
  obtain ⟨sl, L, h1, h2, h3, h4⟩ :=
    run_inv hst ops (create T seed) [] (create_inv comp_ seed) rfl hv
  exact ⟨sl, L, h1, h2, h3, fun hval x => by rw [h4 hval x]; rfl⟩

theorem defaulComparator_strictTotal : StrictTotal DefaulComparator := by
  refine ⟨?_, ?_, ?_⟩
  · intro a
    simp [DefaulComparator]
  · intro a b c hab hbc
    simp only [DefaulComparator, gt_iff_lt, decide_eq_true_eq] at *
    omega
  · intro a b hne
    simp only [DefaulComparator, gt_iff_lt, decide_eq_true_eq]
    omega

end SL

/-! ## Lists built by successive insertions, and the expanded sequence -/

namespace SL

theorem getNewHeightLoop_bounds (H : Nat) :
    ∀ (d height random rng : Nat), 1 ≤ height → height ≤ H →
      1 ≤ (getNewHeightLoop H d height random rng).1 ∧
        (getNewHeightLoop H d height random rng).1 ≤ H := by
  intro d
  induction d with
  | zero =>
    intro height random rng h1 h2
    exact ⟨h1, h2⟩
  | succ d ih =>
    intro height random rng h1 h2
    unfold getNewHeightLoop
    by_cases hc : random % 2 = 1 ∧ height < H
    · rw [if_pos hc]
      simp only
      by_cases hr : random / 2 ≠ 0
      · rw [if_pos hr]
        exact ih _ _ _ (by omega) (by omega)
      · rw [if_neg hr]
        exact ih _ _ _ (by omega) (by omega)
    · rw [if_neg hc]
      exact ⟨h1, h2⟩

/-- The height `getNewHeight` returns lies in `[1, max_height_]`. -/
theorem getNewHeight_bounds (H rng : Nat) (hH : 1 ≤ H) :
    1 ≤ (getNewHeight H rng).1 ∧ (getNewHeight H rng).1 ≤ H :=
  getNewHeightLoop_bounds H H 1 _ _ (le_refl _) hH

variable {T : Type} [Inhabited T] [DecidableEq T]

/-- Successive `insertKey(k)` calls run to completion, keep the invariant, and
give every key as many occurrences more as it has entries in the list. -/
theorem insertKeys_inv {comp_ : T → T → Bool} (hst : StrictTotal comp_) :
    ∀ (keys : List T) (sl : SkipList T) (L : List (Tower T)), Inv comp_ sl L →
      ∃ sl1 L1, insertKeys comp_ keys sl = some sl1 ∧ Inv comp_ sl1 L1 ∧
        sl1.max_height_ = sl.max_height_ ∧
        ∀ x, occ L1 x = occ L x + (keys.count x : Int) := by
  intro keys
  induction keys with
  | nil =>
    intro sl L hinv
    exact ⟨sl, L, rfl, hinv, rfl, fun x => by simp⟩
  | cons k ks ih =>
    intro sl L hinv
    obtain ⟨sl1, L1, h1, h2, h3, h4⟩ :=
      insert_step hst hinv k 1 (getNewHeight sl.max_height_ sl.new_rand_) (le_refl _)
        (getNewHeight_bounds _ _ hinv.hpos)
    obtain ⟨sl2, L2, h5, h6, h7, h8⟩ := ih sl1 L1 h2
    refine ⟨sl2, L2, ?_, h6, by rw [h7, h3], ?_⟩
    · unfold insertKeys insertKey
      rw [h1, Option.some_bind]
      exact h5
    · intro x
      rw [h8 x, h4 x, List.count_cons]
      by_cases hx : k = x
      · subst hx
        simp only [if_true, beq_self_eq_true]
        push_cast
        ring
      · have hx1 : ¬ ((k == x) = true) := by simpa using hx
        simp only [hx, if_false, hx1]
        push_cast
        ring

omit [Inhabited T] in
/-- The filling loop of `sortAlgorithm` is the successive insertion of the array
entries from index `i` on. -/
theorem sortFill_eq (comp_ : T → T → Bool) (vect : List T) :
    ∀ (r i : Nat) (sl : SkipList T), i + r = vect.length →
      sortFill comp_ vect r i sl = insertKeys comp_ (vect.drop i) sl := by
  intro r
  induction r with
  | zero =>
    intro i sl h
    rw [List.drop_of_length_le (by omega)]
    rfl
  | succ r ih =>
    intro i sl h
    have hi : i < vect.length := by omega
    rw [List.drop_eq_getElem_cons hi]
    unfold sortFill insertKeys
    rw [List.getElem?_eq_getElem hi, Option.some_bind]
    cases hins : insertKey comp_ sl vect[i] 1 with
    | none => rfl
    | some s =>
      rw [Option.some_bind, Option.some_bind]
      exact ih (i + 1) s (by omega)

omit [Inhabited T] [DecidableEq T] in
theorem iterateCounts_spec (m : Mem T) :
    ∀ (Y : List (Tower T)) (fuel : Nat), Linked m Y → (∀ t ∈ Y, 1 ≤ t.height) →
      Y.length < fuel →
      iterateCounts m fuel (nextAt 0 Y) = some (Y.map fun t => (t.data, t.count)) := by
  intro Y
  induction Y with
  | nil =>
    intro fuel _ _ hf
    cases fuel with
    | zero => omega
    | succ f => rfl
  | cons t R ih =>
    intro fuel hL hpos hf
    cases fuel with
    | zero => omega
    | succ f =>
      have ht := hpos t (by simp)
      obtain ⟨⟨n, h0, h1, h1c, _, _⟩, h2⟩ := hL [] t R rfl
      have hn := (h2 0 (by omega)).1
      unfold getNext at hn
      rw [h0, Option.some_bind] at hn
      rw [nextAt_cons, if_pos (by omega)]
      unfold iterateCounts
      rw [h0, Option.some_bind, hn, Option.some_bind,
        ih f (linked_tail (c := [t]) hL) (fun u hu => hpos u (by simp [hu]))
          (by simp only [List.length_cons] at hf; omega)]
      simp [h1, h1c]

omit [Inhabited T] [DecidableEq T] in
theorem flatMap_pairs (L : List (Tower T)) :
    ((L.map fun t => (t.data, t.count)).flatMap fun p => List.replicate p.2.toNat p.1) =
      L.flatMap fun t => List.replicate t.count.toNat t.data := by
  induction L with
  | nil => rfl
  | cons t R ih =>
    rw [List.map_cons, List.flatMap_cons, List.flatMap_cons, ih]

omit [DecidableEq T] in
theorem expanded_spec {comp_ : T → T → Bool} {sl : SkipList T} {L : List (Tower T)}
    (hinv : Inv comp_ sl L) :
    expanded sl = some (L.flatMap fun t => List.replicate t.count.toNat t.data) := by
  have hh : getNext sl.mem sl.head_ 0 = some (nextAt 0 L) :=
    ((hinv.linked [] (headTower sl) L rfl).2 0 hinv.hpos).1
  unfold expanded
  rw [hh, Option.some_bind,
    iterateCounts_spec sl.mem L sl.mem.length (linked_tail (c := [headTower sl]) hinv.linked)
      (fun t ht => (hinv.heights t ht).1) (by have := inv_length hinv; omega)]
  simp only [Option.map_some', Option.some.injEq]
  exact flatMap_pairs L

omit [Inhabited T] in
theorem dedup_replicate_append (a : T) (rest : List T) (h : a ∉ rest) :
    ∀ n : Nat, 1 ≤ n → (List.replicate n a ++ rest).dedup = a :: rest.dedup := by
  intro n
  induction n with
  | zero => intro h0; omega
  | succ n ih =>
    intro _
    cases n with
    | zero =>
      show (a :: rest).dedup = a :: rest.dedup
      exact List.dedup_cons_of_not_mem h
    | succ k =>
      rw [List.replicate_succ, List.cons_append,
        List.dedup_cons_of_mem (by simp [List.replicate_succ]), ih (by omega)]

omit [Inhabited T] in
/-- Removing the repetitions from the expanded sequence gives the keys of the towers. -/
theorem dedup_expanded (L : List (Tower T)) (hc : ∀ t ∈ L, 1 ≤ t.count)
    (hnd : (L.map Tower.data).Nodup) :
    (L.flatMap fun t => List.replicate t.count.toNat t.data).dedup = L.map Tower.data := by
  induction L with
  | nil => rfl
  | cons t R ih =>
    rw [List.map_cons, List.nodup_cons] at hnd
    have hmem : ∀ x, x ∈ (R.flatMap fun t => List.replicate t.count.toNat t.data) →
        x ∈ R.map Tower.data := by
      intro x hx
      obtain ⟨u, hu, hxu⟩ := List.mem_flatMap.mp hx
      have := (List.mem_replicate.mp hxu).2
      rw [this]
      exact List.mem_map_of_mem _ hu
    rw [List.flatMap_cons, dedup_replicate_append t.data _ (fun h => hnd.1 (hmem _ h)) _
        (by have := hc t (by simp); omega),
      ih (fun u hu => hc u (by simp [hu])) hnd.2]
    rfl

omit [Inhabited T] in
/-- Every key occurs in the expanded sequence as many times as its towers count. -/
theorem count_expanded (L : List (Tower T)) (hc : ∀ t ∈ L, 1 ≤ t.count) (x : T) :
    ((L.flatMap fun t => List.replicate t.count.toNat t.data).count x : Int) = occ L x := by
  induction L with
  | nil => simp [occ]
  | cons t R ih =>
    have h1 := hc t (by simp)
    rw [List.flatMap_cons, List.count_append, occ_cons, Nat.cast_add,
      ih (fun u hu => hc u (by simp [hu])), List.count_replicate]
    by_cases hx : t.data = x
    · subst hx
      simp only [beq_self_eq_true, if_true]
      omega
    · have hx1 : ¬ ((t.data == x) = true) := by simpa using hx
      simp only [hx1, hx, if_false]
      simp

end SL

/-! ## The sort utility -/

namespace SL

theorem take_succ_set {α : Type} (l : List α) (j : Nat) (v : α) (h : j < l.length) :
    (l.set j v).take (j + 1) = l.take j ++ [v] := by
  rw [List.set_eq_take_append_cons_drop, if_pos h]
  have hlen : (l.take j).length = j := by
    rw [List.length_take]
    omega
  rw [List.take_append_eq_append_take, hlen, List.take_of_length_le (by omega)]
  simp

theorem take_window {α : Type} (A B C : List α) (n : Nat) (h : n = A.length + B.length) :
    (A ++ B ++ C).take n = A ++ B := by
  rw [h, ← List.length_append]
  exact List.take_left' rfl

theorem drop_window {α : Type} (l B : List α) (j n : Nat) (h : j + B.length ≤ l.length) :
    (l.take j ++ B ++ l.drop (j + B.length)).drop (j + B.length + n)
      = l.drop (j + B.length + n) := by
  have hlen : (l.take j ++ B).length = j + B.length := by
    rw [List.length_append, List.length_take]
    omega
  rw [List.drop_append_eq_append_drop, hlen, List.drop_of_length_le (by omega),
    List.nil_append, List.drop_drop]
  congr 1
  omega

variable {T : Type} [Inhabited T]

omit [Inhabited T] in
theorem expandTowers_cons (t : Tower T) (R : List (Tower T)) :
    expandTowers (t :: R) = List.replicate t.count.toNat t.data ++ expandTowers R := by
  simp [expandTowers, List.flatMap_cons]

/-- The inner loop of the full sort writes `c` copies of the `i`-th key from
position `j` on. -/
theorem sortEmit_spec {comp_ : T → T → Bool} {sl : SkipList T} {L : List (Tower T)}
    (hinv : Inv comp_ sl L) (i : Nat) (t : Tower T) (ht : L[i]? = some t) :
    ∀ (c j : Nat) (vect : List T), j + c ≤ vect.length →
      sortEmit sl i c j vect
        = some (j + c, vect.take j ++ List.replicate c t.data ++ vect.drop (j + c)) := by
  intro c
  induction c with
  | zero =>
    intro j vect _
    simp [sortEmit]
  | succ c ih =>
    intro j vect h
    unfold sortEmit
    rw [subscript_spec hinv i t ht, Option.some_bind, writeAt_eq _ _ _ (by omega),
      Option.some_bind, ih (j + 1) _ (by rw [List.length_set]; omega),
      take_succ_set _ _ _ (by omega), List.drop_set_of_lt _ _ (by omega)]
    have h1 : j + 1 + c = j + (c + 1) := by omega
    rw [h1, List.replicate_succ]
    simp

variable [DecidableEq T]

omit [Inhabited T] in
theorem occ_of_mem (L : List (Tower T)) (hnd : (L.map Tower.data).Nodup) (t : Tower T)
    (ht : t ∈ L) : occ L t.data = t.count := by
  induction L with
  | nil => simp at ht
  | cons a R ih =>
    rw [List.map_cons, List.nodup_cons] at hnd
    rw [occ_cons]
    rcases List.mem_cons.mp ht with rfl | h
    · rw [if_pos rfl, occ_zero_of_ne R t.data (fun u hu hc => hnd.1 (by
        rw [← hc]
        exact List.mem_map_of_mem _ hu))]
      ring
    · have hne : a.data ≠ t.data := by
        intro hc
        apply hnd.1
        rw [hc]
        exact List.mem_map_of_mem _ h
      rw [if_neg hne, ih hnd.2 h]
      ring

/-- The reading loop of the full sort writes the expanded sequence of the towers
from index `i` on, starting at position `j`. -/
theorem sortReadAll_spec {comp_ : T → T → Bool} (hst : StrictTotal comp_)
    {sl : SkipList T} {L : List (Tower T)} (hinv : Inv comp_ sl L) :
    ∀ (r i j : Nat) (vect : List T), i + r = L.length →
      j + (expandTowers (L.drop i)).length ≤ vect.length →
      sortReadAll comp_ sl r i j vect
        = some (vect.take j ++ expandTowers (L.drop i)
            ++ vect.drop (j + (expandTowers (L.drop i)).length)) := by
  intro r
  induction r with
  | zero =>
    intro i j vect hi _
    rw [List.drop_of_length_le (by omega)]
    simp [sortReadAll, expandTowers]
  | succ r ih =>
    intro i j vect hi hj
    have hil : i < L.length := by omega
    have ht : L[i]? = some L[i] := List.getElem?_eq_getElem hil
    have hmem : L[i] ∈ L := List.getElem_mem hil
    rw [List.drop_eq_getElem_cons hil, expandTowers_cons] at hj ⊢
    rw [List.length_append, List.length_replicate] at hj
    unfold sortReadAll
    rw [subscript_spec hinv i _ ht, Option.some_bind]
    simp only
    rw [countKey_occ hst hinv, occ_of_mem L (keys_nodup hst hinv) _ hmem, Option.some_bind,
      sortEmit_spec hinv i _ ht _ _ _ (by omega), Option.some_bind]
    simp only
    have hlenB : (List.replicate (L[i]).count.toNat (L[i]).data).length = (L[i]).count.toNat :=
      List.length_replicate _ _
    rw [ih (i + 1) _ _ (by omega) (by
      rw [List.length_append, List.length_append, List.length_take, List.length_replicate,
        List.length_drop]
      omega)]
    rw [take_window _ _ _ _ (by rw [List.length_take, hlenB]; omega)]
    have hd := drop_window vect (List.replicate (L[i]).count.toNat (L[i]).data) j
      (expandTowers (List.drop (i + 1) L)).length (by rw [hlenB]; omega)
    rw [hlenB] at hd
    rw [hd, List.length_append, hlenB]
    simp [Nat.add_assoc]

omit [DecidableEq T] in
/-- The reading loop of the distinct mode writes the keys of the towers from
index `i` on at their own positions. -/
theorem sortReadDistinct_spec {comp_ : T → T → Bool}
    {sl : SkipList T} {L : List (Tower T)} (hinv : Inv comp_ sl L) :
    ∀ (r i : Nat) (vect : List T), i + r = L.length → L.length ≤ vect.length →
      sortReadDistinct sl r i vect
        = some (vect.take i ++ (L.drop i).map Tower.data ++ vect.drop L.length) := by
  intro r
  induction r with
  | zero =>
    intro i vect hi _
    have : i = L.length := by omega
    subst this
    simp [sortReadDistinct]
  | succ r ih =>
    intro i vect hi hle
    have hil : i < L.length := by omega
    have ht : L[i]? = some L[i] := List.getElem?_eq_getElem hil
    unfold sortReadDistinct
    rw [subscript_spec hinv i _ ht, Option.some_bind, writeAt_eq _ _ _ (by omega),
      Option.some_bind, ih (i + 1) _ (by omega) (by rw [List.length_set]; exact hle),
      take_succ_set _ _ _ (by omega), List.drop_set_of_lt _ _ hil]
    have hd : (L.drop i).map Tower.data
        = (L[i]).data :: (L.drop (i + 1)).map Tower.data := by
      rw [List.drop_eq_getElem_cons hil]
      rfl
    rw [hd]
    simp

end SL

/-! ## Consequences used by the claims -/

namespace SL

variable {T : Type} [Inhabited T] [DecidableEq T]

/-- The list built by inserting `keys` one by one into an empty list. -/
theorem insertKeys_create {comp_ : T → T → Bool} (hst : StrictTotal comp_) (seed : Nat)
    (keys : List T) :
    ∃ sl L, insertKeys comp_ keys (create T seed) = some sl ∧ Inv comp_ sl L ∧
      ∀ x, occ L x = (keys.count x : Int) := by
  obtain ⟨sl, L, h1, h2, _, h4⟩ :=
    insertKeys_inv hst keys (create T seed) [] (create_inv comp_ seed)
  refine ⟨sl, L, h1, h2, fun x => ?_⟩
  rw [h4 x]
  simp [occ]

omit [DecidableEq T] in
/-- Indexed access inside the bounds returns what the traversal visits there. -/
theorem subscript_traversal {comp_ : T → T → Bool} {sl : SkipList T} {L : List (Tower T)}
    (hinv : Inv comp_ sl L) (index : Int) (h0 : 0 ≤ index) (hlt : index < length sl) :
    ∃ x, (L.map Tower.data)[index.toNat]? = some x ∧ subscript sl index = some (false, x) := by
  have hn : index.toNat < L.length := by
    have := hinv.nodes
    simp only [length] at hlt
    omega
  refine ⟨(L[index.toNat]).data, ?_, ?_⟩
  · rw [List.getElem?_map, List.getElem?_eq_getElem hn]
    rfl
  · have := subscript_spec hinv index.toNat (L[index.toNat]) (List.getElem?_eq_getElem hn)
    rwa [Int.toNat_of_nonneg h0] at this

omit [Inhabited T] in
theorem mem_keys_of_count {L : List (Tower T)} {keys : List T}
    (hc : ∀ t ∈ L, 1 ≤ t.count) (hocc : ∀ x, occ L x = (keys.count x : Int)) (x : T) :
    x ∈ L.map Tower.data ↔ x ∈ keys := by
  rw [mem_keys_iff_occ L x hc, hocc x, ← List.count_pos_iff]
  omega

omit [Inhabited T] [DecidableEq T] in
theorem length_expandTowers (L : List (Tower T)) (hc : ∀ t ∈ L, 1 ≤ t.count) :
    ((expandTowers L).length : Int) = (L.map Tower.count).sum := by
  induction L with
  | nil => rfl
  | cons t R ih =>
    have h1 := hc t (by simp)
    rw [expandTowers_cons, List.length_append, List.length_replicate, Nat.cast_add,
      ih (fun u hu => hc u (by simp [hu])), List.map_cons, List.sum_cons]
    omega

omit [Inhabited T] in
theorem expandTowers_perm {L : List (Tower T)} {keys : List T}
    (hc : ∀ t ∈ L, 1 ≤ t.count) (hocc : ∀ x, occ L x = (keys.count x : Int)) :
    (expandTowers L).Perm keys := by
  rw [List.perm_iff_count]
  intro x
  have h1 := count_expanded L hc x
  rw [hocc x] at h1
  exact_mod_cast h1

omit [Inhabited T] [DecidableEq T] in
theorem expandTowers_sorted {comp_ : T → T → Bool} (L : List (Tower T))
    (hs : L.Pairwise (fun a b => comp_ b.data a.data = true)) :
    (expandTowers L).Pairwise (fun a b => comp_ b a = true ∨ a = b) := by
  unfold expandTowers
  rw [List.pairwise_flatMap]
  constructor
  · intro t _
    rw [List.pairwise_replicate]
    right
    right
    rfl
  · refine hs.imp ?_
    intro a b hab x hx y hy
    rw [(List.mem_replicate.mp hx).2, (List.mem_replicate.mp hy).2]
    exact Or.inl hab

omit [Inhabited T] in
theorem keys_length_eq_dedup {L : List (Tower T)} {keys : List T}
    (hnd : (L.map Tower.data).Nodup)
    (hmem : ∀ x, x ∈ L.map Tower.data ↔ x ∈ keys) :
    L.length = keys.dedup.length := by
  have hp : (L.map Tower.data).Perm keys.dedup := by
    rw [List.perm_ext_iff_of_nodup hnd (List.nodup_dedup keys)]
    intro x
    rw [hmem x, List.mem_dedup]
  have := hp.length_eq
  simpa using this

/-- The full sort: the value returned is the size of the array, and the array
ends as a permutation of itself ordered by the comparator. -/
theorem sort_full {comp_ : T → T → Bool} (hst : StrictTotal comp_) (seed : Nat)
    (vect : List T) :
    ∃ out, skipListSort comp_ seed vect (vect.length : Int) false
        = some ((vect.length : Int), out) ∧
      out.Perm vect ∧ out.Pairwise (fun a b => comp_ b a = true ∨ a = b) := by
  obtain ⟨sl, L, h1, h2, h3⟩ := insertKeys_create hst seed vect
  have hperm := expandTowers_perm h2.counts h3
  have hlen := hperm.length_eq
  have hsize : SL.size sl = (vect.length : Int) := by
    show sl.num_elem_ = _
    rw [h2.elems, ← length_expandTowers L h2.counts, hlen]
  have hread := sortReadAll_spec hst h2 L.length 0 0 vect (by omega) (by
    rw [List.drop_zero, hlen]
    omega)
  rw [List.drop_zero, hlen, List.take_zero, List.nil_append, Nat.zero_add,
    List.drop_length, List.append_nil] at hread
  refine ⟨expandTowers L, ?_, hperm, expandTowers_sorted L h2.sorted⟩
  unfold skipListSort sortAlgorithm
  rw [Int.toNat_ofNat, sortFill_eq comp_ vect vect.length 0 _ (by omega), List.drop_zero, h1,
    Option.some_bind]
  have hl : (length sl).toNat = L.length := by
    show sl.num_nodes_.toNat = _
    rw [h2.nodes]
    simp
  simp only [Bool.false_eq_true, if_false]
  rw [hl, hread, hsize]
  rfl

/-- The distinct mode: the value returned is the number `d` of distinct values,
and the first `d` entries of the array end as these values in the order of the
comparator. -/
theorem sort_distinct {comp_ : T → T → Bool} (hst : StrictTotal comp_) (seed : Nat)
    (vect : List T) :
    ∃ out, skipListSort comp_ seed vect (vect.length : Int) true
        = some ((vect.dedup.length : Int), out) ∧
      out.length = vect.length ∧
      (out.take vect.dedup.length).Pairwise (fun a b => comp_ b a = true) ∧
      (out.take vect.dedup.length).Nodup ∧
      ∀ x, x ∈ out.take vect.dedup.length ↔ x ∈ vect := by
  obtain ⟨sl, L, h1, h2, h3⟩ := insertKeys_create hst seed vect
  have hmem := mem_keys_of_count h2.counts h3
  have hd := keys_length_eq_dedup (keys_nodup hst h2) hmem
  have hle : L.length ≤ vect.length := by
    rw [hd]
    exact (List.dedup_sublist vect).length_le
  have hread := sortReadDistinct_spec h2 L.length 0 vect (by omega) hle
  rw [List.drop_zero, List.take_zero, List.nil_append] at hread
  have htake : (L.map Tower.data ++ vect.drop L.length).take vect.dedup.length
      = L.map Tower.data := by
    rw [← hd]
    exact List.take_left' (by simp)
  refine ⟨L.map Tower.data ++ vect.drop L.length, ?_, ?_, ?_, ?_, ?_⟩
  · unfold skipListSort sortAlgorithm
    rw [Int.toNat_ofNat, sortFill_eq comp_ vect vect.length 0 _ (by omega), List.drop_zero, h1,
      Option.some_bind]
    have hl : (length sl).toNat = L.length := by
      show sl.num_nodes_.toNat = _
      rw [h2.nodes]
      simp
    have hl2 : length sl = (vect.dedup.length : Int) := by
      show sl.num_nodes_ = _
      rw [h2.nodes, hd]
    simp only [if_true]
    rw [hl, hread, hl2]
    rfl
  · rw [List.length_append, List.length_map, List.length_drop]
    omega
  · rw [htake]
    exact keys_pairwise h2
  · rw [htake]
    exact keys_nodup hst h2
  · intro x
    rw [htake]
    exact hmem x

end SL

/-! ## SkipList: the jump counters measure distances along the bottom level -/

namespace SL

variable {T : Type}

theorem nextAt_zero_cons (t : Tower T) (Y : List (Tower T)) (h : 1 ≤ t.height) :
    nextAt 0 (t :: Y) = some t.addr := by
  have h0 : 0 < t.height := h
  simp [nextAt, h0]

/-- Following `next_[0]` from the first tower of a suffix of the chain visits the
towers of that suffix in order. -/
theorem chainFrom_linked (m : Mem T) :
    ∀ (Y X : List (Tower T)) (fuel : Nat), Linked m (X ++ Y) →
      (∀ t ∈ Y, 1 ≤ t.height) → Y.length < fuel →
      chainFrom m fuel (nextAt 0 Y) = some (Y.map Tower.addr) := by
  intro Y
  induction Y with
  | nil =>
    intro X fuel _ _ hf
    cases fuel with
    | zero => simp at hf
    | succ f => rfl
  | cons t Y ih =>
    intro X fuel hL hh hf
    cases fuel with
    | zero => simp at hf
    | succ f =>
      have ht := hh t (List.mem_cons_self _ _)
      rw [nextAt_zero_cons t Y ht]
      have hn := ((hL X t Y rfl).2 0 ht).1
      have hL1 : Linked m ((X ++ [t]) ++ Y) := by
        simpa using hL
      have hrec := ih (X ++ [t]) f hL1 (fun u hu => hh u (List.mem_cons_of_mem _ hu))
        (by simp only [List.length_cons] at hf; omega)
      simp only [chainFrom, hn, Option.some_bind, hrec, Option.map_some', List.map_cons]

/-- From a tower to a later tower of the chain there are as many `next_[0]`
steps as towers between them, plus one. -/
theorem stepsTo_linked (m : Mem T) (u : Tower T) (Y2 : List (Tower T)) :
    ∀ (Y1 X : List (Tower T)) (t : Tower T) (fuel : Nat),
      Linked m (X ++ t :: (Y1 ++ u :: Y2)) →
      ((X ++ t :: (Y1 ++ u :: Y2)).map Tower.addr).Nodup →
      (∀ s ∈ X ++ t :: (Y1 ++ u :: Y2), 1 ≤ s.height) → Y1.length + 1 < fuel →
      stepsTo m u.addr fuel t.addr = some (Y1.length + 1) := by
  intro Y1
  induction Y1 with
  | nil =>
    intro X t fuel hL hnd hh hf
    obtain ⟨f, rfl⟩ : ∃ f, fuel = f + 2 := ⟨fuel - 2, by simp at hf; omega⟩
    have hne : t.addr ≠ u.addr := addr_ne_of_before X [] Y2 t u (by simpa using hnd)
    have ht : 1 ≤ t.height := hh t (by simp)
    have hu : 1 ≤ u.height := hh u (by simp)
    have hn := ((hL X t _ rfl).2 0 ht).1
    rw [List.nil_append, nextAt_zero_cons u Y2 hu] at hn
    simp [stepsTo, hne, hn]
  | cons v Y1 ih =>
    intro X t fuel hL hnd hh hf
    obtain ⟨f, rfl⟩ : ∃ f, fuel = f + 1 := ⟨fuel - 1, by omega⟩
    have hne : t.addr ≠ u.addr :=
      addr_ne_of_before X (v :: Y1) Y2 t u (by simpa using hnd)
    have ht : 1 ≤ t.height := hh t (by simp)
    have hv : 1 ≤ v.height := hh v (by simp)
    have hn := ((hL X t _ rfl).2 0 ht).1
    rw [List.cons_append, nextAt_zero_cons v _ hv] at hn
    have he : X ++ t :: (v :: Y1 ++ u :: Y2) = (X ++ [t]) ++ v :: (Y1 ++ u :: Y2) := by simp
    rw [he] at hL hnd hh
    have hrec := ih (X ++ [t]) v f hL hnd hh (by simp only [List.length_cons] at hf; omega)
    simp only [stepsTo, hne, if_false, hn, Option.some_bind, hrec, Option.map_some',
      List.length_cons]

variable [Inhabited T]

/-- Under the invariant the nodes of the list are the head and the towers, and
every counter `jump_[i]` of every node is `JUMP_TO_NULL` when `next_[i]` is null
and otherwise one less than the number of bottom-level steps to `next_[i]`. -/
theorem jump_of_inv {comp_ : T → T → Bool} {sl : SkipList T} {L : List (Tower T)}
    (hinv : Inv comp_ sl L) :
    nodeAddrs sl = some (sl.head_ :: L.map Tower.addr) ∧
    ∀ a ∈ sl.head_ :: L.map Tower.addr, ∃ n, load sl.mem a = some n ∧
      1 ≤ n.next_.length ∧ ∀ i, i < n.next_.length →
        ∃ nx j, getNext sl.mem a i = some nx ∧ getJump sl.mem a i = some j ∧
          (nx = none → j = JUMP_TO_NULL) ∧
          (∀ b, nx = some b →
            ∃ d, stepsTo sl.mem b (sl.mem.length + 1) a = some d ∧ j + 1 = (d : Int)) := by
  have hpos := inv_height_pos hinv
  have hlen := inv_length hinv
  constructor
  · have h := chainFrom_linked sl.mem (headTower sl :: L) [] (sl.mem.length + 1)
      (by simpa using hinv.linked) hpos (by simp only [List.length_cons]; omega)
    rw [nextAt_zero_cons _ _ hinv.hpos] at h
    exact h
  · intro a ha
    have ha1 : a ∈ (headTower sl :: L).map Tower.addr := ha
    obtain ⟨t, ht, rfl⟩ := List.mem_map.mp ha1
    obtain ⟨X, Y, hXY⟩ := List.append_of_mem ht
    obtain ⟨⟨n, hload, _, _, hnh, _⟩, hlev⟩ := hinv.linked X t Y hXY
    refine ⟨n, hload, ?_, ?_⟩
    · rw [hnh]
      exact hpos t ht
    · intro i hi
      rw [hnh] at hi
      obtain ⟨hnx, hj⟩ := hlev i hi
      refine ⟨nextAt i Y, jumpAt i Y, hnx, hj, jumpAt_of_none i Y, ?_⟩
      intro b hb
      obtain ⟨S, u, R, rfl, hS, hu, rfl⟩ := nextAt_mem i Y b hb
      refine ⟨S.length + 1, ?_, ?_⟩
      · have hlen2 : (headTower sl :: L).length = (X ++ t :: (S ++ u :: R)).length := by
          rw [hXY]
        simp only [List.length_cons, List.length_append] at hlen2
        apply stepsTo_linked sl.mem u R S X t
        · rw [← hXY]
          exact hinv.linked
        · rw [← hXY]
          exact hinv.nodup
        · rw [← hXY]
          exact hpos
        · omega
      · rw [jumpAt_high i S R u hS hu]
        push_cast
        ring

end SL

/-! ## SkipList: sequences of insertKey calls and the range of the counters -/

namespace SL

variable {T : Type} [DecidableEq T]

omit [DecidableEq T] in
theorem sum_counts_nonneg (L : List (Tower T)) (h : ∀ t ∈ L, 1 ≤ t.count) :
    0 ≤ (L.map Tower.count).sum := by
  induction L with
  | nil => simp
  | cons t L ih =>
    have h1 := h t (List.mem_cons_self _ _)
    have h2 := ih (fun u hu => h u (List.mem_cons_of_mem _ hu))
    simp only [List.map_cons, List.sum_cons]
    omega

variable [Inhabited T]

end SL

/-! ## SkipList: what holds of `eraseKey` once its call `comp(...)` is the comparator

The method `eraseKey` of the source calls a function `comp` that is declared
nowhere. The theorems of this section are about `eraseKey`, the method with that
call resolved to the member `comp_`; they say nothing of the source's method
under another resolution. -/

namespace SL

/-- With the call `comp(...)` of `eraseKey` resolved to the comparator, and in the
model, where the counters are not bounded: after any sequence of `insertKey`
and `eraseKey` calls with counts at least 1 and node heights in `[1, H_MAX]` on
an empty list whose comparator is a strict total order, all calls return, the
traversal visits exactly once every key whose net count is at least 1 and no
other key, and every two consecutive visited elements `a` then `b` satisfy
`comp_(b, a)`. -/
theorem traversal_sorted_once_repaired {T : Type} [Inhabited T] [DecidableEq T]
    (comp_ : T → T → Bool) (hst : StrictTotal comp_) (seed : Nat) (ops : List (Op T))
    (hv : ∀ op ∈ ops, validOp op = true) :
    ∃ sl tr, runOps comp_ (create T seed) ops = some sl ∧ traversal sl = some tr ∧
      (∀ x, tr.count x = if 1 ≤ netCount x 0 ops then 1 else 0) ∧
      tr.Chain' (fun a b => comp_ b a = true) := by
  obtain ⟨sl, L, h1, h2, _, h4⟩ :=
    run_create hst seed ops (fun op ho => heightOk_of_valid op (hv op ho))
  refine ⟨sl, L.map Tower.data, h1, traversal_spec h2, ?_, ?_⟩
  · intro x
    rw [← h4 hv x]
    have hiff := mem_keys_iff_occ L x h2.counts
    by_cases hx : x ∈ L.map Tower.data
    · rw [if_pos (hiff.mp hx)]
      exact List.count_eq_one_of_mem (keys_nodup hst h2) hx
    · rw [if_neg (fun h => hx (hiff.mpr h))]
      exact List.count_eq_zero_of_not_mem hx
  · exact List.Pairwise.chain' (keys_pairwise h2)

/-- With the call `comp(...)` of `eraseKey` resolved to the comparator, and in the
model, where the counters are not bounded: after any sequence of `insertKey`
and `eraseKey` calls (node heights in `[1, H_MAX]`) on an empty list whose
comparator is a strict total order, all calls return, the traversal is sorted
by the comparator, and for every index `0 <= index < length()` the call
`operator[](index)` writes no diagnostic and returns the element the traversal
visits at position `index`. -/
theorem subscript_eq_traversal_repaired {T : Type} [Inhabited T] [DecidableEq T]
    (comp_ : T → T → Bool) (hst : StrictTotal comp_) (seed : Nat) (ops : List (Op T))
    (hv : ∀ op ∈ ops, heightOk op = true) :
    ∃ sl tr, runOps comp_ (create T seed) ops = some sl ∧ traversal sl = some tr ∧
      tr.Pairwise (fun a b => comp_ b a = true) ∧
      ∀ index : Int, 0 ≤ index → index < length sl →
        ∃ x, tr[index.toNat]? = some x ∧ subscript sl index = some (false, x) := by
  obtain ⟨sl, L, h1, h2, _, _⟩ := run_create hst seed ops hv
  refine ⟨sl, L.map Tower.data, h1, traversal_spec h2, keys_pairwise h2, ?_⟩
  intro index h0 hlt
  exact subscript_traversal h2 index h0 hlt

/-- With the call `comp(...)` of `eraseKey` resolved to the comparator, and in the
model, where the counters are not bounded: after any sequence of `insertKey`
and `eraseKey` calls with counts at least 1 (node heights in `[1, H_MAX]`) on an
empty list whose comparator is a strict total order, `countKey(x)` returns the
net count of `x` and `searchKey(x)` is true exactly when that count is at least
1. -/
theorem countKey_eq_netCount_repaired {T : Type} [Inhabited T] [DecidableEq T]
    (comp_ : T → T → Bool) (hst : StrictTotal comp_) (seed : Nat) (ops : List (Op T))
    (hv : ∀ op ∈ ops, validOp op = true) :
    ∃ sl, runOps comp_ (create T seed) ops = some sl ∧
      ∀ x, countKey comp_ sl x = some (netCount x 0 ops) ∧
        searchKey comp_ sl x = some (decide (1 ≤ netCount x 0 ops)) := by
  obtain ⟨sl, L, h1, h2, _, h4⟩ :=
    run_create hst seed ops (fun op ho => heightOk_of_valid op (hv op ho))
  refine ⟨sl, h1, fun x => ?_⟩
  have hc : countKey comp_ sl x = some (netCount x 0 ops) := by
    rw [countKey_occ hst h2 x, h4 hv x]
  refine ⟨hc, ?_⟩
  unfold searchKey
  rw [hc]
  have hnn : 0 ≤ netCount x 0 ops := by
    rw [← h4 hv x]
    exact occ_nonneg L x h2.counts
  simp only [Option.map_some', Option.some.injEq, decide_eq_decide]
  omega

/-- With the call `comp(...)` of `eraseKey` resolved to the comparator, and in the
model, where the counters are not bounded: after any sequence of `insertKey`
and `eraseKey` calls (node heights in `[1, H_MAX]`) on an empty list whose
comparator is a strict total order, the duplicate-expanded sequence `e` holds
every key `countKey` times in the order of the comparator, and `operator[]`
returns, at every index below `length()`, the element at that position of `e`
with the repetitions removed. -/
theorem subscript_eq_dedup_expanded_repaired {T : Type} [Inhabited T] [DecidableEq T]
    (comp_ : T → T → Bool) (hst : StrictTotal comp_) (seed : Nat) (ops : List (Op T))
    (hv : ∀ op ∈ ops, heightOk op = true) :
    ∃ sl e, runOps comp_ (create T seed) ops = some sl ∧ expanded sl = some e ∧
      (∀ x, ∃ c, countKey comp_ sl x = some c ∧ e.count x = c.toNat) ∧
      e.Pairwise (fun a b => comp_ b a = true ∨ a = b) ∧
      ∀ index : Int, 0 ≤ index → index < length sl →
        ∃ x, e.dedup[index.toNat]? = some x ∧ subscript sl index = some (false, x) := by
  obtain ⟨sl, L, h1, h2, _, _⟩ := run_create hst seed ops hv
  refine ⟨sl, expandTowers L, h1, expanded_spec h2, ?_, expandTowers_sorted L h2.sorted, ?_⟩
  · intro x
    refine ⟨occ L x, countKey_occ hst h2 x, ?_⟩
    have := count_expanded L h2.counts x
    unfold expandTowers
    omega
  · intro index h0 hlt
    have hd : (expandTowers L).dedup = L.map Tower.data :=
      dedup_expanded L h2.counts (keys_nodup hst h2)
    rw [hd]
    exact subscript_traversal h2 index h0 hlt

/-- With the call `comp(...)` of `eraseKey` resolved to the comparator: after any
sequence of `insertKey` and `eraseKey` calls (node heights in `[1, H_MAX]`) on
an empty list whose comparator is a strict total order, all calls return, and
for every node of the list, the head included, and every level `i` below the
height of the node: if `next_[i]` is null then `jump_[i]` is `JUMP_TO_NULL`, and
otherwise `jump_[i] + 1` is the number of `next_[0]` steps that lead from the
node to `next_[i]`. -/
theorem jump_invariant_repaired {T : Type} [Inhabited T] [DecidableEq T] (comp_ : T → T → Bool)
    (hst : StrictTotal comp_) (seed : Nat) (ops : List (Op T))
    (hv : ∀ op ∈ ops, heightOk op = true) :
    ∃ sl addrs, runOps comp_ (create T seed) ops = some sl ∧
      nodeAddrs sl = some addrs ∧ sl.head_ ∈ addrs ∧
      ∀ a ∈ addrs, ∃ n, load sl.mem a = some n ∧ 1 ≤ n.next_.length ∧
        ∀ i, i < n.next_.length →
          ∃ nx j, getNext sl.mem a i = some nx ∧ getJump sl.mem a i = some j ∧
            (nx = none → j = JUMP_TO_NULL) ∧
            (∀ b, nx = some b →
              ∃ d, stepsTo sl.mem b (sl.mem.length + 1) a = some d ∧ j + 1 = (d : Int)) := by
  obtain ⟨sl, L, h1, h2, _, _⟩ := run_create hst seed ops hv
  obtain ⟨h3, h4⟩ := jump_of_inv h2
  exact ⟨sl, _, h1, h3, List.mem_cons_self _ _, h4⟩

end SL

/-! ## Treap: sizes, rotations, insert and erase -/

namespace TreapModel

variable {T : Type}

theorem nr_nodes_eq_length (t : Treap T) (h : SizeOk t) :
    t.nr_nodes = ((inOrder t).length : Int) := by
  induction t with
  | nilNode => rfl
  | node k p l r n ihl ihr =>
    obtain ⟨hl, hr, hn⟩ := h
    simp only [Treap.nr_nodes, inOrder, List.length_append, List.length_cons]
    rw [hn, ihl hl, ihr hr]
    push_cast
    ring

theorem count_eq_length (t : Treap T) : t.count = (inOrder t).length := by
  induction t with
  | nilNode => rfl
  | node k p l r n ihl ihr =>
    simp only [Treap.count, inOrder, List.length_append, List.length_cons, ihl, ihr]
    omega

theorem isNil_of_priority_neg (t : Treap T) (h : PrioOk t) (hp : t.priority < 0) :
    t = Treap.nilNode := by
  cases t with
  | nilNode => rfl
  | node k p l r n =>
    have := h.1
    simp only [Treap.priority] at hp
    omega

/-- A right rotation at a node whose left child is not nil. -/
theorem rotateRight_node (fk : T) (fp : Int) (lk : T) (lp : Int) (ll lr fr : Treap T)
    (ln fn : Int) :
    rotateRight (Treap.node fk fp (Treap.node lk lp ll lr ln) fr fn)
      = some (Treap.node lk lp ll (Treap.node fk fp lr fr (lr.nr_nodes + fr.nr_nodes + 1))
          (ll.nr_nodes + (lr.nr_nodes + fr.nr_nodes + 1) + 1)) := rfl

/-- A left rotation at a node whose right child is not nil. -/
theorem rotateLeft_node (fk : T) (fp : Int) (rk : T) (rp : Int) (fl rl rr : Treap T)
    (rn fn : Int) :
    rotateLeft (Treap.node fk fp fl (Treap.node rk rp rl rr rn) fn)
      = some (Treap.node rk rp (Treap.node fk fp fl rl (fl.nr_nodes + rl.nr_nodes + 1)) rr
          ((fl.nr_nodes + rl.nr_nodes + 1) + rr.nr_nodes + 1)) := rfl

theorem rebalance_node (k : T) (p : Int) (l r : Treap T) (n : Int) :
    rebalance (Treap.node k p l r n)
      = (if l.priority > p then rotateRight (Treap.node k p l r n)
         else if r.priority > p then rotateLeft (Treap.node k p l r n)
         else some (Treap.node k p l r n)).bind updateSize := rfl

theorem updateSize_node (k : T) (p : Int) (l r : Treap T) (n : Int) :
    updateSize (Treap.node k p l r n) = some (Treap.node k p l r (l.nr_nodes + r.nr_nodes + 1)) :=
  rfl

theorem priority_nil : (Treap.nilNode : Treap T).priority = -1 := rfl

/-- The end of `insert`: whichever rotation is made, the result has the same
in-order sequence, correct sizes and non-negative priorities. -/
theorem rebalance_spec (k : T) (p : Int) (l r : Treap T) (n : Int)
    (hl : SizeOk l) (hr : SizeOk r) (hp : 0 ≤ p) (hpl : PrioOk l) (hpr : PrioOk r) :
    ∃ t1, rebalance (Treap.node k p l r n) = some t1 ∧ SizeOk t1 ∧ PrioOk t1 ∧
      inOrder t1 = inOrder l ++ k :: inOrder r := by
  rw [rebalance_node]
  by_cases h1 : l.priority > p
  · rw [if_pos h1]
    cases l with
    | nilNode =>
      rw [priority_nil] at h1
      omega
    | node lk lp ll lr ln =>
      rw [rotateRight_node, Option.some_bind, updateSize_node]
      refine ⟨_, rfl, ⟨hl.1, ⟨hl.2.1, hr, rfl⟩, rfl⟩, ⟨hpl.1, hpl.2.1, hp, hpl.2.2, hpr⟩, ?_⟩
      simp [inOrder]
  · rw [if_neg h1]
    by_cases h2 : r.priority > p
    · rw [if_pos h2]
      cases r with
      | nilNode =>
        rw [priority_nil] at h2
        omega
      | node rk rp rl rr rn =>
        rw [rotateLeft_node, Option.some_bind, updateSize_node]
        refine ⟨_, rfl, ⟨⟨hl, hr.1, rfl⟩, hr.2.1, rfl⟩, ⟨hpr.1, ⟨hp, hpl, hpr.2.1⟩, hpr.2.2⟩, ?_⟩
        simp [inOrder]
    · rw [if_neg h2, Option.some_bind, updateSize_node]
      exact ⟨_, rfl, ⟨hl, hr, rfl⟩, ⟨hp, hpl, hpr⟩, rfl⟩

variable [LinearOrder T]

/-- `insert` returns, keeps sizes and priorities right, and puts the key into the
in-order sequence after the keys not greater than it and before the greater
ones. -/
theorem insert_spec (key : T) (priority : Int) (hprio : 0 ≤ priority) :
    ∀ t : Treap T, SizeOk t → PrioOk t → (inOrder t).Pairwise (fun a b => a ≤ b) →
      ∃ t1, insert t key priority = some t1 ∧ SizeOk t1 ∧ PrioOk t1 ∧
        ∃ A B, inOrder t = A ++ B ∧ inOrder t1 = A ++ key :: B ∧
          (∀ a ∈ A, a ≤ key) ∧ (∀ b ∈ B, key < b) := by
  intro t
  induction t with
  | nilNode =>
    intro _ _ _
    exact ⟨addData key priority, rfl, ⟨trivial, trivial, rfl⟩, ⟨hprio, trivial, trivial⟩,
      [], [], rfl, rfl, by simp, by simp⟩
  | node k p l r n ihl ihr =>
    intro hs hp hsort
    simp only [inOrder, List.pairwise_append, List.pairwise_cons, List.mem_cons] at hsort
    obtain ⟨hsl, ⟨hkr, hsr⟩, hlr⟩ := hsort
    unfold insert
    by_cases hlt : key < k
    · rw [if_pos hlt]
      obtain ⟨l1, hins, hs1, hp1, A, B, hAB, hAB1, hA, hB⟩ := ihl hs.1 hp.2.1 hsl
      obtain ⟨t1, hreb, hst1, hpt1, hio⟩ :=
        rebalance_spec k p l1 r n hs1 hs.2.1 hp.1 hp1 hp.2.2
      rw [hins, Option.some_bind]
      refine ⟨t1, hreb, hst1, hpt1, A, B ++ k :: inOrder r, ?_, ?_, hA, ?_⟩
      · simp [inOrder, hAB]
      · rw [hio, hAB1]
        simp
      · intro b hb
        rcases List.mem_append.mp hb with h | h
        · exact hB b h
        · rcases List.mem_cons.mp h with rfl | h1
          · exact hlt
          · exact lt_of_lt_of_le hlt (hkr b h1)
    · rw [if_neg hlt]
      have hle : k ≤ key := not_lt.mp hlt
      obtain ⟨r1, hins, hs1, hp1, A, B, hAB, hAB1, hA, hB⟩ := ihr hs.2.1 hp.2.2 hsr
      obtain ⟨t1, hreb, hst1, hpt1, hio⟩ :=
        rebalance_spec k p l r1 n hs.1 hs1 hp.1 hp.2.1 hp1
      rw [hins, Option.some_bind]
      refine ⟨t1, hreb, hst1, hpt1, inOrder l ++ k :: A, B, ?_, ?_, ?_, hB⟩
      · simp [inOrder, hAB]
      · rw [hio, hAB1]
        simp
      · intro a ha
        rcases List.mem_append.mp ha with h | h
        · exact le_trans (hlr a h k (Or.inl rfl)) hle
        · rcases List.mem_cons.mp h with rfl | h1
          · exact hle
          · exact hA a h1

/-- `erase` returns when the recursion bound exceeds the number of nodes, keeps
sizes and priorities right, and either leaves the in-order sequence as it is or
removes one occurrence of the key from it. -/
theorem eraseAux_spec (key : T) :
    ∀ (fuel : Nat) (t : Treap T), t.count < fuel → SizeOk t → PrioOk t →
      ∃ t1, eraseAux fuel t key = some t1 ∧ SizeOk t1 ∧ PrioOk t1 ∧
        (inOrder t1 = inOrder t ∨
          ∃ A B, inOrder t = A ++ key :: B ∧ inOrder t1 = A ++ B) := by
  intro fuel
  induction fuel with
  | zero => intro t h _ _; omega
  | succ fuel ih =>
    intro t hc hs hp
    cases t with
    | nilNode => exact ⟨Treap.nilNode, rfl, trivial, trivial, Or.inl rfl⟩
    | node k p l r n =>
      simp only [Treap.count] at hc
      unfold eraseAux
      by_cases hlt : key < k
      · rw [if_pos hlt]
        obtain ⟨l1, he, hs1, hp1, hio⟩ := ih l (by omega) hs.1 hp.2.1
        rw [he, Option.some_bind, updateSize_node]
        refine ⟨_, rfl, ⟨hs1, hs.2.1, rfl⟩, ⟨hp.1, hp1, hp.2.2⟩, ?_⟩
        rcases hio with h | ⟨A, B, hA, hB⟩
        · left
          simp [inOrder, h]
        · right
          exact ⟨A, B ++ k :: inOrder r, by simp [inOrder, hA], by simp [inOrder, hB]⟩
      · rw [if_neg hlt]
        by_cases hgt : key > k
        · rw [if_pos hgt]
          obtain ⟨r1, he, hs1, hp1, hio⟩ := ih r (by omega) hs.2.1 hp.2.2
          rw [he, Option.some_bind, updateSize_node]
          refine ⟨_, rfl, ⟨hs.1, hs1, rfl⟩, ⟨hp.1, hp.2.1, hp1⟩, ?_⟩
          rcases hio with h | ⟨A, B, hA, hB⟩
          · left
            simp [inOrder, h]
          · right
            exact ⟨inOrder l ++ k :: A, B, by simp [inOrder, hA], by simp [inOrder, hB]⟩
        · rw [if_neg hgt]
          have hk : key = k := le_antisymm (not_lt.mp hgt) (not_lt.mp hlt)
          subst hk
          by_cases hnil : (l.isNil && r.isNil) = true
          · rw [if_pos hnil]
            refine ⟨Treap.nilNode, rfl, trivial, trivial, Or.inr ⟨inOrder l, inOrder r, rfl, ?_⟩⟩
            cases l <;> cases r <;> simp_all [Treap.isNil, inOrder]
          · rw [if_neg hnil]
            by_cases hpr : l.priority > r.priority
            · rw [if_pos hpr]
              cases l with
              | nilNode =>
                rw [priority_nil] at hpr
                have := isNil_of_priority_neg r hp.2.2 (by omega)
                subst this
                rw [priority_nil] at hpr
                omega
              | node lk lp ll lr ln =>
                rw [rotateRight_node, Option.some_bind]
                simp only
                obtain ⟨r2, he, hs3, hp3, hio⟩ :=
                  ih (Treap.node key p lr r (lr.nr_nodes + r.nr_nodes + 1))
                    (by simp only [Treap.count] at hc ⊢; omega) ⟨hs.1.2.1, hs.2.1, rfl⟩
                    ⟨hp.1, hp.2.1.2.2, hp.2.2⟩
                rw [he, Option.some_bind, updateSize_node]
                refine ⟨_, rfl, ⟨hs.1.1, hs3, rfl⟩, ⟨hp.2.1.1, hp.2.1.2.1, hp3⟩, ?_⟩
                rcases hio with h | ⟨A, B, hA, hB⟩
                · left
                  simp [inOrder, h]
                · right
                  refine ⟨inOrder ll ++ lk :: A, B, ?_, ?_⟩
                  · simp only [inOrder] at hA ⊢
                    simp [hA]
                  · simp [inOrder, hB]
            · rw [if_neg hpr]
              cases r with
              | nilNode =>
                rw [priority_nil] at hpr
                have := isNil_of_priority_neg l hp.2.1 (by omega)
                subst this
                simp [Treap.isNil] at hnil
              | node rk rp rl rr rn =>
                rw [rotateLeft_node, Option.some_bind]
                simp only
                obtain ⟨l2, he, hs3, hp3, hio⟩ :=
                  ih (Treap.node key p l rl (l.nr_nodes + rl.nr_nodes + 1))
                    (by simp only [Treap.count] at hc ⊢; omega) ⟨hs.1, hs.2.1.1, rfl⟩
                    ⟨hp.1, hp.2.1, hp.2.2.2.1⟩
                rw [he, Option.some_bind, updateSize_node]
                refine ⟨_, rfl, ⟨hs3, hs.2.1.2.1, rfl⟩, ⟨hp.2.2.1, hp3, hp.2.2.2.2⟩, ?_⟩
                rcases hio with h | ⟨A, B, hA, hB⟩
                · left
                  simp [inOrder, h]
                · right
                  refine ⟨A, B ++ rk :: inOrder rr, ?_, ?_⟩
                  · simp only [inOrder] at hA ⊢
                    have hre : inOrder l ++ key :: (inOrder rl ++ rk :: inOrder rr)
                        = (inOrder l ++ key :: inOrder rl) ++ rk :: inOrder rr := by simp
                    rw [hre, hA]
                    simp
                  · simp [inOrder, hB]

/-- `findK(k)` with `1 <= k <= nr_nodes` returns the key at position `k - 1` of the
in-order sequence. -/
theorem findK_spec :
    ∀ (t : Treap T), SizeOk t → ∀ k : Int, 1 ≤ k → k ≤ t.nr_nodes →
      ∃ x, (inOrder t)[(k - 1).toNat]? = some x ∧ findK t k = some x := by
  intro t
  induction t with
  | nilNode =>
    intro _ k h1 h2
    simp only [Treap.nr_nodes] at h2
    omega
  | node key p l r n ihl ihr =>
    intro hs k h1 h2
    have hl := nr_nodes_eq_length l hs.1
    have hr := nr_nodes_eq_length r hs.2.1
    simp only [Treap.nr_nodes] at h2
    rw [hs.2.2] at h2
    unfold findK
    simp only [inOrder]
    by_cases he : k = l.nr_nodes + 1
    · rw [if_pos he]
      refine ⟨key, ?_, rfl⟩
      rw [List.getElem?_append_right (by omega)]
      have : (k - 1).toNat - (inOrder l).length = 0 := by omega
      rw [this]
      simp
    · rw [if_neg he]
      by_cases hg : k > l.nr_nodes + 1
      · rw [if_pos hg]
        obtain ⟨x, hx, hf⟩ := ihr hs.2.1 (k - (l.nr_nodes + 1)) (by omega) (by omega)
        refine ⟨x, ?_, hf⟩
        rw [List.getElem?_append_right (by omega)]
        have : (k - 1).toNat - (inOrder l).length
            = (k - (l.nr_nodes + 1) - 1).toNat + 1 := by omega
        rw [this, List.getElem?_cons_succ]
        exact hx
      · rw [if_neg hg]
        obtain ⟨x, hx, hf⟩ := ihl hs.1 k h1 (by omega)
        refine ⟨x, ?_, hf⟩
        rw [List.getElem?_append_left (by omega)]
        exact hx

omit [LinearOrder T] in
theorem treap_validOp_insert {key : T} {priority : Int}
    (h : validOp (Op.insert key priority) = true) : 0 ≤ priority := by
  simpa [validOp] using h

/-- Every sequence of `insert` calls with non-negative priorities and `erase`
calls returns a tree with correct sizes, non-negative priorities and a sorted
in-order sequence. -/
theorem treap_run_inv :
    ∀ (ops : List (Op T)) (t : Treap T), SizeOk t → PrioOk t →
      (inOrder t).Pairwise (fun a b => a ≤ b) → (∀ op ∈ ops, validOp op = true) →
      ∃ t1, runOps t ops = some t1 ∧ SizeOk t1 ∧ PrioOk t1 ∧
        (inOrder t1).Pairwise (fun a b => a ≤ b) := by
  intro ops
  induction ops with
  | nil =>
    intro t hs hp hso _
    exact ⟨t, rfl, hs, hp, hso⟩
  | cons op ops ih =>
    intro t hs hp hso hv
    cases op with
    | insert key priority =>
      have hprio := treap_validOp_insert (hv _ (List.mem_cons_self _ _))
      obtain ⟨t1, h1, hs1, hp1, A, B, hAB, hAB1, hA, hB⟩ :=
        insert_spec key priority hprio t hs hp hso
      have hso1 : (inOrder t1).Pairwise (fun a b => a ≤ b) := by
        rw [hAB, List.pairwise_append] at hso
        rw [hAB1, List.pairwise_append, List.pairwise_cons]
        refine ⟨hso.1, ⟨fun b hb => le_of_lt (hB b hb), hso.2.1⟩, ?_⟩
        intro a ha b hb
        rcases List.mem_cons.mp hb with rfl | h
        · exact hA a ha
        · exact hso.2.2 a ha b h
      obtain ⟨t2, h2, hrest⟩ := ih t1 hs1 hp1 hso1 (fun o ho => hv o (List.mem_cons_of_mem _ ho))
      refine ⟨t2, ?_, hrest⟩
      simp only [runOps, applyOp, h1, Option.some_bind]
      exact h2
    | erase key =>
      obtain ⟨t1, h1, hs1, hp1, hio⟩ := eraseAux_spec key (t.count + 1) t (by omega) hs hp
      have hso1 : (inOrder t1).Pairwise (fun a b => a ≤ b) := by
        rcases hio with h | ⟨A, B, hA, hB⟩
        · rw [h]
          exact hso
        · rw [hA] at hso
          rw [hB]
          exact hso.sublist (List.Sublist.append_left (List.sublist_cons_self key B) A)
      obtain ⟨t2, h2, hrest⟩ := ih t1 hs1 hp1 hso1 (fun o ho => hv o (List.mem_cons_of_mem _ ho))
      refine ⟨t2, ?_, hrest⟩
      simp only [runOps, applyOp, erase, h1, Option.some_bind]
      exact h2

end TreapModel

/-! ## Treap: search, exact effect of erase, heap property -/

namespace TreapModel

variable {T : Type} [LinearOrder T]

/-- On a sorted tree `find` answers whether the key is in the in-order sequence. -/
theorem find_spec (key : T) :
    ∀ t : Treap T, (inOrder t).Pairwise (fun a b => a ≤ b) →
      (find t key = true ↔ key ∈ inOrder t) := by
  intro t
  induction t with
  | nilNode =>
    intro _
    simp [find, inOrder]
  | node k p l r n ihl ihr =>
    intro hsort
    simp only [inOrder, List.pairwise_append, List.pairwise_cons, List.mem_cons] at hsort
    obtain ⟨hsl, ⟨hkr, hsr⟩, hlr⟩ := hsort
    unfold find
    simp only [inOrder, List.mem_append, List.mem_cons]
    by_cases he : k = key
    · rw [if_pos he]
      simp [he]
    · rw [if_neg he]
      by_cases hlt : k < key
      · rw [if_pos hlt, ihr hsr]
        constructor
        · intro h
          exact Or.inr (Or.inr h)
        · rintro (h | h | h)
          · exact absurd (hlr key h k (Or.inl rfl)) (not_le.mpr hlt)
          · exact absurd h.symm he
          · exact h
      · rw [if_neg hlt, ihl hsl]
        have hgt : key < k := lt_of_le_of_ne (not_lt.mp hlt) (Ne.symm he)
        constructor
        · intro h
          exact Or.inl h
        · rintro (h | h | h)
          · exact h
          · exact absurd h.symm he
          · exact absurd (hkr key h) (not_le.mpr hgt)

/-- `erase` of a key that is not in the tree returns the tree as it is. -/
theorem eraseAux_absent (key : T) :
    ∀ (fuel : Nat) (t : Treap T), t.count < fuel → SizeOk t → key ∉ inOrder t →
      eraseAux fuel t key = some t := by
  intro fuel
  induction fuel with
  | zero => intro t h _ _; omega
  | succ fuel ih =>
    intro t hc hs hk
    cases t with
    | nilNode => rfl
    | node k p l r n =>
      simp only [Treap.count] at hc
      simp only [inOrder, List.mem_append, List.mem_cons, not_or] at hk
      unfold eraseAux
      by_cases hlt : key < k
      · rw [if_pos hlt, ih l (by omega) hs.1 hk.1, Option.some_bind, updateSize_node, hs.2.2]
      · rw [if_neg hlt]
        by_cases hgt : key > k
        · rw [if_pos hgt, ih r (by omega) hs.2.1 hk.2.2, Option.some_bind, updateSize_node,
            hs.2.2]
        · exact absurd (le_antisymm (not_lt.mp hgt) (not_lt.mp hlt)) hk.2.1

/-- `erase` of a key that is in a sorted tree removes one occurrence of it from
the in-order sequence. -/
theorem eraseAux_removes (key : T) :
    ∀ (fuel : Nat) (t t1 : Treap T), (inOrder t).Pairwise (fun a b => a ≤ b) →
      key ∈ inOrder t → eraseAux fuel t key = some t1 →
      ∃ A B, inOrder t = A ++ key :: B ∧ inOrder t1 = A ++ B := by
  intro fuel
  induction fuel with
  | zero =>
    intro t t1 _ _ h
    simp [eraseAux] at h
  | succ fuel ih =>
    intro t t1 hsort hmem h
    cases t with
    | nilNode => simp [inOrder] at hmem
    | node k p l r n =>
      have hsort0 := hsort
      simp only [inOrder, List.pairwise_append, List.pairwise_cons, List.mem_cons] at hsort
      obtain ⟨hsl, ⟨hkr, hsr⟩, hlr⟩ := hsort
      simp only [inOrder, List.mem_append, List.mem_cons] at hmem
      unfold eraseAux at h
      by_cases hlt : key < k
      · rw [if_pos hlt] at h
        have hml : key ∈ inOrder l := by
          rcases hmem with h1 | h1 | h1
          · exact h1
          · exact absurd h1 (ne_of_lt hlt)
          · exact absurd (hkr key h1) (not_le.mpr hlt)
        cases he : eraseAux fuel l key with
        | none => simp [he] at h
        | some l1 =>
          rw [he, Option.some_bind, updateSize_node] at h
          cases h
          obtain ⟨A, B, hA, hB⟩ := ih l l1 hsl hml he
          exact ⟨A, B ++ k :: inOrder r, by simp [inOrder, hA], by simp [inOrder, hB]⟩
      · rw [if_neg hlt] at h
        by_cases hgt : key > k
        · rw [if_pos hgt] at h
          have hmr : key ∈ inOrder r := by
            rcases hmem with h1 | h1 | h1
            · exact absurd (hlr key h1 k (Or.inl rfl)) (not_le.mpr hgt)
            · exact absurd h1 (ne_of_gt hgt)
            · exact h1
          cases he : eraseAux fuel r key with
          | none => simp [he] at h
          | some r1 =>
            rw [he, Option.some_bind, updateSize_node] at h
            cases h
            obtain ⟨A, B, hA, hB⟩ := ih r r1 hsr hmr he
            exact ⟨inOrder l ++ k :: A, B, by simp [inOrder, hA], by simp [inOrder, hB]⟩
        · rw [if_neg hgt] at h
          have hk : key = k := le_antisymm (not_lt.mp hgt) (not_lt.mp hlt)
          subst hk
          by_cases hnil : (l.isNil && r.isNil) = true
          · rw [if_pos hnil] at h
            cases h
            refine ⟨inOrder l, inOrder r, rfl, ?_⟩
            cases l <;> cases r <;> simp_all [Treap.isNil, inOrder]
          · rw [if_neg hnil] at h
            by_cases hpr : l.priority > r.priority
            · rw [if_pos hpr] at h
              cases l with
              | nilNode => simp [rotateRight] at h
              | node lk lp ll lr ln =>
                rw [rotateRight_node, Option.some_bind] at h
                simp only at h
                cases he : eraseAux fuel
                    (Treap.node key p lr r (lr.nr_nodes + r.nr_nodes + 1)) key with
                | none => simp [he] at h
                | some r2 =>
                  rw [he, Option.some_bind, updateSize_node] at h
                  cases h
                  have hsd : (inOrder (Treap.node key p lr r
                      (lr.nr_nodes + r.nr_nodes + 1))).Pairwise (fun a b => a ≤ b) := by
                    refine hsort0.sublist ?_
                    simp only [inOrder, List.append_assoc, List.cons_append]
                    exact List.sublist_append_of_sublist_right
                      (List.sublist_cons_of_sublist _ (List.Sublist.refl _))
                  obtain ⟨A, B, hA, hB⟩ := ih _ r2 hsd (by simp [inOrder]) he
                  refine ⟨inOrder ll ++ lk :: A, B, ?_, ?_⟩
                  · simp only [inOrder] at hA ⊢
                    simp [hA]
                  · simp [inOrder, hB]
            · rw [if_neg hpr] at h
              cases r with
              | nilNode => simp [rotateLeft] at h
              | node rk rp rl rr rn =>
                rw [rotateLeft_node, Option.some_bind] at h
                simp only at h
                cases he : eraseAux fuel
                    (Treap.node key p l rl (l.nr_nodes + rl.nr_nodes + 1)) key with
                | none => simp [he] at h
                | some l2 =>
                  rw [he, Option.some_bind, updateSize_node] at h
                  cases h
                  have hsd : (inOrder (Treap.node key p l rl
                      (l.nr_nodes + rl.nr_nodes + 1))).Pairwise (fun a b => a ≤ b) := by
                    refine hsort0.sublist ?_
                    simp only [inOrder]
                    have hre : inOrder l ++ key :: (inOrder rl ++ rk :: inOrder rr)
                        = (inOrder l ++ key :: inOrder rl) ++ rk :: inOrder rr := by simp
                    rw [hre]
                    exact List.sublist_append_left _ _
                  obtain ⟨A, B, hA, hB⟩ := ih _ l2 hsd (by simp [inOrder]) he
                  refine ⟨A, B ++ rk :: inOrder rr, ?_, ?_⟩
                  · simp only [inOrder] at hA ⊢
                    have hre : inOrder l ++ key :: (inOrder rl ++ rk :: inOrder rr)
                        = (inOrder l ++ key :: inOrder rl) ++ rk :: inOrder rr := by simp
                    rw [hre, hA]
                    simp
                  · simp [inOrder, hB]

/-- `insert` keeps the heap property; the root of the result is either bounded
like the old root or is the new node with both children bounded so. -/
theorem insert_heap (key : T) (priority : Int) (hprio : 0 ≤ priority) :
    ∀ t t1 : Treap T, HeapOk t → insert t key priority = some t1 →
      HeapOk t1 ∧ ∀ b, t.priority ≤ b → t1.priority ≤ b ∨ ChildPrioLe b t1 := by
  intro t
  induction t with
  | nilNode =>
    intro t1 _ h
    simp only [insert, addData, Option.some.injEq] at h
    subst h
    refine ⟨⟨?_, ?_, trivial, trivial⟩, ?_⟩
    · simp only [Treap.priority]; omega
    · simp only [Treap.priority]; omega
    · intro b hb
      exact Or.inr ⟨hb, hb⟩
  | node k p l r n ihl ihr =>
    intro t1 hh h
    obtain ⟨hlp, hrp, hhl, hhr⟩ := hh
    unfold insert at h
    by_cases hlt : key < k
    · rw [if_pos hlt] at h
      cases hi : insert l key priority with
      | none => simp [hi] at h
      | some l1 =>
        rw [hi, Option.some_bind, rebalance_node] at h
        obtain ⟨hh1, hb1⟩ := ihl l1 hhl hi
        by_cases h1 : l1.priority > p
        · rw [if_pos h1] at h
          have hc : ChildPrioLe p l1 := by
            rcases hb1 p hlp with h2 | h2
            · omega
            · exact h2
          cases l1 with
          | nilNode => simp [rotateRight] at h
          | node lk lp ll lr ln =>
            rw [rotateRight_node, Option.some_bind, updateSize_node] at h
            cases h
            simp only [Treap.priority] at h1
            refine ⟨⟨hh1.1, le_of_lt h1, hh1.2.2.1, hc.2, hrp, hh1.2.2.2, hhr⟩, ?_⟩
            intro b hb
            simp only [Treap.priority] at hb
            exact Or.inr ⟨le_trans hc.1 hb, hb⟩
        · rw [if_neg h1, if_neg (not_lt.mpr hrp), Option.some_bind, updateSize_node] at h
          cases h
          exact ⟨⟨not_lt.mp h1, hrp, hh1, hhr⟩, fun b hb => Or.inl hb⟩
    · rw [if_neg hlt] at h
      cases hi : insert r key priority with
      | none => simp [hi] at h
      | some r1 =>
        rw [hi, Option.some_bind, rebalance_node, if_neg (not_lt.mpr hlp)] at h
        obtain ⟨hh1, hb1⟩ := ihr r1 hhr hi
        by_cases h1 : r1.priority > p
        · rw [if_pos h1] at h
          have hc : ChildPrioLe p r1 := by
            rcases hb1 p hrp with h2 | h2
            · omega
            · exact h2
          cases r1 with
          | nilNode => simp [rotateLeft] at h
          | node rk rp rl rr rn =>
            rw [rotateLeft_node, Option.some_bind, updateSize_node] at h
            cases h
            simp only [Treap.priority] at h1
            refine ⟨⟨le_of_lt h1, hh1.2.1, ⟨hlp, hc.1, hhl, hh1.2.2.1⟩, hh1.2.2.2⟩, ?_⟩
            intro b hb
            simp only [Treap.priority] at hb
            exact Or.inr ⟨hb, le_trans hc.2 hb⟩
        · rw [if_neg h1, Option.some_bind, updateSize_node] at h
          cases h
          exact ⟨⟨hlp, not_lt.mp h1, hhl, hh1⟩, fun b hb => Or.inl hb⟩

/-- `erase` at a root that holds the key, over two subtrees with the heap
property: the result has the heap property and its root is bounded by the
larger of the two children. -/
theorem eraseAux_root_heap (key : T) :
    ∀ (fuel : Nat) (p : Int) (l r : Treap T) (n : Int) (t1 : Treap T),
      HeapOk l → HeapOk r → eraseAux fuel (Treap.node key p l r n) key = some t1 →
      HeapOk t1 ∧ t1.priority ≤ max l.priority r.priority := by
  intro fuel
  induction fuel with
  | zero =>
    intro p l r n t1 _ _ h
    simp [eraseAux] at h
  | succ fuel ih =>
    intro p l r n t1 hl hr h
    unfold eraseAux at h
    rw [if_neg (lt_irrefl key), if_neg (lt_irrefl key)] at h
    by_cases hnil : (l.isNil && r.isNil) = true
    · rw [if_pos hnil] at h
      cases h
      refine ⟨trivial, ?_⟩
      cases l <;> cases r <;> simp_all [Treap.isNil, Treap.priority]
    · rw [if_neg hnil] at h
      by_cases hpr : l.priority > r.priority
      · rw [if_pos hpr] at h
        cases l with
        | nilNode => simp [rotateRight] at h
        | node lk lp ll lr ln =>
          rw [rotateRight_node, Option.some_bind] at h
          simp only at h
          cases he : eraseAux fuel
              (Treap.node key p lr r (lr.nr_nodes + r.nr_nodes + 1)) key with
          | none => simp [he] at h
          | some r2 =>
            rw [he, Option.some_bind, updateSize_node] at h
            cases h
            obtain ⟨hh2, hb2⟩ := ih p lr r _ r2 hl.2.2.2 hr he
            simp only [Treap.priority] at hpr ⊢
            have h3 := hl.2.1
            refine ⟨⟨hl.1, ?_, hl.2.2.1, hh2⟩, le_max_left _ _⟩
            exact le_trans hb2 (max_le h3 (le_of_lt hpr))
      · rw [if_neg hpr] at h
        cases r with
        | nilNode => simp [rotateLeft] at h
        | node rk rp rl rr rn =>
          rw [rotateLeft_node, Option.some_bind] at h
          simp only at h
          cases he : eraseAux fuel
              (Treap.node key p l rl (l.nr_nodes + rl.nr_nodes + 1)) key with
          | none => simp [he] at h
          | some l2 =>
            rw [he, Option.some_bind, updateSize_node] at h
            cases h
            obtain ⟨hh2, hb2⟩ := ih p l rl _ l2 hl hr.2.2.1 he
            simp only [Treap.priority] at hpr ⊢
            have h3 := hr.1
            refine ⟨⟨?_, hr.2.1, hh2, hr.2.2.2⟩, le_max_right _ _⟩
            exact le_trans hb2 (max_le (not_lt.mp hpr) h3)

/-- `erase` keeps the heap property and does not raise the priority at the root. -/
theorem eraseAux_heap (key : T) :
    ∀ (fuel : Nat) (t t1 : Treap T), HeapOk t → eraseAux fuel t key = some t1 →
      HeapOk t1 ∧ t1.priority ≤ t.priority := by
  intro fuel
  induction fuel with
  | zero =>
    intro t t1 _ h
    simp [eraseAux] at h
  | succ fuel ih =>
    intro t t1 hh h
    cases t with
    | nilNode =>
      simp only [eraseAux, Option.some.injEq] at h
      subst h
      exact ⟨trivial, le_refl _⟩
    | node k p l r n =>
      obtain ⟨hlp, hrp, hhl, hhr⟩ := hh
      by_cases hlt : key < k
      · unfold eraseAux at h
        rw [if_pos hlt] at h
        cases he : eraseAux fuel l key with
        | none => simp [he] at h
        | some l1 =>
          rw [he, Option.some_bind, updateSize_node] at h
          cases h
          obtain ⟨hh1, hb1⟩ := ih l l1 hhl he
          exact ⟨⟨le_trans hb1 hlp, hrp, hh1, hhr⟩, le_refl _⟩
      · by_cases hgt : key > k
        · unfold eraseAux at h
          rw [if_neg hlt, if_pos hgt] at h
          cases he : eraseAux fuel r key with
          | none => simp [he] at h
          | some r1 =>
            rw [he, Option.some_bind, updateSize_node] at h
            cases h
            obtain ⟨hh1, hb1⟩ := ih r r1 hhr he
            exact ⟨⟨hlp, le_trans hb1 hrp, hhl, hh1⟩, le_refl _⟩
        · have hk : key = k := le_antisymm (not_lt.mp hgt) (not_lt.mp hlt)
          subst hk
          obtain ⟨hh1, hb1⟩ := eraseAux_root_heap key (fuel + 1) p l r n t1 hhl hhr h
          exact ⟨hh1, le_trans hb1 (max_le hlp hrp)⟩

/-- One call returns and keeps the invariant of a treap (exact sizes,
non-negative priorities, sorted in-order sequence, heap property); the number
of occurrences of each key changes as `treapNet` says. -/
theorem treap_step (op : Op T) (t : Treap T) (hs : SizeOk t) (hp : PrioOk t)
    (hso : (inOrder t).Pairwise (fun a b => a ≤ b)) (hh : HeapOk t)
    (hv : validOp op = true) :
    ∃ t1, applyOp t op = some t1 ∧ SizeOk t1 ∧ PrioOk t1 ∧
      (inOrder t1).Pairwise (fun a b => a ≤ b) ∧ HeapOk t1 ∧
      ∀ x, (inOrder t1).count x = treapNet x ((inOrder t).count x) [op] := by
  cases op with
  | insert key priority =>
    have hprio := treap_validOp_insert hv
    obtain ⟨t1, h1, hs1, hp1, A, B, hAB, hAB1, hA, hB⟩ :=
      insert_spec key priority hprio t hs hp hso
    have hso1 : (inOrder t1).Pairwise (fun a b => a ≤ b) := by
      rw [hAB, List.pairwise_append] at hso
      rw [hAB1, List.pairwise_append, List.pairwise_cons]
      refine ⟨hso.1, ⟨fun b hb => le_of_lt (hB b hb), hso.2.1⟩, ?_⟩
      intro a ha b hb
      rcases List.mem_cons.mp hb with rfl | h
      · exact hA a ha
      · exact hso.2.2 a ha b h
    refine ⟨t1, h1, hs1, hp1, hso1, (insert_heap key priority hprio t t1 hh h1).1, ?_⟩
    intro x
    rw [hAB, hAB1]
    simp only [treapNet, List.count_append, List.count_cons, beq_iff_eq]
    split_ifs <;> omega
  | erase key =>
    obtain ⟨t1, h1, hs1, hp1, hio⟩ := eraseAux_spec key (t.count + 1) t (by omega) hs hp
    have hso1 : (inOrder t1).Pairwise (fun a b => a ≤ b) := by
      rcases hio with h | ⟨A, B, hA, hB⟩
      · rw [h]
        exact hso
      · rw [hA] at hso
        rw [hB]
        exact hso.sublist (List.Sublist.append_left (List.sublist_cons_self key B) A)
    refine ⟨t1, h1, hs1, hp1, hso1, (eraseAux_heap key _ t t1 hh h1).1, ?_⟩
    intro x
    simp only [treapNet]
    by_cases hm : key ∈ inOrder t
    · obtain ⟨A, B, hA, hB⟩ := eraseAux_removes key _ t t1 hso hm h1
      rw [hA, hB]
      simp only [List.count_append, List.count_cons, beq_iff_eq]
      split_ifs <;> omega
    · have h2 := eraseAux_absent key (t.count + 1) t (by omega) hs hm
      rw [h1] at h2
      cases h2
      by_cases hx : key = x
      · subst hx
        rw [if_pos rfl, List.count_eq_zero_of_not_mem hm]
      · rw [if_neg hx]

/-- Every sequence of `insert` calls with non-negative priorities and `erase`
calls returns a tree with the whole invariant, in which every key occurs as
often as the calls leave it. -/
theorem treap_run_full :
    ∀ (ops : List (Op T)) (t : Treap T), SizeOk t → PrioOk t →
      (inOrder t).Pairwise (fun a b => a ≤ b) → HeapOk t →
      (∀ op ∈ ops, validOp op = true) →
      ∃ t1, runOps t ops = some t1 ∧ SizeOk t1 ∧ PrioOk t1 ∧
        (inOrder t1).Pairwise (fun a b => a ≤ b) ∧ HeapOk t1 ∧
        ∀ x, (inOrder t1).count x = treapNet x ((inOrder t).count x) ops := by
  intro ops
  induction ops with
  | nil =>
    intro t hs hp hso hh _
    exact ⟨t, rfl, hs, hp, hso, hh, fun _ => rfl⟩
  | cons op ops ih =>
    intro t hs hp hso hh hv
    obtain ⟨t1, h1, hs1, hp1, hso1, hh1, hc1⟩ :=
      treap_step op t hs hp hso hh (hv _ (List.mem_cons_self _ _))
    obtain ⟨t2, h2, hs2, hp2, hso2, hh2, hc2⟩ :=
      ih t1 hs1 hp1 hso1 hh1 (fun o ho => hv o (List.mem_cons_of_mem _ ho))
    refine ⟨t2, ?_, hs2, hp2, hso2, hh2, ?_⟩
    · simp only [runOps, h1, Option.some_bind]
      exact h2
    · intro x
      rw [hc2 x, hc1 x]
      cases op <;> rfl

/-- The whole invariant on the trees built from the empty one. -/
theorem treap_run_nil (ops : List (Op T)) (hv : ∀ op ∈ ops, validOp op = true) :
    ∃ t1, runOps Treap.nilNode ops = some t1 ∧ SizeOk t1 ∧ PrioOk t1 ∧
      (inOrder t1).Pairwise (fun a b => a ≤ b) ∧ HeapOk t1 ∧
      ∀ x, (inOrder t1).count x = treapNet x 0 ops :=
  treap_run_full ops Treap.nilNode trivial trivial List.Pairwise.nil trivial hv

/-- After `insert` calls only, each key occurs as often as it was inserted. -/
theorem treapNet_inserts (x : T) :
    ∀ (kps : List (T × Int)) (n : Nat),
      treapNet x n (kps.map fun kp => Op.insert kp.1 kp.2)
        = n + (kps.map Prod.fst).count x := by
  intro kps
  induction kps with
  | nil => intro n; rfl
  | cons kp kps ih =>
    intro n
    simp only [List.map_cons, treapNet, ih, List.count_cons, beq_iff_eq]
    split_ifs <;> omega

/-- A sorted list without repetition is strictly sorted. -/
theorem strict_of_sorted_nodup (l : List T) (h : l.Pairwise (fun a b => a ≤ b))
    (hn : l.Nodup) : l.Pairwise (fun a b => a < b) :=
  (h.and hn).imp (fun hab => lt_of_le_of_ne hab.1 hab.2)

end TreapModel

/-! ## Treap: the rotation calls made by insert and erase -/

namespace TreapModel

variable {T : Type}

theorem rotateRight_lifts (f g : Treap T) (h : rotateRight f = some g) :
    (RotCall.right f).liftsNode = true := by
  cases f with
  | nilNode => simp [rotateRight] at h
  | node k p l r n =>
    cases l with
    | nilNode => simp [rotateRight] at h
    | node lk lp ll lr ln => rfl

theorem rotateLeft_lifts (f g : Treap T) (h : rotateLeft f = some g) :
    (RotCall.left f).liftsNode = true := by
  cases f with
  | nilNode => simp [rotateLeft] at h
  | node k p l r n =>
    cases r with
    | nilNode => simp [rotateLeft] at h
    | node rk rp rl rr rn => rfl

theorem bind_some_left {α β : Type} {o : Option α} {f : α → Option β} {b : β}
    (h : o.bind f = some b) : ∃ a, o = some a := by
  cases o with
  | none => simp at h
  | some a => exact ⟨a, rfl⟩

/-- The recorded end of `insert` has the result of `rebalance`, and when there
is a result the rotation it called lifted a node that is not nil. -/
theorem rebalanceLog_spec (t : Treap T) :
    (rebalanceLog t).2 = rebalance t ∧
      ((rebalanceLog t).2 ≠ none → ∀ c ∈ (rebalanceLog t).1, c.liftsNode = true) := by
  cases t with
  | nilNode => exact ⟨rfl, fun h => absurd rfl h⟩
  | node k p l r n =>
    rw [rebalance_node]
    unfold rebalanceLog
    by_cases h1 : l.priority > p
    · simp only [if_pos h1]
      refine ⟨trivial, ?_⟩
      intro hne c hc
      rw [List.mem_singleton] at hc
      subst hc
      obtain ⟨t1, ht1⟩ := Option.ne_none_iff_exists'.mp hne
      obtain ⟨g, hg⟩ := bind_some_left ht1
      exact rotateRight_lifts _ g hg
    · simp only [if_neg h1]
      by_cases h2 : r.priority > p
      · simp only [if_pos h2]
        refine ⟨trivial, ?_⟩
        intro hne c hc
        rw [List.mem_singleton] at hc
        subst hc
        obtain ⟨t1, ht1⟩ := Option.ne_none_iff_exists'.mp hne
        obtain ⟨g, hg⟩ := bind_some_left ht1
        exact rotateLeft_lifts _ g hg
      · simp only [if_neg h2]
        exact ⟨rfl, fun _ c hc => by cases hc⟩

variable [LinearOrder T]

/-- The recorded `insert` has the result of `insert`, and when there is a result
every rotation it called lifted a node that is not nil. -/
theorem insertLog_spec (key : T) (priority : Int) :
    ∀ t : Treap T, (insertLog t key priority).2 = insert t key priority ∧
      ((insertLog t key priority).2 ≠ none →
        ∀ c ∈ (insertLog t key priority).1, c.liftsNode = true) := by
  intro t
  induction t with
  | nilNode => exact ⟨rfl, fun _ c hc => by cases hc⟩
  | node k p l r n ihl ihr =>
    unfold insertLog insert
    by_cases hlt : key < k
    · simp only [if_pos hlt]
      obtain ⟨h1, h2⟩ := ihl
      cases hlog : insertLog l key priority with
      | mk log res =>
        rw [hlog] at h1 h2
        simp only at h1 h2
        cases res with
        | none =>
          simp only
          rw [← h1]
          exact ⟨rfl, fun h => absurd rfl h⟩
        | some l1 =>
          simp only
          rw [← h1, Option.some_bind]
          obtain ⟨h3, h4⟩ := rebalanceLog_spec (Treap.node k p l1 r n)
          refine ⟨h3, ?_⟩
          intro hne c hc
          rcases List.mem_append.mp hc with hc1 | hc1
          · exact h2 (by simp) c hc1
          · exact h4 hne c hc1
    · simp only [if_neg hlt]
      obtain ⟨h1, h2⟩ := ihr
      cases hlog : insertLog r key priority with
      | mk log res =>
        rw [hlog] at h1 h2
        simp only at h1 h2
        cases res with
        | none =>
          simp only
          rw [← h1]
          exact ⟨rfl, fun h => absurd rfl h⟩
        | some r1 =>
          simp only
          rw [← h1, Option.some_bind]
          obtain ⟨h3, h4⟩ := rebalanceLog_spec (Treap.node k p l r1 n)
          refine ⟨h3, ?_⟩
          intro hne c hc
          rcases List.mem_append.mp hc with hc1 | hc1
          · exact h2 (by simp) c hc1
          · exact h4 hne c hc1

/-- The recorded `erase` has the result of `erase`, and when there is a result
every rotation it called lifted a node that is not nil. -/
theorem eraseAuxLog_spec (key : T) :
    ∀ (fuel : Nat) (t : Treap T), (eraseAuxLog fuel t key).2 = eraseAux fuel t key ∧
      ((eraseAuxLog fuel t key).2 ≠ none →
        ∀ c ∈ (eraseAuxLog fuel t key).1, c.liftsNode = true) := by
  intro fuel
  induction fuel with
  | zero =>
    intro t
    exact ⟨rfl, fun h => absurd rfl h⟩
  | succ fuel ih =>
    intro t
    cases t with
    | nilNode => exact ⟨rfl, fun _ c hc => by cases hc⟩
    | node k p l r n =>
      unfold eraseAuxLog eraseAux
      by_cases hlt : key < k
      · simp only [if_pos hlt]
        obtain ⟨h1, h2⟩ := ih l
        cases hlog : eraseAuxLog fuel l key with
        | mk log res =>
          rw [hlog] at h1 h2
          simp only at h1 h2
          rw [← h1]
          cases res with
          | none => exact ⟨rfl, fun h => absurd rfl h⟩
          | some l1 => exact ⟨rfl, fun _ c hc => h2 (by simp) c hc⟩
      · simp only [if_neg hlt]
        by_cases hgt : key > k
        · simp only [if_pos hgt]
          obtain ⟨h1, h2⟩ := ih r
          cases hlog : eraseAuxLog fuel r key with
          | mk log res =>
            rw [hlog] at h1 h2
            simp only at h1 h2
            rw [← h1]
            cases res with
            | none => exact ⟨rfl, fun h => absurd rfl h⟩
            | some r1 => exact ⟨rfl, fun _ c hc => h2 (by simp) c hc⟩
        · simp only [if_neg hgt]
          by_cases hnil : (l.isNil && r.isNil) = true
          · simp only [if_pos hnil]
            exact ⟨trivial, fun _ c hc => by cases hc⟩
          · simp only [if_neg hnil]
            by_cases hpr : l.priority > r.priority
            · simp only [if_pos hpr]
              cases l with
              | nilNode => exact ⟨rfl, fun h => absurd rfl h⟩
              | node lk lp ll lr ln =>
                rw [rotateRight_node]
                simp only [Option.some_bind]
                obtain ⟨h1, h2⟩ :=
                  ih (Treap.node k p lr r (lr.nr_nodes + r.nr_nodes + 1))
                cases hlog : eraseAuxLog fuel
                    (Treap.node k p lr r (lr.nr_nodes + r.nr_nodes + 1)) key with
                | mk log res =>
                  rw [hlog] at h1 h2
                  simp only at h1 h2
                  rw [← h1]
                  cases res with
                  | none => exact ⟨rfl, fun h => absurd rfl h⟩
                  | some r2 =>
                    refine ⟨rfl, ?_⟩
                    intro _ c hc
                    rcases List.mem_cons.mp hc with rfl | hc1
                    · rfl
                    · exact h2 (by simp) c hc1
            · simp only [if_neg hpr]
              cases r with
              | nilNode => exact ⟨rfl, fun h => absurd rfl h⟩
              | node rk rp rl rr rn =>
                rw [rotateLeft_node]
                simp only [Option.some_bind]
                obtain ⟨h1, h2⟩ :=
                  ih (Treap.node k p l rl (l.nr_nodes + rl.nr_nodes + 1))
                cases hlog : eraseAuxLog fuel
                    (Treap.node k p l rl (l.nr_nodes + rl.nr_nodes + 1)) key with
                | mk log res =>
                  rw [hlog] at h1 h2
                  simp only at h1 h2
                  rw [← h1]
                  cases res with
                  | none => exact ⟨rfl, fun h => absurd rfl h⟩
                  | some l2 =>
                    refine ⟨rfl, ?_⟩
                    intro _ c hc
                    rcases List.mem_cons.mp hc with rfl | hc1
                    · rfl
                    · exact h2 (by simp) c hc1

/-- The recorded run has the result of the run, and when there is a result
every rotation called on the way lifted a node that is not nil. -/
theorem runOpsLog_spec :
    ∀ (ops : List (Op T)) (t : Treap T), (runOpsLog t ops).2 = runOps t ops ∧
      ((runOpsLog t ops).2 ≠ none → ∀ c ∈ (runOpsLog t ops).1, c.liftsNode = true) := by
  intro ops
  induction ops with
  | nil =>
    intro t
    exact ⟨rfl, fun _ c hc => by cases hc⟩
  | cons op ops ih =>
    intro t
    have hop : (applyOpLog t op).2 = applyOp t op ∧
        ((applyOpLog t op).2 ≠ none → ∀ c ∈ (applyOpLog t op).1, c.liftsNode = true) := by
      cases op with
      | insert key priority => exact insertLog_spec key priority t
      | erase key => exact eraseAuxLog_spec key (t.count + 1) t
    obtain ⟨h1, h2⟩ := hop
    unfold runOpsLog runOps
    cases hlog : applyOpLog t op with
    | mk log res =>
      rw [hlog] at h1 h2
      simp only at h1 h2
      rw [← h1]
      cases res with
      | none => exact ⟨rfl, fun h => absurd rfl h⟩
      | some g =>
        simp only [Option.some_bind]
        obtain ⟨h3, h4⟩ := ih g
        refine ⟨h3, ?_⟩
        intro hne c hc
        rcases List.mem_append.mp hc with hc1 | hc1
        · exact h2 (by simp) c hc1
        · exact h4 hne c hc1

/-- The record does see a rotation that lifts a nil node: with a priority below
`-1` at the root, the next `insert` calls `rotateRight` on a node whose left
child is nil, and has no result. -/
theorem negative_priority_lifts_nil :
    (runOpsLog (Treap.nilNode : Treap Int) [Op.insert 5 (-3), Op.insert 6 (-2)]).1.map
        RotCall.liftsNode = [false] ∧
      runOps (Treap.nilNode : Treap Int) [Op.insert 5 (-3), Op.insert 6 (-2)] = none := by
  decide

end TreapModel

/-! ## Trie: slots and the representation invariant -/

namespace TrieModel

variable {T : Type}

theorem slot_inj {c d : Char} (h : slot c = slot d) : c = d := by
  unfold slot at h
  have h1 : c.toNat = d.toNat := by omega
  exact Char.ext (UInt32.eq_of_val_eq (Fin.eq_of_val_eq h1))

theorem lowercase_cons (c : Char) (w : List Char) :
    lowercase (c :: w) = true ↔
      (('a'.toNat ≤ c.toNat ∧ c.toNat ≤ 'z'.toNat) ∧ lowercase w = true) := by
  simp [lowercase]

theorem slot_range {c : Char} (h : 'a'.toNat ≤ c.toNat ∧ c.toNat ≤ 'z'.toNat) :
    0 ≤ slot c ∧ (slot c).toNat < ALPHABET_SIZE := by
  have ha : 'a'.toNat = 97 := by decide
  have hz : 'z'.toNat = 122 := by decide
  unfold slot ALPHABET_SIZE
  rw [ha, hz] at h
  rw [ha]
  omega

/-- A slot of a full vector read at a letter. -/
theorem child_lower (t : Trie T) (hl : t.children.length = ALPHABET_SIZE) {c : Char}
    (h : 'a'.toNat ≤ c.toNat ∧ c.toNat ≤ 'z'.toNat) :
    ∃ p, child t (slot c) = some p := by
  obtain ⟨h0, h1⟩ := slot_range h
  unfold child
  rw [if_pos h0]
  have h2 : (slot c).toNat < t.children.length := by omega
  exact ⟨_, List.getElem?_eq_getElem h2⟩

theorem nodeAt_one (t : Trie T) (c : Char) :
    nodeAt t [c] = (child t (slot c)).join := by
  unfold nodeAt
  cases h : child t (slot c) with
  | none => rfl
  | some p =>
    cases p with
    | none => rfl
    | some ch => rfl

theorem nodeAt_cons (t : Trie T) (c : Char) (p : List Char) :
    nodeAt t (c :: p) = (nodeAt t [c]).bind fun ch => nodeAt ch p := by
  rw [nodeAt_one]
  conv_lhs => unfold nodeAt
  cases h : child t (slot c) with
  | none => rfl
  | some q =>
    cases q with
    | none => rfl
    | some ch => rfl

theorem setChild_children (t : Trie T) (i : Int) (p : Option (Trie T)) :
    (setChild t i p).children = t.children.set i.toNat p := rfl

theorem child_setChild_same (t : Trie T) (c : Char) (p : Option (Trie T))
    (h0 : 0 ≤ slot c) (h1 : (slot c).toNat < t.children.length) :
    child (setChild t (slot c) p) (slot c) = some p := by
  unfold child
  rw [if_pos h0, setChild_children]
  simp [h1]

theorem child_setChild_other (t : Trie T) (c d : Char) (p : Option (Trie T))
    (h0 : 0 ≤ slot c) (hne : d ≠ c) :
    child (setChild t (slot c) p) (slot d) = child t (slot d) := by
  unfold child
  by_cases hd : 0 ≤ slot d
  · rw [if_pos hd, if_pos hd, setChild_children]
    have hne2 : (slot c).toNat ≠ (slot d).toNat := by
      intro he
      apply hne
      apply slot_inj
      omega
    rw [List.getElem?_set_ne hne2]
  · rw [if_neg hd, if_neg hd]

theorem children_setChild (t : Trie T) (i : Int) (p : Option (Trie T)) :
    (setChild t i p).children.length = t.children.length := by
  rw [setChild_children, List.length_set]

theorem repD_congr {t t1 : Trie T} (h : t1.children = t.children) :
    ∀ (d : Nat) (ws : List (List Char × T)), RepD d t ws → RepD d t1 ws := by
  intro d ws hr
  cases d with
  | zero => trivial
  | succ d =>
    have hn : ∀ c, nodeAt t1 [c] = nodeAt t [c] := by
      intro c
      rw [nodeAt_one, nodeAt_one]
      unfold child
      rw [h]
    refine ⟨by rw [h]; exact hr.1, ?_⟩
    intro c
    rw [hn c]
    exact hr.2 c

theorem rep_congr (t t1 : Trie T) (h : t1.children = t.children)
    {ws : List (List Char × T)} (hr : Rep t ws) : Rep t1 ws :=
  fun d => repD_congr h d ws (hr d)

/-- One level of the invariant. -/
theorem rep_unfold {t : Trie T} {ws : List (List Char × T)} (hr : Rep t ws) :
    t.children.length = ALPHABET_SIZE ∧
    ∀ c, (tails c ws = [] → nodeAt t [c] = none) ∧
      (tails c ws ≠ [] →
        ∃ ch, nodeAt t [c] = some ch ∧ Good ch (tails c ws) ∧ Rep ch (tails c ws)) := by
  refine ⟨(hr 1).1, ?_⟩
  intro c
  refine ⟨((hr 1).2 c).1, ?_⟩
  intro hne
  obtain ⟨ch, hch, hg, _⟩ := ((hr 1).2 c).2 hne
  refine ⟨ch, hch, hg, ?_⟩
  intro d
  obtain ⟨ch1, hch1, _, hrd⟩ := ((hr (d + 1)).2 c).2 hne
  rw [hch] at hch1
  cases hch1
  exact hrd

theorem rep_fold {t : Trie T} {ws : List (List Char × T)}
    (hl : t.children.length = ALPHABET_SIZE)
    (h : ∀ c, (tails c ws = [] → nodeAt t [c] = none) ∧
      (tails c ws ≠ [] →
        ∃ ch, nodeAt t [c] = some ch ∧ Good ch (tails c ws) ∧ Rep ch (tails c ws))) :
    Rep t ws := by
  intro d
  cases d with
  | zero => trivial
  | succ d =>
    refine ⟨hl, ?_⟩
    intro c
    refine ⟨(h c).1, ?_⟩
    intro hne
    obtain ⟨ch, hch, hg, hr⟩ := (h c).2 hne
    exact ⟨ch, hch, hg, hr d⟩

theorem tails_nil (c : Char) : tails c ([] : List (List Char × T)) = [] := rfl

/-- A tree whose slots are all null holds no call. -/
theorem rep_empty (t : Trie T) (h : t.children = List.replicate ALPHABET_SIZE none) :
    Rep t [] := by
  apply rep_fold
  · rw [h]
    simp
  · intro c
    refine ⟨?_, fun hne => absurd rfl hne⟩
    intro _
    rw [nodeAt_one]
    unfold child
    rw [h]
    split_ifs
    · rw [List.getElem?_replicate]
      split_ifs <;> rfl
    · rfl

end TrieModel

/-! ## Trie: insert keeps the representation invariant -/

namespace TrieModel

variable {T : Type}

theorem keys_cons (kv : List Char × T) (ws : List (List Char × T)) :
    keys (kv :: ws) = kv.1 :: keys ws := rfl

theorem tails_cons_nil (c : Char) (v : T) (ws : List (List Char × T)) :
    tails c (([], v) :: ws) = tails c ws := rfl

theorem tails_cons_same (c : Char) (r : List Char) (v : T) (ws : List (List Char × T)) :
    tails c ((c :: r, v) :: ws) = (r, v) :: tails c ws := by
  simp only [tails, if_true]

theorem tails_cons_other (c d : Char) (r : List Char) (v : T) (ws : List (List Char × T))
    (h : d ≠ c) : tails c ((d :: r, v) :: ws) = tails c ws := by
  simp only [tails, h, if_false]

theorem tails_append (c : Char) (ws us : List (List Char × T)) :
    tails c (ws ++ us) = tails c ws ++ tails c us := by
  induction ws with
  | nil => rfl
  | cons kv ws ih =>
    obtain ⟨k, v⟩ := kv
    cases k with
    | nil => exact ih
    | cons d r =>
      by_cases hd : d = c
      · subst hd
        rw [List.cons_append, tails_cons_same, tails_cons_same, ih, List.cons_append]
      · rw [List.cons_append, tails_cons_other c d r v _ hd, tails_cons_other c d r v _ hd, ih]

theorem tails_one_same (c : Char) (r : List Char) (v : T) :
    tails c [(c :: r, v)] = [(r, v)] := by
  simp only [tails, if_true]

theorem tails_one_other (c d : Char) (r : List Char) (v : T) (h : d ≠ c) :
    tails c [(d :: r, v)] = [] := by
  simp only [tails, h, if_false]

theorem tails_one_nil (c : Char) (v : T) : tails c [(([] : List Char), v)] = [] := rfl

theorem mem_keys_tails (c : Char) (r : List Char) (ws : List (List Char × T)) :
    r ∈ keys (tails c ws) ↔ (c :: r) ∈ keys ws := by
  induction ws with
  | nil => exact ⟨fun h => (by cases h), fun h => (by cases h)⟩
  | cons kv ws ih =>
    obtain ⟨k, v⟩ := kv
    rw [keys_cons, List.mem_cons]
    cases k with
    | nil =>
      rw [tails_cons_nil, ih]
      constructor
      · exact Or.inr
      · rintro (h | h)
        · cases h
        · exact h
    | cons d q =>
      by_cases hd : d = c
      · subst hd
        rw [tails_cons_same, keys_cons, List.mem_cons, ih]
        constructor
        · rintro (h | h)
          · exact Or.inl (by rw [h])
          · exact Or.inr h
        · rintro (h | h)
          · exact Or.inl (List.cons.inj h).2
          · exact Or.inr h
      · rw [tails_cons_other c d q v ws hd, ih]
        constructor
        · exact Or.inr
        · rintro (h | h)
          · exact absurd (List.cons.inj h).1.symm hd
          · exact h

theorem mem_keys_append_one (ws : List (List Char × T)) (k q : List Char) (v : T) :
    q ∈ keys (ws ++ [(k, v)]) ↔ q ∈ keys ws ∨ q = k := by
  unfold keys
  rw [List.map_append, List.mem_append, List.map_cons, List.map_nil, List.mem_singleton]

theorem lastValue_cons (kv : List Char × T) (ws : List (List Char × T)) (k : List Char) :
    lastValue (kv :: ws) k
      = match lastValue ws k with
        | some v => some v
        | none => if kv.1 = k then some kv.2 else none := rfl

theorem lastValue_tails (c : Char) (r : List Char) (ws : List (List Char × T)) :
    lastValue (tails c ws) r = lastValue ws (c :: r) := by
  induction ws with
  | nil => rfl
  | cons kv ws ih =>
    obtain ⟨k, v⟩ := kv
    rw [lastValue_cons]
    cases k with
    | nil =>
      rw [tails_cons_nil, ih]
      cases lastValue ws (c :: r) with
      | none => simp
      | some x => rfl
    | cons d q =>
      by_cases hd : d = c
      · subst hd
        rw [tails_cons_same, lastValue_cons, ih]
        cases lastValue ws (d :: r) with
        | none => simp
        | some x => rfl
      · rw [tails_cons_other c d q v ws hd, ih]
        cases lastValue ws (c :: r) with
        | none =>
          have : ¬ (d :: q = c :: r) := fun h => hd (List.cons.inj h).1
          simp [this]
        | some x => rfl

theorem lastValue_append_one (ws : List (List Char × T)) (k q : List Char) (v : T) :
    lastValue (ws ++ [(k, v)]) q = if k = q then some v else lastValue ws q := by
  induction ws with
  | nil =>
    rw [List.nil_append, lastValue_cons]
    rfl
  | cons kv ws ih =>
    rw [List.cons_append, lastValue_cons, ih, lastValue_cons]
    by_cases hk : k = q
    · simp only [if_pos hk]
    · simp only [if_neg hk]

theorem lastValue_some_iff (ws : List (List Char × T)) (q : List Char) :
    (∃ v, lastValue ws q = some v) ↔ q ∈ keys ws := by
  induction ws with
  | nil => exact ⟨fun ⟨_, h⟩ => (by cases h), fun h => (by cases h)⟩
  | cons kv ws ih =>
    rw [keys_cons, List.mem_cons, lastValue_cons]
    cases hl : lastValue ws q with
    | some x =>
      exact ⟨fun _ => Or.inr (ih.mp ⟨x, hl⟩), fun _ => ⟨x, rfl⟩⟩
    | none =>
      have hn : q ∉ keys ws := fun hm => by
        obtain ⟨x, hx⟩ := ih.mpr hm
        rw [hl] at hx
        cases hx
      by_cases hk : kv.1 = q
      · exact ⟨fun _ => Or.inl hk.symm, fun _ => ⟨kv.2, by simp [hk]⟩⟩
      · constructor
        · rintro ⟨x, hx⟩
          simp [hk] at hx
        · rintro (h | h)
          · exact absurd h.symm hk
          · exact absurd h hn

theorem allLower_tails (c : Char) (ws : List (List Char × T)) (h : allLower ws) :
    allLower (tails c ws) := by
  induction ws with
  | nil => exact h
  | cons kv ws ih =>
    have hrest : allLower ws := fun x hx => h x (List.mem_cons_of_mem _ hx)
    have hkv := h kv (List.mem_cons_self _ _)
    obtain ⟨k, v⟩ := kv
    cases k with
    | nil => exact ih hrest
    | cons d q =>
      by_cases hd : d = c
      · subst hd
        rw [tails_cons_same]
        intro x hx
        rcases List.mem_cons.mp hx with rfl | hx1
        · exact ((lowercase_cons d q).mp hkv).2
        · exact ih hrest x hx1
      · rw [tails_cons_other c d q v ws hd]
        exact ih hrest

/-- The invariant only looks at the calls through their tails. -/
theorem rep_calls_congr {t : Trie T} {ws us : List (List Char × T)}
    (h : ∀ c, tails c us = tails c ws) (hr : Rep t ws) : Rep t us := by
  obtain ⟨hl, hc⟩ := rep_unfold hr
  apply rep_fold hl
  intro c
  rw [h c]
  exact hc c

/-- What the slot read by `insert` holds and what `stepInto` makes of it. -/
theorem stepInto_spec {it : Trie T} {ws : List (List Char × T)} (hr : Rep it ws) (c : Char)
    (p : Option (Trie T)) (hp : child it (slot c) = some p) :
    Rep (stepInto p) (tails c ws) ∧ (stepInto p).count = ((tails c ws).length : Int) + 1 ∧
      (stepInto p).isEndOfWord = some (decide ([] ∈ keys (tails c ws))) ∧
      ∀ v, lastValue (tails c ws) [] = some v → (stepInto p).value = some v := by
  obtain ⟨_, hc⟩ := rep_unfold hr
  have hn : nodeAt it [c] = p := by
    rw [nodeAt_one, hp]
    rfl
  cases p with
  | none =>
    have ht : tails c ws = [] := by
      by_contra hne
      obtain ⟨ch, hch, _⟩ := (hc c).2 hne
      rw [hn] at hch
      cases hch
    rw [ht]
    refine ⟨rep_empty _ rfl, rfl, rfl, ?_⟩
    intro v hv
    cases hv
  | some ch =>
    have hne : tails c ws ≠ [] := by
      intro ht
      have := (hc c).1 ht
      rw [hn] at this
      cases this
    obtain ⟨ch1, hch1, hg, hrc⟩ := (hc c).2 hne
    rw [hn] at hch1
    cases hch1
    refine ⟨rep_congr ch (stepInto (some ch)) rfl hrc, ?_, hg.2.1, hg.2.2⟩
    show ch.count + 1 = _
    rw [hg.1]

/-- `insert` from a node on returns, keeps the invariant with the call added,
and changes at the node itself only `value` and `isEndOfWord`, when the key
ends there. -/
theorem insertLoop_spec (v : T) :
    ∀ (key : List Char) (it : Trie T) (ws : List (List Char × T)), Rep it ws →
      lowercase key = true →
      ∃ it1, insertLoop it key v = some it1 ∧ Rep it1 (ws ++ [(key, v)]) ∧
        it1.count = it.count ∧
        (key ≠ [] → it1.isEndOfWord = it.isEndOfWord ∧ it1.value = it.value) ∧
        (key = [] → it1.isEndOfWord = some true ∧ it1.value = some v) := by
  intro key
  induction key with
  | nil =>
    intro it ws hr _
    refine ⟨_, rfl, ?_, rfl, fun h => absurd rfl h, fun _ => ⟨rfl, rfl⟩⟩
    refine rep_congr it (Trie.mk it.count it.children (some v) (some true)) rfl ?_
    apply rep_calls_congr _ hr
    intro c
    rw [tails_append, tails_one_nil, List.append_nil]
  | cons c cs ih =>
    intro it ws hr hlow
    obtain ⟨hc1, hcs⟩ := (lowercase_cons c cs).mp hlow
    obtain ⟨hl, hc⟩ := rep_unfold hr
    obtain ⟨p, hp⟩ := child_lower it hl hc1
    obtain ⟨hrn, hcount, hflag, hval⟩ := stepInto_spec hr c p hp
    obtain ⟨ch1, hins, hr1, hcnt1, hsame, hend⟩ := ih (stepInto p) (tails c ws) hrn hcs
    obtain ⟨h0, h1⟩ := slot_range hc1
    refine ⟨setChild it (slot c) (some ch1), ?_, ?_, rfl, fun _ => ⟨rfl, rfl⟩,
      fun h => by cases h⟩
    · simp only [insertLoop, hp, Option.some_bind, hins, Option.map_some']
    · apply rep_fold
      · rw [children_setChild]
        exact hl
      · intro d
        by_cases hd : d = c
        · subst hd
          have ht : tails d (ws ++ [(d :: cs, v)]) = tails d ws ++ [(cs, v)] := by
            rw [tails_append, tails_one_same]
          rw [ht]
          refine ⟨fun h => by simp at h, fun _ => ⟨ch1, ?_, ?_, hr1⟩⟩
          · rw [nodeAt_one, child_setChild_same it d _ h0 (by rw [hl]; exact h1)]
            rfl
          · refine ⟨?_, ?_, ?_⟩
            · rw [hcnt1, hcount]
              simp
            · by_cases hcs0 : cs = []
              · rw [(hend hcs0).1, hcs0,
                  decide_eq_true ((mem_keys_append_one _ _ _ _).mpr (Or.inr rfl))]
              · rw [(hsame hcs0).1, hflag]
                congr 1
                rw [decide_eq_decide, mem_keys_append_one]
                exact ⟨Or.inl, fun h => h.elim id (fun h1 => absurd h1.symm hcs0)⟩
            · intro x hx
              rw [lastValue_append_one] at hx
              by_cases hcs0 : cs = []
              · rw [if_pos hcs0] at hx
                rw [(hend hcs0).2, ← hx]
              · rw [if_neg hcs0] at hx
                rw [(hsame hcs0).2]
                exact hval x hx
        · have ht : tails d (ws ++ [(c :: cs, v)]) = tails d ws := by
            rw [tails_append, tails_one_other d c cs v (fun h => hd h.symm), List.append_nil]
          rw [ht, nodeAt_one, child_setChild_other it c d _ h0 hd, ← nodeAt_one]
          exact hc d

end TrieModel

/-! ## Trie: what the queries return on a tree that holds given calls -/

namespace TrieModel

variable {T : Type}

theorem withPrefix_nil (l : List (List Char)) : withPrefix [] l = l.length := by
  unfold withPrefix
  induction l with
  | nil => rfl
  | cons w l ih =>
    rw [List.filter_cons_of_pos (by simp), List.length_cons, List.length_cons, ih]

theorem withPrefix_cons (p w : List Char) (l : List (List Char)) :
    withPrefix p (w :: l) = (if p.isPrefixOf w = true then 1 else 0) + withPrefix p l := by
  unfold withPrefix
  by_cases h : p.isPrefixOf w = true
  · rw [List.filter_cons_of_pos h, if_pos h, List.length_cons, Nat.add_comm]
  · rw [List.filter_cons_of_neg h, if_neg h, Nat.zero_add]

theorem withPrefix_empty (p : List Char) : withPrefix p [] = 0 := rfl

theorem withPrefix_tails (c : Char) (p : List Char) (ws : List (List Char × T)) :
    withPrefix p (keys (tails c ws)) = withPrefix (c :: p) (keys ws) := by
  induction ws with
  | nil => rfl
  | cons kv ws ih =>
    obtain ⟨k, v⟩ := kv
    rw [keys_cons, withPrefix_cons, ← ih]
    cases k with
    | nil =>
      rw [tails_cons_nil]
      simp
    | cons d r =>
      by_cases hd : d = c
      · subst hd
        rw [tails_cons_same, keys_cons, withPrefix_cons]
        simp [List.isPrefixOf]
      · rw [tails_cons_other c d r v ws hd]
        have hd2 : ¬ c = d := fun h => hd h.symm
        simp [List.isPrefixOf, hd2]

theorem tails_length (c : Char) (ws : List (List Char × T)) :
    (tails c ws).length = withPrefix [c] (keys ws) := by
  rw [← withPrefix_tails, withPrefix_nil]
  simp [keys]

/-- The empty trie holds no call. -/
theorem rep_create : Rep (Trie.create T ALPHABET_SIZE) [] := rep_empty _ rfl

/-- A sequence of `insert` calls with lowercase keys returns a tree that holds
the calls made before and these. -/
theorem insertAll_spec :
    ∀ (ws : List (List Char × T)) (t : Trie T) (us : List (List Char × T)), Rep t us →
      allLower ws → ∃ t1, insertAll t ws = some t1 ∧ Rep t1 (us ++ ws) := by
  intro ws
  induction ws with
  | nil =>
    intro t us hr _
    exact ⟨t, rfl, by rw [List.append_nil]; exact hr⟩
  | cons kv ws ih =>
    intro t us hr hl
    obtain ⟨t1, h1, hr1, _⟩ :=
      insertLoop_spec kv.2 kv.1 t us hr (hl kv (List.mem_cons_self _ _))
    obtain ⟨t2, h2, hr2⟩ :=
      ih t1 (us ++ [(kv.1, kv.2)]) hr1 (fun x hx => hl x (List.mem_cons_of_mem _ hx))
    refine ⟨t2, ?_, ?_⟩
    · simp only [insertAll, insert, h1, Option.some_bind]
      exact h2
    · simpa using hr2

/-- From the empty trie. -/
theorem insertAll_create (ws : List (List Char × T)) (hl : allLower ws) :
    ∃ t, insertAll (Trie.create T ALPHABET_SIZE) ws = some t ∧ Rep t ws := by
  obtain ⟨t, h1, h2⟩ := insertAll_spec ws _ [] rep_create hl
  exact ⟨t, h1, by simpa using h2⟩

/-- The slot of a letter: null when no key goes through it, or else a node that
is right for the keys that do. -/
theorem child_cases {it : Trie T} {ws : List (List Char × T)} (hr : Rep it ws) {c : Char}
    (hc : 'a'.toNat ≤ c.toNat ∧ c.toNat ≤ 'z'.toNat) :
    (child it (slot c) = some none ∧ tails c ws = []) ∨
      ∃ ch, child it (slot c) = some (some ch) ∧ tails c ws ≠ [] ∧
        Good ch (tails c ws) ∧ Rep ch (tails c ws) := by
  obtain ⟨hl, hall⟩ := rep_unfold hr
  obtain ⟨p, hp⟩ := child_lower it hl hc
  have hn : nodeAt it [c] = p := by
    rw [nodeAt_one, hp]
    rfl
  by_cases ht : tails c ws = []
  · left
    have := (hall c).1 ht
    rw [hn] at this
    rw [hp, this]
    exact ⟨rfl, ht⟩
  · right
    obtain ⟨ch, hch, hg, hrc⟩ := (hall c).2 ht
    rw [hn] at hch
    rw [hp, hch]
    exact ⟨ch, rfl, ht, hg, hrc⟩

/-- The second loop of `numWordsWithPrefix` returns the number of calls whose key
has the prefix. -/
theorem walkCount_spec :
    ∀ (p : List Char) (it : Trie T) (ws : List (List Char × T)), Rep it ws →
      lowercase p = true → (p = [] → Good it ws) →
      walkCount it p = some (withPrefix p (keys ws) : Int) := by
  intro p
  induction p with
  | nil =>
    intro it ws _ _ hg
    rw [withPrefix_nil]
    simp only [walkCount, (hg rfl).1, keys, List.length_map]
  | cons c p ih =>
    intro it ws hr hlow _
    obtain ⟨hc, hp⟩ := (lowercase_cons c p).mp hlow
    rw [← withPrefix_tails]
    rcases child_cases hr hc with ⟨h1, h2⟩ | ⟨ch, h1, _, hg, hrc⟩
    · simp only [walkCount, h1, Option.some_bind, h2]
      rfl
    · simp only [walkCount, h1, Option.some_bind]
      exact ih ch (tails c ws) hrc hp (fun _ => hg)

/-- The nodes of a tree that holds the calls `ws`: a path of characters leads to
a node exactly when some key has it as a prefix, and the count there is the
number of calls with such a key. -/
theorem nodeAt_spec :
    ∀ (p : List Char) (it : Trie T) (ws : List (List Char × T)), Rep it ws → p ≠ [] →
      (withPrefix p (keys ws) = 0 → nodeAt it p = none) ∧
      (0 < withPrefix p (keys ws) →
        ∃ n, nodeAt it p = some n ∧ n.count = (withPrefix p (keys ws) : Int)) := by
  intro p
  induction p with
  | nil => intro _ _ _ h; exact absurd rfl h
  | cons c p ih =>
    intro it ws hr _
    obtain ⟨_, hall⟩ := rep_unfold hr
    rw [nodeAt_cons, ← withPrefix_tails]
    by_cases ht : tails c ws = []
    · rw [(hall c).1 ht, ht]
      exact ⟨fun _ => rfl, fun h => absurd h (by simp [keys, withPrefix_empty])⟩
    · obtain ⟨ch, hch, hg, hrc⟩ := (hall c).2 ht
      rw [hch, Option.some_bind]
      by_cases hp : p = []
      · subst hp
        rw [withPrefix_nil]
        have hlen : 0 < (keys (tails c ws)).length := by
          simp only [keys, List.length_map]
          exact List.length_pos.mpr ht
        refine ⟨fun h => by omega, fun _ => ⟨ch, rfl, ?_⟩⟩
        rw [hg.1]
        simp [keys]
      · exact ih ch (tails c ws) hrc hp

/-- The method `search` from a node on: true exactly for a key of a call, then
with the last value given for it; `val` is left alone when no key has the
prefix. -/
theorem searchLoop_spec (val : Option T) :
    ∀ (k : List Char) (it : Trie T) (ws : List (List Char × T)), Rep it ws →
      lowercase k = true → (k = [] → Good it ws ∧ ws ≠ []) →
      ∃ b v, searchLoop it k val = some (b, v) ∧ b = decide (k ∈ keys ws) ∧
        (∀ x, lastValue ws k = some x → v = some x) ∧
        (withPrefix k (keys ws) = 0 → v = val) := by
  intro k
  induction k with
  | nil =>
    intro it ws _ _ hg
    obtain ⟨⟨_, hflag, hval⟩, hne⟩ := hg rfl
    refine ⟨decide ([] ∈ keys ws), it.value, ?_, rfl, hval, ?_⟩
    · simp only [searchLoop, hflag, Option.map_some']
    · intro h
      rw [withPrefix_nil] at h
      simp only [keys, List.length_map] at h
      exact absurd (List.length_eq_zero.mp h) hne
  | cons c k ih =>
    intro it ws hr hlow _
    obtain ⟨hc, hk⟩ := (lowercase_cons c k).mp hlow
    rcases child_cases hr hc with ⟨h1, h2⟩ | ⟨ch, h1, hne, hg, hrc⟩
    · refine ⟨false, val, ?_, ?_, ?_, fun _ => rfl⟩
      · simp only [searchLoop, h1, Option.some_bind]
      · have : (c :: k) ∉ keys ws := by
          rw [← mem_keys_tails, h2]
          exact List.not_mem_nil _
        exact (decide_eq_false this).symm
      · intro x hx
        rw [← lastValue_tails, h2] at hx
        cases hx
    · obtain ⟨b, v, hs, hb, hv, hz⟩ := ih ch (tails c ws) hrc hk (fun _ => ⟨hg, hne⟩)
      refine ⟨b, v, ?_, ?_, ?_, ?_⟩
      · simp only [searchLoop, h1, Option.some_bind]
        exact hs
      · rw [hb, decide_eq_decide]
        exact mem_keys_tails c k ws
      · intro x hx
        rw [← lastValue_tails] at hx
        exact hv x hx
      · intro h
        rw [← withPrefix_tails] at h
        exact hz h

end TrieModel

/-! ## Trie: the sum over the slots of the root -/

namespace TrieModel

variable {T : Type}

theorem letter_toNat : ∀ i, i < 26 → (letter i).toNat = 97 + i := by
  decide

theorem letter_lower {i : Nat} (h : i < 26) :
    'a'.toNat ≤ (letter i).toNat ∧ (letter i).toNat ≤ 'z'.toNat := by
  have ha : 'a'.toNat = 97 := by decide
  have hz : 'z'.toNat = 122 := by decide
  rw [letter_toNat i h, ha, hz]
  omega

theorem slot_letter {i : Nat} (h : i < 26) : slot (letter i) = (i : Int) := by
  have ha : 'a'.toNat = 97 := by decide
  unfold slot
  rw [letter_toNat i h, ha]
  push_cast
  ring

theorem letter_of_lower {c : Char} (h : 'a'.toNat ≤ c.toNat ∧ c.toNat ≤ 'z'.toNat) :
    c.toNat - 97 < 26 ∧ letter (c.toNat - 97) = c := by
  have ha : 'a'.toNat = 97 := by decide
  have hz : 'z'.toNat = 122 := by decide
  rw [ha, hz] at h
  have hlt : c.toNat - 97 < 26 := by omega
  refine ⟨hlt, ?_⟩
  apply slot_inj
  rw [slot_letter hlt]
  unfold slot
  rw [ha]
  omega

/-- The first loop of `numWordsWithPrefix` adds up, slot by slot, the number of
calls whose key starts with the letter of the slot. -/
theorem sumCounts_spec {t : Trie T} {ws : List (List Char × T)} (hr : Rep t ws) :
    ∀ (is : List Nat) (s : Int), (∀ i ∈ is, i < 26) →
      sumCounts t is s
        = some (s + (is.map fun i => ((tails (letter i) ws).length : Int)).sum) := by
  intro is
  induction is with
  | nil =>
    intro s _
    simp [sumCounts]
  | cons i is ih =>
    intro s hlt
    have hi := hlt i (List.mem_cons_self _ _)
    have hrest : ∀ j ∈ is, j < 26 := fun j hj => hlt j (List.mem_cons_of_mem _ hj)
    have hch : t.children[i]? = child t (slot (letter i)) := by
      unfold child
      rw [slot_letter hi, if_pos (by omega)]
      rfl
    rcases child_cases hr (letter_lower hi) with ⟨h1, h2⟩ | ⟨ch, h1, _, hg, _⟩
    · simp only [sumCounts, hch, h1, Option.some_bind, ih s hrest, List.map_cons,
        List.sum_cons, h2, List.length_nil]
      congr 1
      simp
    · simp only [sumCounts, hch, h1, Option.some_bind, ih _ hrest, List.map_cons,
        List.sum_cons, hg.1]
      congr 1
      ring

theorem sum_indicator (j : Nat) :
    ∀ n, ((List.range n).map fun i => if i = j then (1 : Int) else 0).sum
      = if j < n then 1 else 0 := by
  intro n
  induction n with
  | zero => rfl
  | succ n ih =>
    rw [List.range_succ, List.map_append, List.sum_append, ih]
    simp only [List.map_cons, List.map_nil, List.sum_cons, List.sum_nil]
    by_cases h1 : j < n
    · have h2 : ¬ n = j := by omega
      have h3 : j < n + 1 := by omega
      simp [h1, h2, h3]
    · by_cases h2 : n = j
      · have h3 : j < n + 1 := by omega
        simp [h1, h2, h3]
      · have h3 : ¬ j < n + 1 := by omega
        simp [h1, h2, h3]

/-- Every call with a lowercase key that is not empty goes through exactly one
slot of the root. -/
theorem sum_tails_length :
    ∀ ws : List (List Char × T), allLower ws → allNonempty ws →
      ((List.range 26).map fun i => ((tails (letter i) ws).length : Int)).sum
        = (ws.length : Int) := by
  intro ws
  induction ws with
  | nil =>
    intro _ _
    simp [tails]
  | cons kv ws ih =>
    intro hl hn
    have hkv := hl kv (List.mem_cons_self _ _)
    have hne := hn kv (List.mem_cons_self _ _)
    have ih1 := ih (fun x hx => hl x (List.mem_cons_of_mem _ hx))
      (fun x hx => hn x (List.mem_cons_of_mem _ hx))
    obtain ⟨k, v⟩ := kv
    cases k with
    | nil => exact absurd rfl hne
    | cons d r =>
      obtain ⟨hd, _⟩ := (lowercase_cons d r).mp hkv
      obtain ⟨hj, hlet⟩ := letter_of_lower hd
      have hmap : ((List.range 26).map fun i =>
            ((tails (letter i) ((d :: r, v) :: ws)).length : Int))
          = (List.range 26).map fun i =>
            ((tails (letter i) ws).length : Int)
              + (if i = d.toNat - 97 then (1 : Int) else 0) := by
        apply List.map_congr_left
        intro i hi
        have hi26 : i < 26 := List.mem_range.mp hi
        by_cases he : i = d.toNat - 97
        · rw [if_pos he, he, hlet, tails_cons_same, List.length_cons]
          push_cast
          ring
        · rw [if_neg he, tails_cons_other (letter i) d r v ws]
          · ring
          · intro hc
            apply he
            have h1 := slot_letter hi26
            rw [← hc, ← hlet, slot_letter hj] at h1
            omega
      rw [hmap, List.sum_map_add, ih1, sum_indicator, if_pos hj, List.length_cons]
      push_cast
      ring

/-- The method `numWordsWithPrefix` on a tree that holds the calls `ws`, all with
lowercase keys that are not empty: the number of calls whose key has the
prefix. -/
theorem numWordsWithPrefix_spec {t : Trie T} {ws : List (List Char × T)} (hr : Rep t ws)
    (hl : allLower ws) (hn : allNonempty ws) (p : List Char) (hp : lowercase p = true) :
    numWordsWithPrefix t p = some (withPrefix p (keys ws) : Int) := by
  unfold numWordsWithPrefix
  by_cases h : p = []
  · rw [if_pos h, h, withPrefix_nil]
    have h26 : ALPHABET_SIZE = 26 := rfl
    rw [h26, sumCounts_spec hr (List.range 26) 0 (fun i hi => List.mem_range.mp hi),
      sum_tails_length ws hl hn]
    simp [keys]
  · rw [if_neg h]
    exact walkCount_spec p t ws hr hp (fun h1 => absurd h1 h)

end TrieModel

/-! ## Trie: remove takes one call out of the tree -/

namespace TrieModel

variable {T : Type}

theorem without_cons_keep (k : List Char) (kv : List Char × T) (ws : List (List Char × T))
    (h : kv.1 ≠ k) : without k (kv :: ws) = kv :: without k ws := by
  unfold without
  rw [List.filter_cons_of_pos (by simpa using h)]

theorem without_cons_drop (k : List Char) (kv : List Char × T) (ws : List (List Char × T))
    (h : kv.1 = k) : without k (kv :: ws) = without k ws := by
  unfold without
  rw [List.filter_cons_of_neg (by simpa using h)]

theorem keys_without (k : List Char) (ws : List (List Char × T)) :
    keys (without k ws) = (keys ws).filter fun q => decide (q ≠ k) := by
  induction ws with
  | nil => rfl
  | cons kv ws ih =>
    by_cases h : kv.1 = k
    · rw [without_cons_drop k kv ws h, keys_cons, List.filter_cons_of_neg (by simpa using h),
        ih]
    · rw [without_cons_keep k kv ws h, keys_cons, keys_cons,
        List.filter_cons_of_pos (by simpa using h), ih]

theorem mem_keys_without (k q : List Char) (ws : List (List Char × T)) :
    q ∈ keys (without k ws) ↔ q ∈ keys ws ∧ q ≠ k := by
  rw [keys_without, List.mem_filter]
  simp

theorem length_without (k : List Char) (ws : List (List Char × T)) (hn : (keys ws).Nodup)
    (hk : k ∈ keys ws) : (without k ws).length + 1 = ws.length := by
  have h1 : (keys (without k ws)).length = (without k ws).length := by simp [keys]
  have h2 : (keys ws).length = ws.length := by simp [keys]
  have h3 : (keys ws).filter (fun q => decide (q ≠ k)) = (keys ws).erase k := by
    rw [hn.erase_eq_filter]
    apply List.filter_congr
    intro q _
    by_cases hq : q = k
    · simp [hq]
    · simp [hq]
  rw [← h1, ← h2, keys_without, h3, List.length_erase_of_mem hk]
  have : 0 < (keys ws).length := List.length_pos_of_mem hk
  omega

theorem lastValue_without (k q : List Char) (ws : List (List Char × T)) (h : q ≠ k) :
    lastValue (without k ws) q = lastValue ws q := by
  induction ws with
  | nil => rfl
  | cons kv ws ih =>
    by_cases hkv : kv.1 = k
    · rw [without_cons_drop k kv ws hkv, lastValue_cons, ih]
      have : ¬ kv.1 = q := fun h1 => h (h1.symm.trans hkv)
      cases lastValue ws q with
      | none => simp [this]
      | some x => rfl
    · rw [without_cons_keep k kv ws hkv, lastValue_cons, lastValue_cons, ih]

theorem tails_without_nil (c : Char) (ws : List (List Char × T)) :
    tails c (without [] ws) = tails c ws := by
  induction ws with
  | nil => rfl
  | cons kv ws ih =>
    obtain ⟨k, v⟩ := kv
    cases k with
    | nil => rw [without_cons_drop [] _ ws rfl, tails_cons_nil, ih]
    | cons d r =>
      rw [without_cons_keep [] _ ws (by simp)]
      by_cases hd : d = c
      · subst hd
        rw [tails_cons_same, tails_cons_same, ih]
      · rw [tails_cons_other c d r v _ hd, tails_cons_other c d r v _ hd, ih]

theorem tails_without_same (c : Char) (cs : List Char) (ws : List (List Char × T)) :
    tails c (without (c :: cs) ws) = without cs (tails c ws) := by
  induction ws with
  | nil => rfl
  | cons kv ws ih =>
    obtain ⟨k, v⟩ := kv
    cases k with
    | nil => rw [without_cons_keep _ _ ws (by simp), tails_cons_nil, tails_cons_nil, ih]
    | cons d r =>
      by_cases hd : d = c
      · subst hd
        rw [tails_cons_same]
        by_cases hr : r = cs
        · subst hr
          rw [without_cons_drop (d :: r) (d :: r, v) ws rfl,
            without_cons_drop r (r, v) _ rfl, ih]
        · rw [without_cons_keep (d :: cs) (d :: r, v) ws (by simpa using hr), tails_cons_same,
            without_cons_keep cs (r, v) _ (by simpa using hr), ih]
      · rw [without_cons_keep _ _ ws (by simp [hd]), tails_cons_other c d r v _ hd,
          tails_cons_other c d r v _ hd, ih]

theorem tails_without_other (c d : Char) (cs : List Char) (ws : List (List Char × T))
    (h : d ≠ c) : tails d (without (c :: cs) ws) = tails d ws := by
  induction ws with
  | nil => rfl
  | cons kv ws ih =>
    obtain ⟨k, v⟩ := kv
    cases k with
    | nil => rw [without_cons_keep _ _ ws (by simp), tails_cons_nil, tails_cons_nil, ih]
    | cons e r =>
      by_cases he : e = d
      · subst he
        rw [without_cons_keep _ _ ws (by simp [h]), tails_cons_same, tails_cons_same, ih]
      · rw [tails_cons_other d e r v _ he]
        by_cases hk : e :: r = c :: cs
        · rw [without_cons_drop _ _ ws hk, ih]
        · rw [without_cons_keep _ _ ws hk, tails_cons_other d e r v _ he, ih]

theorem nodup_keys_tails (c : Char) (ws : List (List Char × T)) (h : (keys ws).Nodup) :
    (keys (tails c ws)).Nodup := by
  induction ws with
  | nil => exact List.nodup_nil
  | cons kv ws ih =>
    rw [keys_cons, List.nodup_cons] at h
    obtain ⟨k, v⟩ := kv
    cases k with
    | nil =>
      rw [tails_cons_nil]
      exact ih h.2
    | cons d r =>
      by_cases hd : d = c
      · subst hd
        rw [tails_cons_same, keys_cons, List.nodup_cons]
        exact ⟨fun hm => h.1 ((mem_keys_tails d r ws).mp hm), ih h.2⟩
      · rw [tails_cons_other c d r v ws hd]
        exact ih h.2

theorem allLower_without (k : List Char) (ws : List (List Char × T)) (h : allLower ws) :
    allLower (without k ws) :=
  fun kv hkv => h kv (List.mem_of_mem_filter hkv)

theorem allNonempty_without (k : List Char) (ws : List (List Char × T))
    (h : allNonempty ws) : allNonempty (without k ws) :=
  fun kv hkv => h kv (List.mem_of_mem_filter hkv)

/-- The loop of `remove` from a node on, for a key that was inserted once: it
returns, the tree holds the other calls, and at the node itself only
`isEndOfWord` changes, when the key ends there. -/
theorem removeLoop_spec :
    ∀ (key : List Char) (it : Trie T) (ws : List (List Char × T)), Rep it ws →
      (keys ws).Nodup → key ∈ keys ws → lowercase key = true →
      ∃ it1, removeLoop it key = some it1 ∧ Rep it1 (without key ws) ∧
        it1.count = it.count ∧ it1.value = it.value ∧
        (key ≠ [] → it1.isEndOfWord = it.isEndOfWord) ∧
        (key = [] → it1.isEndOfWord = some false) := by
  intro key
  induction key with
  | nil =>
    intro it ws hr _ _ _
    refine ⟨_, rfl, ?_, rfl, rfl, fun h => absurd rfl h, fun _ => rfl⟩
    refine rep_congr it (Trie.mk it.count it.children it.value (some false)) rfl ?_
    exact rep_calls_congr (fun c => tails_without_nil c ws) hr
  | cons c cs ih =>
    intro it ws hr hnd hmem hlow
    obtain ⟨hc, hcs⟩ := (lowercase_cons c cs).mp hlow
    obtain ⟨hl, hall⟩ := rep_unfold hr
    obtain ⟨h0, h1⟩ := slot_range hc
    have hmem1 : cs ∈ keys (tails c ws) := (mem_keys_tails c cs ws).mpr hmem
    have hnd1 := nodup_keys_tails c ws hnd
    rcases child_cases hr hc with ⟨_, h2⟩ | ⟨ch, hch, _, hg, hrc⟩
    · rw [h2] at hmem1
      cases hmem1
    · have hrd : Rep (Trie.mk (ch.count - 1) ch.children ch.value ch.isEndOfWord)
          (tails c ws) :=
        rep_congr ch (Trie.mk (ch.count - 1) ch.children ch.value ch.isEndOfWord) rfl hrc
      obtain ⟨ch1, hrem, hr1, hcnt1, hval1, hsame, hend⟩ :=
        ih _ (tails c ws) hrd hnd1 hmem1 hcs
      have hlen := length_without cs (tails c ws) hnd1 hmem1
      have hcnt : ch1.count = ((without cs (tails c ws)).length : Int) := by
        rw [hcnt1]
        show ch.count - 1 = _
        rw [hg.1, ← hlen]
        push_cast
        ring
      have hother : ∀ (r : Trie T), r.children.length = ALPHABET_SIZE →
          (∀ d, d ≠ c → child r (slot d) = child it (slot d)) →
          ((without cs (tails c ws) = [] → nodeAt r [c] = none) ∧
            (without cs (tails c ws) ≠ [] →
              ∃ n, nodeAt r [c] = some n ∧ Good n (without cs (tails c ws)) ∧
                Rep n (without cs (tails c ws)))) →
          Rep r (without (c :: cs) ws) := by
        intro r hrl hrd1 hrc1
        apply rep_fold hrl
        intro d
        by_cases hd : d = c
        · subst hd
          rw [tails_without_same]
          exact hrc1
        · rw [tails_without_other c d cs ws hd, nodeAt_one, hrd1 d hd, ← nodeAt_one]
          exact hall d
      by_cases hz : ch.count - 1 = 0
      · refine ⟨setChild it (slot c) none, ?_, ?_, rfl, rfl, fun _ => rfl,
          fun h => by cases h⟩
        · simp only [removeLoop, hch, Option.some_bind, hrem, Option.map_some', if_pos hz]
        · apply hother
          · rw [children_setChild]
            exact hl
          · intro d hd
            exact child_setChild_other it c d _ h0 hd
          · constructor
            · intro _
              rw [nodeAt_one, child_setChild_same it c _ h0 (by rw [hl]; exact h1)]
              rfl
            · intro hne
              exfalso
              apply hne
              apply List.length_eq_zero.mp
              have : ch1.count = 0 := by rw [hcnt1]; exact hz
              rw [hcnt] at this
              exact_mod_cast this
      · refine ⟨setChild it (slot c) (some ch1), ?_, ?_, rfl, rfl, fun _ => rfl,
          fun h => by cases h⟩
        · simp only [removeLoop, hch, Option.some_bind, hrem, Option.map_some', if_neg hz]
        · apply hother
          · rw [children_setChild]
            exact hl
          · intro d hd
            exact child_setChild_other it c d _ h0 hd
          · constructor
            · intro he
              exfalso
              apply hz
              have : ch1.count = 0 := by rw [hcnt, he]; rfl
              rw [hcnt1] at this
              exact this
            · intro _
              refine ⟨ch1, ?_, ⟨hcnt, ?_, ?_⟩, hr1⟩
              · rw [nodeAt_one, child_setChild_same it c _ h0 (by rw [hl]; exact h1)]
                rfl
              · by_cases hcs0 : cs = []
                · rw [hend hcs0, hcs0]
                  have : ([] : List Char) ∉ keys (without [] (tails c ws)) := by
                    rw [mem_keys_without]
                    exact fun h => h.2 rfl
                  rw [decide_eq_false this]
                · rw [hsame hcs0]
                  show ch.isEndOfWord = _
                  rw [hg.2.1]
                  congr 1
                  rw [decide_eq_decide, mem_keys_without]
                  exact ⟨fun h => ⟨h, fun h1 => hcs0 h1.symm⟩, fun h => h.1⟩
              · intro x hx
                have hm : ([] : List Char) ∈ keys (without cs (tails c ws)) :=
                  (lastValue_some_iff _ _).mp ⟨x, hx⟩
                have hne : ([] : List Char) ≠ cs := ((mem_keys_without _ _ _).mp hm).2
                rw [lastValue_without cs [] _ hne] at hx
                rw [hval1]
                exact hg.2.2 x hx

/-- The method `remove` of a key that was inserted once into a tree of lowercase
keys: it returns true and the tree holds the other calls. -/
theorem remove_spec {t : Trie T} {ws : List (List Char × T)} (hr : Rep t ws)
    (hnd : (keys ws).Nodup) (hl : allLower ws) (k : List Char) (hk : k ∈ keys ws)
    (hne : k ≠ []) :
    ∃ t1, remove t k = some (true, t1) ∧ Rep t1 (without k ws) := by
  have hlow : lowercase k = true := by
    obtain ⟨kv, hkv, rfl⟩ := List.mem_map.mp hk
    exact hl kv hkv
  obtain ⟨b, v, hs, hb, _, _⟩ :=
    searchLoop_spec none k t ws hr hlow (fun h => absurd h hne)
  rw [decide_eq_true hk] at hb
  subst hb
  obtain ⟨t1, hrem, hr1, _⟩ := removeLoop_spec k t ws hr hnd hk hlow
  refine ⟨t1, ?_, hr1⟩
  simp only [remove, search, hs, Option.some_bind, hrem, Option.map_some']
  rfl

end TrieModel

/-! ## Trie: the invariant of trees reached by insert and remove calls -/

namespace TrieModel

variable {T : Type}

theorem heldD_congr {t t1 : Trie T} (h : t1.children = t.children) :
    ∀ (d : Nat) (ws : List (List Char × T)), HeldD d t ws → HeldD d t1 ws := by
  intro d ws hr
  cases d with
  | zero => trivial
  | succ d =>
    have hn : ∀ c, nodeAt t1 [c] = nodeAt t [c] := by
      intro c
      rw [nodeAt_one, nodeAt_one]
      unfold child
      rw [h]
    refine ⟨by rw [h]; exact hr.1, ?_⟩
    intro c
    rw [hn c]
    exact hr.2 c

theorem held_congr (t t1 : Trie T) (h : t1.children = t.children)
    {ws : List (List Char × T)} (hr : Held t ws) : Held t1 ws :=
  fun d => heldD_congr h d ws (hr d)

/-- One level of the invariant. -/
theorem held_unfold {t : Trie T} {ws : List (List Char × T)} (hr : Held t ws) :
    t.children.length = ALPHABET_SIZE ∧
    ∀ c, (tails c ws = [] → nodeAt t [c] = none) ∧
      (tails c ws ≠ [] →
        ∃ ch, nodeAt t [c] = some ch ∧ Fair ch (tails c ws) ∧ Held ch (tails c ws)) := by
  refine ⟨(hr 1).1, ?_⟩
  intro c
  refine ⟨((hr 1).2 c).1, ?_⟩
  intro hne
  obtain ⟨ch, hch, hg, _⟩ := ((hr 1).2 c).2 hne
  refine ⟨ch, hch, hg, ?_⟩
  intro d
  obtain ⟨ch1, hch1, _, hrd⟩ := ((hr (d + 1)).2 c).2 hne
  rw [hch] at hch1
  cases hch1
  exact hrd

theorem held_fold {t : Trie T} {ws : List (List Char × T)}
    (hl : t.children.length = ALPHABET_SIZE)
    (h : ∀ c, (tails c ws = [] → nodeAt t [c] = none) ∧
      (tails c ws ≠ [] →
        ∃ ch, nodeAt t [c] = some ch ∧ Fair ch (tails c ws) ∧ Held ch (tails c ws))) :
    Held t ws := by
  intro d
  cases d with
  | zero => trivial
  | succ d =>
    refine ⟨hl, ?_⟩
    intro c
    refine ⟨(h c).1, ?_⟩
    intro hne
    obtain ⟨ch, hch, hg, hr⟩ := (h c).2 hne
    exact ⟨ch, hch, hg, hr d⟩

theorem held_calls_congr {t : Trie T} {ws us : List (List Char × T)}
    (h : ∀ c, tails c us = tails c ws) (hr : Held t ws) : Held t us := by
  obtain ⟨hl, hc⟩ := held_unfold hr
  apply held_fold hl
  intro c
  rw [h c]
  exact hc c

/-- A tree whose slots are all null counts no call. -/
theorem held_empty (t : Trie T) (h : t.children = List.replicate ALPHABET_SIZE none) :
    Held t [] := by
  have hr : Rep t [] := rep_empty t h
  obtain ⟨hl, hc⟩ := rep_unfold hr
  apply held_fold hl
  intro c
  exact ⟨(hc c).1, fun hne => absurd rfl hne⟩

/-- The slot of a letter under the invariant. -/
theorem held_child_cases {it : Trie T} {ws : List (List Char × T)} (hr : Held it ws)
    {c : Char} (hc : 'a'.toNat ≤ c.toNat ∧ c.toNat ≤ 'z'.toNat) :
    (child it (slot c) = some none ∧ tails c ws = []) ∨
      ∃ ch, child it (slot c) = some (some ch) ∧ tails c ws ≠ [] ∧
        Fair ch (tails c ws) ∧ Held ch (tails c ws) := by
  obtain ⟨hl, hall⟩ := held_unfold hr
  obtain ⟨p, hp⟩ := child_lower it hl hc
  have hn : nodeAt it [c] = p := by
    rw [nodeAt_one, hp]
    rfl
  by_cases ht : tails c ws = []
  · left
    have := (hall c).1 ht
    rw [hn] at this
    rw [hp, this]
    exact ⟨rfl, ht⟩
  · right
    obtain ⟨ch, hch, hg, hrc⟩ := (hall c).2 ht
    rw [hn] at hch
    rw [hp, hch]
    exact ⟨ch, rfl, ht, hg, hrc⟩

theorem dropOne_cons_same (k : List Char) (v : T) (ws : List (List Char × T)) :
    dropOne k ((k, v) :: ws) = ws := by
  simp only [dropOne, if_true]

theorem dropOne_cons_other (k q : List Char) (v : T) (ws : List (List Char × T))
    (h : q ≠ k) : dropOne k ((q, v) :: ws) = (q, v) :: dropOne k ws := by
  simp only [dropOne, h, if_false]

theorem tails_dropOne_nil (c : Char) (ws : List (List Char × T)) :
    tails c (dropOne [] ws) = tails c ws := by
  induction ws with
  | nil => rfl
  | cons kv ws ih =>
    obtain ⟨k, v⟩ := kv
    cases k with
    | nil => rw [dropOne_cons_same, tails_cons_nil]
    | cons d r =>
      rw [dropOne_cons_other [] (d :: r) v ws (by simp)]
      by_cases hd : d = c
      · subst hd
        rw [tails_cons_same, tails_cons_same, ih]
      · rw [tails_cons_other c d r v _ hd, tails_cons_other c d r v _ hd, ih]

theorem tails_dropOne_same (c : Char) (cs : List Char) (ws : List (List Char × T)) :
    tails c (dropOne (c :: cs) ws) = dropOne cs (tails c ws) := by
  induction ws with
  | nil => rfl
  | cons kv ws ih =>
    obtain ⟨k, v⟩ := kv
    cases k with
    | nil =>
      rw [dropOne_cons_other (c :: cs) [] v ws (by simp), tails_cons_nil, tails_cons_nil, ih]
    | cons d r =>
      by_cases hd : d = c
      · subst hd
        rw [tails_cons_same]
        by_cases hr : r = cs
        · subst hr
          rw [dropOne_cons_same, dropOne_cons_same]
        · rw [dropOne_cons_other (d :: cs) (d :: r) v ws (by simpa using hr),
            tails_cons_same, dropOne_cons_other cs r v _ hr, ih]
      · rw [dropOne_cons_other (c :: cs) (d :: r) v ws (by simp [hd]),
          tails_cons_other c d r v _ hd, tails_cons_other c d r v _ hd, ih]

theorem tails_dropOne_other (c d : Char) (cs : List Char) (ws : List (List Char × T))
    (h : d ≠ c) : tails d (dropOne (c :: cs) ws) = tails d ws := by
  induction ws with
  | nil => rfl
  | cons kv ws ih =>
    obtain ⟨k, v⟩ := kv
    cases k with
    | nil =>
      rw [dropOne_cons_other (c :: cs) [] v ws (by simp), tails_cons_nil, tails_cons_nil, ih]
    | cons e r =>
      by_cases hk : e :: r = c :: cs
      · rw [hk, dropOne_cons_same, tails_cons_other d c cs v ws (fun h1 => h h1.symm)]
      · rw [dropOne_cons_other (c :: cs) (e :: r) v ws hk]
        by_cases he : e = d
        · subst he
          rw [tails_cons_same, tails_cons_same, ih]
        · rw [tails_cons_other d e r v _ he, tails_cons_other d e r v _ he, ih]

theorem length_dropOne (k : List Char) (ws : List (List Char × T)) (hk : k ∈ keys ws) :
    (dropOne k ws).length + 1 = ws.length := by
  induction ws with
  | nil => cases hk
  | cons kv ws ih =>
    obtain ⟨q, v⟩ := kv
    by_cases hq : q = k
    · subst hq
      rw [dropOne_cons_same, List.length_cons]
    · rw [dropOne_cons_other k q v ws hq, List.length_cons, List.length_cons]
      rw [keys_cons, List.mem_cons] at hk
      rcases hk with h | h
      · exact absurd h.symm hq
      · rw [ih h]

theorem mem_keys_dropOne (k q : List Char) (ws : List (List Char × T)) (hne : q ≠ k)
    (hq : q ∈ keys ws) : q ∈ keys (dropOne k ws) := by
  induction ws with
  | nil => cases hq
  | cons kv ws ih =>
    obtain ⟨p, v⟩ := kv
    rw [keys_cons, List.mem_cons] at hq
    by_cases hp : p = k
    · subst hp
      rw [dropOne_cons_same]
      rcases hq with h | h
      · exact absurd h hne
      · exact h
    · rw [dropOne_cons_other k p v ws hp, keys_cons, List.mem_cons]
      rcases hq with h | h
      · exact Or.inl h
      · exact Or.inr (ih h)

/-- For a key that is not empty `search` reads only the children of the node it
starts from. -/
theorem searchLoop_children (it it1 : Trie T) (h : it1.children = it.children) (c : Char)
    (k : List Char) (val : Option T) :
    searchLoop it1 (c :: k) val = searchLoop it (c :: k) val := by
  unfold searchLoop child
  rw [h]

/-- `search` does not read the count of the node it starts from. -/
theorem searchLoop_congr (it it1 : Trie T) (h : it1.children = it.children)
    (hv : it1.value = it.value) (hf : it1.isEndOfWord = it.isEndOfWord) (k : List Char)
    (val : Option T) : searchLoop it1 k val = searchLoop it k val := by
  cases k with
  | nil => simp only [searchLoop, hv, hf]
  | cons c k => exact searchLoop_children it it1 h c k val

/-- Under the invariant a key that `search` finds is the key of one of the calls. -/
theorem search_true_mem (val : Option T) :
    ∀ (k : List Char) (it : Trie T) (ws : List (List Char × T)), Held it ws →
      (k = [] → FlagOk it ws) → lowercase k = true →
      ∀ v, searchLoop it k val = some (true, v) → k ∈ keys ws := by
  intro k
  induction k with
  | nil =>
    intro it ws _ hf _ v hs
    obtain ⟨b, hb, hmem⟩ := hf rfl
    simp only [searchLoop, hb, Option.map_some', Option.some.injEq, Prod.mk.injEq] at hs
    exact hmem hs.1
  | cons c k ih =>
    intro it ws hr _ hlow v hs
    obtain ⟨hc, hk⟩ := (lowercase_cons c k).mp hlow
    rcases held_child_cases hr hc with ⟨h1, _⟩ | ⟨ch, h1, _, hg, hrc⟩
    · simp only [searchLoop, h1, Option.some_bind, Option.some.injEq, Prod.mk.injEq] at hs
      exact absurd hs.1 (by decide)
    · simp only [searchLoop, h1, Option.some_bind] at hs
      exact (mem_keys_tails c k ws).mp (ih ch (tails c ws) hrc (fun _ => hg.2) hk v hs)

/-- Under the invariant `search` of a lowercase key returns. -/
theorem search_total (val : Option T) :
    ∀ (k : List Char) (it : Trie T) (ws : List (List Char × T)), Held it ws →
      (k = [] → FlagOk it ws) → lowercase k = true →
      ∃ b v, searchLoop it k val = some (b, v) := by
  intro k
  induction k with
  | nil =>
    intro it ws _ hf _
    obtain ⟨b, hb, _⟩ := hf rfl
    exact ⟨b, it.value, by simp only [searchLoop, hb, Option.map_some']⟩
  | cons c k ih =>
    intro it ws hr _ hlow
    obtain ⟨hc, hk⟩ := (lowercase_cons c k).mp hlow
    rcases held_child_cases hr hc with ⟨h1, _⟩ | ⟨ch, h1, _, hg, hrc⟩
    · exact ⟨false, val, by simp only [searchLoop, h1, Option.some_bind]⟩
    · obtain ⟨b, v, hs⟩ := ih ch (tails c ws) hrc (fun _ => hg.2) hk
      exact ⟨b, v, by simp only [searchLoop, h1, Option.some_bind, hs]⟩

end TrieModel

/-! ## Trie: insert and remove keep the invariant; remove and the other keys -/

namespace TrieModel

variable {T : Type}

/-- What `stepInto` makes of the slot read by `insert`. -/
theorem stepInto_held {it : Trie T} {ws : List (List Char × T)} (hr : Held it ws) {c : Char}
    (hc : 'a'.toNat ≤ c.toNat ∧ c.toNat ≤ 'z'.toNat) :
    ∃ p, child it (slot c) = some p ∧ Held (stepInto p) (tails c ws) ∧
      (stepInto p).count = ((tails c ws).length : Int) + 1 ∧
      FlagOk (stepInto p) (tails c ws) := by
  rcases held_child_cases hr hc with ⟨h1, h2⟩ | ⟨ch, h1, _, hg, hrc⟩
  · refine ⟨none, h1, ?_, ?_, ?_⟩
    · rw [h2]
      exact held_empty _ rfl
    · rw [h2]
      rfl
    · exact ⟨false, rfl, fun h => by cases h⟩
  · refine ⟨some ch, h1, held_congr ch (stepInto (some ch)) rfl hrc, ?_, hg.2⟩
    show ch.count + 1 = _
    rw [hg.1]

/-- `insert` from a node on returns and keeps the invariant with the call added. -/
theorem insertLoop_held (v : T) :
    ∀ (key : List Char) (it : Trie T) (ws : List (List Char × T)), Held it ws →
      lowercase key = true →
      ∃ it1, insertLoop it key v = some it1 ∧ Held it1 (ws ++ [(key, v)]) ∧
        it1.count = it.count ∧
        (key ≠ [] → it1.isEndOfWord = it.isEndOfWord) ∧
        (key = [] → it1.isEndOfWord = some true) := by
  intro key
  induction key with
  | nil =>
    intro it ws hr _
    refine ⟨_, rfl, ?_, rfl, fun h => absurd rfl h, fun _ => rfl⟩
    refine held_congr it (Trie.mk it.count it.children (some v) (some true)) rfl ?_
    apply held_calls_congr _ hr
    intro c
    rw [tails_append, tails_one_nil, List.append_nil]
  | cons c cs ih =>
    intro it ws hr hlow
    obtain ⟨hc1, hcs⟩ := (lowercase_cons c cs).mp hlow
    obtain ⟨hl, hall⟩ := held_unfold hr
    obtain ⟨p, hp, hrn, hcount, hflag⟩ := stepInto_held hr hc1
    obtain ⟨ch1, hins, hr1, hcnt1, hsame, hend⟩ := ih (stepInto p) (tails c ws) hrn hcs
    obtain ⟨h0, h1⟩ := slot_range hc1
    refine ⟨setChild it (slot c) (some ch1), ?_, ?_, rfl, fun _ => rfl, fun h => by cases h⟩
    · simp only [insertLoop, hp, Option.some_bind, hins, Option.map_some']
    · apply held_fold
      · rw [children_setChild]
        exact hl
      · intro d
        by_cases hd : d = c
        · subst hd
          have ht : tails d (ws ++ [(d :: cs, v)]) = tails d ws ++ [(cs, v)] := by
            rw [tails_append, tails_one_same]
          rw [ht]
          refine ⟨fun h => by simp at h, fun _ => ⟨ch1, ?_, ⟨?_, ?_⟩, hr1⟩⟩
          · rw [nodeAt_one, child_setChild_same it d _ h0 (by rw [hl]; exact h1)]
            rfl
          · rw [hcnt1, hcount]
            simp
          · by_cases hcs0 : cs = []
            · refine ⟨true, hend hcs0, fun _ => ?_⟩
              rw [hcs0]
              exact (mem_keys_append_one _ _ _ _).mpr (Or.inr rfl)
            · obtain ⟨b, hb, hmem⟩ := hflag
              refine ⟨b, by rw [hsame hcs0, hb], fun hbt => ?_⟩
              exact (mem_keys_append_one _ _ _ _).mpr (Or.inl (hmem hbt))
        · have ht : tails d (ws ++ [(c :: cs, v)]) = tails d ws := by
            rw [tails_append, tails_one_other d c cs v (fun h => hd h.symm), List.append_nil]
          rw [ht, nodeAt_one, child_setChild_other it c d _ h0 hd, ← nodeAt_one]
          exact hall d

/-- The loop of `remove` for a key that `search` finds: it returns, the invariant
holds with one call of the key taken away, and `search` of any other key
returns the same boolean as before, with the same value when that boolean is
true; otherwise the value is as before or `val` is left alone. -/
theorem removeLoop_frame (val0 : Option T) :
    ∀ (key : List Char) (it : Trie T) (ws : List (List Char × T)), Held it ws →
      lowercase key = true → (∃ x, searchLoop it key val0 = some (true, x)) →
      ∃ it1, removeLoop it key = some it1 ∧ Held it1 (dropOne key ws) ∧
        it1.count = it.count ∧ it1.value = it.value ∧
        (key ≠ [] → it1.isEndOfWord = it.isEndOfWord) ∧
        (key = [] → it1.isEndOfWord = some false) ∧
        ∀ (k2 : List Char) (val : Option T) (b : Bool) (v : Option T), k2 ≠ key →
          lowercase k2 = true → searchLoop it k2 val = some (b, v) →
          ∃ v1, searchLoop it1 k2 val = some (b, v1) ∧ (b = true → v1 = v) ∧
            (v1 = v ∨ v1 = val) := by
  intro key
  induction key with
  | nil =>
    intro it ws hr _ _
    refine ⟨_, rfl, ?_, rfl, rfl, fun h => absurd rfl h, fun _ => rfl, ?_⟩
    · refine held_congr it (Trie.mk it.count it.children it.value (some false)) rfl ?_
      exact held_calls_congr (fun c => tails_dropOne_nil c ws) hr
    · intro k2 val b v hne _ hs
      cases k2 with
      | nil => exact absurd rfl hne
      | cons d r2 =>
        refine ⟨v, ?_, fun _ => rfl, Or.inl rfl⟩
        rw [searchLoop_children it (Trie.mk it.count it.children it.value (some false)) rfl
          d r2 val]
        exact hs
  | cons c cs ih =>
    intro it ws hr hlow hfound
    obtain ⟨hc, hcs⟩ := (lowercase_cons c cs).mp hlow
    obtain ⟨hl, hall⟩ := held_unfold hr
    obtain ⟨h0, h1⟩ := slot_range hc
    obtain ⟨x, hx⟩ := hfound
    rcases held_child_cases hr hc with ⟨hch, _⟩ | ⟨ch, hch, _, hg, hrc⟩
    · simp only [searchLoop, hch, Option.some_bind, Option.some.injEq, Prod.mk.injEq] at hx
      exact absurd hx.1 (by decide)
    · simp only [searchLoop, hch, Option.some_bind] at hx
      have hmem : cs ∈ keys (tails c ws) :=
        search_true_mem val0 cs ch (tails c ws) hrc (fun _ => hg.2) hcs x hx
      have hdec : ∀ (k : List Char) (val : Option T),
          searchLoop (Trie.mk (ch.count - 1) ch.children ch.value ch.isEndOfWord) k val
            = searchLoop ch k val :=
        fun k val => searchLoop_congr ch
          (Trie.mk (ch.count - 1) ch.children ch.value ch.isEndOfWord) rfl rfl rfl k val
      obtain ⟨ch1, hrem, hr1, hcnt1, _, hsame, hend, hframe⟩ :=
        ih (Trie.mk (ch.count - 1) ch.children ch.value ch.isEndOfWord) (tails c ws)
          (held_congr ch (Trie.mk (ch.count - 1) ch.children ch.value ch.isEndOfWord) rfl hrc)
          hcs ⟨x, by rw [hdec]; exact hx⟩
      have hlen := length_dropOne cs (tails c ws) hmem
      have hcnt : ch1.count = ((dropOne cs (tails c ws)).length : Int) := by
        rw [hcnt1]
        show ch.count - 1 = _
        rw [hg.1, ← hlen]
        push_cast
        ring
      have hother : ∀ (r : Trie T), r.children.length = ALPHABET_SIZE →
          (∀ d, d ≠ c → child r (slot d) = child it (slot d)) →
          ((dropOne cs (tails c ws) = [] → nodeAt r [c] = none) ∧
            (dropOne cs (tails c ws) ≠ [] →
              ∃ n, nodeAt r [c] = some n ∧ Fair n (dropOne cs (tails c ws)) ∧
                Held n (dropOne cs (tails c ws)))) →
          Held r (dropOne (c :: cs) ws) := by
        intro r hrl hrd1 hrc1
        apply held_fold hrl
        intro d
        by_cases hd : d = c
        · subst hd
          rw [tails_dropOne_same]
          exact hrc1
        · rw [tails_dropOne_other c d cs ws hd, nodeAt_one, hrd1 d hd, ← nodeAt_one]
          exact hall d
      have hstart : ∀ (r : Trie T), r.value = it.value → r.isEndOfWord = it.isEndOfWord →
          (∀ d, d ≠ c → child r (slot d) = child it (slot d)) →
          ∀ (k2 : List Char) (val : Option T) (b : Bool) (v : Option T),
            (∀ r2, k2 ≠ c :: r2) → searchLoop it k2 val = some (b, v) →
            searchLoop r k2 val = some (b, v) := by
        intro r hrv hrf hrd1 k2 val b v hk2 hs
        cases k2 with
        | nil =>
          simp only [searchLoop, hrv, hrf]
          simpa only [searchLoop] using hs
        | cons d r2 =>
          have hd : d ≠ c := fun h => hk2 r2 (by rw [h])
          simp only [searchLoop, hrd1 d hd]
          simpa only [searchLoop] using hs
      by_cases hz : ch.count - 1 = 0
      · have hnil : dropOne cs (tails c ws) = [] := by
          apply List.length_eq_zero.mp
          have : ch1.count = 0 := by rw [hcnt1]; exact hz
          rw [hcnt] at this
          exact_mod_cast this
        have hsame1 : child (setChild it (slot c) none) (slot c) = some none :=
          child_setChild_same it c _ h0 (by rw [hl]; exact h1)
        refine ⟨setChild it (slot c) none, ?_, ?_, rfl, rfl, fun _ => rfl,
          fun h => (by cases h), ?_⟩
        · simp only [removeLoop, hch, Option.some_bind, hrem, Option.map_some', if_pos hz]
        · apply hother
          · rw [children_setChild]
            exact hl
          · intro d hd
            exact child_setChild_other it c d _ h0 hd
          · refine ⟨fun _ => ?_, fun hne => absurd hnil hne⟩
            rw [nodeAt_one, hsame1]
            rfl
        · intro k2 val b v hne hlow2 hs
          by_cases hk2 : ∀ r2, k2 ≠ c :: r2
          · exact ⟨v, hstart (setChild it (slot c) none) rfl rfl
              (fun d hd => child_setChild_other it c d _ h0 hd) k2 val b v hk2 hs,
              fun _ => rfl, Or.inl rfl⟩
          · push_neg at hk2
            obtain ⟨r2, rfl⟩ := hk2
            have hr2 : r2 ≠ cs := fun h => hne (by rw [h])
            have hlow3 := ((lowercase_cons c r2).mp hlow2).2
            simp only [searchLoop, hch, Option.some_bind] at hs
            have hb : b = false := by
              cases b with
              | false => rfl
              | true =>
                have hm := search_true_mem val r2 ch (tails c ws) hrc (fun _ => hg.2)
                  hlow3 v hs
                have hm2 := mem_keys_dropOne cs r2 (tails c ws) hr2 hm
                rw [hnil] at hm2
                cases hm2
            subst hb
            refine ⟨val, ?_, fun h => (by cases h), Or.inr rfl⟩
            simp only [searchLoop, hsame1, Option.some_bind]
      · have hne0 : dropOne cs (tails c ws) ≠ [] := by
          intro he
          apply hz
          have : ch1.count = 0 := by rw [hcnt, he]; rfl
          rw [hcnt1] at this
          exact this
        have hsame1 : child (setChild it (slot c) (some ch1)) (slot c) = some (some ch1) :=
          child_setChild_same it c _ h0 (by rw [hl]; exact h1)
        refine ⟨setChild it (slot c) (some ch1), ?_, ?_, rfl, rfl, fun _ => rfl,
          fun h => (by cases h), ?_⟩
        · simp only [removeLoop, hch, Option.some_bind, hrem, Option.map_some', if_neg hz]
        · apply hother
          · rw [children_setChild]
            exact hl
          · intro d hd
            exact child_setChild_other it c d _ h0 hd
          · refine ⟨fun he => absurd he hne0, fun _ => ⟨ch1, ?_, ⟨hcnt, ?_⟩, hr1⟩⟩
            · rw [nodeAt_one, hsame1]
              rfl
            · by_cases hcs0 : cs = []
              · exact ⟨false, hend hcs0, fun h => by cases h⟩
              · obtain ⟨b, hb, hbm⟩ := hg.2
                refine ⟨b, ?_, fun hbt => ?_⟩
                · rw [hsame hcs0]
                  exact hb
                · exact mem_keys_dropOne cs [] (tails c ws) (fun h => hcs0 h.symm) (hbm hbt)
        · intro k2 val b v hne hlow2 hs
          by_cases hk2 : ∀ r2, k2 ≠ c :: r2
          · exact ⟨v, hstart (setChild it (slot c) (some ch1)) rfl rfl
              (fun d hd => child_setChild_other it c d _ h0 hd) k2 val b v hk2 hs,
              fun _ => rfl, Or.inl rfl⟩
          · push_neg at hk2
            obtain ⟨r2, rfl⟩ := hk2
            have hr2 : r2 ≠ cs := fun h => hne (by rw [h])
            have hlow3 := ((lowercase_cons c r2).mp hlow2).2
            simp only [searchLoop, hch, Option.some_bind] at hs
            obtain ⟨v1, hs1, hv1, hv2⟩ :=
              hframe r2 val b v hr2 hlow3 (by rw [hdec]; exact hs)
            refine ⟨v1, ?_, hv1, hv2⟩
            simp only [searchLoop, hsame1, Option.some_bind]
            exact hs1

/-- The method `remove` of a lowercase key that is not empty, on a tree with the
invariant: it returns, the invariant holds afterwards, and `search` of any other
key returns the same boolean as before, with the same value when that boolean
is true; otherwise the value is as before or `val` is left alone. -/
theorem remove_frame {t : Trie T} {ws : List (List Char × T)} (hr : Held t ws)
    (k : List Char) (hk : k ≠ []) (hlow : lowercase k = true) :
    ∃ r t1 ws1, remove t k = some (r, t1) ∧ Held t1 ws1 ∧
      ∀ (k2 : List Char) (val : Option T) (b : Bool) (v : Option T), k2 ≠ k →
        lowercase k2 = true → search t k2 val = some (b, v) →
        ∃ v1, search t1 k2 val = some (b, v1) ∧ (b = true → v1 = v) ∧
          (v1 = v ∨ v1 = val) := by
  obtain ⟨b0, x, hs⟩ := search_total none k t ws hr (fun h => absurd h hk) hlow
  cases b0 with
  | false =>
    refine ⟨false, t, ws, ?_, hr, ?_⟩
    · simp only [remove, search, hs, Option.some_bind, if_true]
    · intro k2 val b v _ _ hs2
      exact ⟨v, hs2, fun _ => rfl, Or.inl rfl⟩
  | true =>
    obtain ⟨t1, hrem, hr1, _, _, _, _, hframe⟩ := removeLoop_frame none k t ws hr hlow ⟨x, hs⟩
    refine ⟨true, t1, dropOne k ws, ?_, hr1, ?_⟩
    · simp only [remove, search, hs, Option.some_bind, hrem, Option.map_some']
      rfl
    · intro k2 val b v hne hlow2 hs2
      exact hframe k2 val b v hne hlow2 hs2

theorem validOp_key {op : Op T} (h : validOp op = true) :
    lowercase op.key = true ∧ op.key ≠ [] := by
  unfold validOp at h
  rw [Bool.and_eq_true, decide_eq_true_iff] at h
  exact h

/-- The empty trie counts no call. -/
theorem held_create : Held (Trie.create T ALPHABET_SIZE) [] := held_empty _ rfl

/-- Every sequence of `insert` and `remove` calls with lowercase keys that are
not empty returns and keeps the invariant. -/
theorem run_held :
    ∀ (ops : List (Op T)) (t : Trie T) (ws : List (List Char × T)), Held t ws →
      (∀ op ∈ ops, validOp op = true) →
      ∃ t1 ws1, runOps t ops = some t1 ∧ Held t1 ws1 := by
  intro ops
  induction ops with
  | nil =>
    intro t ws hr _
    exact ⟨t, ws, rfl, hr⟩
  | cons op ops ih =>
    intro t ws hr hv
    obtain ⟨hlow, hne⟩ := validOp_key (hv op (List.mem_cons_self _ _))
    have hrest : ∀ o ∈ ops, validOp o = true := fun o ho => hv o (List.mem_cons_of_mem _ ho)
    cases op with
    | insert key value =>
      obtain ⟨t1, h1, hr1, _⟩ := insertLoop_held value key t ws hr hlow
      obtain ⟨t2, ws2, h2, hr2⟩ := ih t1 _ hr1 hrest
      refine ⟨t2, ws2, ?_, hr2⟩
      simp only [runOps, applyOp, insert, h1, Option.some_bind]
      exact h2
    | remove key =>
      obtain ⟨r, t1, ws1, h1, hr1, _⟩ := remove_frame hr key hne hlow
      obtain ⟨t2, ws2, h2, hr2⟩ := ih t1 ws1 hr1 hrest
      refine ⟨t2, ws2, ?_, hr2⟩
      simp only [runOps, applyOp, h1, Option.map_some', Option.some_bind]
      exact h2

end TrieModel

/-! ## The claims about the skip list -/

namespace SL

/-- C1, the code at the failing input: after `insertKey(3)` and `insertKey(5)`, the
call `eraseKey(5)` in which `comp` resolves to a function ordering the keys the
other way round (`a < b`) takes out the node of 3: the traversal then visits 5,
whose net count is 0, and not 3, whose net count is 1. With `comp` resolved to
the comparator the traversal visits 3 alone. -/
theorem erase_traversal_other_key :
    ((insertKeys DefaulComparator [3, 5] (create Int 0)).bind fun s =>
        (eraseKeyWith DefaulComparator (fun a b => decide (a < b)) s 5 1).bind traversal)
        = some [5] ∧
      ((insertKeys DefaulComparator [3, 5] (create Int 0)).bind fun s =>
        (eraseKeyWith DefaulComparator DefaulComparator s 5 1).bind traversal)
        = some [3] := by
  decide

/-- C3, the code at the failing input: after `insertKey(3)` and `insertKey(5)` twice,
the call `eraseKey(5, 1)` in which `comp` resolves to a function ordering the
keys the other way round (`a < b`) takes the occurrence off the node of 3:
`countKey(5)` is 2 and `countKey(3)` is 0, where the net counts are 1 and 1. In
the scenario of three `insertKey(7)` and `eraseKey(7, 2)`, a `comp` that also
holds of equal keys leaves the call without a result. With `comp` resolved to
the comparator the counts are the net counts. -/
theorem erase_count_other_key :
    ((insertKeys DefaulComparator [3, 5, 5] (create Int 0)).bind fun s =>
        (eraseKeyWith DefaulComparator (fun a b => decide (a < b)) s 5 1).map fun s1 =>
          (countKey DefaulComparator s1 5, countKey DefaulComparator s1 3,
            searchKey DefaulComparator s1 3)) = some (some 2, some 0, some false) ∧
      ((insertKeys DefaulComparator [7, 7, 7] (create Int 0)).bind fun s =>
        eraseKeyWith DefaulComparator (fun a b => decide (a ≥ b)) s 7 2).isSome = false ∧
      ((insertKeys DefaulComparator [3, 5, 5] (create Int 0)).bind fun s =>
        (eraseKeyWith DefaulComparator DefaulComparator s 5 1).map fun s1 =>
          (countKey DefaulComparator s1 5, countKey DefaulComparator s1 3,
            searchKey DefaulComparator s1 3)) = some (some 1, some 1, some true) := by
  decide

/-- C7. Rejected operations change nothing: `insertKey` with `count < 1` and
`eraseKey` with `count < 1` return the list object unchanged, whatever its
state; and on every list reached from the empty one (comparator a strict total
order, node heights in `[1, H_MAX]`), `eraseKey` of a key the traversal does not
visit returns the list object unchanged: every data member and every cell
of the store, hence traversal, counts, sizes, links and jumps. -/
theorem rejected_unchanged {T : Type} [Inhabited T] [DecidableEq T]
    (comp_ : T → T → Bool) (hst : StrictTotal comp_) (seed : Nat) (ops : List (Op T))
    (hv : ∀ op ∈ ops, heightOk op = true) :
    (∀ (sl : SkipList T) (key : T) (count : Int), count < 1 →
      insertKey comp_ sl key count = some sl ∧ eraseKey comp_ sl key count = some sl) ∧
    ∃ sl tr, runOps comp_ (create T seed) ops = some sl ∧ traversal sl = some tr ∧
      ∀ (key : T) (count : Int), key ∉ tr → eraseKey comp_ sl key count = some sl := by
  refine ⟨fun sl key count hc =>
    ⟨insert_rejected comp_ sl key count _ hc, erase_rejected comp_ sl key count hc⟩, ?_⟩
  obtain ⟨sl, L, h1, h2, _, _⟩ := run_create hst seed ops hv
  refine ⟨sl, L.map Tower.data, h1, traversal_spec h2, ?_⟩
  intro key count hk
  obtain ⟨pre, post, hL, hpre, hpost⟩ := key_split hst key L h2.sorted
  have hs := h2.sorted
  rw [hL, List.pairwise_append] at hs
  rcases post_cases hst key post hs.2.1 hpost with habs | ⟨t, rest, rfl, hkt, _⟩
  · exact erase_absent hst h2 key count hL hpre hpost habs
  · exfalso
    apply hk
    rw [hL, ← hkt]
    simp

/-- Witness of C7: the list reached by inserting 5 twice and 9 once. -/
theorem rejected_unchanged_witness :
    (∀ (sl : SkipList Int) (key : Int) (count : Int), count < 1 →
      insertKey DefaulComparator sl key count = some sl ∧
        eraseKey DefaulComparator sl key count = some sl) ∧
    ∃ sl tr, runOps DefaulComparator (create Int 0)
        [Op.insertKey 5 1 (2, 0), Op.insertKey 5 1 (1, 0), Op.insertKey 9 1 (1, 0)] = some sl ∧
      traversal sl = some tr ∧
      ∀ (key : Int) (count : Int), key ∉ tr → eraseKey DefaulComparator sl key count = some sl :=
  rejected_unchanged DefaulComparator defaulComparator_strictTotal 0 _ (by decide)

/-- Counterexample to C4 as stated: with the default comparator the keys 5, 3, 8, 1
are visited in the order 1, 3, 5, 8, not 8, 5, 3, 1, and `list[0]` is 1 and
`list[3]` is 8. -/
theorem default_order_not_descending :
    (insertKeys DefaulComparator [5, 3, 8, 1] (create Int 0)).bind traversal
        = some [1, 3, 5, 8] ∧
      (insertKeys DefaulComparator [5, 3, 8, 1] (create Int 0)).bind traversal
        ≠ some [8, 5, 3, 1] ∧
      ((insertKeys DefaulComparator [5, 3, 8, 1] (create Int 0)).bind fun s => subscript s 0)
        = some (false, 1) ∧
      ((insertKeys DefaulComparator [5, 3, 8, 1] (create Int 0)).bind fun s => subscript s 3)
        = some (false, 8) := by
  decide

/-- C4, amended. Default order: for every sequence of integer keys inserted into an
empty list with the default comparator (any seed of the height generator), the
traversal visits the distinct keys in ascending order, smallest first, and
indexed access inside the bounds returns the same elements; in particular
inserting 5, 3, 8, 1 gives the order 1, 3, 5, 8 with `list[0] == 1`,
`list[3] == 8` and `countKey(5) == 1`. -/
theorem default_order_ascending (seed : Nat) (keys : List Int) :
    (∃ sl tr, insertKeys DefaulComparator keys (create Int seed) = some sl ∧
      traversal sl = some tr ∧ tr.Pairwise (fun a b => a < b) ∧ (∀ x, x ∈ tr ↔ x ∈ keys) ∧
      ∀ index : Int, 0 ≤ index → index < length sl →
        ∃ x, tr[index.toNat]? = some x ∧ subscript sl index = some (false, x)) ∧
    (∃ sl, insertKeys DefaulComparator [5, 3, 8, 1] (create Int seed) = some sl ∧
      traversal sl = some [1, 3, 5, 8] ∧ subscript sl 0 = some (false, 1) ∧
      subscript sl 3 = some (false, 8) ∧ countKey DefaulComparator sl 5 = some 1) := by
  have hasc : ∀ (sl : SkipList Int) (L : List (Tower Int)), Inv DefaulComparator sl L →
      (L.map Tower.data).Pairwise (fun a b => a < b) := by
    intro sl L hinv
    refine (keys_pairwise hinv).imp ?_
    intro a b hab
    simpa [DefaulComparator] using hab
  constructor
  · obtain ⟨sl, L, h1, h2, h3⟩ := insertKeys_create defaulComparator_strictTotal seed keys
    exact ⟨sl, L.map Tower.data, h1, traversal_spec h2, hasc sl L h2,
      mem_keys_of_count h2.counts h3, fun index h0 hlt => subscript_traversal h2 index h0 hlt⟩
  · obtain ⟨sl, L, h1, h2, h3⟩ :=
      insertKeys_create defaulComparator_strictTotal seed [5, 3, 8, 1]
    have hmem := mem_keys_of_count h2.counts h3
    have hperm : (L.map Tower.data).Perm [1, 3, 5, 8] := by
      rw [List.perm_ext_iff_of_nodup (keys_nodup defaulComparator_strictTotal h2) (by decide)]
      intro x
      rw [hmem x]
      simp only [List.mem_cons, List.mem_singleton, List.not_mem_nil, or_false]
      omega
    have heq : L.map Tower.data = [1, 3, 5, 8] :=
      List.eq_of_perm_of_sorted hperm (hasc sl L h2) (by decide)
    have hlen : length sl = 4 := by
      show sl.num_nodes_ = 4
      rw [h2.nodes]
      have := congrArg List.length heq
      simp only [List.length_map, List.length_cons, List.length_nil] at this
      omega
    obtain ⟨x0, hx0, hs0⟩ := subscript_traversal h2 0 (le_refl _) (by rw [hlen]; decide)
    obtain ⟨x3, hx3, hs3⟩ := subscript_traversal h2 3 (by decide) (by rw [hlen]; decide)
    rw [heq] at hx0 hx3
    cases hx0
    cases hx3
    refine ⟨sl, h1, ?_, hs0, hs3, ?_⟩
    · rw [traversal_spec h2, heq]
    · rw [countKey_occ defaulComparator_strictTotal h2 5, h3 5]
      rfl

/-- C6. Sort utility: for every array `vect` and comparator that is a strict total
order, `skipListSort(vect, size, false)` with `size` the length of the array
returns `size` and leaves the array a permutation of the original one in
which every element is equal to or sorted before every later one;
`skipListSort(vect, size, true)` returns the number `d` of distinct values
and leaves in the first `d` entries each distinct value exactly once, in the
order of the comparator. -/
theorem skipListSort_sorts {T : Type} [Inhabited T] [DecidableEq T]
    (comp_ : T → T → Bool) (hst : StrictTotal comp_) (seed : Nat) (vect : List T) :
    (∃ out, skipListSort comp_ seed vect (vect.length : Int) false
        = some ((vect.length : Int), out) ∧
      out.Perm vect ∧ out.Pairwise (fun a b => comp_ b a = true ∨ a = b)) ∧
    (∃ out, skipListSort comp_ seed vect (vect.length : Int) true
        = some ((vect.dedup.length : Int), out) ∧
      out.length = vect.length ∧
      (out.take vect.dedup.length).Pairwise (fun a b => comp_ b a = true) ∧
      (out.take vect.dedup.length).Nodup ∧
      ∀ x, x ∈ out.take vect.dedup.length ↔ x ∈ vect) :=
  ⟨sort_full hst seed vect, sort_distinct hst seed vect⟩

/-- Witness of C6: the array 5, 3, 8, 1, 3, 5, 5 under the default comparator. -/
theorem skipListSort_sorts_witness :
    (∃ out, skipListSort DefaulComparator 7 [5, 3, 8, 1, 3, 5, 5]
          (([5, 3, 8, 1, 3, 5, 5] : List Int).length : Int) false
        = some ((([5, 3, 8, 1, 3, 5, 5] : List Int).length : Int), out) ∧
      out.Perm [5, 3, 8, 1, 3, 5, 5] ∧
      out.Pairwise (fun a b => DefaulComparator b a = true ∨ a = b)) ∧
    (∃ out, skipListSort DefaulComparator 7 [5, 3, 8, 1, 3, 5, 5]
          (([5, 3, 8, 1, 3, 5, 5] : List Int).length : Int) true
        = some (((([5, 3, 8, 1, 3, 5, 5] : List Int).dedup).length : Int), out) ∧
      out.length = ([5, 3, 8, 1, 3, 5, 5] : List Int).length ∧
      (out.take (([5, 3, 8, 1, 3, 5, 5] : List Int).dedup).length).Pairwise
        (fun a b => DefaulComparator b a = true) ∧
      (out.take (([5, 3, 8, 1, 3, 5, 5] : List Int).dedup).length).Nodup ∧
      ∀ x, x ∈ out.take (([5, 3, 8, 1, 3, 5, 5] : List Int).dedup).length ↔
        x ∈ ([5, 3, 8, 1, 3, 5, 5] : List Int)) :=
  skipListSort_sorts DefaulComparator defaulComparator_strictTotal 7 [5, 3, 8, 1, 3, 5, 5]

/-- C8, the code at the failing inputs: on the list holding the single key 7,
`operator[](5)` and `operator[](-1)` write the diagnostic and then return a
value all the same (the last key, and the value held by the head), and
`topKey()` on the empty list writes its diagnostic and then dereferences the
null pointer `head_->next_[0]`, which has no result. -/
theorem subscript_out_of_bounds_returns :
    ((insertKeys DefaulComparator [7] (create Int 0)).bind fun s => subscript s 5)
        = some (true, 7) ∧
      ((insertKeys DefaulComparator [7] (create Int 0)).bind fun s => subscript s (-1))
        = some (true, 0) ∧
      subscript (create Int 0) 0 = some (true, 0) ∧
      topKey (create Int 0) = none := by
  decide

/-- C9, the code at the failing input: the copy of the list made by `insertKey(5)`
twice and `insertKey(7)` (length 2, size 3, two occurrences of 5) has the same
traversal 5, 7 but length 4, size 5 and one occurrence of 5. -/
theorem copy_counters_differ :
    (insertKeys DefaulComparator [5, 5, 7] (create Int 0)).map
        (fun s => (traversal s, length s, size s, countKey DefaulComparator s 5))
        = some (some [5, 7], 2, 3, some 2) ∧
      ((insertKeys DefaulComparator [5, 5, 7] (create Int 0)).bind fun s =>
          copy DefaulComparator s 9).map
        (fun c => (traversal c, length c, size c, countKey DefaulComparator c 5))
        = some (some [5, 7], 4, 5, some 1) := by
  decide

end SL

/-! ## The claims about the treap -/

namespace TreapModel

/-- C10. Treap order statistic: for every treap built from the empty one by `insert`
calls with non-negative priorities and `erase` calls, all calls return, the
in-order traversal is sorted, the root's `nr_nodes` is its length, and for
every `k` with `1 <= k <= nr_nodes` the call `findK(k)` returns the key at
position `k` (1-indexed) of the in-order traversal, the `k`-th smallest. -/
theorem findK_kth_smallest {T : Type} [LinearOrder T] (ops : List (Op T))
    (hv : ∀ op ∈ ops, validOp op = true) :
    ∃ t, runOps Treap.nilNode ops = some t ∧
      (inOrder t).Pairwise (fun a b => a ≤ b) ∧
      t.nr_nodes = ((inOrder t).length : Int) ∧
      ∀ k : Int, 1 ≤ k → k ≤ t.nr_nodes →
        ∃ x, (inOrder t)[(k - 1).toNat]? = some x ∧ findK t k = some x := by
  obtain ⟨t, h1, hs, _, hso⟩ :=
    treap_run_inv ops Treap.nilNode trivial trivial List.Pairwise.nil hv
  exact ⟨t, h1, hso, nr_nodes_eq_length t hs, findK_spec t hs⟩

/-- Witness of C10: insert 5, 2, 9, 4, 5 with priorities 3, 7, 1, 9, 2, then erase 4. -/
theorem findK_kth_smallest_witness :
    ∃ t, runOps (Treap.nilNode : Treap Int)
        [Op.insert 5 3, Op.insert 2 7, Op.insert 9 1, Op.insert 4 9, Op.insert 5 2,
          Op.erase 4] = some t ∧
      (inOrder t).Pairwise (fun a b => a ≤ b) ∧
      t.nr_nodes = ((inOrder t).length : Int) ∧
      ∀ k : Int, 1 ≤ k → k ≤ t.nr_nodes →
        ∃ x, (inOrder t)[(k - 1).toNat]? = some x ∧ findK t k = some x :=
  findK_kth_smallest _ (by decide)

/-- Counterexample to C11 as stated: after `insert(5, 1)` and `insert(5, 2)` on the
empty treap the in-order traversal is 5, 5, which is not strictly sorted. -/
theorem insert_repeated_not_strict :
    ∃ t, runOps (Treap.nilNode : Treap Int) [Op.insert 5 1, Op.insert 5 2] = some t ∧
      inOrder t = [5, 5] ∧ ¬ (inOrder t).Pairwise (fun a b => a < b) :=
  ⟨_, rfl, by decide, by decide⟩

/-- C11, amended. Treap BST property: for every sequence of `insert` calls (any keys,
repeated keys included, any non-negative priorities) on the empty treap, all
calls return, the in-order traversal of the result is sorted in non-decreasing
order and holds every key as often as it was inserted; it is strictly sorted when
the inserted keys are pairwise distinct. -/
theorem insert_sorted {T : Type} [LinearOrder T] (kps : List (T × Int))
    (hp : ∀ kp ∈ kps, 0 ≤ kp.2) :
    ∃ t, runOps Treap.nilNode (kps.map fun kp => Op.insert kp.1 kp.2) = some t ∧
      (inOrder t).Pairwise (fun a b => a ≤ b) ∧
      (inOrder t).Perm (kps.map Prod.fst) ∧
      ((kps.map Prod.fst).Nodup → (inOrder t).Pairwise (fun a b => a < b)) := by
  have hv : ∀ op ∈ kps.map (fun kp => (Op.insert kp.1 kp.2 : Op T)), validOp op = true := by
    intro op hop
    obtain ⟨kp, hkp, rfl⟩ := List.mem_map.mp hop
    simpa [validOp] using hp kp hkp
  obtain ⟨t, h1, _, _, hso, _, hc⟩ := treap_run_nil _ hv
  have hperm : (inOrder t).Perm (kps.map Prod.fst) := by
    rw [List.perm_iff_count]
    intro x
    rw [hc x, treapNet_inserts, Nat.zero_add]
  exact ⟨t, h1, hso, hperm, fun hn => strict_of_sorted_nodup _ hso (hperm.nodup_iff.mpr hn)⟩

/-- Witness of C11: insert 5, 2, 5, 9 with priorities 3, 7, 0, 1. -/
theorem insert_sorted_witness :
    ∃ t, runOps (Treap.nilNode : Treap Int)
        ([((5 : Int), (3 : Int)), (2, 7), (5, 0), (9, 1)].map
          fun kp => Op.insert kp.1 kp.2) = some t ∧
      (inOrder t).Pairwise (fun a b => a ≤ b) ∧
      (inOrder t).Perm ([((5 : Int), (3 : Int)), (2, 7), (5, 0), (9, 1)].map Prod.fst) ∧
      (([((5 : Int), (3 : Int)), (2, 7), (5, 0), (9, 1)].map Prod.fst).Nodup →
        (inOrder t).Pairwise (fun a b => a < b)) :=
  insert_sorted _ (by decide)

/-- C12. Treap erase: for every treap built from the empty one by `insert` calls with
non-negative priorities and `erase` calls, `erase(key)` returns; when the key is in
the in-order traversal exactly one occurrence of it is removed (the keys before and
after are kept in order), sizes stay exact and the root's `nr_nodes` goes down by
one; when the key is absent the tree is returned as it is, every key and every
`nr_nodes` included. -/
theorem erase_exact {T : Type} [LinearOrder T] (ops : List (Op T))
    (hv : ∀ op ∈ ops, validOp op = true) (key : T) :
    ∃ t t1, runOps Treap.nilNode ops = some t ∧ erase t key = some t1 ∧ SizeOk t1 ∧
      (key ∈ inOrder t →
        (∃ A B, inOrder t = A ++ key :: B ∧ inOrder t1 = A ++ B) ∧
          t1.nr_nodes = t.nr_nodes - 1) ∧
      (key ∉ inOrder t → t1 = t) := by
  obtain ⟨t, h1, hs, hp, hso, _, _⟩ := treap_run_nil ops hv
  obtain ⟨t1, h2, hs1, _, _⟩ := eraseAux_spec key (t.count + 1) t (by omega) hs hp
  refine ⟨t, t1, h1, h2, hs1, ?_, ?_⟩
  · intro hm
    obtain ⟨A, B, hA, hB⟩ := eraseAux_removes key _ t t1 hso hm h2
    refine ⟨⟨A, B, hA, hB⟩, ?_⟩
    rw [nr_nodes_eq_length t hs, nr_nodes_eq_length t1 hs1, hA, hB]
    simp only [List.length_append, List.length_cons]
    push_cast
    ring
  · intro hm
    have h3 := eraseAux_absent key (t.count + 1) t (by omega) hs hm
    have h4 : eraseAux (t.count + 1) t key = some t1 := h2
    rw [h3] at h4
    exact (Option.some.inj h4).symm

/-- Witness of C12: insert 5, 2, 9, 5 with priorities 3, 7, 1, 4, then `erase(5)`. -/
theorem erase_exact_witness :
    ∃ t t1, runOps (Treap.nilNode : Treap Int)
        [Op.insert 5 3, Op.insert 2 7, Op.insert 9 1, Op.insert 5 4] = some t ∧
      erase t 5 = some t1 ∧ SizeOk t1 ∧
      ((5 : Int) ∈ inOrder t →
        (∃ A B, inOrder t = A ++ 5 :: B ∧ inOrder t1 = A ++ B) ∧
          t1.nr_nodes = t.nr_nodes - 1) ∧
      ((5 : Int) ∉ inOrder t → t1 = t) :=
  erase_exact _ (by decide) 5

/-- C13. Treap find: for every treap built from the empty one by `insert` calls with
non-negative priorities and `erase` calls, `find(key)` is true exactly when the key
occurs in the in-order traversal, which is exactly when the calls leave at least one
occurrence of it (one more per `insert` of the key, one fewer per `erase` that found
it). `find` is a function of the tree: it has no effect on it. -/
theorem find_iff_present {T : Type} [LinearOrder T] (ops : List (Op T))
    (hv : ∀ op ∈ ops, validOp op = true) (key : T) :
    ∃ t, runOps Treap.nilNode ops = some t ∧
      (find t key = true ↔ key ∈ inOrder t) ∧
      (key ∈ inOrder t ↔ 0 < treapNet key 0 ops) := by
  obtain ⟨t, h1, _, _, hso, _, hc⟩ := treap_run_nil ops hv
  refine ⟨t, h1, find_spec key t hso, ?_⟩
  rw [← hc key]
  exact List.count_pos_iff.symm

/-- Witness of C13: insert 5, 2, 5 then erase 5 twice and look for 5. -/
theorem find_iff_present_witness :
    ∃ t, runOps (Treap.nilNode : Treap Int)
        [Op.insert 5 3, Op.insert 2 7, Op.insert 5 1, Op.erase 5, Op.erase 5] = some t ∧
      (find t 5 = true ↔ (5 : Int) ∈ inOrder t) ∧
      ((5 : Int) ∈ inOrder t ↔ 0 < treapNet (5 : Int) 0
        [Op.insert 5 3, Op.insert 2 7, Op.insert 5 1, Op.erase 5, Op.erase 5]) :=
  find_iff_present _ (by decide) 5

/-- C19. Treap size invariant: after every sequence of `insert` calls with non-negative
priorities and `erase` calls on the empty treap, every node that is not nil has
`nr_nodes == 1 + left.nr_nodes + right.nr_nodes`, a nil node has `nr_nodes == 0`,
and the root's `nr_nodes` is the number of keys of the in-order traversal. -/
theorem size_invariant {T : Type} [LinearOrder T] (ops : List (Op T))
    (hv : ∀ op ∈ ops, validOp op = true) :
    ∃ t, runOps Treap.nilNode ops = some t ∧ SizeOk t ∧
      (Treap.nilNode : Treap T).nr_nodes = 0 ∧
      t.nr_nodes = ((inOrder t).length : Int) := by
  obtain ⟨t, h1, hs, _⟩ := treap_run_nil ops hv
  exact ⟨t, h1, hs, rfl, nr_nodes_eq_length t hs⟩

/-- Witness of C19: insert 5, 2, 9, 4 then erase 2. -/
theorem size_invariant_witness :
    ∃ t, runOps (Treap.nilNode : Treap Int)
        [Op.insert 5 3, Op.insert 2 7, Op.insert 9 1, Op.insert 4 9, Op.erase 2] = some t ∧
      SizeOk t ∧ (Treap.nilNode : Treap Int).nr_nodes = 0 ∧
      t.nr_nodes = ((inOrder t).length : Int) :=
  size_invariant _ (by decide)

/-- C20. Treap heap property: after every sequence of `insert` calls with non-negative
priorities and `erase` calls on the empty treap, the priority of every node that
is not nil is greater than or equal to the priority of each of its children, a
nil child counting with priority `-1`. -/
theorem heap_invariant {T : Type} [LinearOrder T] (ops : List (Op T))
    (hv : ∀ op ∈ ops, validOp op = true) :
    ∃ t, runOps Treap.nilNode ops = some t ∧ HeapOk t ∧
      (Treap.nilNode : Treap T).priority = -1 := by
  obtain ⟨t, h1, _, _, _, hh, _⟩ := treap_run_nil ops hv
  exact ⟨t, h1, hh, rfl⟩

/-- Witness of C20: insert 5, 2, 9, 4, 7 with priorities 3, 7, 1, 9, 9, then erase 4. -/
theorem heap_invariant_witness :
    ∃ t, runOps (Treap.nilNode : Treap Int)
        [Op.insert 5 3, Op.insert 2 7, Op.insert 9 1, Op.insert 4 9, Op.insert 7 9,
          Op.erase 4] = some t ∧
      HeapOk t ∧ (Treap.nilNode : Treap Int).priority = -1 :=
  heap_invariant _ (by decide)

/-- C21. Treap rotations never lift a nil node: for every sequence of `insert` calls
with priorities that are not negative and `erase` calls on the empty treap, all
calls return, and every call of `rotateRight` made on the way is on a node whose
left child is not nil and every call of `rotateLeft` on a node whose right child
is not nil. -/
theorem rotations_lift_nodes {T : Type} [LinearOrder T] (ops : List (Op T))
    (hv : ∀ op ∈ ops, validOp op = true) :
    ∃ t, runOps Treap.nilNode ops = some t ∧
      (runOpsLog Treap.nilNode ops).2 = some t ∧
      ∀ c ∈ (runOpsLog Treap.nilNode ops).1, c.liftsNode = true := by
  obtain ⟨t, h1, _⟩ := treap_run_nil ops hv
  obtain ⟨h2, h3⟩ := runOpsLog_spec ops (Treap.nilNode : Treap T)
  rw [h1] at h2
  refine ⟨t, h1, h2, h3 ?_⟩
  rw [h2]
  exact Option.some_ne_none t

/-- Witness of C21: insert 5, 2, 9, 4, 7 with priorities 3, 7, 1, 9, 9, then erase 4,
a run that makes eight rotation calls. -/
theorem rotations_lift_nodes_witness :
    (∃ t, runOps (Treap.nilNode : Treap Int)
        [Op.insert 5 3, Op.insert 2 7, Op.insert 9 1, Op.insert 4 9, Op.insert 7 9,
          Op.erase 4] = some t ∧
      (runOpsLog (Treap.nilNode : Treap Int)
        [Op.insert 5 3, Op.insert 2 7, Op.insert 9 1, Op.insert 4 9, Op.insert 7 9,
          Op.erase 4]).2 = some t ∧
      ∀ c ∈ (runOpsLog (Treap.nilNode : Treap Int)
        [Op.insert 5 3, Op.insert 2 7, Op.insert 9 1, Op.insert 4 9, Op.insert 7 9,
          Op.erase 4]).1, c.liftsNode = true) ∧
      (runOpsLog (Treap.nilNode : Treap Int)
        [Op.insert 5 3, Op.insert 2 7, Op.insert 9 1, Op.insert 4 9, Op.insert 7 9,
          Op.erase 4]).1.length = 8 :=
  ⟨rotations_lift_nodes _ (by decide), by decide⟩

end TreapModel

/-! ## The claims about the trie -/

namespace TrieModel

/-- C14. Trie prefix counting: for every list of lowercase words that are not empty,
inserted into the empty trie (with any values), all calls return and for every
lowercase string `p`, the empty one included, `numWordsWithPrefix(p)` returns the
number of inserted words that have `p` as a prefix. The words need not be
pairwise distinct for this: a word inserted twice is counted twice. -/
theorem numWords_counts {T : Type} (ws : List (List Char × T))
    (hl : ∀ kv ∈ ws, lowercase kv.1 = true) (hn : ∀ kv ∈ ws, kv.1 ≠ []) :
    ∃ t, insertAll (Trie.create T ALPHABET_SIZE) ws = some t ∧
      ∀ p, lowercase p = true →
        numWordsWithPrefix t p = some (withPrefix p (ws.map Prod.fst) : Int) := by
  obtain ⟨t, h1, hr⟩ := insertAll_create ws hl
  exact ⟨t, h1, fun p hp => numWordsWithPrefix_spec hr hl hn p hp⟩

/-- Witness of C14: the words cat, car, dog, for which the counts of the prefixes
"ca", "" and "do" are 2, 3 and 1. -/
theorem numWords_counts_witness :
    (∃ t, insertAll (Trie.create Nat ALPHABET_SIZE)
        [("cat".toList, 1), ("car".toList, 2), ("dog".toList, 3)] = some t ∧
      ∀ p, lowercase p = true →
        numWordsWithPrefix t p = some (withPrefix p
          ([("cat".toList, 1), ("car".toList, 2), ("dog".toList, 3)].map Prod.fst) : Int)) ∧
      withPrefix "ca".toList ["cat".toList, "car".toList, "dog".toList] = 2 ∧
      withPrefix "".toList ["cat".toList, "car".toList, "dog".toList] = 3 ∧
      withPrefix "do".toList ["cat".toList, "car".toList, "dog".toList] = 1 :=
  ⟨numWords_counts _ (by decide) (by decide), by decide, by decide, by decide⟩

/-- Counterexample to C15 as stated: after `insert("a", 1)` and `insert("a", 2)` the
node of the path "a" has count 2 and `numWordsWithPrefix("a")` returns 2, while
one distinct inserted word goes through that node. -/
theorem count_repeated_insert :
    ((insertAll (Trie.create Nat ALPHABET_SIZE) [("a".toList, 1), ("a".toList, 2)]).bind
        fun t => (nodeAt t "a".toList).map Trie.count) = some 2 ∧
      ((insertAll (Trie.create Nat ALPHABET_SIZE) [("a".toList, 1), ("a".toList, 2)]).bind
        fun t => numWordsWithPrefix t "a".toList) = some 2 ∧
      withPrefix "a".toList (["a".toList, "a".toList].dedup) = 1 := by
  decide

/-- C15, amended. Trie count invariant: after any sequence of `insert` calls with
lowercase words on the empty trie (the same word may be inserted more than once),
all calls return, the count of every node other than the root is the number of
`insert` calls, a repeated word counting once per call, whose word has the path
of the node as a prefix, and `numWordsWithPrefix(p)` returns that number for
every lowercase `p` that is not empty. -/
theorem count_invariant {T : Type} (ws : List (List Char × T))
    (hl : ∀ kv ∈ ws, lowercase kv.1 = true) :
    ∃ t, insertAll (Trie.create T ALPHABET_SIZE) ws = some t ∧
      (∀ p n, p ≠ [] → nodeAt t p = some n →
        n.count = (withPrefix p (ws.map Prod.fst) : Int)) ∧
      (∀ p, p ≠ [] → lowercase p = true →
        numWordsWithPrefix t p = some (withPrefix p (ws.map Prod.fst) : Int)) := by
  obtain ⟨t, h1, hr⟩ := insertAll_create ws hl
  refine ⟨t, h1, ?_, ?_⟩
  · intro p n hp hnode
    obtain ⟨hzero, hpos⟩ := nodeAt_spec p t ws hr hp
    by_cases h0 : withPrefix p (keys ws) = 0
    · rw [hzero h0] at hnode
      cases hnode
    · obtain ⟨m, hm, hcnt⟩ := hpos (Nat.pos_of_ne_zero h0)
      rw [hnode] at hm
      cases hm
      exact hcnt
  · intro p hp hlow
    unfold numWordsWithPrefix
    rw [if_neg hp]
    exact walkCount_spec p t ws hr hlow (fun h => absurd h hp)

/-- Witness of C15: the words a, ab, a. -/
theorem count_invariant_witness :
    ∃ t, insertAll (Trie.create Nat ALPHABET_SIZE)
        [("a".toList, 1), ("ab".toList, 2), ("a".toList, 3)] = some t ∧
      (∀ p n, p ≠ [] → nodeAt t p = some n →
        n.count = (withPrefix p
          ([("a".toList, 1), ("ab".toList, 2), ("a".toList, 3)].map Prod.fst) : Int)) ∧
      (∀ p, p ≠ [] → lowercase p = true →
        numWordsWithPrefix t p = some (withPrefix p
          ([("a".toList, 1), ("ab".toList, 2), ("a".toList, 3)].map Prod.fst) : Int)) :=
  count_invariant _ (by decide)

/-- C16. Trie search after insert: after any sequence of `insert` calls with lowercase
words on the empty trie, for every lowercase key `k` that is not empty and every
content `val` of the output parameter, `search(k, val)` returns; it returns true
exactly when `k` is one of the inserted keys, and `val` is then the value given
by the most recent `insert` of `k`; it returns false for a `k` that is not an
inserted key, in particular for a proper prefix of inserted keys; and where the
path of `k` does not exist it returns false and leaves `val` as it was. -/
theorem search_after_insert {T : Type} (ws : List (List Char × T))
    (hl : ∀ kv ∈ ws, lowercase kv.1 = true) (k : List Char) (hk : k ≠ [])
    (hlow : lowercase k = true) (val : Option T) :
    ∃ t b v, insertAll (Trie.create T ALPHABET_SIZE) ws = some t ∧
      search t k val = some (b, v) ∧
      (b = true ↔ k ∈ ws.map Prod.fst) ∧
      (k ∈ ws.map Prod.fst → ∃ x, lastValue ws k = some x ∧ v = some x) ∧
      (nodeAt t k = none → b = false ∧ v = val) := by
  obtain ⟨t, h1, hr⟩ := insertAll_create ws hl
  obtain ⟨b, v, hs, hb, hv, hz⟩ :=
    searchLoop_spec val k t ws hr hlow (fun h => absurd h hk)
  refine ⟨t, b, v, h1, hs, ?_, ?_, ?_⟩
  · rw [hb, decide_eq_true_iff]
    rfl
  · intro hm
    obtain ⟨x, hx⟩ := (lastValue_some_iff ws k).mpr hm
    exact ⟨x, hx, hv x hx⟩
  · intro hnone
    have h0 : withPrefix k (keys ws) = 0 := by
      by_contra hne
      obtain ⟨n, hn, _⟩ := (nodeAt_spec k t ws hr hk).2 (Nat.pos_of_ne_zero hne)
      rw [hnone] at hn
      cases hn
    have hnot : k ∉ keys ws := by
      intro hm
      have hpos : 0 < withPrefix k (keys ws) := by
        unfold withPrefix
        apply List.length_pos_of_mem (a := k)
        rw [List.mem_filter]
        exact ⟨hm, by simp⟩
      omega
    exact ⟨by rw [hb]; exact decide_eq_false hnot, hz h0⟩

/-- Witness of C16: the words cat, car, dog, cat and the key "cat". -/
theorem search_after_insert_witness :
    ∃ t b v, insertAll (Trie.create Nat ALPHABET_SIZE)
        [("cat".toList, 1), ("car".toList, 2), ("dog".toList, 3), ("cat".toList, 4)]
        = some t ∧
      search t "cat".toList (some 9) = some (b, v) ∧
      (b = true ↔ "cat".toList ∈
        [("cat".toList, 1), ("car".toList, 2), ("dog".toList, 3),
          ("cat".toList, 4)].map Prod.fst) ∧
      ("cat".toList ∈
        [("cat".toList, 1), ("car".toList, 2), ("dog".toList, 3),
          ("cat".toList, 4)].map Prod.fst →
        ∃ x, lastValue [("cat".toList, 1), ("car".toList, 2), ("dog".toList, 3),
          ("cat".toList, 4)] "cat".toList = some x ∧ v = some x) ∧
      (nodeAt t "cat".toList = none → b = false ∧ v = some 9) :=
  search_after_insert _ (by decide) _ (by decide) (by decide) (some 9)

/-- C17. Trie removal cascade: for every list of pairwise distinct lowercase words
that are not empty, inserted into the empty trie, and every word `w` of the
list, `remove(w)` returns true; afterwards `numWordsWithPrefix(p)` returns, for
every lowercase `p`, the number of the other words that have the prefix `p`; no
node is left on a path that is a prefix of none of the other words, so every
node whose count reached zero is out of its parent's slot and every node that
is left below the root has a positive count; the root stays, with its count and
its vector of slots. -/
theorem remove_cascade {T : Type} (ws : List (List Char × T))
    (hd : (ws.map Prod.fst).Nodup) (hl : ∀ kv ∈ ws, lowercase kv.1 = true)
    (hn : ∀ kv ∈ ws, kv.1 ≠ []) (w : List Char) (hw : w ∈ ws.map Prod.fst) :
    ∃ t t1, insertAll (Trie.create T ALPHABET_SIZE) ws = some t ∧
      remove t w = some (true, t1) ∧
      (∀ p, lowercase p = true →
        numWordsWithPrefix t1 p
          = some (withPrefix p ((ws.map Prod.fst).filter fun k => decide (k ≠ w)) : Int)) ∧
      (∀ p, p ≠ [] →
        (withPrefix p ((ws.map Prod.fst).filter fun k => decide (k ≠ w)) = 0 →
          nodeAt t1 p = none) ∧
        (∀ n, nodeAt t1 p = some n → 0 < n.count)) ∧
      t1.count = t.count ∧ t1.children.length = ALPHABET_SIZE := by
  obtain ⟨t, h1, hr⟩ := insertAll_create ws hl
  have hne : w ≠ [] := by
    obtain ⟨kv, hkv, rfl⟩ := List.mem_map.mp hw
    exact hn kv hkv
  have hlow : lowercase w = true := by
    obtain ⟨kv, hkv, rfl⟩ := List.mem_map.mp hw
    exact hl kv hkv
  obtain ⟨t1, h2, hr1⟩ := remove_spec hr hd hl w hw hne
  obtain ⟨t2, h3, _, hcnt, _⟩ := removeLoop_spec w t ws hr hd hw hlow
  have ht : t2 = t1 := by
    have h4 : remove t w = some (true, t2) := by
      obtain ⟨b, v, hs, hb, _, _⟩ :=
        searchLoop_spec none w t ws hr hlow (fun h => absurd h hne)
      have hbt : b = true := by rw [hb]; exact decide_eq_true hw
      subst hbt
      simp only [remove, search, hs, Option.some_bind, h3, Option.map_some']
      rfl
    rw [h2] at h4
    exact ((Prod.mk.inj (Option.some.inj h4)).2).symm
  subst ht
  have hk : keys (without w ws) = (ws.map Prod.fst).filter fun k => decide (k ≠ w) :=
    keys_without w ws
  refine ⟨t, t2, h1, h2, ?_, ?_, hcnt, (rep_unfold hr1).1⟩
  · intro p hp
    rw [← hk]
    exact numWordsWithPrefix_spec hr1 (allLower_without w ws hl)
      (allNonempty_without w ws hn) p hp
  · intro p hp
    rw [← hk]
    obtain ⟨hzero, hpos⟩ := nodeAt_spec p t2 (without w ws) hr1 hp
    refine ⟨hzero, ?_⟩
    intro n hnode
    by_cases h0 : withPrefix p (keys (without w ws)) = 0
    · rw [hzero h0] at hnode
      cases hnode
    · obtain ⟨m, hm, hc⟩ := hpos (Nat.pos_of_ne_zero h0)
      rw [hnode] at hm
      cases hm
      rw [hc]
      exact_mod_cast Nat.pos_of_ne_zero h0

/-- Witness of C17: the word cat alone, removed again: `numWordsWithPrefix("c")` is
then 0 and every slot of the root is null. -/
theorem remove_cascade_witness :
    (∃ t t1, insertAll (Trie.create Nat ALPHABET_SIZE) [("cat".toList, 1)] = some t ∧
      remove t "cat".toList = some (true, t1) ∧
      (∀ p, lowercase p = true →
        numWordsWithPrefix t1 p
          = some (withPrefix p (([("cat".toList, 1)].map Prod.fst).filter
              fun k => decide (k ≠ "cat".toList)) : Int)) ∧
      (∀ p, p ≠ [] →
        (withPrefix p (([("cat".toList, 1)].map Prod.fst).filter
            fun k => decide (k ≠ "cat".toList)) = 0 →
          nodeAt t1 p = none) ∧
        (∀ n, nodeAt t1 p = some n → 0 < n.count)) ∧
      t1.count = t.count ∧ t1.children.length = ALPHABET_SIZE) ∧
      ((insertAll (Trie.create Nat ALPHABET_SIZE) [("cat".toList, 1)]).bind fun t =>
        (remove t "cat".toList).bind fun r =>
          (numWordsWithPrefix r.2 "c".toList).map fun n =>
            (r.1, n, r.2.children.all Option.isNone)) = some (true, 0, true) :=
  ⟨remove_cascade _ (by decide) (by decide) (by decide) _ (by decide), by decide⟩

/-- Counterexample to C22 as stated: after `insert("abc", 7)` alone, `search("ab", val)`
with `val` holding 9 returns false and overwrites `val` with the value member of
the node of "ab", which was never assigned; after `remove("abc")` the same call
returns false and leaves 9 in `val`, the path of "ab" being gone. -/
theorem search_value_changes :
    ((runOps (Trie.create Nat ALPHABET_SIZE) [Op.insert "abc".toList 7]).bind fun t =>
        search t "ab".toList (some 9)) = some (false, none) ∧
      ((runOps (Trie.create Nat ALPHABET_SIZE) [Op.insert "abc".toList 7]).bind fun t =>
        (remove t "abc".toList).bind fun r => search r.2 "ab".toList (some 9))
        = some (false, some 9) := by
  decide

/-- C22, amended. Trie remove leaves other keys alone: for every trie reached from the
empty one by `insert` and `remove` calls with lowercase keys that are not empty
(the same word may be inserted several times), and every two different lowercase
keys `k` and `k2` that are not empty, all calls return, `search(k2, val)` returns
the same boolean before and after `remove(k)`, and when that boolean is true,
that is when `k2` is stored, it yields the same value; when it is false the
value it yields is the same as before or else `val` is left as it was. -/
theorem remove_keeps_others {T : Type} (ops : List (Op T))
    (hv : ∀ op ∈ ops, validOp op = true) (k k2 : List Char) (hk : k ≠ [])
    (hkl : lowercase k = true) (hk2 : k2 ≠ []) (hk2l : lowercase k2 = true)
    (hne : k2 ≠ k) (val : Option T) :
    ∃ t b v r t1 v1, runOps (Trie.create T ALPHABET_SIZE) ops = some t ∧
      search t k2 val = some (b, v) ∧ remove t k = some (r, t1) ∧
      search t1 k2 val = some (b, v1) ∧ (b = true → v1 = v) ∧ (v1 = v ∨ v1 = val) := by
  obtain ⟨t, ws, h1, hr⟩ := run_held ops _ [] held_create hv
  obtain ⟨b, v, hs⟩ := search_total val k2 t ws hr (fun h => absurd h hk2) hk2l
  obtain ⟨r, t1, _, hrem, _, hframe⟩ := remove_frame hr k hk hkl
  obtain ⟨v1, hs1, hv1, hv2⟩ := hframe k2 val b v hne hk2l hs
  exact ⟨t, b, v, r, t1, v1, h1, hs, hrem, hs1, hv1, hv2⟩

/-- Witness of C22: the words car, cat, car inserted, car removed once, then
`remove("car")` again against `search("cat")`. -/
theorem remove_keeps_others_witness :
    ∃ t b v r t1 v1, runOps (Trie.create Nat ALPHABET_SIZE)
        [Op.insert "car".toList 1, Op.insert "cat".toList 2, Op.insert "car".toList 3,
          Op.remove "car".toList] = some t ∧
      search t "cat".toList (some 9) = some (b, v) ∧
      remove t "car".toList = some (r, t1) ∧
      search t1 "cat".toList (some 9) = some (b, v1) ∧ (b = true → v1 = v) ∧
      (v1 = v ∨ v1 = some 9) :=
  remove_keeps_others _ (by decide) "car".toList "cat".toList (by decide) (by decide)
    (by decide) (by decide) (by decide) (some 9)

end TrieModel
